import Mathlib

/-!
Low-level space map (`dm-space-map-common.c`)

A shallow embedding of the two-bit reference-count bitmaps, the index entries,
the overflow tree coupling and the range operations of the persistent-data
space map, followed by the properties established about them.

Conventions of the embedding:

* machine integers are natural numbers; arithmetic that the C code performs in
  a fixed width and that could wrap carries an explicit `% 2 ^ w`;
* a bitmap payload (`void *addr`) is a function from word index to the value of
  the little-endian 64-bit word stored there;
* functions returning `int` return `Except Int _`, the error being the negative
  errno value;
* mutable structures are passed and returned explicitly.
-/

namespace SpaceMap

/-! ## Error numbers -/

def EINVAL : Int := 22

def ENOSPC : Int := 28

def ENODATA : Int := 61

def ENOMEM : Int := 12

/-! ## Bitmap codec -/

def ENTRIES_PER_WORD : Nat := 32

def ENTRIES_SHIFT : Nat := 5

def WORD_MASK_HIGH : Nat := 0xAAAAAAAAAAAAAAAA

/-- Modelled from the spec: the kernel bit primitive `test_bit_le`, which is not
part of this file; it reads bit `nr` of a little-endian word. -/
def test_bit_le (nr : Nat) (w : Nat) : Bool := w.testBit nr

/-- Modelled from the spec: the kernel bit primitive `__set_bit_le`, which is not
part of this file; it sets bit `nr` of a little-endian 64-bit word. -/
def __set_bit_le (nr : Nat) (w : Nat) : Nat := w ||| (1 <<< nr)

/-- Modelled from the spec: the kernel bit primitive `__clear_bit_le`, which is
not part of this file; it clears bit `nr` of a little-endian 64-bit word. -/
def __clear_bit_le (nr : Nat) (w : Nat) : Nat := w &&& ((2 ^ 64 - 1) ^^^ (1 <<< nr))

/-- The function `dm_bitmap_word_used`: `!(~bits & mask)` with
`mask = (bits + WORD_MASK_HIGH + 1) & WORD_MASK_HIGH` in 64-bit arithmetic. -/
def dm_bitmap_word_used (addr : Nat → Nat) (b : Nat) : Bool :=
  let bits := addr (b >>> ENTRIES_SHIFT)
  let mask := ((bits + WORD_MASK_HIGH + 1) % 2 ^ 64) &&& WORD_MASK_HIGH
  (((2 ^ 64 - 1) ^^^ bits) &&& mask) == 0

/-- The function `sm_lookup_bitmap`: `hi` is bit `(b & 31) << 1` of the word,
`lo` the bit after it, and the result is `(hi << 1) | lo`. -/
def sm_lookup_bitmap (addr : Nat → Nat) (b : Nat) : Nat :=
  let w_le := addr (b >>> ENTRIES_SHIFT)
  let b := (b &&& (ENTRIES_PER_WORD - 1)) <<< 1
  let hi := if test_bit_le b w_le then 1 else 0
  let lo := if test_bit_le (b + 1) w_le then 1 else 0
  (hi <<< 1) ||| lo

/-- The function `sm_set_bitmap`: writes `val & 2` to bit `(b & 31) << 1` and
`val & 1` to the bit after it, in word `b >> 5`. -/
def sm_set_bitmap (addr : Nat → Nat) (b : Nat) (val : Nat) : Nat → Nat :=
  let wi := b >>> ENTRIES_SHIFT
  let w0 := addr wi
  let b := (b &&& (ENTRIES_PER_WORD - 1)) <<< 1
  let w1 := if val &&& 2 ≠ 0 then __set_bit_le b w0 else __clear_bit_le b w0
  let w2 := if val &&& 1 ≠ 0 then __set_bit_le (b + 1) w1 else __clear_bit_le (b + 1) w1
  Function.update addr wi w2

/-- The `while (begin < end)` loop of `sm_find_free`. Every iteration advances
`begin` by at least one, so `n` iterations suffice whenever `end - begin ≤ n`;
once they are used up `begin < end` is false and the loop is left with
`-ENOSPC`. `begin` stays below `end + 32`, which is below `2 ^ 32` for every
bitmap (`entries_per_block ≤ 2 ^ 32 - 64`). -/
def sm_find_free_loop (addr : Nat → Nat) (end_ : Nat) : Nat → Nat → Except Int Nat
  | 0, _ => .error (-ENOSPC)
  | n + 1, begin =>
    if begin < end_ then
      if (begin &&& (ENTRIES_PER_WORD - 1)) = 0 ∧ dm_bitmap_word_used addr begin = true then
        sm_find_free_loop addr end_ n (begin + ENTRIES_PER_WORD)
      else if sm_lookup_bitmap addr begin = 0 then
        .ok begin
      else
        sm_find_free_loop addr end_ n (begin + 1)
    else
      .error (-ENOSPC)

/-- The function `sm_find_free`. -/
def sm_find_free (addr : Nat → Nat) (begin end_ : Nat) : Except Int Nat :=
  sm_find_free_loop addr end_ (end_ - begin) begin

/-! ## Collaborators -/

/-- The record `struct disk_index_entry`, with its little-endian fields decoded. -/
structure disk_index_entry where
  blocknr : Nat
  nr_free : Nat
  none_free_before : Nat
deriving DecidableEq

/-- Modelled from the spec: the transaction manager together with its block
manager, which are not part of this file. `data loc` is the payload of the
block at location `loc` (what `dm_bitmap_data` points at, a word array),
`next` is the first location that has never been handed out, and
`shadowed loc` says that `loc` is already writable in the running transaction.
Every call succeeds. -/
structure dm_transaction_manager where
  block_size : Nat
  data : Nat → Nat → Nat
  next : Nat
  shadowed : Nat → Bool

/-- Modelled from the spec: `dm_tm_new_block` reserves a fresh location and
returns it zero-filled and writable. -/
def dm_tm_new_block (tm : dm_transaction_manager) : dm_transaction_manager × Nat :=
  ({ tm with
      data := Function.update tm.data tm.next (fun _ => 0)
      next := tm.next + 1
      shadowed := Function.update tm.shadowed tm.next true }, tm.next)

/-- Modelled from the spec: `dm_tm_shadow_block` returns a writable copy of the
block: the block itself when it is already writable in this transaction,
otherwise a copy at a fresh location. -/
def dm_tm_shadow_block (tm : dm_transaction_manager) (orig : Nat) :
    dm_transaction_manager × Nat :=
  if tm.shadowed orig = true then (tm, orig)
  else
    ({ tm with
        data := Function.update tm.data tm.next (tm.data orig)
        next := tm.next + 1
        shadowed := Function.update tm.shadowed tm.next true }, tm.next)

/-- Modelled from the spec: `dm_tm_read_lock` gives access to the block at `b`;
the result stands for `dm_bitmap_data` of the locked block. -/
def dm_tm_read_lock (tm : dm_transaction_manager) (b : Nat) : Nat → Nat := tm.data b

/-- Modelled from the spec: a B-tree with 64-bit keys, which is not part of this
file, as the finite map it stores; `leaf key` names the leaf node that holds,
or would hold, `key`. -/
structure btree (α : Type) where
  vals : Nat → Option α
  leaf : Nat → Nat

/-- Modelled from the spec: `dm_btree_empty`. -/
def dm_btree_empty (α : Type) : btree α := { vals := fun _ => none, leaf := fun _ => 0 }

/-- Modelled from the spec: `dm_btree_lookup` fails with `-ENODATA` on a key
that is not stored. -/
def dm_btree_lookup {α : Type} (t : btree α) (key : Nat) : Except Int α :=
  match t.vals key with
  | some v => .ok v
  | none => .error (-ENODATA)

/-- Modelled from the spec: `dm_btree_insert` inserts or overwrites. -/
def dm_btree_insert {α : Type} (t : btree α) (key : Nat) (value : α) : btree α :=
  { t with vals := Function.update t.vals key (some value) }

/-- Modelled from the spec: `dm_btree_remove` fails with `-ENODATA` on a key that
is not stored. -/
def dm_btree_remove {α : Type} (t : btree α) (key : Nat) : Except Int (btree α) :=
  match t.vals key with
  | some _ => .ok { t with vals := Function.update t.vals key none }
  | none => .error (-ENODATA)

/-- Modelled from the spec: `btree_get_overwrite_leaf` shadows the path to the
leaf where `key` lives or would live and returns that leaf. -/
def btree_get_overwrite_leaf {α : Type} (t : btree α) (key : Nat) : Nat := t.leaf key

/-- The test `contains_key(n, key, index)` on leaf `n` with `index` the lower
bound of `key` in `n` (`lower_bound` belongs to the B-tree code): the leaf
stores `key`. -/
def contains_key {α : Type} (t : btree α) (n : Nat) (key : Nat) : Bool :=
  t.leaf key == n && (t.vals key).isSome

/-- Modelled from the spec: the read of `*value_ptr(n, index)` for the entry of
`key`; `value_ptr` belongs to the B-tree code, which is not part of this file. -/
def value_ptr_get (t : btree Nat) (key : Nat) : Nat := (t.vals key).getD 0

/-- Modelled from the spec: the write of `*value_ptr(n, index)` for the entry of
`key`. -/
def value_ptr_set (t : btree Nat) (key : Nat) (v : Nat) : btree Nat :=
  { t with vals := Function.update t.vals key (some v) }

/-- Modelled from the spec: `dm_sector_div_up(n, sz)` is `⌈n / sz⌉`. -/
def dm_sector_div_up (n sz : Nat) : Nat := (n + sz - 1) / sz

/-! ## LL state -/

def IE_CACHE_SIZE : Nat := 64

def IE_CACHE_MASK : Nat := IE_CACHE_SIZE - 1

def MAX_METADATA_BITMAPS : Nat := 255

/-- Modelled from the spec: `dm_hash_block`, an integer hash masked to the cache
size; it is defined outside this file. -/
def dm_hash_block (b : Nat) (hash_mask : Nat) : Nat :=
  (((b % 2 ^ 32) * 4294967291) % 2 ^ 32) &&& hash_mask

/-- The record `struct ie_cache`. -/
structure ie_cache where
  valid : Bool
  dirty : Bool
  index : Nat
  ie : disk_index_entry

/-- Which set of hooks (`load_ie`, `save_ie`, `init_index`, `open_index`,
`max_entries`, `commit`) the instance carries. -/
inductive ll_flavor where
  | metadata
  | disk
deriving DecidableEq

/-- The record `struct ll_disk`. The two B-trees stand for the trees rooted at
`bitmap_root` and `ref_count_root`; `mi_le` is the index array of the metadata
flavor and `ie_cache` the cache of the disk flavor. -/
structure ll_disk where
  tm : dm_transaction_manager
  flavor : ll_flavor
  block_size : Nat
  entries_per_block : Nat
  nr_blocks : Nat
  nr_allocated : Nat
  bitmap_tree : btree disk_index_entry
  ref_count_tree : btree Nat
  bitmap_index_changed : Bool
  mi_le : Nat → disk_index_entry
  ie_cache : Nat → ie_cache

/-- Wrap-around of a signed 32-bit value (`int32_t`). -/
def wrap_s32 (x : Int) : Int := (x + 2 ^ 31) % 2 ^ 32 - 2 ^ 31

/-! ## Index hooks -/

def metadata_ll_load_ie (ll : ll_disk) (index : Nat) : Except Int (ll_disk × disk_index_entry) :=
  .ok (ll, ll.mi_le index)

def metadata_ll_save_ie (ll : ll_disk) (index : Nat) (ie : disk_index_entry) :
    Except Int ll_disk :=
  .ok { ll with bitmap_index_changed := true, mi_le := Function.update ll.mi_le index ie }

def metadata_ll_max_entries (_ll : ll_disk) : Nat := MAX_METADATA_BITMAPS

/-- The function `ie_cache_writeback` on the slot `h`. -/
def ie_cache_writeback (ll : ll_disk) (h : Nat) : ll_disk :=
  let iec := ll.ie_cache h
  { ll with
      ie_cache := Function.update ll.ie_cache h { iec with dirty := false }
      bitmap_tree := dm_btree_insert ll.bitmap_tree iec.index iec.ie }

def hash_index (index : Nat) : Nat := dm_hash_block index IE_CACHE_MASK

def disk_ll_load_ie (ll : ll_disk) (index : Nat) : Except Int (ll_disk × disk_index_entry) :=
  let h := hash_index index
  let iec := ll.ie_cache h
  if iec.valid = true ∧ iec.index = index then
    .ok (ll, iec.ie)
  else
    let ll := if iec.valid = true ∧ iec.dirty = true then ie_cache_writeback ll h else ll
    match dm_btree_lookup ll.bitmap_tree index with
    | .error r => .error r
    | .ok ie =>
      .ok ({ ll with
              ie_cache := Function.update ll.ie_cache h
                { valid := true, dirty := false, index := index, ie := ie } }, ie)

def disk_ll_save_ie (ll : ll_disk) (index : Nat) (ie : disk_index_entry) :
    Except Int ll_disk :=
  let h := hash_index index
  let iec := ll.ie_cache h
  let ll := { ll with bitmap_index_changed := true }
  if iec.valid = true ∧ iec.index = index then
    .ok { ll with ie_cache := Function.update ll.ie_cache h { iec with ie := ie, dirty := true } }
  else
    let ll := if iec.valid = true ∧ iec.dirty = true then ie_cache_writeback ll h else ll
    .ok { ll with
            ie_cache := Function.update ll.ie_cache h
              { valid := true, dirty := true, index := index, ie := ie } }

def disk_ll_max_entries (_ll : ll_disk) : Nat := 2 ^ 64 - 1

/-- The call `ll->load_ie(ll, index, &ie)`. -/
def load_ie (ll : ll_disk) (index : Nat) : Except Int (ll_disk × disk_index_entry) :=
  match ll.flavor with
  | .metadata => metadata_ll_load_ie ll index
  | .disk => disk_ll_load_ie ll index

/-- The call `ll->save_ie(ll, index, &ie)`. -/
def save_ie (ll : ll_disk) (index : Nat) (ie : disk_index_entry) : Except Int ll_disk :=
  match ll.flavor with
  | .metadata => metadata_ll_save_ie ll index ie
  | .disk => disk_ll_save_ie ll index ie

/-- The call `ll->max_entries(ll)`. -/
def max_entries (ll : ll_disk) : Nat :=
  match ll.flavor with
  | .metadata => metadata_ll_max_entries ll
  | .disk => disk_ll_max_entries ll

/-! ## Creation and extension -/

/-- The function `sm_ll_init`; the size of `struct disk_bitmap_header` is 16
bytes and `ENTRIES_PER_BYTE` is 4. The difference `block_size - 16` is taken in
`size_t` and the product is stored in the 32-bit field `entries_per_block`. The
hooks are chosen by the caller. -/
def sm_ll_init (tm : dm_transaction_manager) (flavor : ll_flavor) : Except Int ll_disk :=
  if tm.block_size > 2 ^ 30 then .error (-EINVAL)
  else
    .ok { tm := tm
          flavor := flavor
          block_size := tm.block_size
          entries_per_block := ((tm.block_size + 2 ^ 64 - 16) % 2 ^ 64 * 4) % 2 ^ 32
          nr_blocks := 0
          nr_allocated := 0
          bitmap_tree := dm_btree_empty disk_index_entry
          ref_count_tree := dm_btree_empty Nat
          bitmap_index_changed := false
          mi_le := fun _ => { blocknr := 0, nr_free := 0, none_free_before := 0 }
          ie_cache := fun _ =>
            { valid := false, dirty := false, index := 0,
              ie := { blocknr := 0, nr_free := 0, none_free_before := 0 } } }

/-- The function `metadata_ll_init_index`: a new block for the index. -/
def metadata_ll_init_index (ll : ll_disk) : Except Int ll_disk :=
  .ok { ll with tm := (dm_tm_new_block ll.tm).1 }

/-- The function `disk_ll_init_index`: every slot invalid and clean, and an
empty index tree. -/
def disk_ll_init_index (ll : ll_disk) : Except Int ll_disk :=
  .ok { ll with
          ie_cache := fun i => { ll.ie_cache i with valid := false, dirty := false }
          bitmap_tree := dm_btree_empty disk_index_entry }

def sm_ll_new_metadata (tm : dm_transaction_manager) : Except Int ll_disk :=
  match sm_ll_init tm .metadata with
  | .error r => .error r
  | .ok ll =>
    let ll := { ll with nr_blocks := 0, nr_allocated := 0 }
    match metadata_ll_init_index ll with
    | .error r => .error r
    | .ok ll => .ok { ll with ref_count_tree := dm_btree_empty Nat }

def sm_ll_new_disk (tm : dm_transaction_manager) : Except Int ll_disk :=
  match sm_ll_init tm .disk with
  | .error r => .error r
  | .ok ll =>
    let ll := { ll with nr_blocks := 0, nr_allocated := 0 }
    match disk_ll_init_index ll with
    | .error r => .error r
    | .ok ll => .ok { ll with ref_count_tree := dm_btree_empty Nat }

/-- The loop `for (i = old_blocks; i < blocks; i++)` of `sm_ll_extend`, with `n`
the number of iterations left. -/
def sm_ll_extend_loop : Nat → ll_disk → Nat → Except Int ll_disk
  | 0, ll, _ => .ok ll
  | n + 1, ll, i =>
    let (tm, b) := dm_tm_new_block ll.tm
    let ll := { ll with tm := tm }
    let idx : disk_index_entry :=
      { blocknr := b, nr_free := ll.entries_per_block, none_free_before := 0 }
    match save_ie ll i idx with
    | .error r => .error r
    | .ok ll => sm_ll_extend_loop n ll (i + 1)

/-- The function `sm_ll_extend`. `nr_blocks` is a 64-bit sum, `old_blocks` and
`blocks` are `unsigned int`. -/
def sm_ll_extend (ll : ll_disk) (extra_blocks : Nat) : Except Int ll_disk :=
  let nr_blocks := (ll.nr_blocks + extra_blocks) % 2 ^ 64
  let old_blocks := dm_sector_div_up ll.nr_blocks ll.entries_per_block % 2 ^ 32
  let blocks := dm_sector_div_up nr_blocks ll.entries_per_block % 2 ^ 32
  let nr_indexes := dm_sector_div_up nr_blocks ll.entries_per_block
  if nr_indexes > max_entries ll then .error (-EINVAL)
  else
    let ll := { ll with nr_blocks := nr_blocks }
    sm_ll_extend_loop (blocks - old_blocks) ll old_blocks

/-! ## Lookup and search -/

def sm_ll_lookup_bitmap (ll : ll_disk) (b : Nat) : Except Int (ll_disk × Nat) :=
  if b ≥ ll.nr_blocks then .error (-EINVAL)
  else
    let index := b / ll.entries_per_block
    let b := b % ll.entries_per_block
    match load_ie ll index with
    | .error r => .error r
    | .ok (ll, ie_disk) =>
      let blk := dm_tm_read_lock ll.tm ie_disk.blocknr
      .ok (ll, sm_lookup_bitmap blk b)

def sm_ll_lookup_big_ref_count (ll : ll_disk) (b : Nat) : Except Int Nat :=
  match dm_btree_lookup ll.ref_count_tree b with
  | .error r => .error r
  | .ok le_rc => .ok le_rc

def sm_ll_lookup (ll : ll_disk) (b : Nat) : Except Int (ll_disk × Nat) :=
  match sm_ll_lookup_bitmap ll b with
  | .error r => .error r
  | .ok (ll, result) =>
    if result ≠ 3 then .ok (ll, result)
    else
      match sm_ll_lookup_big_ref_count ll b with
      | .error r => .error r
      | .ok result => .ok (ll, result)

/-- The loop `for (i = index_begin; i < index_end; i++, begin = 0)` of
`sm_ll_find_free_block`, with `n` the number of iterations left. The only
error of `sm_find_free` is `-ENOSPC`, on which the loop continues. -/
def sm_ll_find_free_block_loop (index_end end_ : Nat) :
    Nat → ll_disk → Nat → Nat → Except Int (ll_disk × Nat)
  | 0, _, _, _ => .error (-ENOSPC)
  | n + 1, ll, i, begin =>
    match load_ie ll i with
    | .error r => .error r
    | .ok (ll, ie_disk) =>
      if ie_disk.nr_free = 0 then
        sm_ll_find_free_block_loop index_end end_ n ll (i + 1) 0
      else
        let blk := dm_tm_read_lock ll.tm ie_disk.blocknr
        let bit_end := if i = index_end - 1 then end_ else ll.entries_per_block
        match sm_find_free blk (max begin ie_disk.none_free_before) bit_end with
        | .error _ => sm_ll_find_free_block_loop index_end end_ n ll (i + 1) 0
        | .ok position => .ok (ll, (i * ll.entries_per_block + position) % 2 ^ 64)

def sm_ll_find_free_block (ll : ll_disk) (begin end_ : Nat) : Except Int (ll_disk × Nat) :=
  let index_begin := begin / ll.entries_per_block
  let index_end := dm_sector_div_up end_ ll.entries_per_block
  let begin := begin % ll.entries_per_block
  let end_ := end_ % ll.entries_per_block
  let end_ := if end_ = 0 then ll.entries_per_block else end_
  sm_ll_find_free_block_loop index_end end_ (index_end - index_begin) ll index_begin begin

/-- The `do ... while (count)` loop of `sm_ll_find_common_free_block`; `none`
means that `n` rounds were not enough. The argument `end_` is not used by the
function: the search in `new_ll` always runs up to `new_ll->nr_blocks`. -/
def sm_ll_find_common_free_block_loop (end_ : Nat) :
    Nat → ll_disk → ll_disk → Nat → Option (Except Int (ll_disk × ll_disk × Nat))
  | 0, _, _, _ => none
  | n + 1, old_ll, new_ll, begin =>
    match sm_ll_find_free_block new_ll begin new_ll.nr_blocks with
    | .error r => some (.error r)
    | .ok (new_ll, b) =>
      if b ≥ old_ll.nr_blocks then some (.ok (old_ll, new_ll, b))
      else
        match sm_ll_lookup old_ll b with
        | .error r => some (.error r)
        | .ok (old_ll, count) =>
          if count ≠ 0 then
            sm_ll_find_common_free_block_loop end_ n old_ll new_ll ((b + 1) % 2 ^ 64)
          else some (.ok (old_ll, new_ll, b))

/-- The function `sm_ll_find_common_free_block`. Each round that does not
return moves `begin` past a block below `new_ll->nr_blocks`, so
`new_ll->nr_blocks + 1` rounds are enough. -/
def sm_ll_find_common_free_block (old_ll new_ll : ll_disk) (begin end_ : Nat) :
    Option (Except Int (ll_disk × ll_disk × Nat)) :=
  sm_ll_find_common_free_block_loop end_ (new_ll.nr_blocks + 1) old_ll new_ll begin

/-! ## Insert -/

/-- Writes `f` applied to the payload of the block at `loc`. -/
def tm_write (tm : dm_transaction_manager) (loc : Nat) (payload : Nat → Nat) :
    dm_transaction_manager :=
  { tm with data := Function.update tm.data loc payload }

def sm_ll_insert (ll : ll_disk) (b : Nat) (ref_count : Nat) : Except Int (ll_disk × Int) :=
  let index := b / ll.entries_per_block
  let bit := b % ll.entries_per_block
  match load_ie ll index with
  | .error r => .error r
  | .ok (ll, ie_disk) =>
    let (tm, nb) := dm_tm_shadow_block ll.tm ie_disk.blocknr
    let ll := { ll with tm := tm }
    let ie_disk := { ie_disk with blocknr := nb }
    let bm_le := ll.tm.data nb
    let old := sm_lookup_bitmap bm_le bit
    match (if old > 2 then sm_ll_lookup_big_ref_count ll b else .ok old) with
    | .error r => .error r
    | .ok old =>
      let step : Except Int ll_disk :=
        if ref_count ≤ 2 then
          let ll := { ll with tm := tm_write ll.tm nb (sm_set_bitmap bm_le bit ref_count) }
          if old > 2 then
            match dm_btree_remove ll.ref_count_tree b with
            | .error r => .error r
            | .ok t => .ok { ll with ref_count_tree := t }
          else .ok ll
        else
          let ll := { ll with tm := tm_write ll.tm nb (sm_set_bitmap bm_le bit 3) }
          .ok { ll with ref_count_tree := dm_btree_insert ll.ref_count_tree b ref_count }
      match step with
      | .error r => .error r
      | .ok ll =>
        if ref_count ≠ 0 ∧ old = 0 then
          let ll := { ll with nr_allocated := (ll.nr_allocated + 1) % 2 ^ 64 }
          let ie_disk := { ie_disk with nr_free := (ie_disk.nr_free + (2 ^ 32 - 1)) % 2 ^ 32 }
          let ie_disk :=
            if ie_disk.none_free_before = bit then
              { ie_disk with none_free_before := (bit + 1) % 2 ^ 32 }
            else ie_disk
          match save_ie ll index ie_disk with
          | .error r => .error r
          | .ok ll => .ok (ll, 1)
        else if old ≠ 0 ∧ ref_count = 0 then
          let ll := { ll with nr_allocated := (ll.nr_allocated + (2 ^ 64 - 1)) % 2 ^ 64 }
          let ie_disk := { ie_disk with nr_free := (ie_disk.nr_free + 1) % 2 ^ 32 }
          let ie_disk := { ie_disk with none_free_before := min ie_disk.none_free_before bit }
          match save_ie ll index ie_disk with
          | .error r => .error r
          | .ok ll => .ok (ll, -1)
        else
          match save_ie ll index ie_disk with
          | .error r => .error r
          | .ok ll => .ok (ll, 0)

/-! ## Range increment -/

/-- The record `struct inc_context`. `bitmap_block` is the location of the
bitmap block that is held locked (`none` for `NULL`), and `ic->bitmap` is the
payload of that block; `overflow_leaf` is the leaf that is held locked. -/
structure inc_context where
  ie_disk : disk_index_entry
  bitmap_block : Option Nat
  overflow_leaf : Option Nat

def init_inc_context (ic : inc_context) : inc_context :=
  { ic with bitmap_block := none, overflow_leaf := none }

/-- The function `reset_inc_context`: unlocks both blocks and clears the
pointers. -/
def reset_inc_context (_ll : ll_disk) (ic : inc_context) : inc_context :=
  init_inc_context ic

def __sm_ll_inc_overflow (ll : ll_disk) (b : Nat) (ic : inc_context) :
    Except Int (ll_disk × inc_context) :=
  let ic := reset_inc_context ll ic
  let n := btree_get_overwrite_leaf ll.ref_count_tree b
  let ic := { ic with overflow_leaf := some n }
  if ¬ contains_key ll.ref_count_tree n b = true then .error (-EINVAL)
  else
    let rc := (value_ptr_get ll.ref_count_tree b + 1) % 2 ^ 32
    .ok ({ ll with ref_count_tree := value_ptr_set ll.ref_count_tree b rc }, ic)

def sm_ll_inc_overflow (ll : ll_disk) (b : Nat) (ic : inc_context) :
    Except Int (ll_disk × inc_context) :=
  match ic.overflow_leaf with
  | some n =>
    if contains_key ll.ref_count_tree n b = true then
      let rc := (value_ptr_get ll.ref_count_tree b + 1) % 2 ^ 32
      .ok ({ ll with ref_count_tree := value_ptr_set ll.ref_count_tree b rc }, ic)
    else __sm_ll_inc_overflow ll b ic
  | none => __sm_ll_inc_overflow ll b ic

def shadow_bitmap (ll : ll_disk) (ic : inc_context) : ll_disk × inc_context :=
  let (tm, nb) := dm_tm_shadow_block ll.tm ic.ie_disk.blocknr
  ({ ll with tm := tm },
   { ic with bitmap_block := some nb, ie_disk := { ic.ie_disk with blocknr := nb } })

/-- The function `ensure_bitmap`: takes the write lock on the bitmap block
again when it was dropped. The second component is the location whose payload
`ic->bitmap` points at afterwards. -/
def ensure_bitmap (_ll : ll_disk) (ic : inc_context) : inc_context × Nat :=
  match ic.bitmap_block with
  | none => ({ ic with bitmap_block := some ic.ie_disk.blocknr }, ic.ie_disk.blocknr)
  | some blk => (ic, blk)

/-- The loop `for (; bit != bit_end; bit++, b++)` of `sm_ll_inc_bitmap`, with
`n` the number of iterations left (`bit_end - bit`; the caller passes
`bit ≤ bit_end ≤ entries_per_block`, so neither counter wraps). -/
def sm_ll_inc_bitmap_loop :
    Nat → ll_disk → Nat → Nat → Int → inc_context → Except Int (ll_disk × Int × Nat × inc_context)
  | 0, ll, b, _, nr_allocations, ic => .ok (ll, nr_allocations, b, ic)
  | n + 1, ll, b, bit, nr_allocations, ic =>
    let (ic, bitmap) := ensure_bitmap ll ic
    let old := sm_lookup_bitmap (ll.tm.data bitmap) bit
    match old with
    | 0 =>
      let ll := { ll with tm := tm_write ll.tm bitmap (sm_set_bitmap (ll.tm.data bitmap) bit 1) }
      let nr_allocations := wrap_s32 (nr_allocations + 1)
      let ll := { ll with nr_allocated := (ll.nr_allocated + 1) % 2 ^ 64 }
      let ie := { ic.ie_disk with nr_free := (ic.ie_disk.nr_free + (2 ^ 32 - 1)) % 2 ^ 32 }
      let ie :=
        if ie.none_free_before = bit then { ie with none_free_before := (bit + 1) % 2 ^ 32 }
        else ie
      sm_ll_inc_bitmap_loop n ll (b + 1) (bit + 1) nr_allocations { ic with ie_disk := ie }
    | 1 =>
      let ll := { ll with tm := tm_write ll.tm bitmap (sm_set_bitmap (ll.tm.data bitmap) bit 2) }
      sm_ll_inc_bitmap_loop n ll (b + 1) (bit + 1) nr_allocations ic
    | 2 =>
      let ll := { ll with tm := tm_write ll.tm bitmap (sm_set_bitmap (ll.tm.data bitmap) bit 3) }
      let ic := reset_inc_context ll ic
      let ll := { ll with ref_count_tree := dm_btree_insert ll.ref_count_tree b 3 }
      sm_ll_inc_bitmap_loop n ll (b + 1) (bit + 1) nr_allocations ic
    | _ =>
      match sm_ll_inc_overflow ll b ic with
      | .error r => .error r
      | .ok (ll, ic) => sm_ll_inc_bitmap_loop n ll (b + 1) (bit + 1) nr_allocations ic

def sm_ll_inc_bitmap (ll : ll_disk) (b bit bit_end : Nat) (nr_allocations : Int)
    (ic : inc_context) : Except Int (ll_disk × Int × Nat × inc_context) :=
  sm_ll_inc_bitmap_loop (bit_end - bit) ll b bit nr_allocations ic

/-- The 64-bit expression `bit + (e - b)`. -/
def range_bits (bit e b : Nat) : Nat := (bit + (e + 2 ^ 64 - b) % 2 ^ 64) % 2 ^ 64

def __sm_ll_inc (ll : ll_disk) (b e : Nat) (nr_allocations : Int) :
    Except Int (ll_disk × Int × Nat) :=
  let index := b / ll.entries_per_block
  let bit := b % ll.entries_per_block
  match load_ie ll index with
  | .error r => .error r
  | .ok (ll, ie) =>
    let ic : inc_context := init_inc_context { ie_disk := ie, bitmap_block := none, overflow_leaf := none }
    let (ll, ic) := shadow_bitmap ll ic
    let bit_end := min (range_bits bit e b) ll.entries_per_block
    match sm_ll_inc_bitmap ll b bit bit_end nr_allocations ic with
    | .error r => .error r
    | .ok (ll, nr_allocations, new_b, ic) =>
      match save_ie ll index ic.ie_disk with
      | .error r => .error r
      | .ok ll => .ok (ll, nr_allocations, new_b)

/-- The loop `while (b != e)` of `sm_ll_inc`; `none` means that `n` rounds were
not enough. -/
def sm_ll_inc_loop : Nat → ll_disk → Nat → Nat → Int → Option (Except Int (ll_disk × Int))
  | 0, ll, b, e, nr_allocations =>
    if b = e then some (.ok (ll, nr_allocations)) else none
  | n + 1, ll, b, e, nr_allocations =>
    if b = e then some (.ok (ll, nr_allocations))
    else
      match __sm_ll_inc ll b e nr_allocations with
      | .error r => some (.error r)
      | .ok (ll, nr_allocations, new_b) => sm_ll_inc_loop n ll new_b e nr_allocations

/-- The function `sm_ll_inc`. Every round handles at least one block, so
`e - b` rounds are enough. -/
def sm_ll_inc (ll : ll_disk) (b e : Nat) : Option (Except Int (ll_disk × Int)) :=
  sm_ll_inc_loop (e - b) ll b e 0

/-! ## Range decrement -/

def __sm_ll_del_overflow (ll : ll_disk) (b : Nat) (ic : inc_context) :
    Except Int (ll_disk × inc_context) :=
  let ic := reset_inc_context ll ic
  match dm_btree_remove ll.ref_count_tree b with
  | .error r => .error r
  | .ok t => .ok ({ ll with ref_count_tree := t }, ic)

/-- The function `__sm_ll_dec_overflow`; the third component is `*old_rc`. -/
def __sm_ll_dec_overflow (ll : ll_disk) (b : Nat) (ic : inc_context) :
    Except Int (ll_disk × inc_context × Nat) :=
  let ic := reset_inc_context ll ic
  let n := btree_get_overwrite_leaf ll.ref_count_tree b
  let ic := { ic with overflow_leaf := some n }
  if ¬ contains_key ll.ref_count_tree n b = true then .error (-EINVAL)
  else
    let rc := value_ptr_get ll.ref_count_tree b
    if rc = 3 then
      match __sm_ll_del_overflow ll b ic with
      | .error r => .error r
      | .ok (ll, ic) => .ok (ll, ic, rc)
    else
      let rc1 := (rc + (2 ^ 32 - 1)) % 2 ^ 32
      .ok ({ ll with ref_count_tree := value_ptr_set ll.ref_count_tree b rc1 }, ic, rc)

/-- The function `sm_ll_dec_overflow`; the third component is `*old_rc`. -/
def sm_ll_dec_overflow (ll : ll_disk) (b : Nat) (ic : inc_context) :
    Except Int (ll_disk × inc_context × Nat) :=
  match ic.overflow_leaf with
  | some n =>
    if contains_key ll.ref_count_tree n b = true then
      let rc := value_ptr_get ll.ref_count_tree b
      if rc > 3 then
        let rc1 := (rc + (2 ^ 32 - 1)) % 2 ^ 32
        .ok ({ ll with ref_count_tree := value_ptr_set ll.ref_count_tree b rc1 }, ic, rc)
      else
        match __sm_ll_del_overflow ll b ic with
        | .error r => .error r
        | .ok (ll, ic) => .ok (ll, ic, rc)
    else __sm_ll_dec_overflow ll b ic
  | none => __sm_ll_dec_overflow ll b ic

/-- The loop `for (; bit != bit_end; bit++, b++)` of `sm_ll_dec_bitmap`, with
`n` the number of iterations left. -/
def sm_ll_dec_bitmap_loop :
    Nat → ll_disk → Nat → Nat → inc_context → Int → Except Int (ll_disk × Int × Nat × inc_context)
  | 0, ll, b, _, ic, nr_allocations => .ok (ll, nr_allocations, b, ic)
  | n + 1, ll, b, bit, ic, nr_allocations =>
    let (ic, bitmap) := ensure_bitmap ll ic
    let old := sm_lookup_bitmap (ll.tm.data bitmap) bit
    match old with
    | 0 => .error (-EINVAL)
    | 1 =>
      let ll := { ll with tm := tm_write ll.tm bitmap (sm_set_bitmap (ll.tm.data bitmap) bit 0) }
      let nr_allocations := wrap_s32 (nr_allocations - 1)
      let ll := { ll with nr_allocated := (ll.nr_allocated + (2 ^ 64 - 1)) % 2 ^ 64 }
      let ie := { ic.ie_disk with nr_free := (ic.ie_disk.nr_free + 1) % 2 ^ 32 }
      let ie := { ie with none_free_before := min ie.none_free_before bit }
      sm_ll_dec_bitmap_loop n ll (b + 1) (bit + 1) { ic with ie_disk := ie } nr_allocations
    | 2 =>
      let ll := { ll with tm := tm_write ll.tm bitmap (sm_set_bitmap (ll.tm.data bitmap) bit 1) }
      sm_ll_dec_bitmap_loop n ll (b + 1) (bit + 1) ic nr_allocations
    | 3 =>
      match sm_ll_dec_overflow ll b ic with
      | .error r => .error r
      | .ok (ll, ic, old) =>
        if old = 3 then
          let (ic, bitmap) := ensure_bitmap ll ic
          let ll :=
            { ll with tm := tm_write ll.tm bitmap (sm_set_bitmap (ll.tm.data bitmap) bit 2) }
          sm_ll_dec_bitmap_loop n ll (b + 1) (bit + 1) ic nr_allocations
        else sm_ll_dec_bitmap_loop n ll (b + 1) (bit + 1) ic nr_allocations
    | _ => sm_ll_dec_bitmap_loop n ll (b + 1) (bit + 1) ic nr_allocations

def sm_ll_dec_bitmap (ll : ll_disk) (b bit bit_end : Nat) (ic : inc_context)
    (nr_allocations : Int) : Except Int (ll_disk × Int × Nat × inc_context) :=
  sm_ll_dec_bitmap_loop (bit_end - bit) ll b bit ic nr_allocations

def __sm_ll_dec (ll : ll_disk) (b e : Nat) (nr_allocations : Int) :
    Except Int (ll_disk × Int × Nat) :=
  let index := b / ll.entries_per_block
  let bit := b % ll.entries_per_block
  match load_ie ll index with
  | .error r => .error r
  | .ok (ll, ie) =>
    let ic : inc_context := init_inc_context { ie_disk := ie, bitmap_block := none, overflow_leaf := none }
    let (ll, ic) := shadow_bitmap ll ic
    let bit_end := min (range_bits bit e b) ll.entries_per_block
    match sm_ll_dec_bitmap ll b bit bit_end ic nr_allocations with
    | .error r => .error r
    | .ok (ll, nr_allocations, new_b, ic) =>
      match save_ie ll index ic.ie_disk with
      | .error r => .error r
      | .ok ll => .ok (ll, nr_allocations, new_b)

/-- The loop `while (b != e)` of `sm_ll_dec`; `none` means that `n` rounds were
not enough. -/
def sm_ll_dec_loop : Nat → ll_disk → Nat → Nat → Int → Option (Except Int (ll_disk × Int))
  | 0, ll, b, e, nr_allocations =>
    if b = e then some (.ok (ll, nr_allocations)) else none
  | n + 1, ll, b, e, nr_allocations =>
    if b = e then some (.ok (ll, nr_allocations))
    else
      match __sm_ll_dec ll b e nr_allocations with
      | .error r => some (.error r)
      | .ok (ll, nr_allocations, new_b) => sm_ll_dec_loop n ll new_b e nr_allocations

/-- The function `sm_ll_dec`. Every round handles at least one block, so
`e - b` rounds are enough. -/
def sm_ll_dec (ll : ll_disk) (b e : Nat) : Option (Except Int (ll_disk × Int)) :=
  sm_ll_dec_loop (e - b) ll b e 0

/-! ## Commit -/

/-- Modelled from the spec: a `dm_btree_insert` into the index tree that may
fail. It gives the tree after the insert, or the negative error value, in which
case the tree is as it was. -/
@[reducible] def index_insert : Type :=
  btree disk_index_entry → Nat → disk_index_entry → Except Int (btree disk_index_entry)

/-- Modelled from the spec: the `dm_btree_insert` that always succeeds. -/
def insert_ok : index_insert := fun t key value => .ok (dm_btree_insert t key value)

/-- The function `ie_cache_writeback` on the slot `h`, with an insert that may
fail: the state it leaves and its return value. The slot is marked clean before
the insert is attempted. -/
def ie_cache_writeback_r (ins : index_insert) (ll : ll_disk) (h : Nat) : ll_disk × Int :=
  let iec := ll.ie_cache h
  let ll := { ll with ie_cache := Function.update ll.ie_cache h { iec with dirty := false } }
  match ins ll.bitmap_tree iec.index iec.ie with
  | .ok t => ({ ll with bitmap_tree := t }, 0)
  | .error r => (ll, r)

/-- The loop `for (i = 0; i < IE_CACHE_SIZE; i++)` of `disk_ll_commit`, with `n`
the number of iterations left and `r` the value of the variable `r`. -/
def disk_ll_commit_loop (ins : index_insert) : Nat → ll_disk → Nat → Int → ll_disk × Int
  | 0, ll, _, r => (ll, r)
  | n + 1, ll, i, r =>
    let iec := ll.ie_cache i
    if iec.valid = true ∧ iec.dirty = true then
      let (ll, r) := ie_cache_writeback_r ins ll i
      disk_ll_commit_loop ins n ll (i + 1) r
    else disk_ll_commit_loop ins n ll (i + 1) r

/-- The function `disk_ll_commit`: the state it leaves and its return value. -/
def disk_ll_commit (ins : index_insert) (ll : ll_disk) : ll_disk × Int :=
  disk_ll_commit_loop ins IE_CACHE_SIZE ll 0 0

/-- The function `sm_ll_commit`: the state it leaves and its return value;
`commit` is the hook `ll->commit`. -/
def sm_ll_commit (commit : ll_disk → ll_disk × Int) (ll : ll_disk) : ll_disk × Int :=
  if ll.bitmap_index_changed = true then
    let (ll, r) := commit ll
    if r = 0 then ({ ll with bitmap_index_changed := false }, r) else (ll, r)
  else (ll, 0)

/-! ## Abstraction and invariants -/

/-- The number of bitmap blocks that cover `nr_blocks` blocks. -/
def nr_indexes (ll : ll_disk) : Nat := dm_sector_div_up ll.nr_blocks ll.entries_per_block

/-- The index entry that is current for bitmap `i`: the array element for the
metadata flavor; for the disk flavor the cache slot of `i` when it holds `i`,
else the entry stored in the index tree. -/
def ie_view (ll : ll_disk) (i : Nat) : Option disk_index_entry :=
  match ll.flavor with
  | .metadata => some (ll.mi_le i)
  | .disk =>
    if (ll.ie_cache (hash_index i)).valid = true ∧ (ll.ie_cache (hash_index i)).index = i then
      some (ll.ie_cache (hash_index i)).ie
    else ll.bitmap_tree.vals i

/-- Coherence of the index-entry cache of the disk flavor: a valid slot holds an
index that hashes to it, and a clean valid slot agrees with the index tree. -/
def cache_ok (ll : ll_disk) : Prop :=
  ll.flavor = .disk → ∀ h, (ll.ie_cache h).valid = true →
    hash_index (ll.ie_cache h).index = h ∧
    ((ll.ie_cache h).dirty = false →
      ll.bitmap_tree.vals (ll.ie_cache h).index = some (ll.ie_cache h).ie)

/-- The parts of the state that the index hooks leave alone. -/
def same_core (ll ll' : ll_disk) : Prop :=
  ll'.tm = ll.tm ∧ ll'.flavor = ll.flavor ∧ ll'.entries_per_block = ll.entries_per_block ∧
  ll'.nr_blocks = ll.nr_blocks ∧ ll'.nr_allocated = ll.nr_allocated ∧
  ll'.ref_count_tree = ll.ref_count_tree

/-- The two-bit entry at position `k` of the word `w`, as a base-4 digit with
the two bits swapped: the lower bit is the high half of the code. -/
def entry_of_word (w k : Nat) : Nat :=
  2 * (if w.testBit (2 * k) then 1 else 0) + (if w.testBit (2 * k + 1) then 1 else 0)

/-- The word written by `sm_set_bitmap`. -/
def set_word (w0 k val : Nat) : Nat :=
  let w1 := if val &&& 2 ≠ 0 then __set_bit_le (2 * k) w0 else __clear_bit_le (2 * k) w0
  if val &&& 1 ≠ 0 then __set_bit_le (2 * k + 1) w1 else __clear_bit_le (2 * k + 1) w1

/-- Every word of a bitmap payload is a 64-bit value. -/
def words_ok (addr : Nat → Nat) : Prop := ∀ i, addr i < 2 ^ 64

/-- The mask with the upper bit of each of the lowest `n` two-bit groups set. -/
def mask_high : Nat → Nat
  | 0 => 0
  | n + 1 => 4 * mask_high n + 2

/-- The state of the disk flavor after the write-back that precedes a miss. -/
def after_evict (ll : ll_disk) (h : Nat) : ll_disk :=
  if (ll.ie_cache h).valid = true ∧ (ll.ie_cache h).dirty = true then ie_cache_writeback ll h
  else ll

/-- The miss path of `disk_ll_load_ie`, after the write-back. -/
def load_miss (ll : ll_disk) (i : Nat) : Except Int (ll_disk × disk_index_entry) :=
  match dm_btree_lookup ll.bitmap_tree i with
  | Except.error r => Except.error r
  | Except.ok ie =>
    Except.ok ({ ll with
            ie_cache := Function.update ll.ie_cache (hash_index i)
              { valid := true, dirty := false, index := i, ie := ie } }, ie)

/-- The state after `metadata_ll_save_ie`. -/
def metadata_ll_save_ie_state (ll : ll_disk) (i : Nat) (ie : disk_index_entry) : ll_disk :=
  { ll with bitmap_index_changed := true, mi_le := Function.update ll.mi_le i ie }

/-! ## Effects of the range loops -/

def ic_ok (ic : inc_context) : Prop :=
  ic.bitmap_block = none ∨ ic.bitmap_block = some ic.ie_disk.blocknr

def with_effect (ll : ll_disk) (L : Nat) (data : Nat → Nat) (vals : Nat → Option Nat)
    (nalloc : Nat) : ll_disk :=
  { ll with
      tm := tm_write ll.tm L data
      ref_count_tree := { ll.ref_count_tree with vals := vals }
      nr_allocated := nalloc }

def count_range (p : Nat → Bool) (b : Nat) : Nat → Nat
  | 0 => 0
  | n + 1 => (if p b = true then 1 else 0) + count_range p (b + 1) n

/-- What a successful run of the loop of `sm_ll_inc_bitmap` over `n` entries
does to the state. -/
structure inc_post (ll : ll_disk) (b bit n : Nat) (na : Int) (ic : inc_context)
    (ll' : ll_disk) (na' : Int) (b' : Nat) (ic' : inc_context) : Prop where
  frame : ll' = with_effect ll ic.ie_disk.blocknr (ll'.tm.data ic.ie_disk.blocknr)
    ll'.ref_count_tree.vals ll'.nr_allocated
  words : words_ok (ll'.tm.data ic.ie_disk.blocknr)
  cells : ∀ j, sm_lookup_bitmap (ll'.tm.data ic.ie_disk.blocknr) j =
    if bit ≤ j ∧ j < bit + n then min (sm_lookup_bitmap (ll.tm.data ic.ie_disk.blocknr) j + 1) 3
    else sm_lookup_bitmap (ll.tm.data ic.ie_disk.blocknr) j
  vals_out : ∀ k, ¬ (b ≤ k ∧ k < b + n) → ll'.ref_count_tree.vals k = ll.ref_count_tree.vals k
  vals_low : ∀ j, j < n → sm_lookup_bitmap (ll.tm.data ic.ie_disk.blocknr) (bit + j) ≤ 1 →
    ll'.ref_count_tree.vals (b + j) = ll.ref_count_tree.vals (b + j)
  vals_two : ∀ j, j < n → sm_lookup_bitmap (ll.tm.data ic.ie_disk.blocknr) (bit + j) = 2 →
    ll'.ref_count_tree.vals (b + j) = some 3
  vals_three : ∀ j, j < n → sm_lookup_bitmap (ll.tm.data ic.ie_disk.blocknr) (bit + j) = 3 →
    ∃ v, ll.ref_count_tree.vals (b + j) = some v ∧
      ll'.ref_count_tree.vals (b + j) = some ((v + 1) % 2 ^ 32)
  nalloc : ll'.nr_allocated = (ll.nr_allocated +
    count_range (fun j => sm_lookup_bitmap (ll.tm.data ic.ie_disk.blocknr) j == 0) bit n) % 2 ^ 64
  nr_alloc : na' = wrap_s32 (na +
    count_range (fun j => sm_lookup_bitmap (ll.tm.data ic.ie_disk.blocknr) j == 0) bit n)
  new_b : b' = b + n
  ic_ok' : ic_ok ic'
  blocknr : ic'.ie_disk.blocknr = ic.ie_disk.blocknr
  nr_free : ic.ie_disk.nr_free < 2 ^ 32 →
    count_range (fun j => sm_lookup_bitmap (ll.tm.data ic.ie_disk.blocknr) j == 0) bit n
      ≤ ic.ie_disk.nr_free →
    ic'.ie_disk.nr_free = ic.ie_disk.nr_free -
      count_range (fun j => sm_lookup_bitmap (ll.tm.data ic.ie_disk.blocknr) j == 0) bit n
  nfb_ok : (∀ j, j < ic.ie_disk.none_free_before →
      sm_lookup_bitmap (ll.tm.data ic.ie_disk.blocknr) j ≠ 0) →
    ∀ j, j < ic'.ie_disk.none_free_before →
      sm_lookup_bitmap (ll'.tm.data ic.ie_disk.blocknr) j ≠ 0
  nfb_le : ∀ B, ic.ie_disk.none_free_before ≤ B → bit + n ≤ B →
    ic'.ie_disk.none_free_before ≤ B

/-- The bitmap value that `sm_ll_dec_bitmap` leaves for an entry whose value
was `c ≥ 1` and whose overflow entry was `v`. -/
def dec_cell (c : Nat) (v : Option Nat) : Nat :=
  if c = 3 then (if v = some 3 then 2 else 3) else c - 1

/-- What a successful run of the loop of `sm_ll_dec_bitmap` over `n` entries
does to the state. -/
structure dec_post (ll : ll_disk) (b bit n : Nat) (na : Int) (ic : inc_context)
    (ll' : ll_disk) (na' : Int) (b' : Nat) (ic' : inc_context) : Prop where
  frame : ll' = with_effect ll ic.ie_disk.blocknr (ll'.tm.data ic.ie_disk.blocknr)
    ll'.ref_count_tree.vals ll'.nr_allocated
  words : words_ok (ll'.tm.data ic.ie_disk.blocknr)
  cells : ∀ j, sm_lookup_bitmap (ll'.tm.data ic.ie_disk.blocknr) j =
    if bit ≤ j ∧ j < bit + n then
      dec_cell (sm_lookup_bitmap (ll.tm.data ic.ie_disk.blocknr) j)
        (ll.ref_count_tree.vals (b + (j - bit)))
    else sm_lookup_bitmap (ll.tm.data ic.ie_disk.blocknr) j
  nonzero : ∀ j, j < n → sm_lookup_bitmap (ll.tm.data ic.ie_disk.blocknr) (bit + j) ≠ 0
  vals_out : ∀ k, ¬ (b ≤ k ∧ k < b + n) → ll'.ref_count_tree.vals k = ll.ref_count_tree.vals k
  vals_low : ∀ j, j < n → sm_lookup_bitmap (ll.tm.data ic.ie_disk.blocknr) (bit + j) ≤ 2 →
    ll'.ref_count_tree.vals (b + j) = ll.ref_count_tree.vals (b + j)
  vals_three : ∀ j, j < n → sm_lookup_bitmap (ll.tm.data ic.ie_disk.blocknr) (bit + j) = 3 →
    ∃ v, ll.ref_count_tree.vals (b + j) = some v ∧
      (v = 3 → ll'.ref_count_tree.vals (b + j) = none) ∧
      (3 < v → ll'.ref_count_tree.vals (b + j) = some ((v + (2 ^ 32 - 1)) % 2 ^ 32))
  nalloc : count_range (fun j => sm_lookup_bitmap (ll.tm.data ic.ie_disk.blocknr) j == 1) bit n
      ≤ ll.nr_allocated →
    ll'.nr_allocated = ll.nr_allocated -
      count_range (fun j => sm_lookup_bitmap (ll.tm.data ic.ie_disk.blocknr) j == 1) bit n
  nr_alloc : na' = wrap_s32 (na -
    count_range (fun j => sm_lookup_bitmap (ll.tm.data ic.ie_disk.blocknr) j == 1) bit n)
  new_b : b' = b + n
  ic_ok' : ic_ok ic'
  blocknr : ic'.ie_disk.blocknr = ic.ie_disk.blocknr
  nr_free : ic.ie_disk.nr_free +
      count_range (fun j => sm_lookup_bitmap (ll.tm.data ic.ie_disk.blocknr) j == 1) bit n
        < 2 ^ 32 →
    ic'.ie_disk.nr_free = ic.ie_disk.nr_free +
      count_range (fun j => sm_lookup_bitmap (ll.tm.data ic.ie_disk.blocknr) j == 1) bit n
  nfb_ok : (∀ j, j < ic.ie_disk.none_free_before →
      sm_lookup_bitmap (ll.tm.data ic.ie_disk.blocknr) j ≠ 0) →
    ∀ j, j < ic'.ie_disk.none_free_before →
      sm_lookup_bitmap (ll'.tm.data ic.ie_disk.blocknr) j ≠ 0
  nfb_le : ∀ B, ic.ie_disk.none_free_before ≤ B → ic'.ie_disk.none_free_before ≤ B
  nalloc_lt : ll'.nr_allocated < 2 ^ 64

/-- The bitmap value of block `x`, read through the current index entry. -/
def cell (ll : ll_disk) (x : Nat) : Nat :=
  match ie_view ll (x / ll.entries_per_block) with
  | some ie => sm_lookup_bitmap (ll.tm.data ie.blocknr) (x % ll.entries_per_block)
  | none => 0

/-- The reference count of block `x` that the bitmap and the overflow tree
encode. -/
def refcount (ll : ll_disk) (x : Nat) : Nat :=
  if cell ll x = 3 then (ll.ref_count_tree.vals x).getD 0 else cell ll x

/-- The value that `sm_ll_lookup` returns for block `x`, if it succeeds. -/
def lookup_val (ll : ll_disk) (x : Nat) : Option Nat :=
  match sm_ll_lookup ll x with
  | .ok (_, v) => some v
  | .error _ => none

/-- The number of zero entries among the first `n` of a bitmap. -/
def count_free (addr : Nat → Nat) (n : Nat) : Nat :=
  count_range (fun j => sm_lookup_bitmap addr j == 0) 0 n

/-- An index entry that agrees with the bitmap block it points at. -/
def entry_ok (ll : ll_disk) (ie : disk_index_entry) : Prop :=
  ie.blocknr < ll.tm.next ∧ words_ok (ll.tm.data ie.blocknr) ∧
  ie.nr_free = count_free (ll.tm.data ie.blocknr) ll.entries_per_block ∧
  ie.none_free_before ≤ ll.entries_per_block ∧
  ∀ j, j < ie.none_free_before → sm_lookup_bitmap (ll.tm.data ie.blocknr) j ≠ 0

/-- The invariant of the index: every bitmap index in `S` (the indexes for which
an entry has been saved) has an entry that agrees with its own bitmap block,
and no two of them share a block. -/
structure index_inv (ll : ll_disk) (S : Nat → Prop) : Prop where
  epb_pos : 0 < ll.entries_per_block
  epb_lt : ll.entries_per_block < 2 ^ 32
  cache : cache_ok ll
  saved : ∀ i, S i → ∃ ie, ie_view ll i = some ie ∧ entry_ok ll ie
  inj : ∀ i j ie je, S i → S j → ie_view ll i = some ie → ie_view ll j = some je →
    ie.blocknr = je.blocknr → i = j
  disk_saved : ll.flavor = .disk → ∀ i ie, ie_view ll i = some ie → S i

/-- The states `ll` and `ll'` have the same index store. -/
def same_index (ll ll' : ll_disk) : Prop :=
  ll'.flavor = ll.flavor ∧ ll'.mi_le = ll.mi_le ∧ ll'.ie_cache = ll.ie_cache ∧
  ll'.bitmap_tree = ll.bitmap_tree

/-- What a successful `inc` of the blocks `[b, b + n)` does, in terms of the
bitmap values and the overflow tree. -/
structure range_inc (S : Nat → Prop) (ll : ll_disk) (b n : Nat) (na : Int)
    (ll' : ll_disk) (na' : Int) : Prop where
  inv : index_inv ll' S
  flavor : ll'.flavor = ll.flavor
  epb : ll'.entries_per_block = ll.entries_per_block
  nr_blocks : ll'.nr_blocks = ll.nr_blocks
  cells : ∀ x, S (x / ll.entries_per_block) →
    cell ll' x = if b ≤ x ∧ x < b + n then min (cell ll x + 1) 3 else cell ll x
  vals_out : ∀ k, ¬ (b ≤ k ∧ k < b + n) → ll'.ref_count_tree.vals k = ll.ref_count_tree.vals k
  vals_low : ∀ x, b ≤ x → x < b + n → cell ll x ≤ 1 →
    ll'.ref_count_tree.vals x = ll.ref_count_tree.vals x
  vals_two : ∀ x, b ≤ x → x < b + n → cell ll x = 2 → ll'.ref_count_tree.vals x = some 3
  vals_three : ∀ x, b ≤ x → x < b + n → cell ll x = 3 →
    ∃ v, ll.ref_count_tree.vals x = some v ∧
      ll'.ref_count_tree.vals x = some ((v + 1) % 2 ^ 32)
  nalloc : ll'.nr_allocated =
    (ll.nr_allocated + count_range (fun x => cell ll x == 0) b n) % 2 ^ 64
  nr_alloc : na' = wrap_s32 (na + count_range (fun x => cell ll x == 0) b n)

/-- What a successful `dec` of the blocks `[b, b + n)` does, in terms of the
bitmap values and the overflow tree. -/
structure range_dec (S : Nat → Prop) (ll : ll_disk) (b n : Nat) (na : Int)
    (ll' : ll_disk) (na' : Int) : Prop where
  inv : index_inv ll' S
  flavor : ll'.flavor = ll.flavor
  epb : ll'.entries_per_block = ll.entries_per_block
  nr_blocks : ll'.nr_blocks = ll.nr_blocks
  cells : ∀ x, S (x / ll.entries_per_block) →
    cell ll' x = if b ≤ x ∧ x < b + n then dec_cell (cell ll x) (ll.ref_count_tree.vals x)
      else cell ll x
  nonzero : ∀ x, b ≤ x → x < b + n → cell ll x ≠ 0
  vals_out : ∀ k, ¬ (b ≤ k ∧ k < b + n) → ll'.ref_count_tree.vals k = ll.ref_count_tree.vals k
  vals_low : ∀ x, b ≤ x → x < b + n → cell ll x ≤ 2 →
    ll'.ref_count_tree.vals x = ll.ref_count_tree.vals x
  vals_three : ∀ x, b ≤ x → x < b + n → cell ll x = 3 →
    ∃ v, ll.ref_count_tree.vals x = some v ∧
      (v = 3 → ll'.ref_count_tree.vals x = none) ∧
      (3 < v → ll'.ref_count_tree.vals x = some ((v + (2 ^ 32 - 1)) % 2 ^ 32))
  nalloc : count_range (fun x => cell ll x == 1) b n ≤ ll.nr_allocated →
    ll'.nr_allocated = ll.nr_allocated - count_range (fun x => cell ll x == 1) b n
  nalloc_lt : ll'.nr_allocated < 2 ^ 64
  nr_alloc : na' = wrap_s32 (na - count_range (fun x => cell ll x == 1) b n)

/-- The part of `sm_ll_insert` that writes the bitmap entry and the overflow
tree; `nb` is the shadowed bitmap block and `old` the old reference count. -/
def insert_step (ll : ll_disk) (nb bit b ref_count old : Nat) : Except Int ll_disk :=
  let bm_le := ll.tm.data nb
  if ref_count ≤ 2 then
    let ll := { ll with tm := tm_write ll.tm nb (sm_set_bitmap bm_le bit ref_count) }
    if old > 2 then
      match dm_btree_remove ll.ref_count_tree b with
      | .error r => .error r
      | .ok t => .ok { ll with ref_count_tree := t }
    else .ok ll
  else
    let ll := { ll with tm := tm_write ll.tm nb (sm_set_bitmap bm_le bit 3) }
    .ok { ll with ref_count_tree := dm_btree_insert ll.ref_count_tree b ref_count }

/-- The part of `sm_ll_insert` that accounts for the change of the entry and
saves the index entry. -/
def insert_account (ll : ll_disk) (index : Nat) (ie_disk : disk_index_entry)
    (bit ref_count old : Nat) : Except Int (ll_disk × Int) :=
  if ref_count ≠ 0 ∧ old = 0 then
    let ll := { ll with nr_allocated := (ll.nr_allocated + 1) % 2 ^ 64 }
    let ie_disk := { ie_disk with nr_free := (ie_disk.nr_free + (2 ^ 32 - 1)) % 2 ^ 32 }
    let ie_disk :=
      if ie_disk.none_free_before = bit then
        { ie_disk with none_free_before := (bit + 1) % 2 ^ 32 }
      else ie_disk
    match save_ie ll index ie_disk with
    | .error r => .error r
    | .ok ll => .ok (ll, 1)
  else if old ≠ 0 ∧ ref_count = 0 then
    let ll := { ll with nr_allocated := (ll.nr_allocated + (2 ^ 64 - 1)) % 2 ^ 64 }
    let ie_disk := { ie_disk with nr_free := (ie_disk.nr_free + 1) % 2 ^ 32 }
    let ie_disk := { ie_disk with none_free_before := min ie_disk.none_free_before bit }
    match save_ie ll index ie_disk with
    | .error r => .error r
    | .ok ll => .ok (ll, -1)
  else
    match save_ie ll index ie_disk with
    | .error r => .error r
    | .ok ll => .ok (ll, 0)

/-- What a successful `sm_ll_insert` of `ref_count` at block `b` does. -/
structure insert_post (S : Nat → Prop) (ll : ll_disk) (b ref_count : Nat)
    (ll' : ll_disk) (na : Int) : Prop where
  inv : index_inv ll' S
  flavor : ll'.flavor = ll.flavor
  epb : ll'.entries_per_block = ll.entries_per_block
  nr_blocks : ll'.nr_blocks = ll.nr_blocks
  cells : ∀ x, S (x / ll.entries_per_block) →
    cell ll' x = if x = b then min ref_count 3 else cell ll x
  vals : ll'.ref_count_tree.vals =
    if ref_count ≤ 2 then
      (if cell ll b = 3 then Function.update ll.ref_count_tree.vals b none
        else ll.ref_count_tree.vals)
    else Function.update ll.ref_count_tree.vals b (some ref_count)
  nalloc : ll'.nr_allocated =
    if ref_count ≠ 0 ∧ cell ll b = 0 then (ll.nr_allocated + 1) % 2 ^ 64
    else if cell ll b ≠ 0 ∧ ref_count = 0 then (ll.nr_allocated + (2 ^ 64 - 1)) % 2 ^ 64
    else ll.nr_allocated
  nr_alloc : na =
    if ref_count ≠ 0 ∧ cell ll b = 0 then 1
    else if cell ll b ≠ 0 ∧ ref_count = 0 then -1 else 0

/-- What a successful `sm_ll_extend` does. -/
structure extend_post (S : Nat → Prop) (ll : ll_disk) (extra_blocks : Nat)
    (ll' : ll_disk) : Prop where
  inv : index_inv ll' (fun j => S j ∨
    (dm_sector_div_up ll.nr_blocks ll.entries_per_block % 2 ^ 32 ≤ j ∧
      j < dm_sector_div_up ((ll.nr_blocks + extra_blocks) % 2 ^ 64) ll.entries_per_block
        % 2 ^ 32))
  flavor : ll'.flavor = ll.flavor
  epb : ll'.entries_per_block = ll.entries_per_block
  nr_blocks : ll'.nr_blocks = (ll.nr_blocks + extra_blocks) % 2 ^ 64
  nr_allocated : ll'.nr_allocated = ll.nr_allocated
  ref_count_tree : ll'.ref_count_tree = ll.ref_count_tree
  cells_old : ∀ x, S (x / ll.entries_per_block) →
    ¬ (dm_sector_div_up ll.nr_blocks ll.entries_per_block % 2 ^ 32 ≤ x / ll.entries_per_block ∧
      x / ll.entries_per_block <
        dm_sector_div_up ((ll.nr_blocks + extra_blocks) % 2 ^ 64) ll.entries_per_block
          % 2 ^ 32) →
    cell ll' x = cell ll x
  cells_new : ∀ x,
    dm_sector_div_up ll.nr_blocks ll.entries_per_block % 2 ^ 32 ≤ x / ll.entries_per_block →
    x / ll.entries_per_block <
      dm_sector_div_up ((ll.nr_blocks + extra_blocks) % 2 ^ 64) ll.entries_per_block % 2 ^ 32 →
    cell ll' x = 0

/-- The invariants of an LL state: the index entries of the bitmaps that cover
`nr_blocks` agree with their bitmap blocks (`nr_free` counts the zero entries
of the whole block), an overflow entry exists exactly for the blocks below
`nr_blocks` whose bitmap value is 3 and holds a count of at least 3, and
`nr_allocated` counts the blocks below `nr_blocks` with a non-zero bitmap
value. -/
structure ll_inv (ll : ll_disk) : Prop where
  index : index_inv ll (fun i => i < nr_indexes ll)
  nr_blocks_lt : ll.nr_blocks < 2 ^ 64
  big : ∀ b v, ll.ref_count_tree.vals b = some v →
    b < ll.nr_blocks ∧ cell ll b = 3 ∧ 3 ≤ v ∧ v < 2 ^ 32
  key : ∀ b, b < ll.nr_blocks → cell ll b = 3 → ll.ref_count_tree.vals b ≠ none
  nalloc : ll.nr_allocated = count_range (fun b => decide (cell ll b ≠ 0)) 0 ll.nr_blocks

/-- What holds of a state reached without overflow, next to `ll_inv`: the
count of bitmaps fits the 32-bit counters of `sm_ll_extend`, the entries past
`nr_blocks` in the last bitmap are zero, and the reference counts are those of
the reference model `ref`. -/
structure reach_inv (ll : ll_disk) (ref : Nat → Nat) : Prop where
  inv : ll_inv ll
  nr_indexes_lt : nr_indexes ll < 2 ^ 32
  tail : ∀ x, ll.nr_blocks ≤ x → x / ll.entries_per_block < nr_indexes ll → cell ll x = 0
  ref_eq : ∀ x, x < ll.nr_blocks → refcount ll x = ref x
  ref_out : ∀ x, ll.nr_blocks ≤ x → ref x = 0

/-- The states reachable from a new map by successful calls of `sm_ll_extend`,
`sm_ll_insert`, `sm_ll_inc` and `sm_ll_dec` on blocks below `nr_blocks`,
together with the reference counts a reference model holds for them. With
`ext_ok` no extension overflows the 64-bit block count or the 32-bit bitmap
count; with `rc_ok` no reference count is taken past `2 ^ 32 - 1`. -/
inductive reach (ext_ok rc_ok : Bool) : ll_disk → (Nat → Nat) → Prop
  | new_metadata (tm : dm_transaction_manager) (ll : ll_disk) :
      sm_ll_new_metadata tm = .ok ll → 0 < ll.entries_per_block →
      reach ext_ok rc_ok ll (fun _ => 0)
  | new_disk (tm : dm_transaction_manager) (ll : ll_disk) :
      sm_ll_new_disk tm = .ok ll → 0 < ll.entries_per_block →
      reach ext_ok rc_ok ll (fun _ => 0)
  | extend (ll : ll_disk) (ref : Nat → Nat) (extra_blocks : Nat) (ll' : ll_disk) :
      reach ext_ok rc_ok ll ref →
      (ext_ok = true → ll.nr_blocks + extra_blocks < 2 ^ 64 ∧
        dm_sector_div_up (ll.nr_blocks + extra_blocks) ll.entries_per_block < 2 ^ 32) →
      sm_ll_extend ll extra_blocks = .ok ll' → reach ext_ok rc_ok ll' ref
  | insert (ll : ll_disk) (ref : Nat → Nat) (b ref_count : Nat) (ll' : ll_disk) (na : Int) :
      reach ext_ok rc_ok ll ref → b < ll.nr_blocks → ref_count < 2 ^ 32 →
      sm_ll_insert ll b ref_count = .ok (ll', na) →
      reach ext_ok rc_ok ll' (Function.update ref b ref_count)
  | inc (ll : ll_disk) (ref : Nat → Nat) (b e : Nat) (ll' : ll_disk) (na : Int) :
      reach ext_ok rc_ok ll ref → b ≤ e → e ≤ ll.nr_blocks →
      (rc_ok = true → ∀ x, b ≤ x → x < e → ref x < 2 ^ 32 - 1) →
      sm_ll_inc ll b e = some (.ok (ll', na)) →
      reach ext_ok rc_ok ll' (fun x => if b ≤ x ∧ x < e then ref x + 1 else ref x)
  | dec (ll : ll_disk) (ref : Nat → Nat) (b e : Nat) (ll' : ll_disk) (na : Int) :
      reach ext_ok rc_ok ll ref → b ≤ e → e ≤ ll.nr_blocks →
      sm_ll_dec ll b e = some (.ok (ll', na)) →
      reach ext_ok rc_ok ll' (fun x => if b ≤ x ∧ x < e then ref x - 1 else ref x)

/-! ## The state left by a call that fails -/

/-- Every dirty slot of the index cache is valid. -/
def dirty_valid (ll : ll_disk) : Prop :=
  ∀ h, (ll.ie_cache h).dirty = true → (ll.ie_cache h).valid = true

/-- The states of the disk flavor reached from `disk_ll_init_index` by calls
of `disk_ll_save_ie` and `disk_ll_load_ie`, together with the map from each
index to the entry passed to the most recent `disk_ll_save_ie` for it. A
`disk_ll_load_ie` that fails leaves the state after its write-back. -/
inductive cache_reach : ll_disk → (Nat → Option disk_index_entry) → Prop
  | init (ll0 ll : ll_disk) :
      ll0.flavor = .disk → disk_ll_init_index ll0 = .ok ll → cache_reach ll (fun _ => none)
  | save (ll : ll_disk) (m : Nat → Option disk_index_entry) (i : Nat) (ie : disk_index_entry)
      (ll' : ll_disk) :
      cache_reach ll m → disk_ll_save_ie ll i ie = .ok ll' →
      cache_reach ll' (Function.update m i (some ie))
  | load (ll : ll_disk) (m : Nat → Option disk_index_entry) (i : Nat) (ie : disk_index_entry)
      (ll' : ll_disk) :
      cache_reach ll m → disk_ll_load_ie ll i = .ok (ll', ie) → cache_reach ll' m
  | load_failed (ll : ll_disk) (m : Nat → Option disk_index_entry) (i : Nat) (r : Int) :
      cache_reach ll m → disk_ll_load_ie ll i = .error r →
      cache_reach (after_evict ll (hash_index i)) m

/-! ## Example states -/

/-- A transaction manager with 32-byte blocks and nothing allocated: a bitmap
block then holds 64 entries. -/
def tm_small : dm_transaction_manager :=
  { block_size := 32, data := fun _ _ => 0, next := 0, shadowed := fun _ => false }

/-- The state that `sm_ll_new_metadata` returns on `tm_small`. -/
def map_new : ll_disk :=
  { tm := (dm_tm_new_block tm_small).1
    flavor := .metadata
    block_size := 32
    entries_per_block := 64
    nr_blocks := 0
    nr_allocated := 0
    bitmap_tree := dm_btree_empty disk_index_entry
    ref_count_tree := dm_btree_empty Nat
    bitmap_index_changed := false
    mi_le := fun _ => { blocknr := 0, nr_free := 0, none_free_before := 0 }
    ie_cache := fun _ =>
      { valid := false, dirty := false, index := 0,
        ie := { blocknr := 0, nr_free := 0, none_free_before := 0 } } }

/-- The state after a call that returned `r`, and `d` if the call failed. -/
def state_of (r : Except Int ll_disk) (d : ll_disk) : ll_disk :=
  match r with
  | .ok ll => ll
  | .error _ => d

/-- The state after an insert that returned `r`, and `d` if the call failed. -/
def state_of_insert (r : Except Int (ll_disk × Int)) (d : ll_disk) : ll_disk :=
  match r with
  | .ok (ll, _) => ll
  | .error _ => d

/-- The state after an inc or dec that returned `r`, and `d` if the call
failed. -/
def state_of_range (r : Option (Except Int (ll_disk × Int))) (d : ll_disk) : ll_disk :=
  match r with
  | some (.ok (ll, _)) => ll
  | _ => d

/-- A map of 100 blocks, all free: `map_new` extended by 100 blocks. -/
def map_100 : ll_disk := state_of (sm_ll_extend map_new 100) map_new

/-- The map `map_100` after `inc(0, 10)`. -/
def map_used : ll_disk := state_of_range (sm_ll_inc map_100 0 10) map_100

/-- The map `map_100` after `insert(70, 7)`. -/
def map_big_count : ll_disk := state_of_insert (sm_ll_insert map_100 70 7) map_100

/-- The map `map_big_count` after an extension by `2 ^ 64 - 50` blocks, which
takes `nr_blocks` from 100 to 50. -/
def map_shrunk : ll_disk := state_of (sm_ll_extend map_big_count (2 ^ 64 - 50)) map_big_count

/-- The map `map_shrunk` after an extension by 50 blocks. -/
def map_regrown : ll_disk := state_of (sm_ll_extend map_shrunk 50) map_shrunk

/-- The map `map_100` after `insert(4, 2 ^ 32 - 1)`. -/
def map_max_count : ll_disk := state_of_insert (sm_ll_insert map_100 4 (2 ^ 32 - 1)) map_100

/-- The map `map_max_count` after `inc(4, 5)`. -/
def map_wrapped : ll_disk := state_of_range (sm_ll_inc map_max_count 4 5) map_max_count

/-- The map `map_wrapped` after `insert(4, 5)`. -/
def map_reinserted : ll_disk := state_of_insert (sm_ll_insert map_wrapped 4 5) map_wrapped

/-- A transaction manager with 4096-byte blocks and nothing allocated: a
bitmap block then holds 16320 entries. -/
def tm_4k : dm_transaction_manager :=
  { block_size := 4096, data := fun _ _ => 0, next := 0, shadowed := fun _ => false }

/-- The state that `sm_ll_new_disk` returns on `tm_4k`. -/
def disk_new : ll_disk :=
  { tm := tm_4k
    flavor := .disk
    block_size := 4096
    entries_per_block := 16320
    nr_blocks := 0
    nr_allocated := 0
    bitmap_tree := dm_btree_empty disk_index_entry
    ref_count_tree := dm_btree_empty Nat
    bitmap_index_changed := false
    mi_le := fun _ => { blocknr := 0, nr_free := 0, none_free_before := 0 }
    ie_cache := fun _ =>
      { valid := false, dirty := false, index := 0,
        ie := { blocknr := 0, nr_free := 0, none_free_before := 0 } } }

/-- The disk-flavor map of `n` blocks, all free: `disk_new` extended by `n`
blocks. -/
def disk_map (n : Nat) : ll_disk := state_of (sm_ll_extend disk_new n) disk_new

/-- The map `disk_map n` after `inc(0, n)`: every block has count 1. -/
def disk_ones (n : Nat) : ll_disk :=
  state_of_range (sm_ll_inc (disk_map n) 0 n) (disk_map n)

/-- The map `map_100` after `insert(110, 7)`, a block past `nr_blocks` that the
second bitmap covers. -/
def map_beyond : ll_disk := state_of_insert (sm_ll_insert map_100 110 7) map_100

/-- An insert into the index tree that fails with `-ENOSPC` for key 0 and
succeeds for every other key. -/
def insert_failing_at_zero : index_insert := fun t key value =>
  if key = 0 then .error (-ENOSPC) else .ok (dm_btree_insert t key value)

/-- The disk-flavor state `disk_new` after `save_ie` for the indexes 0 and 1,
which live in the cache slots 0 and 59: both slots are valid and dirty. -/
def disk_two_dirty : ll_disk :=
  state_of
    (disk_ll_save_ie
      (state_of
        (disk_ll_save_ie disk_new 0 { blocknr := 7, nr_free := 16320, none_free_before := 0 })
        disk_new)
      1 { blocknr := 8, nr_free := 16320, none_free_before := 0 })
    disk_new

/-- The state `disk_new` after `disk_ll_init_index`. -/
def disk_init : ll_disk := state_of (disk_ll_init_index disk_new) disk_new

/-- The state `disk_init` after `save_ie(1, .)`, `save_ie(65, .)`, whose slot is
that of index 1, and a second `save_ie(1, .)`. -/
def disk_collided : ll_disk :=
  state_of
    (disk_ll_save_ie
      (state_of
        (disk_ll_save_ie
          (state_of
            (disk_ll_save_ie disk_init 1 { blocknr := 7, nr_free := 5, none_free_before := 0 })
            disk_init)
          65 { blocknr := 8, nr_free := 6, none_free_before := 0 })
        disk_init)
      1 { blocknr := 9, nr_free := 4, none_free_before := 1 })
    disk_init

/-! ## Opening a map from a root record -/

/-- Modelled from the spec: the size of `struct disk_sm_root`, which is declared
outside this file: four 64-bit fields, 32 bytes. -/
def sizeof_disk_sm_root : Nat := 32

/-- Modelled from the spec: `le64_to_cpu` of a little-endian 64-bit field;
`v i` is byte `i` of the field in memory order, the byte at the lowest address
being the least significant. -/
def le64_to_cpu (v : Nat → Nat) : Nat :=
  (List.range 8).foldr (fun i acc => v i % 256 + 256 * acc) 0

/-- Modelled from the spec: `struct disk_sm_root`, which is declared outside
this file: the fields `nr_blocks`, `nr_allocated`, `bitmap_root` and
`ref_count_root`, in this order, each a little-endian 64-bit value kept here as
its eight bytes. -/
structure disk_sm_root where
  nr_blocks : Nat → Nat
  nr_allocated : Nat → Nat
  bitmap_root : Nat → Nat
  ref_count_root : Nat → Nat

/-- The first `sizeof(struct disk_sm_root)` bytes of the buffer `root_le` as a
`struct disk_sm_root` (the copy `memcpy(&smr, root_le, sizeof(smr))` of
`sm_ll_open_metadata`, the pointer `smr = root_le` of `sm_ll_open_disk`); the
record has no padding, field `k` starts at byte `8 * k`. -/
def disk_sm_root_of (root_le : Nat → Nat) : disk_sm_root :=
  { nr_blocks := fun i => root_le i
    nr_allocated := fun i => root_le (8 + i)
    bitmap_root := fun i => root_le (16 + i)
    ref_count_root := fun i => root_le (24 + i) }

/-- Modelled from the spec: what the transaction manager holds at a location,
as far as the opening of a map reads it: the entry array of the index block of
the metadata flavor, read with `dm_tm_read_lock` under `index_validator`, which
can refuse the block, and the B-trees rooted at a location. -/
structure block_store where
  index_block : Nat → Except Int (Nat → disk_index_entry)
  index_tree : Nat → btree disk_index_entry
  ref_count_tree : Nat → btree Nat

/-- The record `struct ll_disk` with its fields `bitmap_root` and
`ref_count_root`. The operations on a map carry the trees rooted there as
values (`bitmap_tree`, `ref_count_tree`); the functions that open a map assign
the two locations. -/
structure ll_disk_roots where
  ll : ll_disk
  bitmap_root : Nat
  ref_count_root : Nat

/-- The function `metadata_ll_open`: copies the index block at `bitmap_root`
into `mi_le`. -/
def metadata_ll_open (S : block_store) (ll : ll_disk_roots) : Except Int ll_disk_roots :=
  match S.index_block ll.bitmap_root with
  | .error r => .error r
  | .ok index => .ok { ll with ll := { ll.ll with mi_le := index } }

/-- The function `disk_ll_open`. -/
def disk_ll_open (ll : ll_disk_roots) : Except Int ll_disk_roots := .ok ll

/-- The function `sm_ll_open_metadata`. The metadata flavor keeps its index in
the block at `bitmap_root`, so only the overflow tree is a tree of the store. -/
def sm_ll_open_metadata (S : block_store) (tm : dm_transaction_manager) (root_le : Nat → Nat)
    (len : Nat) : Except Int ll_disk_roots :=
  if len < sizeof_disk_sm_root then .error (-ENOMEM)
  else
    let smr := disk_sm_root_of root_le
    match sm_ll_init tm .metadata with
    | .error r => .error r
    | .ok ll =>
      let ll := { ll with nr_blocks := le64_to_cpu smr.nr_blocks }
      let ll := { ll with nr_allocated := le64_to_cpu smr.nr_allocated }
      let bitmap_root := le64_to_cpu smr.bitmap_root
      let ref_count_root := le64_to_cpu smr.ref_count_root
      metadata_ll_open S
        { ll := { ll with ref_count_tree := S.ref_count_tree ref_count_root }
          bitmap_root := bitmap_root
          ref_count_root := ref_count_root }

/-- The function `sm_ll_open_disk`. -/
def sm_ll_open_disk (S : block_store) (tm : dm_transaction_manager) (root_le : Nat → Nat)
    (len : Nat) : Except Int ll_disk_roots :=
  if len < sizeof_disk_sm_root then .error (-ENOMEM)
  else
    let smr := disk_sm_root_of root_le
    match sm_ll_init tm .disk with
    | .error r => .error r
    | .ok ll =>
      let ll := { ll with nr_blocks := le64_to_cpu smr.nr_blocks }
      let ll := { ll with nr_allocated := le64_to_cpu smr.nr_allocated }
      let bitmap_root := le64_to_cpu smr.bitmap_root
      let ref_count_root := le64_to_cpu smr.ref_count_root
      disk_ll_open
        { ll := { ll with
                    bitmap_tree := S.index_tree bitmap_root
                    ref_count_tree := S.ref_count_tree ref_count_root }
          bitmap_root := bitmap_root
          ref_count_root := ref_count_root }

/-- What a call that opens a map has written to `*ll` when it returns:
nothing; or only what `sm_ll_init` writes before it fails (the record zeroed
and partly filled in, no hooks); or the state with the four fields of the root
record assigned. -/
inductive ll_written where
  | nothing
  | cleared
  | assigned (ll : ll_disk_roots)

/-- The contents of `*ll` when `sm_ll_open_metadata` returns, also with an
error: a failing `metadata_ll_open` has not touched `mi_le`. -/
def sm_ll_open_metadata_left (S : block_store) (tm : dm_transaction_manager)
    (root_le : Nat → Nat) (len : Nat) : ll_written :=
  if len < sizeof_disk_sm_root then .nothing
  else
    let smr := disk_sm_root_of root_le
    match sm_ll_init tm .metadata with
    | .error _ => .cleared
    | .ok ll =>
      let ll := { ll with nr_blocks := le64_to_cpu smr.nr_blocks }
      let ll := { ll with nr_allocated := le64_to_cpu smr.nr_allocated }
      let bitmap_root := le64_to_cpu smr.bitmap_root
      let ref_count_root := le64_to_cpu smr.ref_count_root
      let o : ll_disk_roots :=
        { ll := { ll with ref_count_tree := S.ref_count_tree ref_count_root }
          bitmap_root := bitmap_root
          ref_count_root := ref_count_root }
      match metadata_ll_open S o with
      | .error _ => .assigned o
      | .ok o => .assigned o

/-- The contents of `*ll` when `sm_ll_open_disk` returns, also with an error. -/
def sm_ll_open_disk_left (S : block_store) (tm : dm_transaction_manager)
    (root_le : Nat → Nat) (len : Nat) : ll_written :=
  if len < sizeof_disk_sm_root then .nothing
  else
    let smr := disk_sm_root_of root_le
    match sm_ll_init tm .disk with
    | .error _ => .cleared
    | .ok ll =>
      let ll := { ll with nr_blocks := le64_to_cpu smr.nr_blocks }
      let ll := { ll with nr_allocated := le64_to_cpu smr.nr_allocated }
      let bitmap_root := le64_to_cpu smr.bitmap_root
      let ref_count_root := le64_to_cpu smr.ref_count_root
      let o : ll_disk_roots :=
        { ll := { ll with
                    bitmap_tree := S.index_tree bitmap_root
                    ref_count_tree := S.ref_count_tree ref_count_root }
          bitmap_root := bitmap_root
          ref_count_root := ref_count_root }
      match disk_ll_open o with
      | .error _ => .assigned o
      | .ok o => .assigned o

/-- The four values that the root record in the buffer `root_le` encodes. -/
def root_decoded (root_le : Nat → Nat) (o : ll_disk_roots) : Prop :=
  o.ll.nr_blocks = le64_to_cpu (fun i => root_le i) ∧
  o.ll.nr_allocated = le64_to_cpu (fun i => root_le (8 + i)) ∧
  o.bitmap_root = le64_to_cpu (fun i => root_le (16 + i)) ∧
  o.ref_count_root = le64_to_cpu (fun i => root_le (24 + i))

/-- A store in which every index block is readable and every tree is empty. -/
def store_empty : block_store :=
  { index_block := fun _ =>
      .ok (fun _ => { blocknr := 0, nr_free := 0, none_free_before := 0 })
    index_tree := fun _ => dm_btree_empty disk_index_entry
    ref_count_tree := fun _ => dm_btree_empty Nat }

/-- A root record: `nr_blocks = 100`, `nr_allocated = 10`,
`bitmap_root = 0x1234`, `ref_count_root = 7`. -/
def root_bytes : Nat → Nat := fun i =>
  [100, 0, 0, 0, 0, 0, 0, 0, 10, 0, 0, 0, 0, 0, 0, 0,
   0x34, 0x12, 0, 0, 0, 0, 0, 0, 7, 0, 0, 0, 0, 0, 0, 0].getD i 0

/-! ## The codec and the overflow tree in the words of the specification -/

/-- The entry at position `j` as the specification words it: the two bits of
word `j / 32` that start at bit `2 * (j mod 32)`, read as a number with the
lower bit as the low half, `(word >> (2 * (j mod 32))) & 3`. -/
def entry_low_first (addr : Nat → Nat) (j : Nat) : Nat :=
  (addr (j / 32) >>> (2 * (j % 32))) &&& 3

/-- The state after the overflow entry of `b` has been raised from `c`: the
value stored is `(c + 1) mod 2 ^ 32`. -/
def overflow_raised (ll : ll_disk) (b c : Nat) : ll_disk :=
  { ll with ref_count_tree := value_ptr_set ll.ref_count_tree b ((c + 1) % 2 ^ 32) }

/-- The overflow tree after a decrement of the entry of `b`, as the
specification words it: an entry whose count is 3 leaves the tree, any other
count is lowered by one. -/
def overflow_after_dec (t : btree Nat) (b c : Nat) : btree Nat :=
  if c = 3 then { t with vals := Function.update t.vals b none }
  else { t with vals := Function.update t.vals b (some (c - 1)) }

/-! ## Frames of the calls, and the states reached under chosen provisos -/

/-- What a run of the loop of `sm_ll_inc_bitmap` or `sm_ll_dec_bitmap` over the
entries of the blocks `[b, b + n)` can change, whatever the bitmap block `L`
holds: the payload of `L`, overflow entries of these blocks, and
`nr_allocated`. -/
structure raw_frame (ll ll' : ll_disk) (L b n : Nat) : Prop where
  eq : ll' = with_effect ll L (ll'.tm.data L) ll'.ref_count_tree.vals ll'.nr_allocated
  vals_out : ∀ k, ¬ (b ≤ k ∧ k < b + n) → ll'.ref_count_tree.vals k = ll.ref_count_tree.vals k
  nalloc_lt : ll.nr_allocated < 2 ^ 64 → ll'.nr_allocated < 2 ^ 64

/-- What one round of `sm_ll_inc` or `sm_ll_dec`, or an `sm_ll_insert`, that
handles the blocks `[b, b + n)` through bitmap index `i` can change, whatever
the state was: overflow entries of these blocks and `nr_allocated`; for the
metadata flavor, the copy made by the shadow operation, the payload of the
shadowed block, and element `i` of the index array, which then points at the
shadowed block. -/
structure round_frame (ll ll' : ll_disk) (i b n : Nat) : Prop where
  flavor : ll'.flavor = ll.flavor
  epb : ll'.entries_per_block = ll.entries_per_block
  nr_blocks : ll'.nr_blocks = ll.nr_blocks
  vals_out : ∀ k, ¬ (b ≤ k ∧ k < b + n) → ll'.ref_count_tree.vals k = ll.ref_count_tree.vals k
  nalloc_lt : ll.nr_allocated < 2 ^ 64 → ll'.nr_allocated < 2 ^ 64
  next : ll.flavor = .metadata →
    ll'.tm.next = (dm_tm_shadow_block ll.tm (ll.mi_le i).blocknr).1.next
  data : ll.flavor = .metadata →
    ∀ loc, loc ≠ (dm_tm_shadow_block ll.tm (ll.mi_le i).blocknr).2 →
      ll'.tm.data loc = (dm_tm_shadow_block ll.tm (ll.mi_le i).blocknr).1.data loc
  mi_out : ll.flavor = .metadata → ∀ j, j ≠ i → ll'.mi_le j = ll.mi_le j
  mi_at : ll.flavor = .metadata →
    (ll'.mi_le i).blocknr = (dm_tm_shadow_block ll.tm (ll.mi_le i).blocknr).2

/-- What a successful `sm_ll_inc` or `sm_ll_dec` over `[b, e)` leaves alone,
whatever the state was. -/
structure range_frame (ll ll' : ll_disk) (b e : Nat) : Prop where
  flavor : ll'.flavor = ll.flavor
  epb : ll'.entries_per_block = ll.entries_per_block
  nr_blocks : ll'.nr_blocks = ll.nr_blocks
  vals_out : ∀ k, ¬ (b ≤ k ∧ k < e) → ll'.ref_count_tree.vals k = ll.ref_count_tree.vals k
  nalloc_lt : ll.nr_allocated < 2 ^ 64 → ll'.nr_allocated < 2 ^ 64

/-- The states reachable from a new map (with `entries_per_block > 0`) by
successful calls of `sm_ll_extend`, `sm_ll_insert`, `sm_ll_inc` and
`sm_ll_dec` whose arguments are values of their C types. The four flags select
provisos on the calls: with `below`, every call is on blocks below
`nr_blocks`; with `no_wrap`, no extension takes `nr_blocks + extra_blocks` to
`2 ^ 64`; with `few_bitmaps`, no extension takes the number of bitmap blocks
to `2 ^ 32`; with `rc_ok`, no `sm_ll_inc` reaches a block whose reference
count, as the state encodes it, is `2 ^ 32 - 1`. -/
inductive steps (below no_wrap few_bitmaps rc_ok : Bool) : ll_disk → Prop
  | new_metadata (tm : dm_transaction_manager) (ll : ll_disk) :
      sm_ll_new_metadata tm = .ok ll → 0 < ll.entries_per_block →
      steps below no_wrap few_bitmaps rc_ok ll
  | new_disk (tm : dm_transaction_manager) (ll : ll_disk) :
      sm_ll_new_disk tm = .ok ll → 0 < ll.entries_per_block →
      steps below no_wrap few_bitmaps rc_ok ll
  | extend (ll : ll_disk) (extra_blocks : Nat) (ll' : ll_disk) :
      steps below no_wrap few_bitmaps rc_ok ll → extra_blocks < 2 ^ 64 →
      (no_wrap = true → ll.nr_blocks + extra_blocks < 2 ^ 64) →
      (few_bitmaps = true →
        dm_sector_div_up ((ll.nr_blocks + extra_blocks) % 2 ^ 64) ll.entries_per_block
          < 2 ^ 32) →
      sm_ll_extend ll extra_blocks = .ok ll' → steps below no_wrap few_bitmaps rc_ok ll'
  | insert (ll : ll_disk) (b ref_count : Nat) (ll' : ll_disk) (na : Int) :
      steps below no_wrap few_bitmaps rc_ok ll → b < 2 ^ 64 → ref_count < 2 ^ 32 →
      (below = true → b < ll.nr_blocks) →
      sm_ll_insert ll b ref_count = .ok (ll', na) → steps below no_wrap few_bitmaps rc_ok ll'
  | inc (ll : ll_disk) (b e : Nat) (ll' : ll_disk) (na : Int) :
      steps below no_wrap few_bitmaps rc_ok ll → b < 2 ^ 64 → e < 2 ^ 64 →
      (below = true → e ≤ ll.nr_blocks) →
      (rc_ok = true → ∀ x, b ≤ x → x < e → refcount ll x < 2 ^ 32 - 1) →
      sm_ll_inc ll b e = some (.ok (ll', na)) → steps below no_wrap few_bitmaps rc_ok ll'
  | dec (ll : ll_disk) (b e : Nat) (ll' : ll_disk) (na : Int) :
      steps below no_wrap few_bitmaps rc_ok ll → b < 2 ^ 64 → e < 2 ^ 64 →
      (below = true → e ≤ ll.nr_blocks) →
      sm_ll_dec ll b e = some (.ok (ll', na)) → steps below no_wrap few_bitmaps rc_ok ll'

/-- The invariant of the states reached with few bitmaps and without a
reference count being taken past `2 ^ 32 - 1`, whatever blocks the calls name
and also when an extension wraps the block count: the bitmaps `S` that have
been created have entries that agree with their blocks and cover the bitmaps
of `nr_blocks`; the overflow entry of a block of these bitmaps whose bitmap
value is 3 holds a count from 3 to `2 ^ 32 - 1`; and, for the metadata flavor,
the elements of the index array outside `S` point at blocks of their own. -/
structure wide_inv (ll : ll_disk) (S : Nat → Prop) : Prop where
  index : index_inv ll S
  covers : ∀ i, i < nr_indexes ll → S i
  few : nr_indexes ll < 2 ^ 32
  big : ∀ x v, S (x / ll.entries_per_block) → cell ll x = 3 →
    ll.ref_count_tree.vals x = some v → 3 ≤ v ∧ v < 2 ^ 32
  nalloc : ll.nr_allocated < 2 ^ 64
  apart : ll.flavor = .metadata → ∀ i, ¬ S i →
    (ll.mi_le i).blocknr < ll.tm.next ∧
    ∀ j, S j → (ll.mi_le j).blocknr ≠ (ll.mi_le i).blocknr

/-- The disk-flavor state `disk_new` after an extension by `2 ^ 32 * 16320`
blocks, which asks for `2 ^ 32` bitmaps. -/
def disk_many : ll_disk := state_of (sm_ll_extend disk_new (2 ^ 32 * 16320)) disk_new

/-! ## Properties -/

/-! ## Properties of the bitmap codec -/

theorem shift_entries (b : Nat) : b >>> ENTRIES_SHIFT = b / 32 := by
  simp [ENTRIES_SHIFT, Nat.shiftRight_eq_div_pow]

theorem mask_entries (b : Nat) : b &&& (ENTRIES_PER_WORD - 1) = b % 32 := by
  have h : ENTRIES_PER_WORD - 1 = 2 ^ 5 - 1 := by decide
  rw [h, Nat.and_pow_two_sub_one_eq_mod]

theorem sm_lookup_bitmap_eq (addr : Nat → Nat) (b : Nat) :
    sm_lookup_bitmap addr b = entry_of_word (addr (b / 32)) (b % 32) := by
  unfold sm_lookup_bitmap entry_of_word test_bit_le
  simp only [shift_entries, mask_entries, Nat.shiftLeft_eq, pow_one]
  rw [Nat.mul_comm (b % 32) 2]
  cases (addr (b / 32)).testBit (2 * (b % 32)) <;>
    cases (addr (b / 32)).testBit (2 * (b % 32) + 1) <;> simp

theorem entry_of_word_lt (w k : Nat) : entry_of_word w k < 4 := by
  unfold entry_of_word
  split <;> split <;> omega

theorem testBit_set_bit (nr w i : Nat) :
    (__set_bit_le nr w).testBit i = (w.testBit i || decide (nr = i)) := by
  simp [__set_bit_le, Nat.one_shiftLeft, Nat.testBit_two_pow]

theorem testBit_clear_bit (nr w i : Nat) (hw : w < 2 ^ 64) :
    (__clear_bit_le nr w).testBit i = (w.testBit i && !decide (nr = i)) := by
  simp only [__clear_bit_le, Nat.one_shiftLeft, Nat.testBit_and, Nat.testBit_xor,
    Nat.testBit_two_pow_sub_one, Nat.testBit_two_pow]
  by_cases hi : i < 64
  · simp [hi]
  · have : w.testBit i = false :=
      Nat.testBit_lt_two_pow (lt_of_lt_of_le hw (Nat.pow_le_pow_right (by norm_num) (by omega)))
    simp [this]

theorem set_bit_lt (nr w : Nat) (hnr : nr < 64) (hw : w < 2 ^ 64) :
    __set_bit_le nr w < 2 ^ 64 := by
  unfold __set_bit_le
  apply Nat.or_lt_two_pow hw
  rw [Nat.one_shiftLeft]
  exact Nat.pow_lt_pow_right (by norm_num) hnr

theorem clear_bit_lt (nr w : Nat) (hw : w < 2 ^ 64) : __clear_bit_le nr w < 2 ^ 64 := by
  unfold __clear_bit_le
  exact lt_of_le_of_lt Nat.and_le_left hw

theorem sm_set_bitmap_eq (addr : Nat → Nat) (b val : Nat) :
    sm_set_bitmap addr b val
      = Function.update addr (b / 32) (set_word (addr (b / 32)) (b % 32) val) := by
  unfold sm_set_bitmap set_word
  simp only [shift_entries, mask_entries, Nat.shiftLeft_eq, pow_one]
  rw [Nat.mul_comm (b % 32) 2]

theorem put_bit_lt (c : Prop) [Decidable c] (nr w : Nat) (hnr : nr < 64) (hw : w < 2 ^ 64) :
    (if c then __set_bit_le nr w else __clear_bit_le nr w) < 2 ^ 64 := by
  split
  · exact set_bit_lt _ _ hnr hw
  · exact clear_bit_lt _ _ hw

theorem testBit_put_bit (c : Prop) [Decidable c] (nr w i : Nat) (hw : w < 2 ^ 64) :
    (if c then __set_bit_le nr w else __clear_bit_le nr w).testBit i
      = if i = nr then decide c else w.testBit i := by
  by_cases hc : c <;> by_cases hi : i = nr
  · simp [hc, hi, testBit_set_bit]
  · simp [hc, hi, testBit_set_bit, Ne.symm hi]
  · simp [hc, hi, testBit_clear_bit _ _ _ hw]
  · simp [hc, hi, testBit_clear_bit _ _ _ hw, Ne.symm hi]

theorem set_word_lt (w0 k val : Nat) (hk : k < 32) (hw : w0 < 2 ^ 64) :
    set_word w0 k val < 2 ^ 64 := by
  unfold set_word
  exact put_bit_lt _ _ _ (by omega) (put_bit_lt _ _ _ (by omega) hw)

theorem testBit_set_word (w0 k val i : Nat) (hw : w0 < 2 ^ 64) (hk : k < 32) :
    (set_word w0 k val).testBit i =
      if i = 2 * k + 1 then decide (val &&& 1 ≠ 0)
      else if i = 2 * k then decide (val &&& 2 ≠ 0)
      else w0.testBit i := by
  unfold set_word
  simp only []
  rw [testBit_put_bit _ _ _ _ (put_bit_lt _ _ _ (by omega) hw), testBit_put_bit _ _ _ _ hw]

theorem and_two_ne_zero (v : Nat) : v &&& 2 ≠ 0 ↔ 2 ≤ v % 4 := by
  have h : v &&& 2 = (v % 4) &&& 2 := by
    apply Nat.eq_of_testBit_eq
    intro i
    have h4 : v % 4 = v % 2 ^ 2 := rfl
    have h2 : Nat.testBit 2 i = decide (1 = i) := by
      have := @Nat.testBit_two_pow 1 i
      simpa using this
    rw [Nat.testBit_and, Nat.testBit_and, h4, Nat.testBit_mod_two_pow, h2]
    by_cases hi : 1 = i
    · subst hi; simp
    · simp [hi]
  rw [h]
  have : v % 4 < 4 := Nat.mod_lt _ (by norm_num)
  interval_cases (v % 4) <;> decide

theorem and_one_ne_zero (v : Nat) : v &&& 1 ≠ 0 ↔ v % 2 = 1 := by
  rw [Nat.and_one_is_mod]
  omega

theorem entry_of_set_word_same (w0 k val : Nat) (hw : w0 < 2 ^ 64) (hk : k < 32) :
    entry_of_word (set_word w0 k val) k = val % 4 := by
  unfold entry_of_word
  rw [testBit_set_word _ _ _ _ hw hk, testBit_set_word _ _ _ _ hw hk]
  have e1 : ¬ (2 * k = 2 * k + 1) := by omega
  simp only [e1, if_false, if_true, decide_eq_true_eq, and_two_ne_zero, and_one_ne_zero]
  split <;> split <;> omega

theorem entry_of_set_word_other (w0 k val k' : Nat) (hw : w0 < 2 ^ 64) (hk : k < 32)
    (hne : k' ≠ k) : entry_of_word (set_word w0 k val) k' = entry_of_word w0 k' := by
  unfold entry_of_word
  rw [testBit_set_word _ _ _ _ hw hk, testBit_set_word _ _ _ _ hw hk]
  have e1 : ¬ (2 * k' = 2 * k + 1) := by omega
  have e2 : ¬ (2 * k' = 2 * k) := by omega
  have e3 : ¬ (2 * k' + 1 = 2 * k + 1) := by omega
  have e4 : ¬ (2 * k' + 1 = 2 * k) := by omega
  simp only [e1, e2, e3, e4, if_false]

theorem sm_set_bitmap_words_ok (addr : Nat → Nat) (b val : Nat) (h : words_ok addr) :
    words_ok (sm_set_bitmap addr b val) := by
  intro i
  rw [sm_set_bitmap_eq]
  by_cases hi : i = b / 32
  · subst hi
    rw [Function.update_same]
    exact set_word_lt _ _ _ (Nat.mod_lt _ (by norm_num)) (h _)
  · rw [Function.update_noteq hi]
    exact h i

theorem sm_lookup_bitmap_lt (addr : Nat → Nat) (b : Nat) : sm_lookup_bitmap addr b < 4 := by
  rw [sm_lookup_bitmap_eq]
  exact entry_of_word_lt _ _

theorem sm_lookup_set_same (addr : Nat → Nat) (b val : Nat) (h : words_ok addr) :
    sm_lookup_bitmap (sm_set_bitmap addr b val) b = val % 4 := by
  rw [sm_lookup_bitmap_eq, sm_set_bitmap_eq, Function.update_same]
  exact entry_of_set_word_same _ _ _ (h _) (Nat.mod_lt _ (by norm_num))

theorem sm_lookup_set_other (addr : Nat → Nat) (b b' val : Nat) (h : words_ok addr)
    (hne : b' ≠ b) :
    sm_lookup_bitmap (sm_set_bitmap addr b val) b' = sm_lookup_bitmap addr b' := by
  rw [sm_lookup_bitmap_eq, sm_lookup_bitmap_eq, sm_set_bitmap_eq]
  by_cases hw : b' / 32 = b / 32
  · rw [hw, Function.update_same]
    apply entry_of_set_word_other _ _ _ _ (h _) (Nat.mod_lt _ (by norm_num))
    omega
  · rw [Function.update_noteq hw]

theorem mask_high_32 : mask_high 32 = WORD_MASK_HIGH := by decide

theorem testBit_add_two (x i : Nat) : x.testBit (i + 2) = (x / 4).testBit i := by
  rw [show i + 2 = (i + 1) + 1 from rfl, Nat.testBit_succ, Nat.testBit_succ,
    Nat.div_div_eq_div_mul]

theorem testBit_one_eq (x : Nat) : x.testBit 1 = decide (x / 2 % 2 = 1) := by
  rw [show (1 : Nat) = 0 + 1 from rfl, Nat.testBit_succ, Nat.testBit_zero]

theorem mask_high_succ (n : Nat) : mask_high (n + 1) = 4 * mask_high n + 2 := rfl

theorem testBit_mask_high (n i : Nat) :
    (mask_high n).testBit i = decide (i % 2 = 1 ∧ i < 2 * n) := by
  induction n generalizing i with
  | zero => simp [mask_high]
  | succ n ih =>
    rw [mask_high_succ]
    rcases i with _ | _ | i
    · rw [Nat.testBit_zero]
      simp only [decide_eq_decide]
      omega
    · rw [show 0 + 1 = 1 from rfl, testBit_one_eq]
      simp only [decide_eq_decide]
      constructor
      · intro _; exact ⟨by norm_num, by omega⟩
      · intro _; omega
    · rw [show i + 1 + 1 = i + 2 from rfl, testBit_add_two,
        show (4 * mask_high n + 2) / 4 = mask_high n by omega, ih]
      simp only [decide_eq_decide]
      omega

/-- The carry chain of `bits + WORD_MASK_HIGH + 1`: a group that is `00` is
flagged whatever the carry into it, and while all lower groups are non-zero the
carry stays one and nothing is flagged. -/
theorem carry_chain (n : Nat) : ∀ w c : Nat, c ≤ 1 →
    (∀ k, k < n → entry_of_word w k = 0 →
      (w.testBit (2 * k + 1) = false ∧ (w + mask_high n + c).testBit (2 * k + 1) = true)) ∧
    ((∀ k, k < n → entry_of_word w k ≠ 0) → c = 1 →
      ∀ k, k < n →
        ¬ (w.testBit (2 * k + 1) = false ∧ (w + mask_high n + c).testBit (2 * k + 1) = true)) := by
  induction n with
  | zero =>
    intro w c _
    exact ⟨fun k hk => absurd hk (Nat.not_lt_zero _), fun _ _ k hk => absurd hk (Nat.not_lt_zero _)⟩
  | succ n ih =>
    intro w c hc
    have hdiv : (w + mask_high (n + 1) + c) / 4
        = w / 4 + mask_high n + (w % 4 + 2 + c) / 4 := by
      rw [mask_high_succ]; omega
    have hc' : (w % 4 + 2 + c) / 4 ≤ 1 := by omega
    have hlow : ∀ k, entry_of_word w (k + 1) = entry_of_word (w / 4) k := by
      intro k
      unfold entry_of_word
      rw [show 2 * (k + 1) = 2 * k + 2 from by ring, testBit_add_two,
        show 2 * k + 2 + 1 = (2 * k + 1) + 2 from by ring, testBit_add_two]
    have h0 : entry_of_word w 0 = w % 4 / 2 + 2 * (w % 4 % 2) := by
      unfold entry_of_word
      simp only [Nat.mul_zero, Nat.zero_add, Nat.testBit_zero, testBit_one_eq]
      by_cases a : w % 2 = 1 <;> by_cases b : w / 2 % 2 = 1 <;> simp [a, b] <;> omega
    have hd4 : w % 4 < 4 := Nat.mod_lt _ (by norm_num)
    have hT1 : (w + mask_high (n + 1) + c).testBit 1
        = decide ((w % 4 + 2 + c) / 2 % 2 = 1) := by
      rw [testBit_one_eq]
      simp only [decide_eq_decide]
      rw [mask_high_succ]; omega
    have hw1 : w.testBit 1 = decide (w % 4 / 2 = 1) := by
      rw [testBit_one_eq]
      simp only [decide_eq_decide]
      omega
    obtain ⟨ihA, ihB⟩ := ih (w / 4) ((w % 4 + 2 + c) / 4) hc'
    constructor
    · intro k hk hz
      rcases k with _ | k
      · rw [h0] at hz
        simp only [Nat.mul_zero, Nat.zero_add, hT1, hw1, decide_eq_false_iff_not,
          decide_eq_true_eq]
        generalize w % 4 = d at hz hd4 ⊢
        interval_cases d <;> interval_cases c <;> omega
      · rw [hlow] at hz
        have := ihA k (by omega) hz
        rw [show 2 * (k + 1) + 1 = (2 * k + 1) + 2 from by ring, testBit_add_two,
          testBit_add_two, hdiv]
        exact this
    · intro hall hc1 k hk
      have hd0 := hall 0 (by omega)
      rw [h0] at hd0
      rcases k with _ | k
      · simp only [Nat.mul_zero, Nat.zero_add, hT1, hw1, decide_eq_false_iff_not,
          decide_eq_true_eq]
        subst hc1
        generalize w % 4 = d at hd0 hd4 ⊢
        interval_cases d <;> omega
      · have hall' : ∀ k, k < n → entry_of_word (w / 4) k ≠ 0 := by
          intro k hk
          rw [← hlow]
          exact hall (k + 1) (by omega)
        have := ihB hall' (by omega) k (by omega)
        rw [show 2 * (k + 1) + 1 = (2 * k + 1) + 2 from by ring, testBit_add_two,
          testBit_add_two, hdiv]
        exact this

theorem word_used_iff (w : Nat) :
    ((((2 ^ 64 - 1) ^^^ w) &&& (((w + WORD_MASK_HIGH + 1) % 2 ^ 64) &&& WORD_MASK_HIGH)) = 0)
      ↔ ∀ k, k < 32 → entry_of_word w k ≠ 0 := by
  obtain ⟨hA, hB⟩ := carry_chain 32 w 1 (le_refl _)
  rw [mask_high_32] at hA hB
  have hbit : ∀ i, ((((2 ^ 64 - 1) ^^^ w) &&& (((w + WORD_MASK_HIGH + 1) % 2 ^ 64) &&&
      WORD_MASK_HIGH))).testBit i
      = (!w.testBit i && ((w + WORD_MASK_HIGH + 1).testBit i && decide (i % 2 = 1 ∧ i < 64))) := by
    intro i
    rw [Nat.testBit_and, Nat.testBit_and, Nat.testBit_xor, Nat.testBit_two_pow_sub_one,
      Nat.testBit_mod_two_pow, ← mask_high_32, testBit_mask_high]
    by_cases hi : i < 64 <;> simp [hi]
  constructor
  · intro h0 k hk hz
    obtain ⟨h1, h2⟩ := hA k hk hz
    have := hbit (2 * k + 1)
    rw [h0, Nat.zero_testBit, h1, h2] at this
    have hd : decide ((2 * k + 1) % 2 = 1 ∧ 2 * k + 1 < 64) = true := by
      simp only [decide_eq_true_eq]; omega
    rw [hd] at this
    simp at this
  · intro hall
    apply Nat.eq_of_testBit_eq
    intro i
    rw [hbit, Nat.zero_testBit]
    by_cases hi : i % 2 = 1 ∧ i < 64
    · have hk : i = 2 * (i / 2) + 1 := by omega
      have := hB hall rfl (i / 2) (by omega)
      rw [← hk] at this
      cases h1 : w.testBit i <;> cases h2 : (w + WORD_MASK_HIGH + 1).testBit i
      · simp
      · exact absurd ⟨h1, h2⟩ this
      · simp
      · simp
    · simp [hi]

theorem dm_bitmap_word_used_iff (addr : Nat → Nat) (b : Nat) :
    dm_bitmap_word_used addr b = true
      ↔ ∀ k, k < 32 → sm_lookup_bitmap addr (32 * (b / 32) + k) ≠ 0 := by
  unfold dm_bitmap_word_used
  simp only [shift_entries, beq_iff_eq]
  rw [word_used_iff _]
  constructor
  · intro hh k hk
    rw [sm_lookup_bitmap_eq, show (32 * (b / 32) + k) / 32 = b / 32 by omega,
      show (32 * (b / 32) + k) % 32 = k by omega]
    exact hh k hk
  · intro hh k hk
    have := hh k hk
    rw [sm_lookup_bitmap_eq, show (32 * (b / 32) + k) / 32 = b / 32 by omega,
      show (32 * (b / 32) + k) % 32 = k by omega] at this
    exact this

/-- What `sm_find_free` computes: the least free position of the range, or
`-ENOSPC` when the range holds none. -/
theorem sm_find_free_loop_spec (addr : Nat → Nat) (end_ : Nat) :
    ∀ n begin, end_ - begin ≤ n →
      (∃ p, sm_find_free_loop addr end_ n begin = .ok p ∧ begin ≤ p ∧ p < end_ ∧
          sm_lookup_bitmap addr p = 0 ∧ ∀ q, begin ≤ q → q < p → sm_lookup_bitmap addr q ≠ 0) ∨
      (sm_find_free_loop addr end_ n begin = .error (-ENOSPC) ∧
          ∀ q, begin ≤ q → q < end_ → sm_lookup_bitmap addr q ≠ 0) := by
  intro n
  induction n with
  | zero =>
    intro begin h
    right
    exact ⟨rfl, fun q h1 h2 => by omega⟩
  | succ n ih =>
    intro begin h
    unfold sm_find_free_loop
    by_cases hlt : begin < end_
    · rw [if_pos hlt]
      by_cases hw : (begin &&& (ENTRIES_PER_WORD - 1)) = 0 ∧ dm_bitmap_word_used addr begin = true
      · rw [if_pos hw]
        obtain ⟨hal, hused⟩ := hw
        rw [mask_entries] at hal
        rw [dm_bitmap_word_used_iff] at hused
        have hskip : ∀ q, begin ≤ q → q < begin + 32 → sm_lookup_bitmap addr q ≠ 0 := by
          intro q h1 h2
          have := hused (q - begin) (by omega)
          rw [show 32 * (begin / 32) + (q - begin) = q by omega] at this
          exact this
        rcases ih (begin + ENTRIES_PER_WORD) (by unfold ENTRIES_PER_WORD; omega) with
          ⟨p, hp, h1, h2, h3, h4⟩ | ⟨he, h1⟩
        · left
          unfold ENTRIES_PER_WORD at h1 h4
          refine ⟨p, hp, by omega, h2, h3, ?_⟩
          intro q hq1 hq2
          by_cases hq : q < begin + 32
          · exact hskip q hq1 hq
          · exact h4 q (by omega) hq2
        · right
          unfold ENTRIES_PER_WORD at h1
          refine ⟨he, ?_⟩
          intro q hq1 hq2
          by_cases hq : q < begin + 32
          · exact hskip q hq1 hq
          · exact h1 q (by omega) hq2
      · rw [if_neg hw]
        by_cases hz : sm_lookup_bitmap addr begin = 0
        · rw [if_pos hz]
          left
          exact ⟨begin, rfl, le_refl _, hlt, hz, fun q h1 h2 => by omega⟩
        · rw [if_neg hz]
          rcases ih (begin + 1) (by omega) with ⟨p, hp, h1, h2, h3, h4⟩ | ⟨he, h1⟩
          · left
            refine ⟨p, hp, by omega, h2, h3, ?_⟩
            intro q hq1 hq2
            by_cases hq : q = begin
            · rw [hq]; exact hz
            · exact h4 q (by omega) hq2
          · right
            refine ⟨he, ?_⟩
            intro q hq1 hq2
            by_cases hq : q = begin
            · rw [hq]; exact hz
            · exact h1 q (by omega) hq2
    · rw [if_neg hlt]
      right
      exact ⟨rfl, fun q h1 h2 => by omega⟩

theorem sm_find_free_spec (addr : Nat → Nat) (begin end_ : Nat) :
    (∃ p, sm_find_free addr begin end_ = .ok p ∧ begin ≤ p ∧ p < end_ ∧
        sm_lookup_bitmap addr p = 0 ∧ ∀ q, begin ≤ q → q < p → sm_lookup_bitmap addr q ≠ 0) ∨
    (sm_find_free addr begin end_ = .error (-ENOSPC) ∧
        ∀ q, begin ≤ q → q < end_ → sm_lookup_bitmap addr q ≠ 0) :=
  sm_find_free_loop_spec addr end_ (end_ - begin) begin (le_refl _)

/-! ## The index hooks behind `ie_view` -/

theorem same_core_refl (ll : ll_disk) : same_core ll ll := ⟨rfl, rfl, rfl, rfl, rfl, rfl⟩

theorem same_core_trans {a b c : ll_disk} (h1 : same_core a b) (h2 : same_core b c) :
    same_core a c := by
  exact ⟨h2.1.trans h1.1, h2.2.1.trans h1.2.1, h2.2.2.1.trans h1.2.2.1,
    h2.2.2.2.1.trans h1.2.2.2.1, h2.2.2.2.2.1.trans h1.2.2.2.2.1,
    h2.2.2.2.2.2.trans h1.2.2.2.2.2⟩

theorem writeback_spec (ll : ll_disk) (h : Nat) (hd : ll.flavor = .disk) (hc : cache_ok ll)
    (hv : (ll.ie_cache h).valid = true) :
    same_core ll (ie_cache_writeback ll h) ∧ ie_view (ie_cache_writeback ll h) = ie_view ll ∧
    cache_ok (ie_cache_writeback ll h) ∧
    (ie_cache_writeback ll h).ie_cache h = { ll.ie_cache h with dirty := false } ∧
    (∀ h', h' ≠ h → (ie_cache_writeback ll h).ie_cache h' = ll.ie_cache h') ∧
    (ie_cache_writeback ll h).bitmap_index_changed = ll.bitmap_index_changed := by
  have hh := (hc hd h hv).1
  refine ⟨⟨rfl, rfl, rfl, rfl, rfl, rfl⟩, ?_, ?_, ?_, ?_, rfl⟩
  · funext j
    unfold ie_view
    have hfl : (ie_cache_writeback ll h).flavor = .disk := hd
    rw [hfl, hd]
    simp only [ie_cache_writeback, dm_btree_insert]
    by_cases hj : hash_index j = h
    · rw [hj, Function.update_same]
      by_cases hk : (ll.ie_cache h).index = j
      · simp [hv, hk]
      · have hne : j ≠ (ll.ie_cache h).index := fun e => hk e.symm
        simp [hk, Function.update_noteq hne]
    · rw [Function.update_noteq hj]
      have hne : j ≠ (ll.ie_cache h).index := by
        intro e; rw [e] at hj; exact hj hh
      simp [Function.update_noteq hne]
  · intro _ h' hv'
    simp only [ie_cache_writeback, dm_btree_insert] at hv' ⊢
    by_cases e : h' = h
    · subst e
      rw [Function.update_same] at hv' ⊢
      simp [hh]
    · rw [Function.update_noteq e] at hv' ⊢
      obtain ⟨c1, c2⟩ := hc hd h' hv'
      refine ⟨c1, fun hdirty => ?_⟩
      have hne : (ll.ie_cache h').index ≠ (ll.ie_cache h).index := by
        intro e2; rw [e2] at c1; exact e (c1.symm.trans hh)
      rw [Function.update_noteq hne]
      exact c2 hdirty
  · simp [ie_cache_writeback]
  · intro h' hne
    simp [ie_cache_writeback, Function.update_noteq hne]

theorem after_evict_spec (ll : ll_disk) (h : Nat) (hd : ll.flavor = .disk) (hc : cache_ok ll) :
    same_core ll (after_evict ll h) ∧ ie_view (after_evict ll h) = ie_view ll ∧
    cache_ok (after_evict ll h) ∧
    (((after_evict ll h).ie_cache h).valid = (ll.ie_cache h).valid) ∧
    (((after_evict ll h).ie_cache h).index = (ll.ie_cache h).index) ∧
    (((after_evict ll h).ie_cache h).ie = (ll.ie_cache h).ie) ∧
    (((after_evict ll h).ie_cache h).valid = true → ((after_evict ll h).ie_cache h).dirty = false) ∧
    (∀ h', h' ≠ h → (after_evict ll h).ie_cache h' = ll.ie_cache h') := by
  unfold after_evict
  by_cases hvd : (ll.ie_cache h).valid = true ∧ (ll.ie_cache h).dirty = true
  · rw [if_pos hvd]
    obtain ⟨w1, w2, w3, w4, w5, _⟩ := writeback_spec ll h hd hc hvd.1
    refine ⟨w1, w2, w3, ?_, ?_, ?_, ?_, w5⟩ <;> simp [w4]
  · rw [if_neg hvd]
    refine ⟨same_core_refl _, rfl, hc, rfl, rfl, rfl, ?_, fun _ _ => rfl⟩
    intro hv
    cases hdd : (ll.ie_cache h).dirty
    · rfl
    · exact absurd ⟨hv, hdd⟩ hvd

theorem ie_view_disk (ll : ll_disk) (i : Nat) (hf : ll.flavor = .disk) :
    ie_view ll i =
      if (ll.ie_cache (hash_index i)).valid = true ∧ (ll.ie_cache (hash_index i)).index = i then
        some (ll.ie_cache (hash_index i)).ie
      else ll.bitmap_tree.vals i := by
  unfold ie_view; rw [hf]

theorem ie_view_metadata (ll : ll_disk) (i : Nat) (hf : ll.flavor = .metadata) :
    ie_view ll i = some (ll.mi_le i) := by
  unfold ie_view; rw [hf]

theorem disk_ll_load_ie_eq (ll : ll_disk) (i : Nat) :
    disk_ll_load_ie ll i =
      if (ll.ie_cache (hash_index i)).valid = true ∧ (ll.ie_cache (hash_index i)).index = i then
        Except.ok (ll, (ll.ie_cache (hash_index i)).ie)
      else load_miss (after_evict ll (hash_index i)) i := rfl

theorem disk_ll_save_ie_eq (ll : ll_disk) (i : Nat) (ie : disk_index_entry) :
    disk_ll_save_ie ll i ie =
      if (ll.ie_cache (hash_index i)).valid = true ∧ (ll.ie_cache (hash_index i)).index = i then
        Except.ok { ll with
          bitmap_index_changed := true
          ie_cache := Function.update ll.ie_cache (hash_index i)
            { ll.ie_cache (hash_index i) with ie := ie, dirty := true } }
      else
        Except.ok { after_evict { ll with bitmap_index_changed := true } (hash_index i) with
          ie_cache := Function.update
            (after_evict { ll with bitmap_index_changed := true } (hash_index i)).ie_cache
            (hash_index i) { valid := true, dirty := true, index := i, ie := ie } } := rfl

theorem fill_spec (ll : ll_disk) (i : Nat) (ie : disk_index_entry) (dirty : Bool)
    (hd : ll.flavor = .disk) (hc : cache_ok ll)
    (hclean : (ll.ie_cache (hash_index i)).valid = true →
      (ll.ie_cache (hash_index i)).dirty = false)
    (hfresh : dirty = false → ll.bitmap_tree.vals i = some ie) :
    same_core ll { ll with
      ie_cache := Function.update ll.ie_cache (hash_index i)
        { valid := true, dirty := dirty, index := i, ie := ie } } ∧
    ie_view { ll with
      ie_cache := Function.update ll.ie_cache (hash_index i)
        { valid := true, dirty := dirty, index := i, ie := ie } }
      = Function.update (ie_view ll) i (some ie) ∧
    cache_ok { ll with
      ie_cache := Function.update ll.ie_cache (hash_index i)
        { valid := true, dirty := dirty, index := i, ie := ie } } := by
  refine ⟨⟨rfl, rfl, rfl, rfl, rfl, rfl⟩, ?_, ?_⟩
  · funext j
    rw [ie_view_disk _ _ (show ({ ll with
      ie_cache := Function.update ll.ie_cache (hash_index i)
        { valid := true, dirty := dirty, index := i, ie := ie } } : ll_disk).flavor = .disk from hd)]
    simp only []
    by_cases hj : j = i
    · subst hj
      simp
    · rw [Function.update_noteq hj, ie_view_disk _ _ hd]
      by_cases hh : hash_index j = hash_index i
      · rw [hh, Function.update_same]
        have hne : ¬ (i = j) := fun e => hj e.symm
        simp only [hne, and_false, if_false]
        by_cases hv : (ll.ie_cache (hash_index i)).valid = true ∧
            (ll.ie_cache (hash_index i)).index = j
        · rw [if_pos hv]
          have := (hc hd _ hv.1).2 (hclean hv.1)
          rw [hv.2] at this
          exact this
        · rw [if_neg hv]
      · rw [Function.update_noteq hh]
  · intro _ h' hv'
    simp only [] at hv' ⊢
    by_cases e : h' = hash_index i
    · subst e
      rw [Function.update_same]
      exact ⟨rfl, fun hdd => hfresh hdd⟩
    · rw [Function.update_noteq e] at hv' ⊢
      exact hc hd h' hv'

theorem load_miss_spec (ll ll0 : ll_disk) (i : Nat) (hf : ll.flavor = .disk)
    (hc : cache_ok ll) (hit : ¬ ((ll.ie_cache (hash_index i)).valid = true ∧
        (ll.ie_cache (hash_index i)).index = i))
    (hclean : (ll.ie_cache (hash_index i)).valid = true →
      (ll.ie_cache (hash_index i)).dirty = false)
    (h0 : same_core ll0 ll) (hv0 : ie_view ll = ie_view ll0) :
    (∀ ll' ie, load_miss ll i = .ok (ll', ie) →
      ie_view ll0 i = some ie ∧ same_core ll0 ll' ∧ ie_view ll' = ie_view ll0 ∧ cache_ok ll') ∧
    (∀ ie, ie_view ll0 i = some ie → ∃ ll', load_miss ll i = .ok (ll', ie)) ∧
    (ie_view ll0 i = none → load_miss ll i = .error (-ENODATA)) := by
  have hview : ie_view ll0 i = ll.bitmap_tree.vals i := by
    rw [← hv0, ie_view_disk _ _ hf, if_neg hit]
  unfold load_miss dm_btree_lookup
  cases hv : ll.bitmap_tree.vals i with
  | none =>
    refine ⟨fun ll' ie h => by simp at h, fun ie h => ?_, fun _ => rfl⟩
    rw [hview, hv] at h
    exact absurd h (by simp)
  | some v =>
    obtain ⟨f1, f2, f3⟩ := fill_spec ll i v false hf hc hclean (fun _ => hv)
    refine ⟨fun ll' ie h => ?_, fun ie h => ?_, fun h => ?_⟩
    · simp only [Except.ok.injEq, Prod.mk.injEq] at h
      obtain ⟨h1, h2⟩ := h
      subst h2
      rw [← h1]
      refine ⟨by rw [hview, hv], same_core_trans h0 f1, ?_, f3⟩
      rw [f2, hv0]
      funext j
      by_cases hj : j = i
      · subst hj; rw [Function.update_same, hview, hv]
      · rw [Function.update_noteq hj]
    · rw [hview, hv] at h
      simp only [Option.some.injEq] at h
      subst h
      exact ⟨_, rfl⟩
    · rw [hview, hv] at h
      exact absurd h (by simp)

theorem load_ie_spec (ll : ll_disk) (i : Nat) (hc : cache_ok ll) :
    (∀ ll' ie, load_ie ll i = .ok (ll', ie) →
      ie_view ll i = some ie ∧ same_core ll ll' ∧ ie_view ll' = ie_view ll ∧ cache_ok ll') ∧
    (∀ ie, ie_view ll i = some ie → ∃ ll', load_ie ll i = .ok (ll', ie)) ∧
    (ie_view ll i = none → load_ie ll i = .error (-ENODATA)) := by
  unfold load_ie
  cases hf : ll.flavor with
  | metadata =>
    simp only [metadata_ll_load_ie]
    rw [ie_view_metadata _ _ hf]
    refine ⟨fun ll' ie h => ?_, fun ie h => ?_, fun h => absurd h (by simp)⟩
    · simp only [Except.ok.injEq, Prod.mk.injEq] at h
      obtain ⟨h1, h2⟩ := h
      subst h1
      exact ⟨by rw [h2], same_core_refl _, rfl, hc⟩
    · simp only [Option.some.injEq] at h
      exact ⟨ll, by rw [h]⟩
  | disk =>
    simp only []
    rw [disk_ll_load_ie_eq]
    by_cases hit : (ll.ie_cache (hash_index i)).valid = true ∧
        (ll.ie_cache (hash_index i)).index = i
    · rw [if_pos hit, ie_view_disk _ _ hf, if_pos hit]
      refine ⟨fun ll' ie h => ?_, fun ie h => ?_, fun h => absurd h (by simp)⟩
      · simp only [Except.ok.injEq, Prod.mk.injEq] at h
        obtain ⟨h1, h2⟩ := h
        subst h1
        exact ⟨by rw [h2], same_core_refl _, rfl, hc⟩
      · simp only [Option.some.injEq] at h
        exact ⟨ll, by rw [h]⟩
    · rw [if_neg hit]
      obtain ⟨e1, e2, e3, e4, e5, e6, e7, e8⟩ := after_evict_spec ll (hash_index i) hf hc
      have hfl : (after_evict ll (hash_index i)).flavor = .disk := e1.2.1.trans hf
      have hit' : ¬ (((after_evict ll (hash_index i)).ie_cache (hash_index i)).valid = true ∧
          ((after_evict ll (hash_index i)).ie_cache (hash_index i)).index = i) := by
        rw [e4, e5]; exact hit
      exact load_miss_spec (after_evict ll (hash_index i)) ll i hfl e3 hit' e7 e1 e2

theorem load_ie_ok (ll ll' : ll_disk) (i : Nat) (ie : disk_index_entry) (hc : cache_ok ll)
    (h : load_ie ll i = .ok (ll', ie)) :
    ie_view ll i = some ie ∧ same_core ll ll' ∧ ie_view ll' = ie_view ll ∧ cache_ok ll' :=
  (load_ie_spec ll i hc).1 ll' ie h

theorem load_ie_some (ll : ll_disk) (i : Nat) (ie : disk_index_entry) (hc : cache_ok ll)
    (h : ie_view ll i = some ie) : ∃ ll', load_ie ll i = .ok (ll', ie) :=
  (load_ie_spec ll i hc).2.1 ie h

theorem load_ie_none (ll : ll_disk) (i : Nat) (hc : cache_ok ll) (h : ie_view ll i = none) :
    load_ie ll i = .error (-ENODATA) :=
  (load_ie_spec ll i hc).2.2 h

theorem save_ie_ok (ll : ll_disk) (i : Nat) (ie : disk_index_entry) (hc : cache_ok ll) :
    ∃ ll', save_ie ll i ie = .ok ll' ∧ same_core ll ll' ∧
      ie_view ll' = Function.update (ie_view ll) i (some ie) ∧ cache_ok ll' := by
  unfold save_ie
  cases hf : ll.flavor with
  | metadata =>
    refine ⟨metadata_ll_save_ie_state ll i ie, rfl, ⟨rfl, rfl, rfl, rfl, rfl, rfl⟩, ?_, ?_⟩
    · funext j
      rw [ie_view_metadata _ _ (show (metadata_ll_save_ie_state ll i ie).flavor = .metadata from hf)]
      simp only [metadata_ll_save_ie_state]
      by_cases hj : j = i
      · subst hj; simp
      · rw [Function.update_noteq hj, Function.update_noteq hj, ie_view_metadata _ _ hf]
    · intro hd
      have : ll.flavor = .disk := hd
      rw [hf] at this
      exact absurd this (by decide)
  | disk =>
    simp only []
    rw [disk_ll_save_ie_eq]
    by_cases hit : (ll.ie_cache (hash_index i)).valid = true ∧
        (ll.ie_cache (hash_index i)).index = i
    · rw [if_pos hit]
      refine ⟨_, rfl, ⟨rfl, rfl, rfl, rfl, rfl, rfl⟩, ?_, ?_⟩
      · funext j
        rw [ie_view_disk _ _ (show ({ ll with
          bitmap_index_changed := true
          ie_cache := Function.update ll.ie_cache (hash_index i)
            { ll.ie_cache (hash_index i) with ie := ie, dirty := true } } : ll_disk).flavor
              = .disk from hf)]
        simp only []
        by_cases hj : j = i
        · subst hj; simp [hit.1, hit.2]
        · rw [Function.update_noteq hj, ie_view_disk _ _ hf]
          by_cases hh : hash_index j = hash_index i
          · rw [hh, Function.update_same]
            have : ¬ ((ll.ie_cache (hash_index i)).index = j) := by
              rw [hit.2]; exact fun e => hj e.symm
            simp [this]
          · rw [Function.update_noteq hh]
      · intro _ h' hv'
        simp only [] at hv' ⊢
        by_cases e : h' = hash_index i
        · subst e
          rw [Function.update_same]
          simp only []
          exact ⟨(hc hf _ hit.1).1, fun hdd => absurd hdd (by simp)⟩
        · rw [Function.update_noteq e] at hv' ⊢
          exact hc hf h' hv'
    · rw [if_neg hit]
      have hc0 : cache_ok { ll with bitmap_index_changed := true } := hc
      have hf0 : ({ ll with bitmap_index_changed := true } : ll_disk).flavor = .disk := hf
      obtain ⟨e1, e2, e3, e4, e5, e6, e7, e8⟩ :=
        after_evict_spec { ll with bitmap_index_changed := true } (hash_index i) hf0 hc0
      have hfl : (after_evict { ll with bitmap_index_changed := true } (hash_index i)).flavor
          = .disk := e1.2.1.trans hf0
      obtain ⟨f1, f2, f3⟩ := fill_spec
        (after_evict { ll with bitmap_index_changed := true } (hash_index i)) i ie true hfl e3 e7
        (fun hdd => absurd hdd (by simp))
      refine ⟨_, rfl, ?_, ?_, f3⟩
      · exact same_core_trans (a := ll) ⟨rfl, rfl, rfl, rfl, rfl, rfl⟩ (same_core_trans e1 f1)
      · rw [f2, e2]
        rfl

theorem ensure_bitmap_eq (ll : ll_disk) (ic : inc_context) (h : ic_ok ic) :
    ensure_bitmap ll ic = ({ ic with bitmap_block := some ic.ie_disk.blocknr }, ic.ie_disk.blocknr) := by
  unfold ensure_bitmap
  rcases h with h | h
  · rw [h]
  · rw [h]
    have : ic = { ic with bitmap_block := some ic.ie_disk.blocknr } := by
      cases ic; simp_all
    rw [← this]

theorem with_effect_mk (ll : ll_disk) (L : Nat) (data : Nat → Nat) (nalloc : Nat) :
    ({ ll with tm := tm_write ll.tm L data, nr_allocated := nalloc } : ll_disk)
      = with_effect ll L data ll.ref_count_tree.vals nalloc := rfl

theorem with_effect_mk2 (ll : ll_disk) (L : Nat) (data : Nat → Nat) :
    ({ ll with tm := tm_write ll.tm L data } : ll_disk)
      = with_effect ll L data ll.ref_count_tree.vals ll.nr_allocated := rfl

theorem with_effect_mk3 (ll : ll_disk) (L : Nat) (data : Nat → Nat) (b v : Nat) :
    ({ ll with tm := tm_write ll.tm L data,
               ref_count_tree := dm_btree_insert ll.ref_count_tree b v } : ll_disk)
      = with_effect ll L data (Function.update ll.ref_count_tree.vals b (some v)) ll.nr_allocated := rfl

theorem with_effect_same_data (ll : ll_disk) (L : Nat) (vals : Nat → Option Nat) (nalloc : Nat) :
    with_effect ll L (ll.tm.data L) vals nalloc =
      { ll with ref_count_tree := { ll.ref_count_tree with vals := vals }, nr_allocated := nalloc } := by
  simp [with_effect, tm_write, Function.update_eq_self]

/-! ## The loops of `sm_ll_inc_bitmap` and `sm_ll_dec_bitmap` -/

theorem inc_overflow_spec (ll : ll_disk) (b : Nat) (ic : inc_context) :
    (ll.ref_count_tree.vals b = none ∧ sm_ll_inc_overflow ll b ic = .error (-EINVAL)) ∨
    (∃ v ic1, ll.ref_count_tree.vals b = some v ∧
      sm_ll_inc_overflow ll b ic =
        .ok ({ ll with ref_count_tree :=
                { ll.ref_count_tree with
                  vals := Function.update ll.ref_count_tree.vals b (some ((v + 1) % 2 ^ 32)) } }, ic1) ∧
      ic1.ie_disk = ic.ie_disk ∧ (ic1.bitmap_block = none ∨ ic1.bitmap_block = ic.bitmap_block)) := by
  have hun : ∀ ic0 : inc_context,
      (ll.ref_count_tree.vals b = none ∧ __sm_ll_inc_overflow ll b ic0 = .error (-EINVAL)) ∨
      (∃ v, ll.ref_count_tree.vals b = some v ∧
        __sm_ll_inc_overflow ll b ic0 =
          .ok ({ ll with ref_count_tree :=
                  { ll.ref_count_tree with
                    vals := Function.update ll.ref_count_tree.vals b (some ((v + 1) % 2 ^ 32)) } },
               { reset_inc_context ll ic0 with
                  overflow_leaf := some (btree_get_overwrite_leaf ll.ref_count_tree b) })) := by
    intro ic0
    unfold __sm_ll_inc_overflow
    cases hv : ll.ref_count_tree.vals b with
    | none => left; simp [contains_key, hv]
    | some v =>
      right
      refine ⟨v, rfl, ?_⟩
      simp [contains_key, hv, btree_get_overwrite_leaf, value_ptr_get, value_ptr_set]
  have hfin : (ll.ref_count_tree.vals b = none ∧ __sm_ll_inc_overflow ll b ic = .error (-EINVAL)) ∨
      (∃ v ic1, ll.ref_count_tree.vals b = some v ∧
        __sm_ll_inc_overflow ll b ic =
          .ok ({ ll with ref_count_tree :=
                  { ll.ref_count_tree with
                    vals := Function.update ll.ref_count_tree.vals b (some ((v + 1) % 2 ^ 32)) } }, ic1) ∧
        ic1.ie_disk = ic.ie_disk ∧ (ic1.bitmap_block = none ∨ ic1.bitmap_block = ic.bitmap_block)) := by
    rcases hun ic with h | ⟨v, h1, h2⟩
    · exact Or.inl h
    · exact Or.inr ⟨v, _, h1, h2, rfl, Or.inl rfl⟩
  unfold sm_ll_inc_overflow
  cases hl : ic.overflow_leaf with
  | none => exact hfin
  | some n =>
    simp only []
    by_cases hck : contains_key ll.ref_count_tree n b = true
    · rw [if_pos hck]
      right
      unfold contains_key at hck
      cases hv : ll.ref_count_tree.vals b with
      | none => simp [hv] at hck
      | some v =>
        exact ⟨v, ic, rfl, by simp [value_ptr_get, value_ptr_set, hv], rfl, Or.inr rfl⟩
    · rw [if_neg hck]
      exact hfin

theorem ic_ok_of_locked (ie : disk_index_entry) (ol : Option Nat) :
    ic_ok { ie_disk := ie, bitmap_block := some ie.blocknr, overflow_leaf := ol } := Or.inr rfl

/-- One iteration of the loop of `sm_ll_inc_bitmap`. -/
theorem inc_step (ll : ll_disk) (b bit : Nat) (na : Int) (ic : inc_context) (hic : ic_ok ic)
    (hw : words_ok (ll.tm.data ic.ie_disk.blocknr)) :
    (sm_lookup_bitmap (ll.tm.data ic.ie_disk.blocknr) bit = 3 ∧ ll.ref_count_tree.vals b = none ∧
      ∀ n, sm_ll_inc_bitmap_loop (n + 1) ll b bit na ic = .error (-EINVAL)) ∨
    (∃ data1 vals1 ic1,
      (∀ n, sm_ll_inc_bitmap_loop (n + 1) ll b bit na ic =
        sm_ll_inc_bitmap_loop n
          (with_effect ll ic.ie_disk.blocknr data1 vals1
            (if sm_lookup_bitmap (ll.tm.data ic.ie_disk.blocknr) bit = 0
              then (ll.nr_allocated + 1) % 2 ^ 64 else ll.nr_allocated))
          (b + 1) (bit + 1)
          (if sm_lookup_bitmap (ll.tm.data ic.ie_disk.blocknr) bit = 0
            then wrap_s32 (na + 1) else na) ic1) ∧
      words_ok data1 ∧
      (∀ j, sm_lookup_bitmap data1 j =
        if j = bit then min (sm_lookup_bitmap (ll.tm.data ic.ie_disk.blocknr) bit + 1) 3
        else sm_lookup_bitmap (ll.tm.data ic.ie_disk.blocknr) j) ∧
      (∀ k, k ≠ b → vals1 k = ll.ref_count_tree.vals k) ∧
      (sm_lookup_bitmap (ll.tm.data ic.ie_disk.blocknr) bit ≤ 1 →
        vals1 b = ll.ref_count_tree.vals b) ∧
      (sm_lookup_bitmap (ll.tm.data ic.ie_disk.blocknr) bit = 2 → vals1 b = some 3) ∧
      (sm_lookup_bitmap (ll.tm.data ic.ie_disk.blocknr) bit = 3 →
        ∃ v, ll.ref_count_tree.vals b = some v ∧ vals1 b = some ((v + 1) % 2 ^ 32)) ∧
      ic_ok ic1 ∧ ic1.ie_disk.blocknr = ic.ie_disk.blocknr ∧
      ic1.ie_disk.nr_free =
        (if sm_lookup_bitmap (ll.tm.data ic.ie_disk.blocknr) bit = 0
          then (ic.ie_disk.nr_free + (2 ^ 32 - 1)) % 2 ^ 32 else ic.ie_disk.nr_free) ∧
      ic1.ie_disk.none_free_before =
        (if sm_lookup_bitmap (ll.tm.data ic.ie_disk.blocknr) bit = 0 ∧
            ic.ie_disk.none_free_before = bit
          then (bit + 1) % 2 ^ 32 else ic.ie_disk.none_free_before)) := by
  have hlt := sm_lookup_bitmap_lt (ll.tm.data ic.ie_disk.blocknr) bit
  have hset : ∀ v, v < 4 → ∀ j, sm_lookup_bitmap
      (sm_set_bitmap (ll.tm.data ic.ie_disk.blocknr) bit v) j =
        if j = bit then v else sm_lookup_bitmap (ll.tm.data ic.ie_disk.blocknr) j := by
    intro v hv j
    by_cases hj : j = bit
    · rw [if_pos hj, hj, sm_lookup_set_same _ _ _ hw, Nat.mod_eq_of_lt hv]
    · rw [if_neg hj, sm_lookup_set_other _ _ _ _ hw hj]
  rcases Nat.lt_or_ge (sm_lookup_bitmap (ll.tm.data ic.ie_disk.blocknr) bit) 3 with h3 | h3
  · right
    have hc : sm_lookup_bitmap (ll.tm.data ic.ie_disk.blocknr) bit = 0 ∨
        sm_lookup_bitmap (ll.tm.data ic.ie_disk.blocknr) bit = 1 ∨
        sm_lookup_bitmap (ll.tm.data ic.ie_disk.blocknr) bit = 2 := by omega
    rcases hc with hc | hc | hc
    · refine ⟨sm_set_bitmap (ll.tm.data ic.ie_disk.blocknr) bit 1, ll.ref_count_tree.vals,
        { ie_disk :=
            if ic.ie_disk.none_free_before = bit then
              { blocknr := ic.ie_disk.blocknr,
                nr_free := (ic.ie_disk.nr_free + (2 ^ 32 - 1)) % 2 ^ 32,
                none_free_before := (bit + 1) % 2 ^ 32 }
            else
              { blocknr := ic.ie_disk.blocknr,
                nr_free := (ic.ie_disk.nr_free + (2 ^ 32 - 1)) % 2 ^ 32,
                none_free_before := ic.ie_disk.none_free_before },
          bitmap_block := some ic.ie_disk.blocknr, overflow_leaf := ic.overflow_leaf },
        ?_, sm_set_bitmap_words_ok _ _ _ hw, ?_, fun _ _ => rfl, fun _ => rfl, ?_, ?_, ?_, ?_, ?_, ?_⟩
      · intro n
        rw [sm_ll_inc_bitmap_loop, ensure_bitmap_eq _ _ hic]
        simp only [hc, if_true]
        rw [with_effect_mk]
      · intro j
        rw [hset 1 (by norm_num), hc]
        by_cases hj : j = bit
        · simp only [hj, if_true]; decide
        · simp only [hj, if_false]
      · intro h; omega
      · intro h; omega
      · by_cases hn : ic.ie_disk.none_free_before = bit
        · simp only [hn, if_true]; exact ic_ok_of_locked _ _
        · simp only [hn, if_false]; exact ic_ok_of_locked _ _
      · by_cases hn : ic.ie_disk.none_free_before = bit
        · simp only [hn, if_true]
        · simp only [hn, if_false]
      · by_cases hn : ic.ie_disk.none_free_before = bit
        · simp only [hn, hc, if_true]
        · simp only [hn, hc, if_true, if_false]
      · by_cases hn : ic.ie_disk.none_free_before = bit
        · simp only [hn, hc, if_true, and_self]
        · simp only [hn, hc, if_false, and_false]
    · refine ⟨sm_set_bitmap (ll.tm.data ic.ie_disk.blocknr) bit 2, ll.ref_count_tree.vals,
        { ic with bitmap_block := some ic.ie_disk.blocknr },
        ?_, sm_set_bitmap_words_ok _ _ _ hw, ?_, fun _ _ => rfl, fun _ => rfl, ?_, ?_,
        Or.inr rfl, rfl, ?_, ?_⟩
      · intro n
        rw [sm_ll_inc_bitmap_loop, ensure_bitmap_eq _ _ hic]
        simp only [hc, one_ne_zero, if_false]
        rw [with_effect_mk2]
      · intro j
        rw [hset 2 (by norm_num), hc]
        by_cases hj : j = bit
        · simp only [hj, if_true]; decide
        · simp only [hj, if_false]
      · intro h; omega
      · intro h; omega
      · simp only [hc, one_ne_zero, if_false]
      · simp only [hc, one_ne_zero, if_false, false_and]
    · refine ⟨sm_set_bitmap (ll.tm.data ic.ie_disk.blocknr) bit 3,
        Function.update ll.ref_count_tree.vals b (some 3),
        reset_inc_context ll { ic with bitmap_block := some ic.ie_disk.blocknr },
        ?_, sm_set_bitmap_words_ok _ _ _ hw, ?_, fun k hk => Function.update_noteq hk _ _,
        ?_, fun _ => Function.update_same _ _ _, ?_, Or.inl rfl, rfl, ?_, ?_⟩
      · intro n
        rw [sm_ll_inc_bitmap_loop, ensure_bitmap_eq _ _ hic]
        simp only [hc, OfNat.ofNat_ne_zero, if_false, reset_inc_context]
        rw [with_effect_mk3]
      · intro j
        rw [hset 3 (by norm_num), hc]
        by_cases hj : j = bit
        · simp only [hj, if_true]; decide
        · simp only [hj, if_false]
      · intro h; omega
      · intro h; omega
      · simp only [hc, OfNat.ofNat_ne_zero, if_false, reset_inc_context, init_inc_context]
      · simp only [hc, OfNat.ofNat_ne_zero, if_false, false_and, reset_inc_context,
          init_inc_context]
  · have hc : sm_lookup_bitmap (ll.tm.data ic.ie_disk.blocknr) bit = 3 := by omega
    rcases inc_overflow_spec ll b { ic with bitmap_block := some ic.ie_disk.blocknr } with
      ⟨hv, he⟩ | ⟨v, ic1, hv, he, hie, hbb⟩
    · left
      refine ⟨hc, hv, fun n => ?_⟩
      rw [sm_ll_inc_bitmap_loop, ensure_bitmap_eq _ _ hic]
      simp only [hc, he]
    · right
      refine ⟨ll.tm.data ic.ie_disk.blocknr,
        Function.update ll.ref_count_tree.vals b (some ((v + 1) % 2 ^ 32)), ic1,
        ?_, hw, ?_, fun k hk => Function.update_noteq hk _ _, ?_, ?_,
        fun _ => ⟨v, hv, Function.update_same _ _ _⟩, ?_, ?_, ?_, ?_⟩
      · intro n
        rw [sm_ll_inc_bitmap_loop, ensure_bitmap_eq _ _ hic]
        simp only [hc, he, OfNat.ofNat_ne_zero, if_false]
        rw [with_effect_same_data]
      · intro j
        by_cases hj : j = bit
        · simp only [hj, if_true, hc]; decide
        · simp only [hj, if_false]
      · intro h; omega
      · intro h; omega
      · rcases hbb with h | h
        · exact Or.inl h
        · right; rw [h, hie]
      · rw [hie]
      · rw [hie]; simp only [hc, OfNat.ofNat_ne_zero, if_false]
      · rw [hie]; simp only [hc, OfNat.ofNat_ne_zero, if_false, false_and]

theorem count_range_congr (p q : Nat → Bool) : ∀ n b,
    (∀ x, b ≤ x → x < b + n → p x = q x) → count_range p b n = count_range q b n := by
  intro n
  induction n with
  | zero => intro b _; rfl
  | succ n ih =>
    intro b h
    simp only [count_range]
    rw [h b (le_refl _) (by omega), ih (b + 1) (fun x h1 h2 => h x (by omega) (by omega))]

theorem count_range_le (p : Nat → Bool) : ∀ n b, count_range p b n ≤ n := by
  intro n
  induction n with
  | zero => intro b; exact le_refl _
  | succ n ih =>
    intro b
    simp only [count_range]
    have := ih (b + 1)
    split <;> omega

theorem count_range_add (p : Nat → Bool) : ∀ m n b,
    count_range p b (m + n) = count_range p b m + count_range p (b + m) n := by
  intro m
  induction m with
  | zero => intro n b; simp [count_range]
  | succ m ih =>
    intro n b
    rw [show m + 1 + n = (m + n) + 1 by omega]
    simp only [count_range]
    rw [ih n (b + 1), show b + 1 + m = b + (m + 1) by omega]
    omega

theorem count_range_pos (p : Nat → Bool) : ∀ n b x, b ≤ x → x < b + n → p x = true →
    0 < count_range p b n := by
  intro n
  induction n with
  | zero => intro b x h1 h2 _; omega
  | succ n ih =>
    intro b x h1 h2 hp
    simp only [count_range]
    by_cases hx : x = b
    · rw [← hx, hp]; simp
    · have := ih (b + 1) x (by omega) (by omega) hp
      omega

theorem count_range_eq_zero (p : Nat → Bool) (n b : Nat)
    (h : ∀ x, b ≤ x → x < b + n → p x = false) : count_range p b n = 0 := by
  rw [count_range_congr p (fun _ => false) n b h]
  clear h
  induction n generalizing b with
  | zero => rfl
  | succ n ih => simp only [count_range]; rw [ih]; simp

theorem count_range_eq_len (p : Nat → Bool) (n b : Nat)
    (h : ∀ x, b ≤ x → x < b + n → p x = true) : count_range p b n = n := by
  rw [count_range_congr p (fun _ => true) n b h]
  clear h
  induction n generalizing b with
  | zero => rfl
  | succ n ih => simp only [count_range]; rw [ih]; simp; omega

/-- Changing `p` at one point of the range moves the count by that point. -/
theorem count_range_update (p q : Nat → Bool) : ∀ n b x, b ≤ x → x < b + n →
    (∀ y, y ≠ x → q y = p y) →
    count_range q b n + (if p x = true then 1 else 0)
      = count_range p b n + (if q x = true then 1 else 0) := by
  intro n
  induction n with
  | zero => intro b x h1 h2 _; omega
  | succ n ih =>
    intro b x h1 h2 h
    simp only [count_range]
    by_cases hx : x = b
    · subst hx
      rw [count_range_congr q p n (x + 1) (fun y hy _ => h y (by omega))]
      omega
    · rw [h b (fun e => hx e.symm)]
      have := ih (b + 1) x (by omega) (by omega) h
      omega

theorem wrap_s32_idem (x : Int) : wrap_s32 (wrap_s32 x) = wrap_s32 x := by
  unfold wrap_s32; omega

theorem wrap_s32_add (x y : Int) : wrap_s32 (wrap_s32 x + y) = wrap_s32 (x + y) := by
  unfold wrap_s32; omega

theorem wrap_s32_of_range (x : Int) (h1 : -(2 ^ 31) ≤ x) (h2 : x < 2 ^ 31) : wrap_s32 x = x := by
  unfold wrap_s32; omega

@[simp] theorem with_effect_data (ll : ll_disk) (L : Nat) (d : Nat → Nat)
    (v : Nat → Option Nat) (a : Nat) : (with_effect ll L d v a).tm.data L = d := by
  simp [with_effect, tm_write]

theorem with_effect_data_other (ll : ll_disk) (L L' : Nat) (d : Nat → Nat)
    (v : Nat → Option Nat) (a : Nat) (h : L' ≠ L) :
    (with_effect ll L d v a).tm.data L' = ll.tm.data L' := by
  simp [with_effect, tm_write, Function.update_noteq h]

@[simp] theorem with_effect_vals (ll : ll_disk) (L : Nat) (d : Nat → Nat)
    (v : Nat → Option Nat) (a : Nat) : (with_effect ll L d v a).ref_count_tree.vals = v := rfl

@[simp] theorem with_effect_nalloc (ll : ll_disk) (L : Nat) (d : Nat → Nat)
    (v : Nat → Option Nat) (a : Nat) : (with_effect ll L d v a).nr_allocated = a := rfl

theorem with_effect_twice (ll : ll_disk) (L : Nat) (d1 d2 : Nat → Nat)
    (v1 v2 : Nat → Option Nat) (a1 a2 : Nat) :
    with_effect (with_effect ll L d1 v1 a1) L d2 v2 a2 = with_effect ll L d2 v2 a2 := by
  simp [with_effect, tm_write]

theorem with_effect_frame (ll : ll_disk) (L : Nat) (d : Nat → Nat) (v : Nat → Option Nat)
    (a : Nat) :
    with_effect ll L d v a = with_effect ll L ((with_effect ll L d v a).tm.data L)
      (with_effect ll L d v a).ref_count_tree.vals (with_effect ll L d v a).nr_allocated := by
  rw [with_effect_data, with_effect_vals, with_effect_nalloc]

theorem inc_loop_spec : ∀ (n : Nat) (ll : ll_disk) (b bit : Nat) (na : Int) (ic : inc_context),
    ic_ok ic → words_ok (ll.tm.data ic.ie_disk.blocknr) → wrap_s32 na = na →
    ll.nr_allocated < 2 ^ 64 →
    ((∀ j, j < n → sm_lookup_bitmap (ll.tm.data ic.ie_disk.blocknr) (bit + j) = 3 →
        ll.ref_count_tree.vals (b + j) ≠ none) →
      ∃ r, sm_ll_inc_bitmap_loop n ll b bit na ic = .ok r) ∧
    ((∃ j, j < n ∧ sm_lookup_bitmap (ll.tm.data ic.ie_disk.blocknr) (bit + j) = 3 ∧
        ll.ref_count_tree.vals (b + j) = none) →
      sm_ll_inc_bitmap_loop n ll b bit na ic = .error (-EINVAL)) ∧
    (∀ ll' na' b' ic', sm_ll_inc_bitmap_loop n ll b bit na ic = .ok (ll', na', b', ic') →
      inc_post ll b bit n na ic ll' na' b' ic') := by
  intro n
  induction n with
  | zero =>
    intro ll b bit na ic hic hw hna hal
    refine ⟨fun _ => ⟨_, rfl⟩, fun ⟨j, hj, _⟩ => absurd hj (Nat.not_lt_zero _), ?_⟩
    intro ll' na' b' ic' h
    simp only [sm_ll_inc_bitmap_loop, Except.ok.injEq, Prod.mk.injEq] at h
    obtain ⟨h1, h2, h3, h4⟩ := h
    subst h1 h2 h3 h4
    refine ⟨?_, hw, ?_, fun _ _ => rfl, fun j hj => absurd hj (Nat.not_lt_zero _),
      fun j hj => absurd hj (Nat.not_lt_zero _), fun j hj => absurd hj (Nat.not_lt_zero _),
      ?_, ?_, rfl, hic, rfl, ?_, fun h => h, fun B h _ => h⟩
    · simp [with_effect, tm_write, Function.update_eq_self]
    · intro j
      have : ¬ (bit ≤ j ∧ j < bit + 0) := by omega
      simp only [this, if_false]
    · simp only [count_range, Nat.add_zero]
      exact (Nat.mod_eq_of_lt hal).symm
    · simp only [count_range]
      rw [show na + ((0 : Nat) : Int) = na by simp, hna]
    · intro _ _
      simp only [count_range, Nat.sub_zero]
  | succ n ih =>
    intro ll b bit na ic hic hw hna hal
    rcases inc_step ll b bit na ic hic hw with ⟨hc3, hvn, herr⟩ | ⟨data1, vals1, ic1, hloop, hw1,
      hcell1, hvo1, hvl1, hv21, hv31, hic1, hbl1, hnf1, hnfb1⟩
    · refine ⟨fun h => absurd hvn (h 0 (by omega) hc3), fun _ => herr n, ?_⟩
      intro ll' na' b' ic' h
      rw [herr n] at h
      exact absurd h (by simp)
    · rw [hloop n]
      have hna1 : wrap_s32 (if sm_lookup_bitmap (ll.tm.data ic.ie_disk.blocknr) bit = 0
          then wrap_s32 (na + 1) else na) =
          (if sm_lookup_bitmap (ll.tm.data ic.ie_disk.blocknr) bit = 0
            then wrap_s32 (na + 1) else na) := by
        split
        · exact wrap_s32_idem _
        · exact hna
      have hal1 : (if sm_lookup_bitmap (ll.tm.data ic.ie_disk.blocknr) bit = 0
          then (ll.nr_allocated + 1) % 2 ^ 64 else ll.nr_allocated) < 2 ^ 64 := by
        split
        · exact Nat.mod_lt _ (by norm_num)
        · exact hal
      have hw1' : words_ok ((with_effect ll ic.ie_disk.blocknr data1 vals1
          (if sm_lookup_bitmap (ll.tm.data ic.ie_disk.blocknr) bit = 0
            then (ll.nr_allocated + 1) % 2 ^ 64 else ll.nr_allocated)).tm.data
              ic1.ie_disk.blocknr) := by
        rw [hbl1, with_effect_data]; exact hw1
      obtain ⟨ihA, ihE, ihB⟩ := ih (with_effect ll ic.ie_disk.blocknr data1 vals1
          (if sm_lookup_bitmap (ll.tm.data ic.ie_disk.blocknr) bit = 0
            then (ll.nr_allocated + 1) % 2 ^ 64 else ll.nr_allocated)) (b + 1) (bit + 1)
          (if sm_lookup_bitmap (ll.tm.data ic.ie_disk.blocknr) bit = 0
            then wrap_s32 (na + 1) else na) ic1 hic1 hw1' hna1 hal1
      rw [hbl1] at ihA ihE
      simp only [with_effect_data, with_effect_vals, with_effect_nalloc] at ihA ihE
      have hcell_far : ∀ j, bit + 1 ≤ j → sm_lookup_bitmap data1 j
          = sm_lookup_bitmap (ll.tm.data ic.ie_disk.blocknr) j := by
        intro j hj
        rw [hcell1, if_neg (by omega)]
      have hZ : count_range (fun j => sm_lookup_bitmap data1 j == 0) (bit + 1) n
          = count_range (fun j => sm_lookup_bitmap (ll.tm.data ic.ie_disk.blocknr) j == 0)
              (bit + 1) n := by
        apply count_range_congr
        intro x h1 _
        simp only [hcell_far x h1]
      refine ⟨?_, ?_, ?_⟩
      · intro h
        apply ihA
        intro j hj hc
        rw [show bit + 1 + j = bit + (j + 1) by omega, hcell_far _ (by omega)] at hc
        rw [show b + 1 + j = b + (j + 1) by omega, hvo1 _ (by omega)]
        exact h (j + 1) (by omega) hc
      · rintro ⟨j, hj, hc, hv⟩
        rcases j with _ | j
        · simp only [Nat.add_zero] at hc hv
          obtain ⟨v, hv', _⟩ := hv31 hc
          rw [hv] at hv'
          exact absurd hv' (by simp)
        · apply ihE
          refine ⟨j, by omega, ?_, ?_⟩
          · rw [show bit + 1 + j = bit + (j + 1) by omega, hcell_far _ (by omega)]; exact hc
          · rw [show b + 1 + j = b + (j + 1) by omega, hvo1 _ (by omega)]; exact hv
      · intro ll' na' b' ic' h
        have P := ihB ll' na' b' ic' h
        have Pframe := P.frame
        have Pwords := P.words
        have Pcells := P.cells
        have Pvo := P.vals_out
        have Pvl := P.vals_low
        have Pv2 := P.vals_two
        have Pv3 := P.vals_three
        have Pna := P.nalloc
        have Pnr := P.nr_alloc
        have Pnf := P.nr_free
        have Pnfb := P.nfb_ok
        have Pnfl := P.nfb_le
        rw [hbl1] at Pframe Pwords Pcells Pvl Pv2 Pv3 Pna Pnr Pnf Pnfb
        simp only [with_effect_data, with_effect_vals, with_effect_nalloc,
          hZ] at Pcells Pvo Pvl Pv2 Pv3 Pna Pnr Pnf Pnfb
        rw [with_effect_twice] at Pframe
        have hcnt : count_range
            (fun j => sm_lookup_bitmap (ll.tm.data ic.ie_disk.blocknr) j == 0) bit (n + 1)
            = (if sm_lookup_bitmap (ll.tm.data ic.ie_disk.blocknr) bit = 0 then 1 else 0) +
              count_range (fun j => sm_lookup_bitmap (ll.tm.data ic.ie_disk.blocknr) j == 0)
                (bit + 1) n := by
          simp only [count_range, beq_iff_eq]
        have hmin : min (sm_lookup_bitmap (ll.tm.data ic.ie_disk.blocknr) bit + 1) 3 ≠ 0 := by
          omega
        refine ⟨Pframe, Pwords, ?_, ?_, ?_, ?_, ?_, ?_, ?_, ?_, P.ic_ok', P.blocknr.trans hbl1,
          ?_, ?_, ?_⟩
        · intro j
          rw [Pcells j]
          by_cases h1 : j = bit
          · subst h1
            rw [if_neg (by omega), if_pos (by omega), hcell1, if_pos rfl]
          · by_cases h2 : bit + 1 ≤ j ∧ j < bit + 1 + n
            · rw [if_pos h2, if_pos (by omega), hcell1, if_neg h1]
            · rw [if_neg h2, if_neg (by omega), hcell1, if_neg h1]
        · intro k hk
          rw [Pvo k (by omega), hvo1 k (by omega)]
        · intro j hj hc
          rcases j with _ | j
          · rw [Nat.add_zero] at hc ⊢
            rw [Pvo b (by omega), hvl1 hc]
          · have := Pvl j (by omega)
            rw [show bit + 1 + j = bit + (j + 1) by omega, hcell_far _ (by omega),
              show b + 1 + j = b + (j + 1) by omega, hvo1 _ (by omega)] at this
            exact this hc
        · intro j hj hc
          rcases j with _ | j
          · rw [Nat.add_zero] at hc ⊢
            rw [Pvo b (by omega), hv21 hc]
          · have := Pv2 j (by omega)
            rw [show bit + 1 + j = bit + (j + 1) by omega, hcell_far _ (by omega),
              show b + 1 + j = b + (j + 1) by omega] at this
            exact this hc
        · intro j hj hc
          rcases j with _ | j
          · rw [Nat.add_zero] at hc ⊢
            rw [Pvo b (by omega)]
            exact hv31 hc
          · have := Pv3 j (by omega)
            rw [show bit + 1 + j = bit + (j + 1) by omega, hcell_far _ (by omega),
              show b + 1 + j = b + (j + 1) by omega, hvo1 _ (by omega)] at this
            exact this hc
        · rw [Pna, hcnt]
          split <;> omega
        · rw [Pnr, hcnt]
          split
          · rw [wrap_s32_add]
            congr 1
            push_cast
            omega
          · congr 1
            push_cast
            omega
        · rw [P.new_b]; omega
        · intro h1 h2
          rw [hcnt] at h2 ⊢
          rw [hnf1] at Pnf
          by_cases hc0 : sm_lookup_bitmap (ll.tm.data ic.ie_disk.blocknr) bit = 0
          · simp only [hc0, if_true] at Pnf h2 ⊢
            rw [Pnf (Nat.mod_lt _ (by norm_num)) (by omega)]
            omega
          · simp only [hc0, if_false] at Pnf h2 ⊢
            rw [Pnf h1 (by omega)]
            omega
        · intro H
          apply Pnfb
          intro j hj
          rw [hcell1]
          by_cases h1 : j = bit
          · rw [if_pos h1]; exact hmin
          · rw [if_neg h1]
            apply H
            rw [hnfb1] at hj
            split at hj
            · have := Nat.mod_le (bit + 1) (2 ^ 32)
              omega
            · exact hj
        · intro B h1 h2
          apply Pnfl B _ (by omega)
          rw [hnfb1]
          split
          · have := Nat.mod_le (bit + 1) (2 ^ 32)
            omega
          · exact h1

theorem with_effect_vals_only (ll : ll_disk) (L : Nat) (data : Nat → Nat)
    (vals : Nat → Option Nat) :
    ({ ({ ll with ref_count_tree := { ll.ref_count_tree with vals := vals } } : ll_disk) with
        tm := tm_write ll.tm L data } : ll_disk)
      = with_effect ll L data vals ll.nr_allocated := rfl

theorem with_effect_mk4 (ll : ll_disk) (L : Nat) (data : Nat → Nat) (nalloc : Nat) :
    ({ ({ ll with tm := tm_write ll.tm L data } : ll_disk) with nr_allocated := nalloc } : ll_disk)
      = with_effect ll L data ll.ref_count_tree.vals nalloc := rfl

theorem dec_overflow_spec (ll : ll_disk) (b : Nat) (ic : inc_context) :
    (ll.ref_count_tree.vals b = none ∧ sm_ll_dec_overflow ll b ic = .error (-EINVAL)) ∨
    (∃ v vals1 ic1, ll.ref_count_tree.vals b = some v ∧
      sm_ll_dec_overflow ll b ic =
        .ok ({ ll with ref_count_tree := { ll.ref_count_tree with vals := vals1 } }, ic1, v) ∧
      (∀ k, k ≠ b → vals1 k = ll.ref_count_tree.vals k) ∧
      (v = 3 → vals1 b = none) ∧
      (3 < v → vals1 b = some ((v + (2 ^ 32 - 1)) % 2 ^ 32)) ∧
      ic1.ie_disk = ic.ie_disk ∧
      (ic1.bitmap_block = none ∨ ic1.bitmap_block = ic.bitmap_block)) := by
  have hdel : ∀ (ic0 : inc_context) v, ll.ref_count_tree.vals b = some v →
      __sm_ll_del_overflow ll b ic0 =
        .ok ({ ll with ref_count_tree :=
                { ll.ref_count_tree with vals := Function.update ll.ref_count_tree.vals b none } },
             reset_inc_context ll ic0) := by
    intro ic0 v hv
    simp only [__sm_ll_del_overflow, dm_btree_remove, hv]
  have hun : ∀ ic0 : inc_context,
      (ll.ref_count_tree.vals b = none ∧ __sm_ll_dec_overflow ll b ic0 = .error (-EINVAL)) ∨
      (∃ v vals1 ic1, ll.ref_count_tree.vals b = some v ∧
        __sm_ll_dec_overflow ll b ic0 =
          .ok ({ ll with ref_count_tree := { ll.ref_count_tree with vals := vals1 } }, ic1, v) ∧
        (∀ k, k ≠ b → vals1 k = ll.ref_count_tree.vals k) ∧
        (v = 3 → vals1 b = none) ∧
        (3 < v → vals1 b = some ((v + (2 ^ 32 - 1)) % 2 ^ 32)) ∧
        ic1.ie_disk = ic0.ie_disk ∧
        (ic1.bitmap_block = none ∨ ic1.bitmap_block = ic0.bitmap_block)) := by
    intro ic0
    unfold __sm_ll_dec_overflow
    cases hv : ll.ref_count_tree.vals b with
    | none => left; simp [contains_key, hv]
    | some v =>
      right
      have hck : contains_key ll.ref_count_tree (btree_get_overwrite_leaf ll.ref_count_tree b) b
          = true := by simp [contains_key, btree_get_overwrite_leaf, hv]
      have hget : value_ptr_get ll.ref_count_tree b = v := by simp [value_ptr_get, hv]
      simp only [hck, not_true_eq_false, if_false, hget]
      by_cases h3 : v = 3
      · rw [if_pos h3]
        refine ⟨v, Function.update ll.ref_count_tree.vals b none,
          reset_inc_context ll { reset_inc_context ll ic0 with
            overflow_leaf := some (btree_get_overwrite_leaf ll.ref_count_tree b) }, rfl, ?_,
          fun k hk => Function.update_noteq hk _ _, fun _ => Function.update_same _ _ _,
          fun h => by omega, rfl, Or.inl rfl⟩
        rw [hdel _ v hv]
      · rw [if_neg h3]
        exact ⟨v, Function.update ll.ref_count_tree.vals b (some ((v + (2 ^ 32 - 1)) % 2 ^ 32)),
          { reset_inc_context ll ic0 with
            overflow_leaf := some (btree_get_overwrite_leaf ll.ref_count_tree b) },
          rfl, rfl, fun k hk => Function.update_noteq hk _ _, fun h => absurd h h3,
          fun _ => Function.update_same _ _ _, rfl, Or.inl rfl⟩
  unfold sm_ll_dec_overflow
  cases hl : ic.overflow_leaf with
  | none => exact hun ic
  | some n =>
    simp only []
    by_cases hck : contains_key ll.ref_count_tree n b = true
    · rw [if_pos hck]
      right
      cases hv : ll.ref_count_tree.vals b with
      | none => simp [contains_key, hv] at hck
      | some v =>
        have hget : value_ptr_get ll.ref_count_tree b = v := by simp [value_ptr_get, hv]
        simp only [hget]
        by_cases h3 : v > 3
        · rw [if_pos h3]
          exact ⟨v, Function.update ll.ref_count_tree.vals b (some ((v + (2 ^ 32 - 1)) % 2 ^ 32)),
            ic, rfl, rfl, fun k hk => Function.update_noteq hk _ _, fun h => by omega,
            fun _ => Function.update_same _ _ _, rfl, Or.inr rfl⟩
        · rw [if_neg h3]
          refine ⟨v, Function.update ll.ref_count_tree.vals b none, reset_inc_context ll ic, rfl,
            ?_, fun k hk => Function.update_noteq hk _ _, fun _ => Function.update_same _ _ _,
            fun h => absurd h h3, rfl, Or.inl rfl⟩
          rw [hdel _ v hv]
    · rw [if_neg hck]
      exact hun ic

theorem dec_cell_one (v : Option Nat) : dec_cell 1 v = 0 := by simp [dec_cell]

theorem dec_cell_two (v : Option Nat) : dec_cell 2 v = 1 := by simp [dec_cell]

theorem dec_cell_three (v : Option Nat) : dec_cell 3 v = if v = some 3 then 2 else 3 := by
  simp [dec_cell]

theorem with_effect_flat (ll : ll_disk) (L : Nat) (data : Nat → Nat)
    (vals : Nat → Option Nat) (a : Nat) :
    ({ tm := tm_write ll.tm L data, flavor := ll.flavor, block_size := ll.block_size,
       entries_per_block := ll.entries_per_block, nr_blocks := ll.nr_blocks, nr_allocated := a,
       bitmap_tree := ll.bitmap_tree,
       ref_count_tree := { vals := vals, leaf := ll.ref_count_tree.leaf },
       bitmap_index_changed := ll.bitmap_index_changed, mi_le := ll.mi_le,
       ie_cache := ll.ie_cache } : ll_disk) = with_effect ll L data vals a := rfl

/-- One iteration of the loop of `sm_ll_dec_bitmap`. -/
theorem dec_step (ll : ll_disk) (b bit : Nat) (na : Int) (ic : inc_context) (hic : ic_ok ic)
    (hw : words_ok (ll.tm.data ic.ie_disk.blocknr)) :
    (sm_lookup_bitmap (ll.tm.data ic.ie_disk.blocknr) bit = 0 ∧
      ∀ n, sm_ll_dec_bitmap_loop (n + 1) ll b bit ic na = .error (-EINVAL)) ∨
    (sm_lookup_bitmap (ll.tm.data ic.ie_disk.blocknr) bit = 3 ∧ ll.ref_count_tree.vals b = none ∧
      ∀ n, sm_ll_dec_bitmap_loop (n + 1) ll b bit ic na = .error (-EINVAL)) ∨
    (sm_lookup_bitmap (ll.tm.data ic.ie_disk.blocknr) bit ≠ 0 ∧
     ∃ data1 vals1 ic1,
      (∀ n, sm_ll_dec_bitmap_loop (n + 1) ll b bit ic na =
        sm_ll_dec_bitmap_loop n
          (with_effect ll ic.ie_disk.blocknr data1 vals1
            (if sm_lookup_bitmap (ll.tm.data ic.ie_disk.blocknr) bit = 1
              then (ll.nr_allocated + (2 ^ 64 - 1)) % 2 ^ 64 else ll.nr_allocated))
          (b + 1) (bit + 1) ic1
          (if sm_lookup_bitmap (ll.tm.data ic.ie_disk.blocknr) bit = 1
            then wrap_s32 (na - 1) else na)) ∧
      words_ok data1 ∧
      (∀ j, sm_lookup_bitmap data1 j =
        if j = bit then dec_cell (sm_lookup_bitmap (ll.tm.data ic.ie_disk.blocknr) bit)
            (ll.ref_count_tree.vals b)
        else sm_lookup_bitmap (ll.tm.data ic.ie_disk.blocknr) j) ∧
      (∀ k, k ≠ b → vals1 k = ll.ref_count_tree.vals k) ∧
      (sm_lookup_bitmap (ll.tm.data ic.ie_disk.blocknr) bit ≤ 2 →
        vals1 b = ll.ref_count_tree.vals b) ∧
      (sm_lookup_bitmap (ll.tm.data ic.ie_disk.blocknr) bit = 3 →
        ∃ v, ll.ref_count_tree.vals b = some v ∧ (v = 3 → vals1 b = none) ∧
          (3 < v → vals1 b = some ((v + (2 ^ 32 - 1)) % 2 ^ 32))) ∧
      ic_ok ic1 ∧ ic1.ie_disk.blocknr = ic.ie_disk.blocknr ∧
      ic1.ie_disk.nr_free =
        (if sm_lookup_bitmap (ll.tm.data ic.ie_disk.blocknr) bit = 1
          then (ic.ie_disk.nr_free + 1) % 2 ^ 32 else ic.ie_disk.nr_free) ∧
      ic1.ie_disk.none_free_before =
        (if sm_lookup_bitmap (ll.tm.data ic.ie_disk.blocknr) bit = 1
          then min ic.ie_disk.none_free_before bit else ic.ie_disk.none_free_before)) := by
  have hlt := sm_lookup_bitmap_lt (ll.tm.data ic.ie_disk.blocknr) bit
  have hset : ∀ v, v < 4 → ∀ j, sm_lookup_bitmap
      (sm_set_bitmap (ll.tm.data ic.ie_disk.blocknr) bit v) j =
        if j = bit then v else sm_lookup_bitmap (ll.tm.data ic.ie_disk.blocknr) j := by
    intro v hv j
    by_cases hj : j = bit
    · rw [if_pos hj, hj, sm_lookup_set_same _ _ _ hw, Nat.mod_eq_of_lt hv]
    · rw [if_neg hj, sm_lookup_set_other _ _ _ _ hw hj]
  have hc : sm_lookup_bitmap (ll.tm.data ic.ie_disk.blocknr) bit = 0 ∨
      sm_lookup_bitmap (ll.tm.data ic.ie_disk.blocknr) bit = 1 ∨
      sm_lookup_bitmap (ll.tm.data ic.ie_disk.blocknr) bit = 2 ∨
      sm_lookup_bitmap (ll.tm.data ic.ie_disk.blocknr) bit = 3 := by omega
  rcases hc with hc | hc | hc | hc
  · left
    refine ⟨hc, fun n => ?_⟩
    rw [sm_ll_dec_bitmap_loop, ensure_bitmap_eq _ _ hic]
    simp only [hc]
  · right; right
    refine ⟨by omega, sm_set_bitmap (ll.tm.data ic.ie_disk.blocknr) bit 0, ll.ref_count_tree.vals,
      { ie_disk :=
          { blocknr := ic.ie_disk.blocknr,
            nr_free := (ic.ie_disk.nr_free + 1) % 2 ^ 32,
            none_free_before := min ic.ie_disk.none_free_before bit },
        bitmap_block := some ic.ie_disk.blocknr, overflow_leaf := ic.overflow_leaf },
      ?_, sm_set_bitmap_words_ok _ _ _ hw, ?_, fun _ _ => rfl, fun _ => rfl, ?_,
      ic_ok_of_locked _ _, ?_, ?_, ?_⟩
    · intro n
      rw [sm_ll_dec_bitmap_loop, ensure_bitmap_eq _ _ hic]
      simp only [hc, if_true]
      rw [with_effect_mk]
    · intro j
      rw [hset 0 (by norm_num), hc, dec_cell_one]
    · intro h; omega
    · simp only []
    · simp only [hc, if_true]
    · simp only [hc, if_true]
  · right; right
    refine ⟨by omega, sm_set_bitmap (ll.tm.data ic.ie_disk.blocknr) bit 1, ll.ref_count_tree.vals,
      { ic with bitmap_block := some ic.ie_disk.blocknr },
      ?_, sm_set_bitmap_words_ok _ _ _ hw, ?_, fun _ _ => rfl, fun _ => rfl, ?_,
      Or.inr rfl, rfl, ?_, ?_⟩
    · intro n
      rw [sm_ll_dec_bitmap_loop, ensure_bitmap_eq _ _ hic]
      simp only [hc, OfNat.ofNat_ne_one, if_false]
      rw [with_effect_mk2]
    · intro j
      rw [hset 1 (by norm_num), hc, dec_cell_two]
    · intro h; omega
    · simp only [hc, OfNat.ofNat_ne_one, if_false]
    · simp only [hc, OfNat.ofNat_ne_one, if_false]
  · rcases dec_overflow_spec ll b { ic with bitmap_block := some ic.ie_disk.blocknr } with
      ⟨hv, he⟩ | ⟨v, vals1, ic1, hv, he, hvo, hv3, hvgt, hie, hbb⟩
    · right; left
      refine ⟨hc, hv, fun n => ?_⟩
      rw [sm_ll_dec_bitmap_loop, ensure_bitmap_eq _ _ hic]
      simp only [hc, he]
    · right; right
      have hic1 : ic_ok ic1 := by
        rcases hbb with h | h
        · exact Or.inl h
        · right; rw [h, hie]
      by_cases h3 : v = 3
      · refine ⟨by omega, sm_set_bitmap (ll.tm.data ic.ie_disk.blocknr) bit 2, vals1,
          { ic1 with bitmap_block := some ic1.ie_disk.blocknr },
          ?_, sm_set_bitmap_words_ok _ _ _ hw, ?_, hvo, ?_, fun _ => ⟨v, hv, hv3, hvgt⟩,
          Or.inr rfl, ?_, ?_, ?_⟩
        · intro n
          rw [sm_ll_dec_bitmap_loop, ensure_bitmap_eq _ _ hic]
          simp only [hc, he, h3, if_true]
          rw [ensure_bitmap_eq _ _ hic1]
          simp only [hie, OfNat.ofNat_ne_one, if_false]
          rw [with_effect_flat]
        · intro j
          rw [hset 2 (by norm_num), hc, hv, h3, dec_cell_three, if_pos rfl]
        · intro h; omega
        · simp only [hie]
        · simp only [hie, hc, OfNat.ofNat_ne_one, if_false]
        · simp only [hie, hc, OfNat.ofNat_ne_one, if_false]
      · refine ⟨by omega, ll.tm.data ic.ie_disk.blocknr, vals1, ic1,
          ?_, hw, ?_, hvo, ?_, fun _ => ⟨v, hv, hv3, hvgt⟩, hic1, ?_, ?_, ?_⟩
        · intro n
          rw [sm_ll_dec_bitmap_loop, ensure_bitmap_eq _ _ hic]
          simp only [hc, he, h3, if_false, OfNat.ofNat_ne_one]
          rw [with_effect_same_data]
        · intro j
          by_cases hj : j = bit
          · have : ¬ (some v = some 3) := by simpa using h3
            simp only [hj, if_true, hc, hv, dec_cell_three, this, if_false]
          · simp only [hj, if_false]
        · intro h; omega
        · rw [hie]
        · rw [hie]; simp only [hc, OfNat.ofNat_ne_one, if_false]
        · rw [hie]; simp only [hc, OfNat.ofNat_ne_one, if_false]

theorem dec_cell_ne_zero (c : Nat) (v : Option Nat) (h : 2 ≤ c) : dec_cell c v ≠ 0 := by
  unfold dec_cell
  split
  · split <;> omega
  · omega

theorem dec_loop_spec : ∀ (n : Nat) (ll : ll_disk) (b bit : Nat) (na : Int) (ic : inc_context),
    ic_ok ic → words_ok (ll.tm.data ic.ie_disk.blocknr) → wrap_s32 na = na →
    ll.nr_allocated < 2 ^ 64 →
    ((∀ j, j < n → sm_lookup_bitmap (ll.tm.data ic.ie_disk.blocknr) (bit + j) ≠ 0 ∧
        (sm_lookup_bitmap (ll.tm.data ic.ie_disk.blocknr) (bit + j) = 3 →
          ll.ref_count_tree.vals (b + j) ≠ none)) →
      ∃ r, sm_ll_dec_bitmap_loop n ll b bit ic na = .ok r) ∧
    ((∃ j, j < n ∧ (sm_lookup_bitmap (ll.tm.data ic.ie_disk.blocknr) (bit + j) = 0 ∨
        (sm_lookup_bitmap (ll.tm.data ic.ie_disk.blocknr) (bit + j) = 3 ∧
          ll.ref_count_tree.vals (b + j) = none))) →
      sm_ll_dec_bitmap_loop n ll b bit ic na = .error (-EINVAL)) ∧
    (∀ ll' na' b' ic', sm_ll_dec_bitmap_loop n ll b bit ic na = .ok (ll', na', b', ic') →
      dec_post ll b bit n na ic ll' na' b' ic') := by
  intro n
  induction n with
  | zero =>
    intro ll b bit na ic hic hw hna hal
    refine ⟨fun _ => ⟨_, rfl⟩, fun ⟨j, hj, _⟩ => absurd hj (Nat.not_lt_zero _), ?_⟩
    intro ll' na' b' ic' h
    simp only [sm_ll_dec_bitmap_loop, Except.ok.injEq, Prod.mk.injEq] at h
    obtain ⟨h1, h2, h3, h4⟩ := h
    subst h1 h2 h3 h4
    refine ⟨?_, hw, ?_, fun j hj => absurd hj (Nat.not_lt_zero _), fun _ _ => rfl,
      fun j hj => absurd hj (Nat.not_lt_zero _),
      fun j hj => absurd hj (Nat.not_lt_zero _),
      ?_, ?_, rfl, hic, rfl, ?_, fun h => h, fun B h => h, hal⟩
    · simp [with_effect, tm_write, Function.update_eq_self]
    · intro j
      have : ¬ (bit ≤ j ∧ j < bit + 0) := by omega
      simp only [this, if_false]
    · intro _
      simp only [count_range, Nat.sub_zero]
    · simp only [count_range]
      rw [show na - ((0 : Nat) : Int) = na by simp, hna]
    · intro _
      simp only [count_range, Nat.add_zero]
  | succ n ih =>
    intro ll b bit na ic hic hw hna hal
    rcases dec_step ll b bit na ic hic hw with ⟨hc0, herr⟩ | ⟨hc3, hvn, herr⟩ |
      ⟨hcne, data1, vals1, ic1, hloop, hw1, hcell1, hvo1, hvl1, hv31, hic1, hbl1, hnf1, hnfb1⟩
    · refine ⟨fun h => absurd hc0 (h 0 (by omega)).1, fun _ => herr n, ?_⟩
      intro ll' na' b' ic' h
      rw [herr n] at h
      exact absurd h (by simp)
    · refine ⟨fun h => absurd hvn ((h 0 (by omega)).2 hc3), fun _ => herr n, ?_⟩
      intro ll' na' b' ic' h
      rw [herr n] at h
      exact absurd h (by simp)
    · rw [hloop n]
      have hna1 : wrap_s32 (if sm_lookup_bitmap (ll.tm.data ic.ie_disk.blocknr) bit = 1
          then wrap_s32 (na - 1) else na) =
          (if sm_lookup_bitmap (ll.tm.data ic.ie_disk.blocknr) bit = 1
            then wrap_s32 (na - 1) else na) := by
        split
        · exact wrap_s32_idem _
        · exact hna
      have hal1 : (if sm_lookup_bitmap (ll.tm.data ic.ie_disk.blocknr) bit = 1
          then (ll.nr_allocated + (2 ^ 64 - 1)) % 2 ^ 64 else ll.nr_allocated) < 2 ^ 64 := by
        split
        · exact Nat.mod_lt _ (by norm_num)
        · exact hal
      have hw1' : words_ok ((with_effect ll ic.ie_disk.blocknr data1 vals1
          (if sm_lookup_bitmap (ll.tm.data ic.ie_disk.blocknr) bit = 1
            then (ll.nr_allocated + (2 ^ 64 - 1)) % 2 ^ 64 else ll.nr_allocated)).tm.data
              ic1.ie_disk.blocknr) := by
        rw [hbl1, with_effect_data]; exact hw1
      obtain ⟨ihA, ihE, ihB⟩ := ih (with_effect ll ic.ie_disk.blocknr data1 vals1
          (if sm_lookup_bitmap (ll.tm.data ic.ie_disk.blocknr) bit = 1
            then (ll.nr_allocated + (2 ^ 64 - 1)) % 2 ^ 64 else ll.nr_allocated)) (b + 1) (bit + 1)
          (if sm_lookup_bitmap (ll.tm.data ic.ie_disk.blocknr) bit = 1
            then wrap_s32 (na - 1) else na) ic1 hic1 hw1' hna1 hal1
      rw [hbl1] at ihA ihE
      simp only [with_effect_data, with_effect_vals, with_effect_nalloc] at ihA ihE
      have hcell_far : ∀ j, bit + 1 ≤ j → sm_lookup_bitmap data1 j
          = sm_lookup_bitmap (ll.tm.data ic.ie_disk.blocknr) j := by
        intro j hj
        rw [hcell1, if_neg (by omega)]
      have hZ : count_range (fun j => sm_lookup_bitmap data1 j == 1) (bit + 1) n
          = count_range (fun j => sm_lookup_bitmap (ll.tm.data ic.ie_disk.blocknr) j == 1)
              (bit + 1) n := by
        apply count_range_congr
        intro x h1 _
        simp only [hcell_far x h1]
      refine ⟨?_, ?_, ?_⟩
      · intro h
        apply ihA
        intro j hj
        rw [show bit + 1 + j = bit + (j + 1) by omega, hcell_far _ (by omega),
          show b + 1 + j = b + (j + 1) by omega, hvo1 _ (by omega)]
        exact h (j + 1) (by omega)
      · rintro ⟨j, hj, hc⟩
        rcases j with _ | j
        · simp only [Nat.add_zero] at hc
          rcases hc with hc | ⟨hc, hv⟩
          · exact absurd hc hcne
          · obtain ⟨v, hv', _⟩ := hv31 hc
            rw [hv] at hv'
            exact absurd hv' (by simp)
        · apply ihE
          refine ⟨j, by omega, ?_⟩
          rw [show bit + 1 + j = bit + (j + 1) by omega, hcell_far _ (by omega),
            show b + 1 + j = b + (j + 1) by omega, hvo1 _ (by omega)]
          exact hc
      · intro ll' na' b' ic' h
        have P := ihB ll' na' b' ic' h
        have Pframe := P.frame
        have Pwords := P.words
        have Pcells := P.cells
        have Pnz := P.nonzero
        have Pvo := P.vals_out
        have Pvl := P.vals_low
        have Pv3 := P.vals_three
        have Pna := P.nalloc
        have Pnr := P.nr_alloc
        have Pnf := P.nr_free
        have Pnfb := P.nfb_ok
        have Pnfl := P.nfb_le
        rw [hbl1] at Pframe Pwords Pcells Pnz Pvl Pv3 Pna Pnr Pnf Pnfb
        simp only [with_effect_data, with_effect_vals, with_effect_nalloc,
          hZ] at Pcells Pnz Pvo Pvl Pv3 Pna Pnr Pnf Pnfb
        rw [with_effect_twice] at Pframe
        have hcnt : count_range
            (fun j => sm_lookup_bitmap (ll.tm.data ic.ie_disk.blocknr) j == 1) bit (n + 1)
            = (if sm_lookup_bitmap (ll.tm.data ic.ie_disk.blocknr) bit = 1 then 1 else 0) +
              count_range (fun j => sm_lookup_bitmap (ll.tm.data ic.ie_disk.blocknr) j == 1)
                (bit + 1) n := by
          simp only [count_range, beq_iff_eq]
        refine ⟨Pframe, Pwords, ?_, ?_, ?_, ?_, ?_, ?_, ?_, ?_, P.ic_ok', P.blocknr.trans hbl1,
          ?_, ?_, ?_, P.nalloc_lt⟩
        · intro j
          rw [Pcells j]
          by_cases h1 : j = bit
          · subst h1
            rw [if_neg (by omega), if_pos (by omega), hcell1, if_pos rfl, Nat.sub_self,
              Nat.add_zero]
          · by_cases h2 : bit + 1 ≤ j ∧ j < bit + 1 + n
            · rw [if_pos h2, if_pos (by omega), hcell1, if_neg h1,
                show b + 1 + (j - (bit + 1)) = b + (j - bit) by omega, hvo1 _ (by omega)]
            · rw [if_neg h2, if_neg (by omega), hcell1, if_neg h1]
        · intro j hj
          rcases j with _ | j
          · exact hcne
          · have := Pnz j (by omega)
            rw [show bit + 1 + j = bit + (j + 1) by omega, hcell_far _ (by omega)] at this
            exact this
        · intro k hk
          rw [Pvo k (by omega), hvo1 k (by omega)]
        · intro j hj hc
          rcases j with _ | j
          · rw [Nat.add_zero] at hc ⊢
            rw [Pvo b (by omega), hvl1 hc]
          · have := Pvl j (by omega)
            rw [show bit + 1 + j = bit + (j + 1) by omega, hcell_far _ (by omega),
              show b + 1 + j = b + (j + 1) by omega, hvo1 _ (by omega)] at this
            exact this hc
        · intro j hj hc
          rcases j with _ | j
          · rw [Nat.add_zero] at hc ⊢
            rw [Pvo b (by omega)]
            exact hv31 hc
          · have := Pv3 j (by omega)
            rw [show bit + 1 + j = bit + (j + 1) by omega, hcell_far _ (by omega),
              show b + 1 + j = b + (j + 1) by omega, hvo1 _ (by omega)] at this
            exact this hc
        · intro hle
          rw [hcnt] at hle ⊢
          by_cases hc1 : sm_lookup_bitmap (ll.tm.data ic.ie_disk.blocknr) bit = 1
          · simp only [hc1, if_true] at Pna hle ⊢
            rw [Pna (by omega)]
            omega
          · simp only [hc1, if_false] at Pna hle ⊢
            rw [Pna (by omega)]
            omega
        · rw [Pnr, hcnt]
          split
          · rw [show wrap_s32 (na - 1) = wrap_s32 (na + (-1)) by rfl, sub_eq_add_neg,
              wrap_s32_add]
            congr 1
            push_cast
            omega
          · congr 1
            push_cast
            omega
        · rw [P.new_b]; omega
        · intro h1
          rw [hcnt] at h1 ⊢
          rw [hnf1] at Pnf
          by_cases hc1 : sm_lookup_bitmap (ll.tm.data ic.ie_disk.blocknr) bit = 1
          · simp only [hc1, if_true] at Pnf h1 ⊢
            rw [Nat.mod_eq_of_lt (by omega)] at Pnf
            rw [Pnf (by omega)]
            omega
          · simp only [hc1, if_false] at Pnf h1 ⊢
            rw [Pnf (by omega)]
            omega
        · intro H
          apply Pnfb
          intro j hj
          rw [hcell1]
          rw [hnfb1] at hj
          by_cases h1 : j = bit
          · rw [if_pos h1]
            by_cases hc1 : sm_lookup_bitmap (ll.tm.data ic.ie_disk.blocknr) bit = 1
            · rw [if_pos hc1] at hj
              have := Nat.min_le_right ic.ie_disk.none_free_before bit
              omega
            · apply dec_cell_ne_zero
              exact (Nat.two_le_iff _).2 ⟨hcne, hc1⟩
          · rw [if_neg h1]
            apply H
            split at hj
            · have := Nat.min_le_left ic.ie_disk.none_free_before bit
              omega
            · exact hj
        · intro B h1
          apply Pnfl B
          rw [hnfb1]
          split
          · have := Nat.min_le_left ic.ie_disk.none_free_before bit
            omega
          · exact h1

/-! ## Rounds of `sm_ll_inc` and `sm_ll_dec` on one bitmap block -/

theorem ie_view_same_index (ll ll' : ll_disk) (h : same_index ll ll') :
    ie_view ll' = ie_view ll := by
  obtain ⟨h1, h2, h3, h4⟩ := h
  funext i
  unfold ie_view
  rw [h1, h2, h3, h4]

theorem cache_ok_same_index (ll ll' : ll_disk) (h : same_index ll ll') (hc : cache_ok ll) :
    cache_ok ll' := by
  obtain ⟨h1, h2, h3, h4⟩ := h
  unfold cache_ok
  rw [h1, h3, h4]
  exact hc

theorem same_index_with_effect (ll : ll_disk) (L : Nat) (d : Nat → Nat)
    (v : Nat → Option Nat) (a : Nat) : same_index ll (with_effect ll L d v a) :=
  ⟨rfl, rfl, rfl, rfl⟩

theorem same_index_tm (ll : ll_disk) (tm : dm_transaction_manager) :
    same_index ll { ll with tm := tm } := ⟨rfl, rfl, rfl, rfl⟩

theorem shadow_block_pos (tm : dm_transaction_manager) (orig : Nat)
    (hs : tm.shadowed orig = true) : dm_tm_shadow_block tm orig = (tm, orig) := by
  unfold dm_tm_shadow_block
  rw [if_pos hs]

theorem shadow_block_neg (tm : dm_transaction_manager) (orig : Nat)
    (hs : ¬ tm.shadowed orig = true) :
    dm_tm_shadow_block tm orig =
      ({ tm with
          data := Function.update tm.data tm.next (tm.data orig)
          next := tm.next + 1
          shadowed := Function.update tm.shadowed tm.next true }, tm.next) := by
  unfold dm_tm_shadow_block
  rw [if_neg hs]

/-- What `dm_tm_shadow_block` does to the block store. -/
theorem shadow_block_spec (tm : dm_transaction_manager) (orig : Nat) (h : orig < tm.next) :
    ((dm_tm_shadow_block tm orig).1.data (dm_tm_shadow_block tm orig).2 = tm.data orig) ∧
    (∀ loc, loc < tm.next → (dm_tm_shadow_block tm orig).1.data loc = tm.data loc) ∧
    (∀ loc, loc ≠ (dm_tm_shadow_block tm orig).2 →
      (dm_tm_shadow_block tm orig).1.data loc = tm.data loc) ∧
    tm.next ≤ (dm_tm_shadow_block tm orig).1.next ∧
    (dm_tm_shadow_block tm orig).2 < (dm_tm_shadow_block tm orig).1.next ∧
    ((dm_tm_shadow_block tm orig).2 = orig ∨ (dm_tm_shadow_block tm orig).2 = tm.next) ∧
    (dm_tm_shadow_block tm orig).1.block_size = tm.block_size := by
  by_cases hs : tm.shadowed orig = true
  · rw [shadow_block_pos tm orig hs]
    exact ⟨rfl, fun _ _ => rfl, fun _ _ => rfl, le_refl _, h, Or.inl rfl, rfl⟩
  · rw [shadow_block_neg tm orig hs]
    refine ⟨Function.update_same _ _ _, fun loc hl => Function.update_noteq ?_ _ _,
      fun loc hl => Function.update_noteq hl _ _, Nat.le_succ _, Nat.lt_succ_self _,
      Or.inr rfl, rfl⟩
    exact Nat.ne_of_lt hl

theorem cell_of_view (ll : ll_disk) (x : Nat) (ie : disk_index_entry)
    (h : ie_view ll (x / ll.entries_per_block) = some ie) :
    cell ll x = sm_lookup_bitmap (ll.tm.data ie.blocknr) (x % ll.entries_per_block) := by
  unfold cell
  rw [h]

/-- A state change that replaces the entry of bitmap `i` and touches no block
but the one the new entry points at keeps the index invariant. -/
theorem block_update_inv (S : Nat → Prop) (ll ll3 : ll_disk) (i : Nat)
    (ie ie' : disk_index_entry) (hinv : index_inv ll S) (hS : S i)
    (hview : ie_view ll i = some ie)
    (hfl : ll3.flavor = ll.flavor) (hepb : ll3.entries_per_block = ll.entries_per_block)
    (hview3 : ie_view ll3 = Function.update (ie_view ll) i (some ie'))
    (hcache : cache_ok ll3)
    (hL : ie'.blocknr = ie.blocknr ∨ ll.tm.next ≤ ie'.blocknr)
    (hnext : ll.tm.next ≤ ll3.tm.next)
    (hdata : ∀ loc, loc ≠ ie'.blocknr → ll3.tm.data loc = ll.tm.data loc)
    (hok : entry_ok ll3 ie') :
    index_inv ll3 S ∧
    (∀ x, S (x / ll.entries_per_block) → x / ll.entries_per_block ≠ i → cell ll3 x = cell ll x) ∧
    (∀ x, x / ll.entries_per_block = i →
      cell ll3 x = sm_lookup_bitmap (ll3.tm.data ie'.blocknr) (x % ll.entries_per_block)) := by
  have hother : ∀ j je, S j → j ≠ i → ie_view ll j = some je → je.blocknr ≠ ie'.blocknr := by
    intro j je hSj hji hj heq
    obtain ⟨je', hje', hjok⟩ := hinv.saved j hSj
    rw [hj] at hje'
    simp only [Option.some.injEq] at hje'
    subst hje'
    rcases hL with h | h
    · exact hji (hinv.inj j i je ie hSj hS hj hview (heq.trans h))
    · have := hjok.1
      omega
  refine ⟨⟨by rw [hepb]; exact hinv.epb_pos, by rw [hepb]; exact hinv.epb_lt, hcache, ?_, ?_, ?_⟩,
    ?_, ?_⟩
  · intro j hSj
    by_cases hji : j = i
    · subst hji
      exact ⟨ie', by rw [hview3, Function.update_same], hok⟩
    · obtain ⟨je, hje, hjok⟩ := hinv.saved j hSj
      refine ⟨je, by rw [hview3, Function.update_noteq hji]; exact hje, ?_⟩
      have hne := hother j je hSj hji hje
      obtain ⟨o1, o2, o3, o4, o5⟩ := hjok
      unfold entry_ok
      rw [hdata _ hne, hepb]
      exact ⟨by omega, o2, o3, o4, o5⟩
  · intro j k je ke hSj hSk hj hk heq
    rw [hview3] at hj hk
    by_cases hji : j = i <;> by_cases hki : k = i
    · rw [hji, hki]
    · subst hji
      rw [Function.update_same] at hj
      rw [Function.update_noteq hki] at hk
      simp only [Option.some.injEq] at hj
      subst hj
      exact absurd heq.symm (hother k ke hSk hki hk)
    · subst hki
      rw [Function.update_same] at hk
      rw [Function.update_noteq hji] at hj
      simp only [Option.some.injEq] at hk
      subst hk
      exact absurd heq (hother j je hSj hji hj)
    · rw [Function.update_noteq hji] at hj
      rw [Function.update_noteq hki] at hk
      exact hinv.inj j k je ke hSj hSk hj hk heq
  · intro hd j je hj
    rw [hview3] at hj
    by_cases hji : j = i
    · rw [hji]; exact hS
    · rw [Function.update_noteq hji] at hj
      exact hinv.disk_saved (hfl ▸ hd) j je hj
  · intro x hSx hxi
    obtain ⟨je, hje, hjok⟩ := hinv.saved _ hSx
    have hne := hother _ je hSx hxi hje
    have h3 : ie_view ll3 (x / ll3.entries_per_block) = some je := by
      rw [hepb, hview3, Function.update_noteq hxi]; exact hje
    rw [cell_of_view ll3 x je h3, cell_of_view ll x je hje, hdata _ hne, hepb]
  · intro x hxi
    have h3 : ie_view ll3 (x / ll3.entries_per_block) = some ie' := by
      rw [hepb, hview3, hxi, Function.update_same]
    rw [cell_of_view ll3 x ie' h3, hepb]

theorem __sm_ll_inc_eq (ll : ll_disk) (b e : Nat) (na : Int) (ll0 : ll_disk)
    (ie : disk_index_entry) (hload : load_ie ll (b / ll.entries_per_block) = .ok (ll0, ie))
    (n : Nat) (hn : n = min (range_bits (b % ll.entries_per_block) e b) ll0.entries_per_block
            - b % ll.entries_per_block) :
    __sm_ll_inc ll b e na =
      match sm_ll_inc_bitmap_loop n
          { ll0 with tm := (dm_tm_shadow_block ll0.tm ie.blocknr).1 } b
          (b % ll.entries_per_block) na
          { ie_disk := { ie with blocknr := (dm_tm_shadow_block ll0.tm ie.blocknr).2 },
            bitmap_block := some (dm_tm_shadow_block ll0.tm ie.blocknr).2,
            overflow_leaf := none } with
      | Except.error r => Except.error r
      | Except.ok (ll2, na', nb, ic2) =>
        match save_ie ll2 (b / ll.entries_per_block) ic2.ie_disk with
        | Except.error r => Except.error r
        | Except.ok ll3 => Except.ok (ll3, na', nb) := by
  subst hn
  unfold __sm_ll_inc
  simp only [hload]
  rfl

theorem range_bits_eq (bit e b : Nat) (hbe : b ≤ e) (he : e < 2 ^ 64) (hbit : bit ≤ b) :
    range_bits bit e b = bit + (e - b) := by
  unfold range_bits
  omega

theorem block_pos (epb b x n : Nat) (hepb : 0 < epb) (h1 : b ≤ x) (h2 : x < b + n)
    (h3 : b % epb + n ≤ epb) : x / epb = b / epb ∧ x % epb = b % epb + (x - b) := by
  have hx : x = (b % epb + (x - b)) + epb * (b / epb) := by
    have := Nat.div_add_mod b epb
    omega
  have hlt : b % epb + (x - b) < epb := by omega
  constructor
  · rw [hx, Nat.add_mul_div_left _ _ hepb, Nat.div_eq_of_lt hlt, Nat.zero_add]
  · rw [hx, Nat.add_mul_mod_self_left, Nat.mod_eq_of_lt hlt]
    congr 1
    omega

theorem count_range_shift (p q : Nat → Bool) : ∀ n a b,
    (∀ j, j < n → p (a + j) = q (b + j)) → count_range p a n = count_range q b n := by
  intro n
  induction n with
  | zero => intro a b _; rfl
  | succ n ih =>
    intro a b h
    simp only [count_range]
    have h0 := h 0 (by omega)
    rw [Nat.add_zero, Nat.add_zero] at h0
    rw [h0, ih (a + 1) (b + 1) (fun j hj => by
      have := h (j + 1) (by omega)
      rw [show a + 1 + j = a + (j + 1) by omega, show b + 1 + j = b + (j + 1) by omega]
      exact this)]

/-- Splitting the count over `[0, m)` around the sub-range `[a, a + n)`. -/
theorem count_range_split (p : Nat → Bool) (a n m : Nat) (h : a + n ≤ m) :
    count_range p 0 m = count_range p 0 a + count_range p a n +
      count_range p (a + n) (m - (a + n)) := by
  have e : m = a + (n + (m - (a + n))) := by omega
  conv_lhs => rw [e]
  rw [count_range_add, count_range_add, Nat.zero_add]
  omega

theorem count_free_after_inc (c c' : Nat → Nat) (a n m : Nat) (h : a + n ≤ m)
    (hin : ∀ j, a ≤ j → j < a + n → c' j ≠ 0)
    (hout : ∀ j, ¬ (a ≤ j ∧ j < a + n) → c' j = c j) :
    count_range (fun j => c' j == 0) 0 m + count_range (fun j => c j == 0) a n
      = count_range (fun j => c j == 0) 0 m := by
  rw [count_range_split (fun j => c' j == 0) a n m h,
    count_range_split (fun j => c j == 0) a n m h,
    count_range_eq_zero (fun j => c' j == 0) n a (fun x h1 h2 => by simpa using hin x h1 h2),
    count_range_congr (fun j => c' j == 0) (fun j => c j == 0) a 0
      (fun x h1 h2 => by simp only []; rw [hout x (by omega)]),
    count_range_congr (fun j => c' j == 0) (fun j => c j == 0) (m - (a + n)) (a + n)
      (fun x h1 h2 => by simp only []; rw [hout x (by omega)])]
  omega

theorem count_range_sub_le (p : Nat → Bool) (a n m : Nat) (h : a + n ≤ m) :
    count_range p a n ≤ count_range p 0 m := by
  rw [count_range_split p a n m h]
  omega

theorem block_len (epb b e : Nat) (hepb : 0 < epb) (hbe : b < e) (he : e < 2 ^ 64) :
    min (range_bits (b % epb) e b) epb - b % epb = min (e - b) (epb - b % epb) ∧
    1 ≤ min (e - b) (epb - b % epb) ∧
    b % epb + min (e - b) (epb - b % epb) ≤ epb ∧
    b + min (e - b) (epb - b % epb) ≤ e := by
  have h1 := Nat.mod_lt b hepb
  have h2 := Nat.mod_le b epb
  rw [range_bits_eq _ _ _ (le_of_lt hbe) he h2]
  omega

/-- The setting of one round of `sm_ll_inc` or `sm_ll_dec`: the entry is loaded
and the bitmap block shadowed. -/
theorem block_setup (S : Nat → Prop) (ll : ll_disk) (b : Nat) (hinv : index_inv ll S)
    (hS : S (b / ll.entries_per_block)) :
    ∃ ie ll0, ie_view ll (b / ll.entries_per_block) = some ie ∧ entry_ok ll ie ∧
      load_ie ll (b / ll.entries_per_block) = .ok (ll0, ie) ∧
      same_core ll ll0 ∧ ie_view ll0 = ie_view ll ∧ cache_ok ll0 := by
  obtain ⟨ie, hview, hok⟩ := hinv.saved _ hS
  obtain ⟨ll0, hload⟩ := load_ie_some ll _ ie hinv.cache hview
  obtain ⟨_, h1, h2, h3⟩ := load_ie_ok ll ll0 _ ie hinv.cache hload
  exact ⟨ie, ll0, hview, hok, hload, h1, h2, h3⟩

/-- After the loop over one bitmap block, saving the entry re-establishes the
index invariant. -/
theorem block_finish (S : Nat → Prop) (ll ll0 ll2 : ll_disk) (i : Nat)
    (ie ie' : disk_index_entry) (hinv : index_inv ll S) (hS : S i)
    (hview : ie_view ll i = some ie) (hok : entry_ok ll ie)
    (hcore0 : same_core ll ll0) (hview0 : ie_view ll0 = ie_view ll) (hcache0 : cache_ok ll0)
    (hframe : ll2 = with_effect { ll0 with tm := (dm_tm_shadow_block ll0.tm ie.blocknr).1 }
      (dm_tm_shadow_block ll0.tm ie.blocknr).2
      (ll2.tm.data (dm_tm_shadow_block ll0.tm ie.blocknr).2) ll2.ref_count_tree.vals
      ll2.nr_allocated)
    (hbl : ie'.blocknr = (dm_tm_shadow_block ll0.tm ie.blocknr).2)
    (hwords : words_ok (ll2.tm.data (dm_tm_shadow_block ll0.tm ie.blocknr).2))
    (hfree : ie'.nr_free = count_free (ll2.tm.data (dm_tm_shadow_block ll0.tm ie.blocknr).2)
      ll.entries_per_block)
    (hnfb : ie'.none_free_before ≤ ll.entries_per_block)
    (hnz : ∀ j, j < ie'.none_free_before →
      sm_lookup_bitmap (ll2.tm.data (dm_tm_shadow_block ll0.tm ie.blocknr).2) j ≠ 0) :
    ∃ ll3, save_ie ll2 i ie' = .ok ll3 ∧ index_inv ll3 S ∧
      ll3.flavor = ll.flavor ∧ ll3.entries_per_block = ll.entries_per_block ∧
      ll3.nr_blocks = ll.nr_blocks ∧ ll3.nr_allocated = ll2.nr_allocated ∧
      ll3.ref_count_tree = ll2.ref_count_tree ∧
      (∀ x, S (x / ll.entries_per_block) → x / ll.entries_per_block ≠ i →
        cell ll3 x = cell ll x) ∧
      (∀ x, x / ll.entries_per_block = i →
        cell ll3 x = sm_lookup_bitmap (ll2.tm.data (dm_tm_shadow_block ll0.tm ie.blocknr).2)
          (x % ll.entries_per_block)) ∧
      (∀ x, x / ll.entries_per_block = i →
        cell ll x = sm_lookup_bitmap (ll.tm.data ie.blocknr) (x % ll.entries_per_block)) := by
  obtain ⟨c1, c2, c3, c4, c5, c6⟩ := hcore0
  obtain ⟨s1, s2, s3, s4, s5, s6, s7⟩ := shadow_block_spec ll.tm ie.blocknr hok.1
  rw [c1] at hframe hbl hwords hfree hnz ⊢
  have hsi2 : same_index ll0 ll2 := by
    rw [hframe]; exact ⟨rfl, rfl, rfl, rfl⟩
  have hcache2 : cache_ok ll2 := cache_ok_same_index ll0 ll2 hsi2 hcache0
  have hview2 : ie_view ll2 = ie_view ll := by
    rw [ie_view_same_index ll0 ll2 hsi2, hview0]
  obtain ⟨ll3, hsave, ⟨d1, d2, d3, d4, d5, d6⟩, hview3, hcache3⟩ := save_ie_ok ll2 i ie' hcache2
  have hfl2 : ll2.flavor = ll.flavor := by rw [hframe]; exact c2
  have hepb2 : ll2.entries_per_block = ll.entries_per_block := by rw [hframe]; exact c3
  have hnb2 : ll2.nr_blocks = ll.nr_blocks := by rw [hframe]; exact c4
  have hnext2 : ll2.tm.next = (dm_tm_shadow_block ll.tm ie.blocknr).1.next := by
    rw [hframe]; rfl
  have hdata2 : ∀ loc, loc ≠ (dm_tm_shadow_block ll.tm ie.blocknr).2 →
      ll2.tm.data loc = ll.tm.data loc := by
    intro loc hloc
    rw [hframe, with_effect_data_other _ _ _ _ _ _ hloc]
    exact s3 loc hloc
  rw [hview2] at hview3
  have hok3 : entry_ok ll3 ie' := by
    unfold entry_ok
    rw [d1, d3, hepb2, hbl, hnext2]
    exact ⟨s5, hwords, hfree, hnfb, hnz⟩
  have hL : ie'.blocknr = ie.blocknr ∨ ll.tm.next ≤ ie'.blocknr := by
    rw [hbl]
    rcases s6 with h | h
    · exact Or.inl h
    · exact Or.inr (le_of_eq h.symm)
  obtain ⟨r1, r2, r3⟩ := block_update_inv S ll ll3 i ie ie' hinv hS hview (d2.trans hfl2)
    (d3.trans hepb2) hview3 hcache3 hL (by rw [d1, hnext2]; exact s4)
    (fun loc hloc => by rw [d1]; exact hdata2 loc (by rw [← hbl]; exact hloc)) hok3
  refine ⟨ll3, hsave, r1, d2.trans hfl2, d3.trans hepb2, d4.trans hnb2, d5, d6, r2, ?_, ?_⟩
  · intro x hx
    rw [r3 x hx, d1, hbl]
  · intro x hx
    exact cell_of_view ll x ie (by rw [hx]; exact hview)

theorem inc_block_finish (S : Nat → Prop) (ll ll0 ll1 ll2 : ll_disk) (b n : Nat)
    (na na' : Int) (nb : Nat) (ie : disk_index_entry) (ic1 ic2 : inc_context)
    (hinv : index_inv ll S) (hS : S (b / ll.entries_per_block))
    (hview : ie_view ll (b / ll.entries_per_block) = some ie) (hok : entry_ok ll ie)
    (hcore0 : same_core ll ll0) (hview0 : ie_view ll0 = ie_view ll) (hcache0 : cache_ok ll0)
    (hn3 : b % ll.entries_per_block + n ≤ ll.entries_per_block)
    (hll1 : ll1 = { ll0 with tm := (dm_tm_shadow_block ll0.tm ie.blocknr).1 })
    (hbl1 : ic1.ie_disk.blocknr = (dm_tm_shadow_block ll0.tm ie.blocknr).2)
    (hnf1 : ic1.ie_disk.nr_free = ie.nr_free)
    (hnfb1 : ic1.ie_disk.none_free_before = ie.none_free_before)
    (P : inc_post ll1 b (b % ll.entries_per_block) n na ic1 ll2 na' nb ic2) :
    ∃ ll3, save_ie ll2 (b / ll.entries_per_block) ic2.ie_disk = .ok ll3 ∧
      range_inc S ll b n na ll3 na' ∧ nb = b + n := by
  obtain ⟨c1, c2, c3, c4, c5, c6⟩ := hcore0
  obtain ⟨s1, s2, s3, s4, s5, s6, s7⟩ := shadow_block_spec ll.tm ie.blocknr hok.1
  have Pframe := P.frame
  have Pwords := P.words
  have Pcells := P.cells
  have Pvo := P.vals_out
  have Pvl := P.vals_low
  have Pv2 := P.vals_two
  have Pv3 := P.vals_three
  have Pna := P.nalloc
  have Pnr := P.nr_alloc
  have Pnf := P.nr_free
  have Pnfb := P.nfb_ok
  have Pnfl := P.nfb_le
  have Pbl := P.blocknr
  rw [hbl1] at Pframe Pwords Pcells Pvl Pv2 Pv3 Pna Pnr Pnf Pnfb Pbl
  rw [hnf1] at Pnf
  rw [hnfb1] at Pnfb Pnfl
  have hd1 : ll1.tm.data (dm_tm_shadow_block ll0.tm ie.blocknr).2 = ll.tm.data ie.blocknr := by
    rw [hll1, c1]; exact s1
  have hv1 : ll1.ref_count_tree = ll.ref_count_tree := by rw [hll1]; exact c6
  have ha1 : ll1.nr_allocated = ll.nr_allocated := by rw [hll1]; exact c5
  rw [hd1] at Pcells Pvl Pv2 Pv3 Pna Pnr Pnf Pnfb
  rw [hv1] at Pvo Pvl Pv3
  rw [ha1] at Pna
  rw [hll1] at Pframe
  obtain ⟨o1, o2, o3, o4, o5⟩ := hok
  have hZle : count_range (fun j => sm_lookup_bitmap (ll.tm.data ie.blocknr) j == 0)
      (b % ll.entries_per_block) n ≤ ie.nr_free := by
    rw [o3]
    exact count_range_sub_le _ _ _ _ hn3
  have hfree_lt : ie.nr_free < 2 ^ 32 := by
    rw [o3]
    exact lt_of_le_of_lt (count_range_le _ _ _) hinv.epb_lt
  have hfree' : ic2.ie_disk.nr_free
      = count_free (ll2.tm.data (dm_tm_shadow_block ll0.tm ie.blocknr).2)
          ll.entries_per_block := by
    rw [Pnf hfree_lt hZle, o3]
    have := count_free_after_inc (sm_lookup_bitmap (ll.tm.data ie.blocknr))
      (sm_lookup_bitmap (ll2.tm.data (dm_tm_shadow_block ll0.tm ie.blocknr).2))
      (b % ll.entries_per_block) n ll.entries_per_block hn3
      (fun j h1 h2 => by rw [Pcells j, if_pos ⟨h1, h2⟩]; omega)
      (fun j h => by rw [Pcells j, if_neg h])
    unfold count_free
    omega
  obtain ⟨ll3, hsave, hinv3, hfl3, hepb3, hnb3, hal3, hrt3, hcell_o, hcell_i, hcell_i0⟩ :=
    block_finish S ll ll0 ll2 (b / ll.entries_per_block) ie ic2.ie_disk hinv hS hview
      ⟨o1, o2, o3, o4, o5⟩ ⟨c1, c2, c3, c4, c5, c6⟩ hview0 hcache0 Pframe Pbl Pwords hfree'
      (Pnfl _ o4 hn3) (Pnfb o5)
  have hpos : ∀ x, b ≤ x → x < b + n →
      x / ll.entries_per_block = b / ll.entries_per_block ∧
      x % ll.entries_per_block = b % ll.entries_per_block + (x - b) :=
    fun x h1 h2 => block_pos _ b x n hinv.epb_pos h1 h2 hn3
  have hcellx : ∀ x, b ≤ x → x < b + n →
      sm_lookup_bitmap (ll.tm.data ie.blocknr) (b % ll.entries_per_block + (x - b))
        = cell ll x := by
    intro x h1 h2
    rw [hcell_i0 x (hpos x h1 h2).1, (hpos x h1 h2).2]
  have hcount : ∀ (k : Nat), count_range
      (fun j => sm_lookup_bitmap (ll.tm.data ie.blocknr) j == k) (b % ll.entries_per_block) n
      = count_range (fun x => cell ll x == k) b n := by
    intro k
    apply count_range_shift
    intro j hj
    have := hcellx (b + j) (by omega) (by omega)
    rw [show b + j - b = j by omega] at this
    simp only [this]
  refine ⟨ll3, hsave, ⟨hinv3, hfl3, hepb3, hnb3, ?_, ?_, ?_, ?_, ?_, ?_, ?_⟩, P.new_b⟩
  · intro x hSx
    by_cases hxi : x / ll.entries_per_block = b / ll.entries_per_block
    · rw [hcell_i x hxi, hcell_i0 x hxi, Pcells]
      have hx := Nat.div_add_mod x ll.entries_per_block
      have hb := Nat.div_add_mod b ll.entries_per_block
      rw [hxi] at hx
      by_cases hin : b ≤ x ∧ x < b + n
      · rw [if_pos hin, if_pos (by omega)]
      · rw [if_neg hin, if_neg (by omega)]
    · rw [hcell_o x hSx hxi, if_neg]
      intro hin
      exact hxi (hpos x hin.1 hin.2).1
  · intro k hk
    rw [hrt3]
    exact Pvo k hk
  · intro x h1 h2 hc
    rw [hrt3]
    have := Pvl (x - b) (by omega)
    rw [hcellx x h1 h2, show b + (x - b) = x by omega] at this
    exact this hc
  · intro x h1 h2 hc
    rw [hrt3]
    have := Pv2 (x - b) (by omega)
    rw [hcellx x h1 h2, show b + (x - b) = x by omega] at this
    exact this hc
  · intro x h1 h2 hc
    rw [hrt3]
    have := Pv3 (x - b) (by omega)
    rw [hcellx x h1 h2, show b + (x - b) = x by omega] at this
    exact this hc
  · rw [hal3, Pna, hcount 0]
  · rw [Pnr, hcount 0]

/-- One round of `sm_ll_inc`: the part of the range that lies in the bitmap
block of `b`. -/
theorem sm_ll_inc_block_spec (S : Nat → Prop) (ll : ll_disk) (b e : Nat) (na : Int)
    (hinv : index_inv ll S) (hS : S (b / ll.entries_per_block)) (hbe : b < e)
    (he : e < 2 ^ 64) (hna : wrap_s32 na = na) (hal : ll.nr_allocated < 2 ^ 64) :
    ((∀ x, b ≤ x → x < b + min (e - b) (ll.entries_per_block - b % ll.entries_per_block) →
        cell ll x = 3 → ll.ref_count_tree.vals x ≠ none) →
      ∃ ll' na', __sm_ll_inc ll b e na = .ok (ll', na',
        b + min (e - b) (ll.entries_per_block - b % ll.entries_per_block))) ∧
    ((∃ x, b ≤ x ∧ x < b + min (e - b) (ll.entries_per_block - b % ll.entries_per_block) ∧
        cell ll x = 3 ∧ ll.ref_count_tree.vals x = none) →
      __sm_ll_inc ll b e na = .error (-EINVAL)) ∧
    (∀ ll' na' nb, __sm_ll_inc ll b e na = .ok (ll', na', nb) →
      nb = b + min (e - b) (ll.entries_per_block - b % ll.entries_per_block) ∧
      range_inc S ll b (min (e - b) (ll.entries_per_block - b % ll.entries_per_block))
        na ll' na') := by
  obtain ⟨ie, ll0, hview, hok, hload, hcore0, hview0, hcache0⟩ := block_setup S ll b hinv hS
  obtain ⟨hn1, hn2, hn3, hn4⟩ := block_len ll.entries_per_block b e hinv.epb_pos hbe he
  rw [__sm_ll_inc_eq ll b e na ll0 ie hload _ (by rw [hcore0.2.2.1, hn1])]
  obtain ⟨s1, s2, s3, s4, s5, s6, s7⟩ := shadow_block_spec ll.tm ie.blocknr hok.1
  have hd1 : ({ ll0 with tm := (dm_tm_shadow_block ll0.tm ie.blocknr).1 } : ll_disk).tm.data
      (dm_tm_shadow_block ll0.tm ie.blocknr).2 = ll.tm.data ie.blocknr := by
    rw [hcore0.1]; exact s1
  have hpos : ∀ x, b ≤ x →
      x < b + min (e - b) (ll.entries_per_block - b % ll.entries_per_block) →
      x / ll.entries_per_block = b / ll.entries_per_block ∧
      x % ll.entries_per_block = b % ll.entries_per_block + (x - b) :=
    fun x h1 h2 => block_pos _ b x _ hinv.epb_pos h1 h2 hn3
  have hcellx : ∀ j, j < min (e - b) (ll.entries_per_block - b % ll.entries_per_block) →
      sm_lookup_bitmap (ll.tm.data ie.blocknr) (b % ll.entries_per_block + j)
        = cell ll (b + j) := by
    intro j hj
    have hp := hpos (b + j) (by omega) (by omega)
    rw [cell_of_view ll (b + j) ie (by rw [hp.1]; exact hview), hp.2,
      show b + j - b = j by omega]
  obtain ⟨A1, E1, B1⟩ := inc_loop_spec
    (min (e - b) (ll.entries_per_block - b % ll.entries_per_block))
    { ll0 with tm := (dm_tm_shadow_block ll0.tm ie.blocknr).1 } b (b % ll.entries_per_block) na
    { ie_disk := { ie with blocknr := (dm_tm_shadow_block ll0.tm ie.blocknr).2 },
      bitmap_block := some (dm_tm_shadow_block ll0.tm ie.blocknr).2,
      overflow_leaf := none } (Or.inr rfl) (by rw [hd1]; exact hok.2.1) hna
    (by rw [show ({ ll0 with tm := (dm_tm_shadow_block ll0.tm ie.blocknr).1 } :
      ll_disk).nr_allocated = ll0.nr_allocated from rfl, hcore0.2.2.2.2.1]; exact hal)
  rw [hd1] at A1 E1
  have hv0 : ll0.ref_count_tree.vals = ll.ref_count_tree.vals := by rw [hcore0.2.2.2.2.2]
  simp only [hv0] at A1 E1
  have fin := fun ll2 na' nb ic2 P =>
    inc_block_finish S ll ll0 { ll0 with tm := (dm_tm_shadow_block ll0.tm ie.blocknr).1 } ll2 b
      (min (e - b) (ll.entries_per_block - b % ll.entries_per_block)) na na' nb ie
      { ie_disk := { ie with blocknr := (dm_tm_shadow_block ll0.tm ie.blocknr).2 },
        bitmap_block := some (dm_tm_shadow_block ll0.tm ie.blocknr).2,
        overflow_leaf := none } ic2 hinv hS hview hok hcore0 hview0
      hcache0 hn3 rfl rfl rfl rfl P
  refine ⟨?_, ?_, ?_⟩
  · intro h
    obtain ⟨⟨ll2, na', nb, ic2⟩, hloop⟩ := A1 (fun j hj hc => by
      rw [hcellx j hj] at hc
      exact h (b + j) (by omega) (by omega) hc)
    obtain ⟨ll3, hsave, _, hnb⟩ := fin ll2 na' nb ic2 (B1 ll2 na' nb ic2 hloop)
    rw [hloop]
    simp only [hsave, hnb]
    exact ⟨ll3, na', rfl⟩
  · rintro ⟨x, h1, h2, hc, hv⟩
    rw [E1 ⟨x - b, by omega, by
      rw [hcellx (x - b) (by omega), show b + (x - b) = x by omega]
      exact ⟨hc, hv⟩⟩]
  · intro ll' na' nb h
    cases hloop : sm_ll_inc_bitmap_loop
      (min (e - b) (ll.entries_per_block - b % ll.entries_per_block))
      { ll0 with tm := (dm_tm_shadow_block ll0.tm ie.blocknr).1 } b (b % ll.entries_per_block) na
      { ie_disk := { ie with blocknr := (dm_tm_shadow_block ll0.tm ie.blocknr).2 },
        bitmap_block := some (dm_tm_shadow_block ll0.tm ie.blocknr).2,
        overflow_leaf := none } with
    | error r =>
      rw [hloop] at h
      exact absurd h (by simp)
    | ok r =>
      obtain ⟨ll2, na2, nb2, ic2⟩ := r
      obtain ⟨ll3, hsave, hri, hnb⟩ := fin ll2 na2 nb2 ic2 (B1 ll2 na2 nb2 ic2 hloop)
      rw [hloop] at h
      simp only [hsave, Except.ok.injEq, Prod.mk.injEq] at h
      obtain ⟨h1, h2, h3⟩ := h
      subst h1 h2 h3
      exact ⟨hnb, hri⟩

theorem range_inc_refl (S : Nat → Prop) (ll : ll_disk) (b : Nat) (na : Int)
    (hinv : index_inv ll S) (hna : wrap_s32 na = na) (hal : ll.nr_allocated < 2 ^ 64) :
    range_inc S ll b 0 na ll na := by
  refine ⟨hinv, rfl, rfl, rfl, ?_, fun _ _ => rfl, fun x h1 h2 => by omega,
    fun x h1 h2 => by omega, fun x h1 h2 => by omega, ?_, ?_⟩
  · intro x _
    rw [if_neg (by omega)]
  · simp only [count_range, Nat.add_zero]
    exact (Nat.mod_eq_of_lt hal).symm
  · simp only [count_range]
    rw [show na + ((0 : Nat) : Int) = na by simp, hna]

theorem range_inc_trans (S : Nat → Prop) (ll ll1 ll2 : ll_disk) (b n1 n2 : Nat)
    (na na1 na2 : Int) (h1 : range_inc S ll b n1 na ll1 na1)
    (h2 : range_inc S ll1 (b + n1) n2 na1 ll2 na2)
    (hS : ∀ x, b ≤ x → x < b + n1 + n2 → S (x / ll.entries_per_block)) :
    range_inc S ll b (n1 + n2) na ll2 na2 := by
  have hc1 : ∀ x, b + n1 ≤ x → x < b + n1 + n2 → cell ll1 x = cell ll x := by
    intro x hx1 hx2
    rw [h1.cells x (hS x (by omega) hx2), if_neg (by omega)]
  have hZ : count_range (fun x => cell ll1 x == 0) (b + n1) n2
      = count_range (fun x => cell ll x == 0) (b + n1) n2 := by
    apply count_range_congr
    intro x hx1 hx2
    simp only [hc1 x hx1 hx2]
  refine ⟨h2.inv, h2.flavor.trans h1.flavor, h2.epb.trans h1.epb,
    h2.nr_blocks.trans h1.nr_blocks, ?_, ?_, ?_, ?_, ?_, ?_, ?_⟩
  · intro x hSx
    rw [h2.cells x (by rw [h1.epb]; exact hSx), h1.cells x hSx]
    by_cases ha : b ≤ x ∧ x < b + n1
    · rw [if_neg (by omega), if_pos ha, if_pos (by omega)]
    · by_cases hb : b + n1 ≤ x ∧ x < b + n1 + n2
      · rw [if_pos hb, if_neg ha, if_pos (by omega)]
      · rw [if_neg hb, if_neg ha, if_neg (by omega)]
  · intro k hk
    rw [h2.vals_out k (by omega), h1.vals_out k (by omega)]
  · intro x hx1 hx2 hc
    by_cases ha : x < b + n1
    · rw [h2.vals_out x (by omega), h1.vals_low x hx1 ha hc]
    · rw [h2.vals_low x (by omega) (by omega) (by rw [hc1 x (by omega) (by omega)]; exact hc),
        h1.vals_out x (by omega)]
  · intro x hx1 hx2 hc
    by_cases ha : x < b + n1
    · rw [h2.vals_out x (by omega), h1.vals_two x hx1 ha hc]
    · exact h2.vals_two x (by omega) (by omega) (by rw [hc1 x (by omega) (by omega)]; exact hc)
  · intro x hx1 hx2 hc
    by_cases ha : x < b + n1
    · rw [h2.vals_out x (by omega)]
      exact h1.vals_three x hx1 ha hc
    · have := h2.vals_three x (by omega) (by omega)
        (by rw [hc1 x (by omega) (by omega)]; exact hc)
      rw [h1.vals_out x (by omega)] at this
      exact this
  · rw [h2.nalloc, h1.nalloc, hZ, count_range_add]
    omega
  · rw [h2.nr_alloc, h1.nr_alloc, hZ, count_range_add, wrap_s32_add]
    congr 1
    push_cast
    omega

theorem sm_ll_inc_loop_spec (S : Nat → Prop) (e : Nat) (he : e < 2 ^ 64) :
    ∀ (fuel : Nat) (ll : ll_disk) (b : Nat) (na : Int),
    index_inv ll S → b ≤ e → e - b ≤ fuel →
    (∀ x, b ≤ x → x < e → S (x / ll.entries_per_block)) →
    wrap_s32 na = na → ll.nr_allocated < 2 ^ 64 →
    ((∀ x, b ≤ x → x < e → cell ll x = 3 → ll.ref_count_tree.vals x ≠ none) →
      ∃ ll' na', sm_ll_inc_loop fuel ll b e na = some (.ok (ll', na'))) ∧
    ((∃ x, b ≤ x ∧ x < e ∧ cell ll x = 3 ∧ ll.ref_count_tree.vals x = none) →
      sm_ll_inc_loop fuel ll b e na = some (.error (-EINVAL))) ∧
    (∀ ll' na', sm_ll_inc_loop fuel ll b e na = some (.ok (ll', na')) →
      range_inc S ll b (e - b) na ll' na') := by
  intro fuel
  induction fuel with
  | zero =>
    intro ll b na hinv hbe hfuel hS hna hal
    have hb : b = e := by omega
    subst hb
    simp only [sm_ll_inc_loop, if_true, Nat.sub_self]
    refine ⟨fun _ => ⟨ll, na, rfl⟩, fun ⟨x, h1, h2, _⟩ => by omega, ?_⟩
    intro ll' na' h
    simp only [Option.some.injEq, Except.ok.injEq, Prod.mk.injEq] at h
    obtain ⟨h1, h2⟩ := h
    subst h1 h2
    exact range_inc_refl S ll b na hinv hna hal
  | succ fuel ih =>
    intro ll b na hinv hbe hfuel hS hna hal
    by_cases hb : b = e
    · subst hb
      simp only [sm_ll_inc_loop, if_true, Nat.sub_self]
      refine ⟨fun _ => ⟨ll, na, rfl⟩, fun ⟨x, h1, h2, _⟩ => by omega, ?_⟩
      intro ll' na' h
      simp only [Option.some.injEq, Except.ok.injEq, Prod.mk.injEq] at h
      obtain ⟨h1, h2⟩ := h
      subst h1 h2
      exact range_inc_refl S ll b na hinv hna hal
    · have hlt : b < e := by omega
      obtain ⟨hn1, hn2, hn3, hn4⟩ := block_len ll.entries_per_block b e hinv.epb_pos hlt he
      obtain ⟨A, E, B⟩ := sm_ll_inc_block_spec S ll b e na hinv
        (hS b (le_refl _) hlt) hlt he hna hal
      rw [sm_ll_inc_loop, if_neg hb]
      cases hblk : __sm_ll_inc ll b e na with
      | error r =>
        simp only []
        refine ⟨fun h => ?_, fun _ => ?_, fun ll' na' h => by simp at h⟩
        · obtain ⟨ll1, na1, h1⟩ := A (fun x hx1 hx2 => h x hx1 (by omega))
          rw [hblk] at h1
          exact absurd h1 (by simp)
        · by_cases hbad : ∃ x, b ≤ x ∧
              x < b + min (e - b) (ll.entries_per_block - b % ll.entries_per_block) ∧
              cell ll x = 3 ∧ ll.ref_count_tree.vals x = none
          · rw [E hbad] at hblk
            simp only [Except.error.injEq] at hblk
            rw [hblk]
          · obtain ⟨ll1, na1, h1⟩ := A (fun x hx1 hx2 hc hv => hbad ⟨x, hx1, hx2, hc, hv⟩)
            rw [hblk] at h1
            exact absurd h1 (by simp)
      | ok r =>
        obtain ⟨ll1, na1, nb⟩ := r
        simp only []
        obtain ⟨hnb, R1⟩ := B ll1 na1 nb hblk
        subst hnb
        have hS1 : ∀ x, b + min (e - b) (ll.entries_per_block - b % ll.entries_per_block) ≤ x →
            x < e → S (x / ll1.entries_per_block) := by
          intro x hx1 hx2
          rw [R1.epb]
          exact hS x (by omega) hx2
        obtain ⟨A2, E2, B2⟩ := ih ll1
          (b + min (e - b) (ll.entries_per_block - b % ll.entries_per_block)) na1 R1.inv hn4
          (by omega) hS1 (by rw [R1.nr_alloc]; exact wrap_s32_idem _)
          (by rw [R1.nalloc]; exact Nat.mod_lt _ (by norm_num))
        have hc1 : ∀ x, b + min (e - b) (ll.entries_per_block - b % ll.entries_per_block) ≤ x →
            x < e → cell ll1 x = cell ll x ∧
              ll1.ref_count_tree.vals x = ll.ref_count_tree.vals x := by
          intro x hx1 hx2
          rw [R1.cells x (hS x (by omega) hx2), if_neg (by omega), R1.vals_out x (by omega)]
          exact ⟨rfl, rfl⟩
        refine ⟨fun h => ?_, fun hbad => ?_, fun ll' na' h => ?_⟩
        · exact A2 (fun x hx1 hx2 hc => by
            rw [(hc1 x hx1 hx2).1] at hc
            rw [(hc1 x hx1 hx2).2]
            exact h x (by omega) hx2 hc)
        · obtain ⟨x, hx1, hx2, hc, hv⟩ := hbad
          by_cases hx : x < b + min (e - b) (ll.entries_per_block - b % ll.entries_per_block)
          · rw [E ⟨x, hx1, hx, hc, hv⟩] at hblk
            exact absurd hblk (by simp)
          · apply E2
            refine ⟨x, by omega, hx2, ?_, ?_⟩
            · rw [(hc1 x (by omega) hx2).1]; exact hc
            · rw [(hc1 x (by omega) hx2).2]; exact hv
        · have R2 := B2 ll' na' h
          have := range_inc_trans S ll ll1 ll' b _ _ na na1 na' R1 R2
            (fun x hx1 hx2 => hS x hx1 (by omega))
          rw [show min (e - b) (ll.entries_per_block - b % ll.entries_per_block) +
            (e - (b + min (e - b) (ll.entries_per_block - b % ll.entries_per_block)))
            = e - b by omega] at this
          exact this

theorem __sm_ll_dec_eq (ll : ll_disk) (b e : Nat) (na : Int) (ll0 : ll_disk)
    (ie : disk_index_entry) (hload : load_ie ll (b / ll.entries_per_block) = .ok (ll0, ie))
    (n : Nat) (hn : n = min (range_bits (b % ll.entries_per_block) e b) ll0.entries_per_block
            - b % ll.entries_per_block) :
    __sm_ll_dec ll b e na =
      match sm_ll_dec_bitmap_loop n
          { ll0 with tm := (dm_tm_shadow_block ll0.tm ie.blocknr).1 } b
          (b % ll.entries_per_block)
          { ie_disk := { ie with blocknr := (dm_tm_shadow_block ll0.tm ie.blocknr).2 },
            bitmap_block := some (dm_tm_shadow_block ll0.tm ie.blocknr).2,
            overflow_leaf := none } na with
      | Except.error r => Except.error r
      | Except.ok (ll2, na', nb, ic2) =>
        match save_ie ll2 (b / ll.entries_per_block) ic2.ie_disk with
        | Except.error r => Except.error r
        | Except.ok ll3 => Except.ok (ll3, na', nb) := by
  subst hn
  unfold __sm_ll_dec
  simp only [hload]
  rfl

theorem dec_cell_eq_zero (c : Nat) (v : Option Nat) (h : c ≠ 0) : dec_cell c v = 0 ↔ c = 1 := by
  unfold dec_cell
  split
  · split <;> omega
  · omega

theorem count_free_after_dec (c c' : Nat → Nat) (a n m : Nat) (h : a + n ≤ m)
    (hnz : ∀ j, a ≤ j → j < a + n → c j ≠ 0)
    (hin : ∀ j, a ≤ j → j < a + n → (c' j = 0 ↔ c j = 1))
    (hout : ∀ j, ¬ (a ≤ j ∧ j < a + n) → c' j = c j) :
    count_range (fun j => c' j == 0) 0 m
      = count_range (fun j => c j == 0) 0 m + count_range (fun j => c j == 1) a n := by
  rw [count_range_split (fun j => c' j == 0) a n m h,
    count_range_split (fun j => c j == 0) a n m h,
    count_range_eq_zero (fun j => c j == 0) n a (fun x h1 h2 => by simpa using hnz x h1 h2),
    count_range_congr (fun j => c' j == 0) (fun j => c j == 1) n a
      (fun x h1 h2 => by
        simp only []
        by_cases hc : c x = 1
        · rw [hc, (hin x h1 h2).2 hc]; rfl
        · have : c' x ≠ 0 := fun h0 => hc ((hin x h1 h2).1 h0)
          simp [hc, this]),
    count_range_congr (fun j => c' j == 0) (fun j => c j == 0) a 0
      (fun x h1 h2 => by simp only []; rw [hout x (by omega)]),
    count_range_congr (fun j => c' j == 0) (fun j => c j == 0) (m - (a + n)) (a + n)
      (fun x h1 h2 => by simp only []; rw [hout x (by omega)])]
  omega

theorem dec_block_finish (S : Nat → Prop) (ll ll0 ll1 ll2 : ll_disk) (b n : Nat)
    (na na' : Int) (nb : Nat) (ie : disk_index_entry) (ic1 ic2 : inc_context)
    (hinv : index_inv ll S) (hS : S (b / ll.entries_per_block))
    (hview : ie_view ll (b / ll.entries_per_block) = some ie) (hok : entry_ok ll ie)
    (hcore0 : same_core ll ll0) (hview0 : ie_view ll0 = ie_view ll) (hcache0 : cache_ok ll0)
    (hn3 : b % ll.entries_per_block + n ≤ ll.entries_per_block)
    (hll1 : ll1 = { ll0 with tm := (dm_tm_shadow_block ll0.tm ie.blocknr).1 })
    (hbl1 : ic1.ie_disk.blocknr = (dm_tm_shadow_block ll0.tm ie.blocknr).2)
    (hnf1 : ic1.ie_disk.nr_free = ie.nr_free)
    (hnfb1 : ic1.ie_disk.none_free_before = ie.none_free_before)
    (P : dec_post ll1 b (b % ll.entries_per_block) n na ic1 ll2 na' nb ic2) :
    ∃ ll3, save_ie ll2 (b / ll.entries_per_block) ic2.ie_disk = .ok ll3 ∧
      range_dec S ll b n na ll3 na' ∧ nb = b + n := by
  obtain ⟨c1, c2, c3, c4, c5, c6⟩ := hcore0
  obtain ⟨s1, s2, s3, s4, s5, s6, s7⟩ := shadow_block_spec ll.tm ie.blocknr hok.1
  have Pframe := P.frame
  have Pwords := P.words
  have Pcells := P.cells
  have Pnz := P.nonzero
  have Pvo := P.vals_out
  have Pvl := P.vals_low
  have Pv3 := P.vals_three
  have Pna := P.nalloc
  have Pnr := P.nr_alloc
  have Pnf := P.nr_free
  have Pnfb := P.nfb_ok
  have Pnfl := P.nfb_le
  have Pbl := P.blocknr
  rw [hbl1] at Pframe Pwords Pcells Pnz Pvl Pv3 Pna Pnr Pnf Pnfb Pbl
  rw [hnf1] at Pnf
  rw [hnfb1] at Pnfb Pnfl
  have hd1 : ll1.tm.data (dm_tm_shadow_block ll0.tm ie.blocknr).2 = ll.tm.data ie.blocknr := by
    rw [hll1, c1]; exact s1
  have hv1 : ll1.ref_count_tree = ll.ref_count_tree := by rw [hll1]; exact c6
  have ha1 : ll1.nr_allocated = ll.nr_allocated := by rw [hll1]; exact c5
  rw [hd1] at Pcells Pnz Pvl Pv3 Pna Pnr Pnf Pnfb
  rw [hv1] at Pcells Pvo Pvl Pv3
  rw [ha1] at Pna
  rw [hll1] at Pframe
  obtain ⟨o1, o2, o3, o4, o5⟩ := hok
  have hcf := count_free_after_dec (sm_lookup_bitmap (ll.tm.data ie.blocknr))
      (sm_lookup_bitmap (ll2.tm.data (dm_tm_shadow_block ll0.tm ie.blocknr).2))
      (b % ll.entries_per_block) n ll.entries_per_block hn3
      (fun j h1 h2 => by
        have := Pnz (j - b % ll.entries_per_block) (by omega)
        rw [show b % ll.entries_per_block + (j - b % ll.entries_per_block) = j by omega] at this
        exact this)
      (fun j h1 h2 => by
        rw [Pcells j, if_pos ⟨h1, h2⟩]
        apply dec_cell_eq_zero
        have := Pnz (j - b % ll.entries_per_block) (by omega)
        rw [show b % ll.entries_per_block + (j - b % ll.entries_per_block) = j by omega] at this
        exact this)
      (fun j h => by rw [Pcells j, if_neg h])
  have hfree_lt : ie.nr_free + count_range
      (fun j => sm_lookup_bitmap (ll.tm.data ie.blocknr) j == 1) (b % ll.entries_per_block) n
      < 2 ^ 32 := by
    rw [o3]
    unfold count_free
    rw [← hcf]
    exact lt_of_le_of_lt (count_range_le _ _ _) hinv.epb_lt
  have hfree' : ic2.ie_disk.nr_free
      = count_free (ll2.tm.data (dm_tm_shadow_block ll0.tm ie.blocknr).2)
          ll.entries_per_block := by
    rw [Pnf hfree_lt, o3]
    unfold count_free
    rw [hcf]
  obtain ⟨ll3, hsave, hinv3, hfl3, hepb3, hnb3, hal3, hrt3, hcell_o, hcell_i, hcell_i0⟩ :=
    block_finish S ll ll0 ll2 (b / ll.entries_per_block) ie ic2.ie_disk hinv hS hview
      ⟨o1, o2, o3, o4, o5⟩ ⟨c1, c2, c3, c4, c5, c6⟩ hview0 hcache0 Pframe Pbl Pwords hfree'
      (Pnfl _ o4) (Pnfb o5)
  have hpos : ∀ x, b ≤ x → x < b + n →
      x / ll.entries_per_block = b / ll.entries_per_block ∧
      x % ll.entries_per_block = b % ll.entries_per_block + (x - b) :=
    fun x h1 h2 => block_pos _ b x n hinv.epb_pos h1 h2 hn3
  have hcellx : ∀ x, b ≤ x → x < b + n →
      sm_lookup_bitmap (ll.tm.data ie.blocknr) (b % ll.entries_per_block + (x - b))
        = cell ll x := by
    intro x h1 h2
    rw [hcell_i0 x (hpos x h1 h2).1, (hpos x h1 h2).2]
  have hcount : ∀ (k : Nat), count_range
      (fun j => sm_lookup_bitmap (ll.tm.data ie.blocknr) j == k) (b % ll.entries_per_block) n
      = count_range (fun x => cell ll x == k) b n := by
    intro k
    apply count_range_shift
    intro j hj
    have := hcellx (b + j) (by omega) (by omega)
    rw [show b + j - b = j by omega] at this
    simp only [this]
  refine ⟨ll3, hsave, ⟨hinv3, hfl3, hepb3, hnb3, ?_, ?_, ?_, ?_, ?_, ?_, ?_, ?_⟩, P.new_b⟩
  · intro x hSx
    by_cases hxi : x / ll.entries_per_block = b / ll.entries_per_block
    · rw [hcell_i x hxi, hcell_i0 x hxi, Pcells]
      have hx := Nat.div_add_mod x ll.entries_per_block
      have hb := Nat.div_add_mod b ll.entries_per_block
      rw [hxi] at hx
      by_cases hin : b ≤ x ∧ x < b + n
      · rw [if_pos hin, if_pos (by omega),
          show b + (x % ll.entries_per_block - b % ll.entries_per_block) = x by omega]
      · rw [if_neg hin, if_neg (by omega)]
    · rw [hcell_o x hSx hxi, if_neg]
      intro hin
      exact hxi (hpos x hin.1 hin.2).1
  · intro x h1 h2
    have := Pnz (x - b) (by omega)
    rw [hcellx x h1 h2] at this
    exact this
  · intro k hk
    rw [hrt3]
    exact Pvo k hk
  · intro x h1 h2 hc
    rw [hrt3]
    have := Pvl (x - b) (by omega)
    rw [hcellx x h1 h2, show b + (x - b) = x by omega] at this
    exact this hc
  · intro x h1 h2 hc
    rw [hrt3]
    have := Pv3 (x - b) (by omega)
    rw [hcellx x h1 h2, show b + (x - b) = x by omega] at this
    exact this hc
  · rw [hal3, ← hcount 1]
    exact Pna
  · rw [hal3]; exact P.nalloc_lt
  · rw [Pnr, hcount 1]

/-- One round of `sm_ll_dec`: the part of the range that lies in the bitmap
block of `b`. -/
theorem sm_ll_dec_block_spec (S : Nat → Prop) (ll : ll_disk) (b e : Nat) (na : Int)
    (hinv : index_inv ll S) (hS : S (b / ll.entries_per_block)) (hbe : b < e)
    (he : e < 2 ^ 64) (hna : wrap_s32 na = na) (hal : ll.nr_allocated < 2 ^ 64) :
    ((∀ x, b ≤ x → x < b + min (e - b) (ll.entries_per_block - b % ll.entries_per_block) →
        cell ll x ≠ 0 ∧ (cell ll x = 3 → ll.ref_count_tree.vals x ≠ none)) →
      ∃ ll' na', __sm_ll_dec ll b e na = .ok (ll', na',
        b + min (e - b) (ll.entries_per_block - b % ll.entries_per_block))) ∧
    ((∃ x, b ≤ x ∧ x < b + min (e - b) (ll.entries_per_block - b % ll.entries_per_block) ∧
        (cell ll x = 0 ∨ (cell ll x = 3 ∧ ll.ref_count_tree.vals x = none))) →
      __sm_ll_dec ll b e na = .error (-EINVAL)) ∧
    (∀ ll' na' nb, __sm_ll_dec ll b e na = .ok (ll', na', nb) →
      nb = b + min (e - b) (ll.entries_per_block - b % ll.entries_per_block) ∧
      range_dec S ll b (min (e - b) (ll.entries_per_block - b % ll.entries_per_block))
        na ll' na') := by
  obtain ⟨ie, ll0, hview, hok, hload, hcore0, hview0, hcache0⟩ := block_setup S ll b hinv hS
  obtain ⟨hn1, hn2, hn3, hn4⟩ := block_len ll.entries_per_block b e hinv.epb_pos hbe he
  rw [__sm_ll_dec_eq ll b e na ll0 ie hload _ (by rw [hcore0.2.2.1, hn1])]
  obtain ⟨s1, s2, s3, s4, s5, s6, s7⟩ := shadow_block_spec ll.tm ie.blocknr hok.1
  have hd1 : ({ ll0 with tm := (dm_tm_shadow_block ll0.tm ie.blocknr).1 } : ll_disk).tm.data
      (dm_tm_shadow_block ll0.tm ie.blocknr).2 = ll.tm.data ie.blocknr := by
    rw [hcore0.1]; exact s1
  have hpos : ∀ x, b ≤ x →
      x < b + min (e - b) (ll.entries_per_block - b % ll.entries_per_block) →
      x / ll.entries_per_block = b / ll.entries_per_block ∧
      x % ll.entries_per_block = b % ll.entries_per_block + (x - b) :=
    fun x h1 h2 => block_pos _ b x _ hinv.epb_pos h1 h2 hn3
  have hcellx : ∀ j, j < min (e - b) (ll.entries_per_block - b % ll.entries_per_block) →
      sm_lookup_bitmap (ll.tm.data ie.blocknr) (b % ll.entries_per_block + j)
        = cell ll (b + j) := by
    intro j hj
    have hp := hpos (b + j) (by omega) (by omega)
    rw [cell_of_view ll (b + j) ie (by rw [hp.1]; exact hview), hp.2,
      show b + j - b = j by omega]
  obtain ⟨A1, E1, B1⟩ := dec_loop_spec
    (min (e - b) (ll.entries_per_block - b % ll.entries_per_block))
    { ll0 with tm := (dm_tm_shadow_block ll0.tm ie.blocknr).1 } b (b % ll.entries_per_block) na
    { ie_disk := { ie with blocknr := (dm_tm_shadow_block ll0.tm ie.blocknr).2 },
      bitmap_block := some (dm_tm_shadow_block ll0.tm ie.blocknr).2,
      overflow_leaf := none } (Or.inr rfl) (by rw [hd1]; exact hok.2.1) hna
    (by rw [show ({ ll0 with tm := (dm_tm_shadow_block ll0.tm ie.blocknr).1 } :
      ll_disk).nr_allocated = ll0.nr_allocated from rfl, hcore0.2.2.2.2.1]; exact hal)
  rw [hd1] at A1 E1
  have hv0 : ll0.ref_count_tree.vals = ll.ref_count_tree.vals := by rw [hcore0.2.2.2.2.2]
  simp only [hv0] at A1 E1
  have fin := fun ll2 na' nb ic2 P =>
    dec_block_finish S ll ll0 { ll0 with tm := (dm_tm_shadow_block ll0.tm ie.blocknr).1 } ll2 b
      (min (e - b) (ll.entries_per_block - b % ll.entries_per_block)) na na' nb ie
      { ie_disk := { ie with blocknr := (dm_tm_shadow_block ll0.tm ie.blocknr).2 },
        bitmap_block := some (dm_tm_shadow_block ll0.tm ie.blocknr).2,
        overflow_leaf := none } ic2 hinv hS hview hok hcore0 hview0
      hcache0 hn3 rfl rfl rfl rfl P
  refine ⟨?_, ?_, ?_⟩
  · intro h
    obtain ⟨⟨ll2, na', nb, ic2⟩, hloop⟩ := A1 (fun j hj => by
      rw [hcellx j hj]
      exact h (b + j) (by omega) (by omega))
    obtain ⟨ll3, hsave, _, hnb⟩ := fin ll2 na' nb ic2 (B1 ll2 na' nb ic2 hloop)
    rw [hloop]
    simp only [hsave, hnb]
    exact ⟨ll3, na', rfl⟩
  · rintro ⟨x, h1, h2, hc⟩
    rw [E1 ⟨x - b, by omega, by
      rw [hcellx (x - b) (by omega), show b + (x - b) = x by omega]
      exact hc⟩]
  · intro ll' na' nb h
    cases hloop : sm_ll_dec_bitmap_loop
      (min (e - b) (ll.entries_per_block - b % ll.entries_per_block))
      { ll0 with tm := (dm_tm_shadow_block ll0.tm ie.blocknr).1 } b (b % ll.entries_per_block)
      { ie_disk := { ie with blocknr := (dm_tm_shadow_block ll0.tm ie.blocknr).2 },
        bitmap_block := some (dm_tm_shadow_block ll0.tm ie.blocknr).2,
        overflow_leaf := none } na with
    | error r =>
      rw [hloop] at h
      exact absurd h (by simp)
    | ok r =>
      obtain ⟨ll2, na2, nb2, ic2⟩ := r
      obtain ⟨ll3, hsave, hri, hnb⟩ := fin ll2 na2 nb2 ic2 (B1 ll2 na2 nb2 ic2 hloop)
      rw [hloop] at h
      simp only [hsave, Except.ok.injEq, Prod.mk.injEq] at h
      obtain ⟨h1, h2, h3⟩ := h
      subst h1 h2 h3
      exact ⟨hnb, hri⟩

theorem range_dec_refl (S : Nat → Prop) (ll : ll_disk) (b : Nat) (na : Int)
    (hinv : index_inv ll S) (hna : wrap_s32 na = na) (hal : ll.nr_allocated < 2 ^ 64) :
    range_dec S ll b 0 na ll na := by
  refine ⟨hinv, rfl, rfl, rfl, ?_, fun x h1 h2 => by omega, fun _ _ => rfl,
    fun x h1 h2 => by omega, fun x h1 h2 => by omega, ?_, hal, ?_⟩
  · intro x _
    rw [if_neg (by omega)]
  · intro _
    simp only [count_range, Nat.sub_zero]
  · simp only [count_range]
    rw [show na - ((0 : Nat) : Int) = na by simp, hna]

theorem range_dec_trans (S : Nat → Prop) (ll ll1 ll2 : ll_disk) (b n1 n2 : Nat)
    (na na1 na2 : Int) (h1 : range_dec S ll b n1 na ll1 na1)
    (h2 : range_dec S ll1 (b + n1) n2 na1 ll2 na2)
    (hS : ∀ x, b ≤ x → x < b + n1 + n2 → S (x / ll.entries_per_block)) :
    range_dec S ll b (n1 + n2) na ll2 na2 := by
  have hc1 : ∀ x, b + n1 ≤ x → x < b + n1 + n2 → cell ll1 x = cell ll x := by
    intro x hx1 hx2
    rw [h1.cells x (hS x (by omega) hx2), if_neg (by omega)]
  have hZ : count_range (fun x => cell ll1 x == 1) (b + n1) n2
      = count_range (fun x => cell ll x == 1) (b + n1) n2 := by
    apply count_range_congr
    intro x hx1 hx2
    simp only [hc1 x hx1 hx2]
  refine ⟨h2.inv, h2.flavor.trans h1.flavor, h2.epb.trans h1.epb,
    h2.nr_blocks.trans h1.nr_blocks, ?_, ?_, ?_, ?_, ?_, ?_, h2.nalloc_lt, ?_⟩
  · intro x hSx
    rw [h2.cells x (by rw [h1.epb]; exact hSx), h1.cells x hSx]
    by_cases ha : b ≤ x ∧ x < b + n1
    · rw [if_neg (by omega), if_pos ha, if_pos (by omega)]
    · by_cases hb : b + n1 ≤ x ∧ x < b + n1 + n2
      · rw [if_pos hb, if_neg ha, if_pos (by omega), h1.vals_out x (by omega)]
      · rw [if_neg hb, if_neg ha, if_neg (by omega)]
  · intro x hx1 hx2
    by_cases ha : x < b + n1
    · exact h1.nonzero x hx1 ha
    · rw [← hc1 x (by omega) (by omega)]
      exact h2.nonzero x (by omega) (by omega)
  · intro k hk
    rw [h2.vals_out k (by omega), h1.vals_out k (by omega)]
  · intro x hx1 hx2 hc
    by_cases ha : x < b + n1
    · rw [h2.vals_out x (by omega), h1.vals_low x hx1 ha hc]
    · rw [h2.vals_low x (by omega) (by omega) (by rw [hc1 x (by omega) (by omega)]; exact hc),
        h1.vals_out x (by omega)]
  · intro x hx1 hx2 hc
    by_cases ha : x < b + n1
    · rw [h2.vals_out x (by omega)]
      exact h1.vals_three x hx1 ha hc
    · have := h2.vals_three x (by omega) (by omega)
        (by rw [hc1 x (by omega) (by omega)]; exact hc)
      rw [h1.vals_out x (by omega)] at this
      exact this
  · intro hle
    rw [count_range_add] at hle ⊢
    have e1 := h1.nalloc (by omega)
    have e2 := h2.nalloc (by rw [hZ, e1]; omega)
    rw [e2, e1, hZ]
    omega
  · rw [h2.nr_alloc, h1.nr_alloc, hZ, count_range_add, sub_eq_add_neg, wrap_s32_add]
    congr 1
    push_cast
    omega

theorem sm_ll_dec_loop_spec (S : Nat → Prop) (e : Nat) (he : e < 2 ^ 64) :
    ∀ (fuel : Nat) (ll : ll_disk) (b : Nat) (na : Int),
    index_inv ll S → b ≤ e → e - b ≤ fuel →
    (∀ x, b ≤ x → x < e → S (x / ll.entries_per_block)) →
    wrap_s32 na = na → ll.nr_allocated < 2 ^ 64 →
    ((∀ x, b ≤ x → x < e →
        cell ll x ≠ 0 ∧ (cell ll x = 3 → ll.ref_count_tree.vals x ≠ none)) →
      ∃ ll' na', sm_ll_dec_loop fuel ll b e na = some (.ok (ll', na'))) ∧
    ((∃ x, b ≤ x ∧ x < e ∧
        (cell ll x = 0 ∨ (cell ll x = 3 ∧ ll.ref_count_tree.vals x = none))) →
      sm_ll_dec_loop fuel ll b e na = some (.error (-EINVAL))) ∧
    (∀ ll' na', sm_ll_dec_loop fuel ll b e na = some (.ok (ll', na')) →
      range_dec S ll b (e - b) na ll' na') := by
  intro fuel
  induction fuel with
  | zero =>
    intro ll b na hinv hbe hfuel hS hna hal
    have hb : b = e := by omega
    subst hb
    simp only [sm_ll_dec_loop, if_true, Nat.sub_self]
    refine ⟨fun _ => ⟨ll, na, rfl⟩, fun ⟨x, h1, h2, _⟩ => by omega, ?_⟩
    intro ll' na' h
    simp only [Option.some.injEq, Except.ok.injEq, Prod.mk.injEq] at h
    obtain ⟨h1, h2⟩ := h
    subst h1 h2
    exact range_dec_refl S ll b na hinv hna hal
  | succ fuel ih =>
    intro ll b na hinv hbe hfuel hS hna hal
    by_cases hb : b = e
    · subst hb
      simp only [sm_ll_dec_loop, if_true, Nat.sub_self]
      refine ⟨fun _ => ⟨ll, na, rfl⟩, fun ⟨x, h1, h2, _⟩ => by omega, ?_⟩
      intro ll' na' h
      simp only [Option.some.injEq, Except.ok.injEq, Prod.mk.injEq] at h
      obtain ⟨h1, h2⟩ := h
      subst h1 h2
      exact range_dec_refl S ll b na hinv hna hal
    · have hlt : b < e := by omega
      obtain ⟨hn1, hn2, hn3, hn4⟩ := block_len ll.entries_per_block b e hinv.epb_pos hlt he
      obtain ⟨A, E, B⟩ := sm_ll_dec_block_spec S ll b e na hinv
        (hS b (le_refl _) hlt) hlt he hna hal
      rw [sm_ll_dec_loop, if_neg hb]
      cases hblk : __sm_ll_dec ll b e na with
      | error r =>
        simp only []
        refine ⟨fun h => ?_, fun _ => ?_, fun ll' na' h => by simp at h⟩
        · obtain ⟨ll1, na1, h1⟩ := A (fun x hx1 hx2 => h x hx1 (by omega))
          rw [hblk] at h1
          exact absurd h1 (by simp)
        · by_cases hbad : ∃ x, b ≤ x ∧
              x < b + min (e - b) (ll.entries_per_block - b % ll.entries_per_block) ∧
              (cell ll x = 0 ∨ (cell ll x = 3 ∧ ll.ref_count_tree.vals x = none))
          · rw [E hbad] at hblk
            simp only [Except.error.injEq] at hblk
            rw [hblk]
          · obtain ⟨ll1, na1, h1⟩ := A (fun x hx1 hx2 => by
              constructor
              · intro hc; exact hbad ⟨x, hx1, hx2, Or.inl hc⟩
              · intro hc hv; exact hbad ⟨x, hx1, hx2, Or.inr ⟨hc, hv⟩⟩)
            rw [hblk] at h1
            exact absurd h1 (by simp)
      | ok r =>
        obtain ⟨ll1, na1, nb⟩ := r
        simp only []
        obtain ⟨hnb, R1⟩ := B ll1 na1 nb hblk
        subst hnb
        have hS1 : ∀ x, b + min (e - b) (ll.entries_per_block - b % ll.entries_per_block) ≤ x →
            x < e → S (x / ll1.entries_per_block) := by
          intro x hx1 hx2
          rw [R1.epb]
          exact hS x (by omega) hx2
        obtain ⟨A2, E2, B2⟩ := ih ll1
          (b + min (e - b) (ll.entries_per_block - b % ll.entries_per_block)) na1 R1.inv hn4
          (by omega) hS1 (by rw [R1.nr_alloc]; exact wrap_s32_idem _) R1.nalloc_lt
        have hc1 : ∀ x, b + min (e - b) (ll.entries_per_block - b % ll.entries_per_block) ≤ x →
            x < e → cell ll1 x = cell ll x ∧
              ll1.ref_count_tree.vals x = ll.ref_count_tree.vals x := by
          intro x hx1 hx2
          rw [R1.cells x (hS x (by omega) hx2), if_neg (by omega), R1.vals_out x (by omega)]
          exact ⟨rfl, rfl⟩
        refine ⟨fun h => ?_, fun hbad => ?_, fun ll' na' h => ?_⟩
        · exact A2 (fun x hx1 hx2 => by
            rw [(hc1 x hx1 hx2).1, (hc1 x hx1 hx2).2]
            exact h x (by omega) hx2)
        · obtain ⟨x, hx1, hx2, hc⟩ := hbad
          by_cases hx : x < b + min (e - b) (ll.entries_per_block - b % ll.entries_per_block)
          · rw [E ⟨x, hx1, hx, hc⟩] at hblk
            exact absurd hblk (by simp)
          · apply E2
            refine ⟨x, by omega, hx2, ?_⟩
            rw [(hc1 x (by omega) hx2).1, (hc1 x (by omega) hx2).2]
            exact hc
        · have R2 := B2 ll' na' h
          have := range_dec_trans S ll ll1 ll' b _ _ na na1 na' R1 R2
            (fun x hx1 hx2 => hS x hx1 (by omega))
          rw [show min (e - b) (ll.entries_per_block - b % ll.entries_per_block) +
            (e - (b + min (e - b) (ll.entries_per_block - b % ll.entries_per_block)))
            = e - b by omega] at this
          exact this

/-! ## Lookup and search -/

/-- The index hooks do not change what the state stands for. -/
theorem cell_same_view (ll ll' : ll_disk) (hcore : same_core ll ll')
    (hview : ie_view ll' = ie_view ll) (x : Nat) : cell ll' x = cell ll x := by
  unfold cell
  rw [hview, hcore.1, hcore.2.2.1]

theorem refcount_same_view (ll ll' : ll_disk) (hcore : same_core ll ll')
    (hview : ie_view ll' = ie_view ll) (x : Nat) : refcount ll' x = refcount ll x := by
  unfold refcount
  rw [cell_same_view ll ll' hcore hview, hcore.2.2.2.2.2]

theorem index_inv_same_view (S : Nat → Prop) (ll ll' : ll_disk) (hcore : same_core ll ll')
    (hview : ie_view ll' = ie_view ll) (hcache : cache_ok ll') (hinv : index_inv ll S) :
    index_inv ll' S := by
  obtain ⟨c1, c2, c3, c4, c5, c6⟩ := hcore
  refine ⟨by rw [c3]; exact hinv.epb_pos, by rw [c3]; exact hinv.epb_lt, hcache, ?_, ?_, ?_⟩
  · intro i hS
    obtain ⟨ie, h1, h2⟩ := hinv.saved i hS
    refine ⟨ie, by rw [hview]; exact h1, ?_⟩
    unfold entry_ok at h2 ⊢
    rw [c1, c3]
    exact h2
  · intro i j ie je hi hj h1 h2 h3
    rw [hview] at h1 h2
    exact hinv.inj i j ie je hi hj h1 h2 h3
  · intro hd i ie h
    rw [hview] at h
    exact hinv.disk_saved (c2 ▸ hd) i ie h

theorem sm_ll_lookup_bitmap_oob (ll : ll_disk) (b : Nat) (h : ll.nr_blocks ≤ b) :
    sm_ll_lookup_bitmap ll b = .error (-EINVAL) := by
  unfold sm_ll_lookup_bitmap
  rw [if_pos h]

theorem sm_ll_lookup_bitmap_load (ll ll0 : ll_disk) (b : Nat) (ie : disk_index_entry)
    (h : b < ll.nr_blocks) (hload : load_ie ll (b / ll.entries_per_block) = .ok (ll0, ie)) :
    sm_ll_lookup_bitmap ll b =
      .ok (ll0, sm_lookup_bitmap (dm_tm_read_lock ll0.tm ie.blocknr)
        (b % ll.entries_per_block)) := by
  unfold sm_ll_lookup_bitmap
  rw [if_neg (by omega)]
  simp only [hload]

theorem sm_ll_lookup_bitmap_spec (S : Nat → Prop) (ll : ll_disk) (b : Nat)
    (hinv : index_inv ll S) (hS : S (b / ll.entries_per_block)) (hb : b < ll.nr_blocks) :
    ∃ ll0, sm_ll_lookup_bitmap ll b = .ok (ll0, cell ll b) ∧ same_core ll ll0 ∧
      ie_view ll0 = ie_view ll ∧ cache_ok ll0 := by
  obtain ⟨ie, ll0, hview, hok, hload, hcore0, hview0, hcache0⟩ := block_setup S ll b hinv hS
  refine ⟨ll0, ?_, hcore0, hview0, hcache0⟩
  rw [sm_ll_lookup_bitmap_load ll ll0 b ie hb hload, cell_of_view ll b ie hview]
  unfold dm_tm_read_lock
  rw [hcore0.1]

theorem sm_ll_lookup_of_bitmap (ll ll0 : ll_disk) (b c : Nat)
    (h : sm_ll_lookup_bitmap ll b = .ok (ll0, c)) :
    (c ≠ 3 → sm_ll_lookup ll b = .ok (ll0, c)) ∧
    (c = 3 → ∀ v, ll0.ref_count_tree.vals b = some v → sm_ll_lookup ll b = .ok (ll0, v)) ∧
    (c = 3 → ll0.ref_count_tree.vals b = none → sm_ll_lookup ll b = .error (-ENODATA)) := by
  refine ⟨fun hc => ?_, fun hc v hv => ?_, fun hc hv => ?_⟩
  · unfold sm_ll_lookup
    simp only [h, hc, ne_eq, not_false_eq_true, if_true]
  · unfold sm_ll_lookup sm_ll_lookup_big_ref_count dm_btree_lookup
    simp only [h, hc, hv, ne_eq, not_true_eq_false, if_false]
  · unfold sm_ll_lookup sm_ll_lookup_big_ref_count dm_btree_lookup
    simp only [h, hc, hv, ne_eq, not_true_eq_false, if_false]

/-- What `sm_ll_lookup` returns on a block below `nr_blocks` whose bitmap index
has an entry. -/
theorem sm_ll_lookup_spec (S : Nat → Prop) (ll : ll_disk) (b : Nat)
    (hinv : index_inv ll S) (hS : S (b / ll.entries_per_block)) (hb : b < ll.nr_blocks)
    (hkey : cell ll b = 3 → ll.ref_count_tree.vals b ≠ none) :
    ∃ ll0, sm_ll_lookup ll b = .ok (ll0, refcount ll b) ∧ same_core ll ll0 ∧
      ie_view ll0 = ie_view ll ∧ cache_ok ll0 := by
  obtain ⟨ll0, h, hcore, hview, hcache⟩ := sm_ll_lookup_bitmap_spec S ll b hinv hS hb
  obtain ⟨h1, h2, h3⟩ := sm_ll_lookup_of_bitmap ll ll0 b _ h
  refine ⟨ll0, ?_, hcore, hview, hcache⟩
  unfold refcount
  by_cases hc : cell ll b = 3
  · rw [if_pos hc]
    cases hv : ll.ref_count_tree.vals b with
    | none => exact absurd hv (hkey hc)
    | some v =>
      rw [h2 hc v (by rw [hcore.2.2.2.2.2]; exact hv)]
      rfl
  · rw [if_neg hc]
    exact h1 hc

theorem lookup_val_eq (S : Nat → Prop) (ll : ll_disk) (b : Nat)
    (hinv : index_inv ll S) (hS : S (b / ll.entries_per_block)) (hb : b < ll.nr_blocks)
    (hkey : cell ll b = 3 → ll.ref_count_tree.vals b ≠ none) :
    lookup_val ll b = some (refcount ll b) := by
  obtain ⟨ll0, h, _⟩ := sm_ll_lookup_spec S ll b hinv hS hb hkey
  unfold lookup_val
  rw [h]

theorem div_mod_of_block (epb i q : Nat) (h1 : i * epb ≤ q) (h2 : q < i * epb + epb) :
    q / epb = i ∧ q % epb = q - i * epb := by
  have hd : q / epb = i := Nat.div_eq_of_lt_le h1 (by rw [Nat.succ_mul]; exact h2)
  have := Nat.div_add_mod q epb
  rw [hd, Nat.mul_comm] at this
  exact ⟨hd, by omega⟩

/-- The cells of bitmap `i` are the entries of the block its entry points at. -/
theorem cell_in_block (ll : ll_disk) (i q : Nat) (ie : disk_index_entry)
    (hview : ie_view ll i = some ie) (h1 : i * ll.entries_per_block ≤ q)
    (h2 : q < i * ll.entries_per_block + ll.entries_per_block) :
    cell ll q = sm_lookup_bitmap (ll.tm.data ie.blocknr) (q - i * ll.entries_per_block) := by
  obtain ⟨hd, hm⟩ := div_mod_of_block ll.entries_per_block i q h1 h2
  rw [cell_of_view ll q ie (by rw [hd]; exact hview), hm]

theorem count_free_zero (addr : Nat → Nat) (n : Nat) (h : count_free addr n = 0) (j : Nat)
    (hj : j < n) : sm_lookup_bitmap addr j ≠ 0 := by
  intro h0
  have := count_range_pos (fun j => sm_lookup_bitmap addr j == 0) n 0 j (by omega) (by omega)
    (by simp [h0])
  unfold count_free at h
  omega

/-- The loop of `sm_ll_find_free_block` over the bitmaps `i, ..., index_end - 1`:
it finds the first block with bitmap value 0 in `[i * epb + begin, E)`, `E` being
the end of the searched range, or fails with `-ENOSPC` when there is none. -/
theorem find_free_block_loop_spec (S : Nat → Prop) (index_end end_ epb E : Nat)
    (hE1 : E ≤ index_end * epb) (hE2 : 0 < index_end → E = (index_end - 1) * epb + end_)
    (hend : end_ ≤ epb) (hE3 : E < 2 ^ 64) :
    ∀ (n : Nat) (ll : ll_disk) (i begin : Nat), index_inv ll S → ll.entries_per_block = epb →
    i + n = index_end → (∀ j, i ≤ j → j < index_end → S j) → begin ≤ epb →
    (∃ ll' p, sm_ll_find_free_block_loop index_end end_ n ll i begin = .ok (ll', p) ∧
      i * epb + begin ≤ p ∧ p < E ∧ cell ll p = 0 ∧
      (∀ q, i * epb + begin ≤ q → q < p → cell ll q ≠ 0) ∧
      same_core ll ll' ∧ ie_view ll' = ie_view ll ∧ cache_ok ll') ∨
    (sm_ll_find_free_block_loop index_end end_ n ll i begin = .error (-ENOSPC) ∧
      ∀ q, i * epb + begin ≤ q → q < E → cell ll q ≠ 0) := by
  intro n
  induction n with
  | zero =>
    intro ll i begin hinv hepb hin hS hbegin
    right
    refine ⟨rfl, ?_⟩
    intro q h1 h2
    have : i = index_end := by omega
    subst this
    omega
  | succ n ih =>
    intro ll i begin hinv hepb hin hS hbegin
    have hSi : S i := hS i (le_refl _) (by omega)
    obtain ⟨ie, hview, hok⟩ := hinv.saved i hSi
    obtain ⟨ll0, hload⟩ := load_ie_some ll i ie hinv.cache hview
    obtain ⟨_, hcore0, hview0, hcache0⟩ := load_ie_ok ll ll0 i ie hinv.cache hload
    have hinv0 := index_inv_same_view S ll ll0 hcore0 hview0 hcache0 hinv
    have hepb0 : ll0.entries_per_block = epb := by rw [hcore0.2.2.1]; exact hepb
    have hcell0 : ∀ x, cell ll0 x = cell ll x := cell_same_view ll ll0 hcore0 hview0
    have hsucc : (i + 1) * epb = i * epb + epb := Nat.succ_mul i epb
    have hEi : i = index_end - 1 → E = i * epb + end_ := by
      intro h
      rw [hE2 (by omega), ← h]
    have hEn : i ≠ index_end - 1 → i * epb + epb ≤ E := by
      intro h
      rw [hE2 (by omega), ← hsucc]
      have := Nat.mul_le_mul_right epb (show i + 1 ≤ index_end - 1 by omega)
      omega
    have hblock : ∀ q, i * epb ≤ q → q < i * epb + epb →
        cell ll q = sm_lookup_bitmap (ll.tm.data ie.blocknr) (q - i * epb) := by
      intro q h1 h2
      exact hepb ▸ cell_in_block ll i q ie hview (by rw [hepb]; exact h1) (by rw [hepb]; exact h2)
    -- the rest of the search, over the bitmaps after `i`
    have rest : (∀ q, i * epb + begin ≤ q → q < i * epb + epb → q < E → cell ll q ≠ 0) →
        (∃ ll' p, sm_ll_find_free_block_loop index_end end_ n ll0 (i + 1) 0 = .ok (ll', p) ∧
          i * epb + begin ≤ p ∧ p < E ∧ cell ll p = 0 ∧
          (∀ q, i * epb + begin ≤ q → q < p → cell ll q ≠ 0) ∧
          same_core ll ll' ∧ ie_view ll' = ie_view ll ∧ cache_ok ll') ∨
        (sm_ll_find_free_block_loop index_end end_ n ll0 (i + 1) 0 = .error (-ENOSPC) ∧
          ∀ q, i * epb + begin ≤ q → q < E → cell ll q ≠ 0) := by
      intro hhere
      rcases ih ll0 (i + 1) 0 hinv0 hepb0 (by omega) (fun j h1 h2 => hS j (by omega) h2)
          (Nat.zero_le _) with
        ⟨ll', p, h1, h2, h3, h4, h5, h6, h7, h8⟩ | ⟨h1, h2⟩
      · left
        refine ⟨ll', p, h1, by omega, h3, by rw [← hcell0]; exact h4, ?_,
          same_core_trans hcore0 h6, by rw [h7, hview0], h8⟩
        intro q hq1 hq2
        by_cases hq : q < i * epb + epb
        · exact hhere q hq1 hq (by omega)
        · rw [← hcell0]
          exact h5 q (by omega) hq2
      · right
        refine ⟨h1, ?_⟩
        intro q hq1 hq2
        by_cases hq : q < i * epb + epb
        · exact hhere q hq1 hq hq2
        · rw [← hcell0]
          exact h2 q (by omega) hq2
    rw [sm_ll_find_free_block_loop]
    simp only [hload]
    by_cases hfree : ie.nr_free = 0
    · rw [if_pos hfree]
      apply rest
      intro q h1 h2 _
      rw [hblock q (by omega) h2]
      have hz : count_free (ll.tm.data ie.blocknr) ll.entries_per_block = 0 := by
        rw [← hok.2.2.1]; exact hfree
      exact count_free_zero _ _ hz _ (by rw [hepb]; omega)
    · rw [if_neg hfree]
      have hlow : ∀ q, i * epb + begin ≤ q → q < i * epb + epb →
          q - i * epb < max begin ie.none_free_before → cell ll q ≠ 0 := by
        intro q h1 h2 h3
        rw [hblock q (by omega) h2]
        have h4 : q - i * epb < ie.none_free_before := by
          rcases Nat.lt_or_ge (q - i * epb) ie.none_free_before with h | h
          · exact h
          · have : max begin ie.none_free_before ≤ q - i * epb := max_le (by omega) h
            omega
        exact hok.2.2.2.2 _ h4
      have hnfb := hok.2.2.2.1
      rw [hepb] at hnfb
      rcases sm_find_free_spec (dm_tm_read_lock ll0.tm ie.blocknr)
          (max begin ie.none_free_before)
          (if i = index_end - 1 then end_ else ll0.entries_per_block) with
        ⟨p, h1, h2, h3, h4, h5⟩ | ⟨h1, h2⟩
      · left
        simp only [h1]
        have hdata : dm_tm_read_lock ll0.tm ie.blocknr = ll.tm.data ie.blocknr := by
          unfold dm_tm_read_lock
          rw [hcore0.1]
        rw [hdata] at h4 h5
        have hp1 : begin ≤ p := le_trans (le_max_left _ _) h2
        have hp2 : p < epb := by
          by_cases hi : i = index_end - 1
          · rw [if_pos hi] at h3; omega
          · rw [if_neg hi, hepb0] at h3; exact h3
        have hp3 : i * epb + p < E := by
          by_cases hi : i = index_end - 1
          · rw [if_pos hi] at h3
            have := hEi hi
            omega
          · have := hEn hi
            omega
        refine ⟨ll0, (i * ll0.entries_per_block + p) % 2 ^ 64, rfl, ?_, ?_, ?_, ?_,
          hcore0, hview0, hcache0⟩
        · rw [hepb0, Nat.mod_eq_of_lt (by omega)]; omega
        · rw [hepb0, Nat.mod_eq_of_lt (by omega)]; exact hp3
        · rw [hepb0, Nat.mod_eq_of_lt (by omega), hblock _ (by omega) (by omega)]
          rw [show i * epb + p - i * epb = p by omega]
          exact h4
        · rw [hepb0, Nat.mod_eq_of_lt (by omega)]
          intro q hq1 hq2
          by_cases hq : q - i * epb < max begin ie.none_free_before
          · exact hlow q hq1 (by omega) hq
          · rw [hblock q (by omega) (by omega)]
            exact h5 _ (by omega) (by omega)
      · simp only [h1]
        apply rest
        intro q hq1 hq2 hq3
        by_cases hq : q - i * epb < max begin ie.none_free_before
        · exact hlow q hq1 hq2 hq
        · rw [hblock q (by omega) hq2]
          have hdata : dm_tm_read_lock ll0.tm ie.blocknr = ll.tm.data ie.blocknr := by
            unfold dm_tm_read_lock
            rw [hcore0.1]
          rw [hdata] at h2
          apply h2 _ (by omega)
          by_cases hi : i = index_end - 1
          · rw [if_pos hi]
            have := hEi hi
            omega
          · rw [if_neg hi, hepb0]
            omega

theorem div_up_facts (epb e : Nat) (hepb : 0 < epb) :
    e ≤ dm_sector_div_up e epb * epb ∧
    (0 < dm_sector_div_up e epb →
      e = (dm_sector_div_up e epb - 1) * epb + (if e % epb = 0 then epb else e % epb)) ∧
    (if e % epb = 0 then epb else e % epb) ≤ epb ∧
    (e = 0 → dm_sector_div_up e epb = 0) := by
  have hdm := Nat.div_add_mod e epb
  rw [Nat.mul_comm] at hdm
  have hr := Nat.mod_lt e hepb
  have hs1 : (e / epb + 1) * epb = e / epb * epb + epb := Nat.succ_mul _ _
  have hs2 : (e / epb + 1 + 1) * epb = (e / epb + 1) * epb + epb := Nat.succ_mul _ _
  unfold dm_sector_div_up
  by_cases h0 : e % epb = 0
  · have hd : (e + epb - 1) / epb = e / epb :=
      Nat.div_eq_of_lt_le (by omega) (by omega)
    rw [hd, if_pos h0]
    refine ⟨by omega, ?_, le_refl _, ?_⟩
    · intro hpos
      have : (e / epb - 1 + 1) * epb = (e / epb - 1) * epb + epb := Nat.succ_mul _ _
      rw [Nat.sub_add_cancel hpos] at this
      omega
    · intro he
      rw [he]
      simp
  · have hd : (e + epb - 1) / epb = e / epb + 1 :=
      Nat.div_eq_of_lt_le (by omega) (by omega)
    rw [hd, if_neg h0]
    refine ⟨by omega, ?_, by omega, ?_⟩
    · intro _
      rw [Nat.add_sub_cancel]
      omega
    · intro he
      rw [he] at h0
      simp at h0

theorem div_up_mono (epb a b : Nat) (h : a ≤ b) :
    dm_sector_div_up a epb ≤ dm_sector_div_up b epb := by
  unfold dm_sector_div_up
  exact Nat.div_le_div_right (by omega)

theorem div_lt_div_up (epb x n : Nat) (hepb : 0 < epb) (h : x < n) :
    x / epb < dm_sector_div_up n epb := by
  have h1 := (div_up_facts epb n hepb).1
  rw [Nat.div_lt_iff_lt_mul hepb]
  omega

/-- The function `sm_ll_find_free_block` returns the first block of
`[begin, end)` whose bitmap value is 0, and `-ENOSPC` when there is none. -/
theorem sm_ll_find_free_block_spec (S : Nat → Prop) (ll : ll_disk) (begin end_ : Nat)
    (hinv : index_inv ll S) (hend : end_ < 2 ^ 64)
    (hS : ∀ j, begin / ll.entries_per_block ≤ j →
      j < dm_sector_div_up end_ ll.entries_per_block → S j) :
    (∃ ll' p, sm_ll_find_free_block ll begin end_ = .ok (ll', p) ∧
      begin ≤ p ∧ p < end_ ∧ cell ll p = 0 ∧
      (∀ q, begin ≤ q → q < p → cell ll q ≠ 0) ∧
      same_core ll ll' ∧ ie_view ll' = ie_view ll ∧ cache_ok ll') ∨
    (sm_ll_find_free_block ll begin end_ = .error (-ENOSPC) ∧
      ∀ q, begin ≤ q → q < end_ → cell ll q ≠ 0) := by
  obtain ⟨f1, f2, f3, f4⟩ := div_up_facts ll.entries_per_block end_ hinv.epb_pos
  have hdm := Nat.div_add_mod begin ll.entries_per_block
  rw [Nat.mul_comm] at hdm
  have hr := Nat.mod_lt begin hinv.epb_pos
  unfold sm_ll_find_free_block
  by_cases hle : begin / ll.entries_per_block ≤ dm_sector_div_up end_ ll.entries_per_block
  · have := find_free_block_loop_spec S (dm_sector_div_up end_ ll.entries_per_block)
      (if end_ % ll.entries_per_block = 0 then ll.entries_per_block
        else end_ % ll.entries_per_block) ll.entries_per_block end_ f1 f2 f3 hend
      (dm_sector_div_up end_ ll.entries_per_block - begin / ll.entries_per_block) ll
      (begin / ll.entries_per_block) (begin % ll.entries_per_block) hinv rfl (by omega) hS
      (by omega)
    rw [hdm] at this
    exact this
  · right
    simp only []
    rw [show dm_sector_div_up end_ ll.entries_per_block - begin / ll.entries_per_block = 0
      by omega]
    refine ⟨rfl, ?_⟩
    intro q h1 h2
    have := Nat.mul_le_mul_right ll.entries_per_block
      (show dm_sector_div_up end_ ll.entries_per_block ≤ begin / ll.entries_per_block by omega)
    omega

/-- The loop of `sm_ll_find_common_free_block` ends within the rounds it is
given, with the first block at or after `begin` that is free in `new_ll` and
not in use in `old_ll`, or with `-ENOSPC` when there is none. -/
theorem find_common_free_block_loop_spec (So Sn : Nat → Prop) (end_ : Nat) :
    ∀ (n : Nat) (old_ll new_ll : ll_disk) (begin : Nat),
    index_inv old_ll So → (∀ i, i < nr_indexes old_ll → So i) →
    (∀ x, x < old_ll.nr_blocks → cell old_ll x = 3 → old_ll.ref_count_tree.vals x ≠ none) →
    index_inv new_ll Sn → (∀ i, i < nr_indexes new_ll → Sn i) → new_ll.nr_blocks < 2 ^ 64 →
    1 ≤ n → new_ll.nr_blocks < begin + n →
    (∃ o' n' b, sm_ll_find_common_free_block_loop end_ n old_ll new_ll begin
        = some (.ok (o', n', b)) ∧
      begin ≤ b ∧ b < new_ll.nr_blocks ∧ cell new_ll b = 0 ∧
      (old_ll.nr_blocks ≤ b ∨ refcount old_ll b = 0) ∧
      (∀ q, begin ≤ q → q < b →
        ¬ (cell new_ll q = 0 ∧ (old_ll.nr_blocks ≤ q ∨ refcount old_ll q = 0))) ∧
      same_core old_ll o' ∧ ie_view o' = ie_view old_ll ∧
      same_core new_ll n' ∧ ie_view n' = ie_view new_ll) ∨
    (sm_ll_find_common_free_block_loop end_ n old_ll new_ll begin = some (.error (-ENOSPC)) ∧
      ∀ q, begin ≤ q → q < new_ll.nr_blocks →
        ¬ (cell new_ll q = 0 ∧ (old_ll.nr_blocks ≤ q ∨ refcount old_ll q = 0))) := by
  intro n
  induction n with
  | zero => intro _ _ _ _ _ _ _ _ _ h; omega
  | succ n ih =>
    intro old_ll new_ll begin hio hSo hko hin hSn hnb _ hfuel
    rw [sm_ll_find_common_free_block_loop]
    rcases sm_ll_find_free_block_spec Sn new_ll begin new_ll.nr_blocks hin hnb
        (fun j _ h2 => hSn j h2) with
      ⟨new1, p, h1, h2, h3, h4, h5, h6, h7, h8⟩ | ⟨h1, h2⟩
    · simp only [h1]
      by_cases hp : p ≥ old_ll.nr_blocks
      · left
        rw [if_pos hp]
        exact ⟨old_ll, new1, p, rfl, h2, h3, h4, Or.inl hp,
          fun q hq1 hq2 hc => h5 q hq1 hq2 hc.1, same_core_refl _, rfl, h6, h7⟩
      · rw [if_neg hp]
        have hSp : So (p / old_ll.entries_per_block) :=
          hSo _ (div_lt_div_up _ _ _ hio.epb_pos (by omega))
        obtain ⟨old1, g1, g2, g3, g4⟩ := sm_ll_lookup_spec So old_ll p hio hSp (by omega)
          (hko p (by omega))
        simp only [g1]
        by_cases hc : refcount old_ll p ≠ 0
        · rw [if_pos hc, Nat.mod_eq_of_lt (by omega)]
          have hio1 := index_inv_same_view So old_ll old1 g2 g3 g4 hio
          have hin1 := index_inv_same_view Sn new_ll new1 h6 h7 h8 hin
          have hni_o : nr_indexes old1 = nr_indexes old_ll := by
            unfold nr_indexes; rw [g2.2.2.1, g2.2.2.2.1]
          have hni_n : nr_indexes new1 = nr_indexes new_ll := by
            unfold nr_indexes; rw [h6.2.2.1, h6.2.2.2.1]
          have hcell_o := cell_same_view old_ll old1 g2 g3
          have href_o := refcount_same_view old_ll old1 g2 g3
          have hcell_n := cell_same_view new_ll new1 h6 h7
          rcases ih old1 new1 (p + 1) hio1 (by rw [hni_o]; exact hSo)
              (by
                intro x hx hcx
                rw [g2.2.2.2.2.2]
                rw [g2.2.2.2.1] at hx
                rw [hcell_o] at hcx
                exact hko x hx hcx)
              hin1 (by rw [hni_n]; exact hSn) (by rw [h6.2.2.2.1]; exact hnb)
              (by omega) (by rw [h6.2.2.2.1]; omega) with
            ⟨o', n', b, e1, e2, e3, e4, e5, e6, e7, e8, e9, e10⟩ | ⟨e1, e2⟩
          · left
            rw [h6.2.2.2.1] at e3
            rw [hcell_n] at e4
            rw [g2.2.2.2.1, href_o] at e5
            refine ⟨o', n', b, e1, by omega, e3, e4, e5, ?_, same_core_trans g2 e7,
              by rw [e8, g3], same_core_trans h6 e9, by rw [e10, h7]⟩
            intro q hq1 hq2 hcq
            by_cases hqp : q < p
            · exact h5 q hq1 hqp hcq.1
            · by_cases hqe : q = p
              · subst hqe
                rcases hcq.2 with h | h
                · omega
                · exact hc h
              · have := e6 q (by omega) hq2
                rw [hcell_n, g2.2.2.2.1, href_o] at this
                exact this hcq
          · right
            refine ⟨e1, ?_⟩
            intro q hq1 hq2 hcq
            by_cases hqp : q < p
            · exact h5 q hq1 hqp hcq.1
            · by_cases hqe : q = p
              · subst hqe
                rcases hcq.2 with h | h
                · omega
                · exact hc h
              · have := e2 q (by omega) (by rw [h6.2.2.2.1]; exact hq2)
                rw [hcell_n, g2.2.2.2.1, href_o] at this
                exact this hcq
        · left
          rw [if_neg hc]
          exact ⟨old1, new1, p, rfl, h2, h3, h4, Or.inr (by omega),
            fun q hq1 hq2 hcq => h5 q hq1 hq2 hcq.1, g2, g3, h6, h7⟩
    · right
      simp only [h1]
      exact ⟨trivial, fun q hq1 hq2 hc => h2 q hq1 hq2 hc.1⟩

/-! ## Insert -/

theorem sm_ll_insert_eq (ll : ll_disk) (b ref_count : Nat) (ll0 : ll_disk)
    (ie : disk_index_entry) (hload : load_ie ll (b / ll.entries_per_block) = .ok (ll0, ie)) :
    sm_ll_insert ll b ref_count =
      match (if sm_lookup_bitmap ((dm_tm_shadow_block ll0.tm ie.blocknr).1.data
                (dm_tm_shadow_block ll0.tm ie.blocknr).2) (b % ll.entries_per_block) > 2 then
              sm_ll_lookup_big_ref_count
                { ll0 with tm := (dm_tm_shadow_block ll0.tm ie.blocknr).1 } b
            else Except.ok (sm_lookup_bitmap ((dm_tm_shadow_block ll0.tm ie.blocknr).1.data
                (dm_tm_shadow_block ll0.tm ie.blocknr).2) (b % ll.entries_per_block))) with
      | Except.error r => Except.error r
      | Except.ok old =>
        match insert_step { ll0 with tm := (dm_tm_shadow_block ll0.tm ie.blocknr).1 }
            (dm_tm_shadow_block ll0.tm ie.blocknr).2 (b % ll.entries_per_block) b ref_count
            old with
        | Except.error r => Except.error r
        | Except.ok ll2 =>
          insert_account ll2 (b / ll.entries_per_block)
            { ie with blocknr := (dm_tm_shadow_block ll0.tm ie.blocknr).2 }
            (b % ll.entries_per_block) ref_count old := by
  unfold sm_ll_insert
  simp only [hload]
  rfl

theorem insert_step_spec (ll : ll_disk) (nb bit b ref_count old : Nat)
    (hold : 2 < old → ll.ref_count_tree.vals b ≠ none) :
    insert_step ll nb bit b ref_count old =
      .ok (with_effect ll nb (sm_set_bitmap (ll.tm.data nb) bit (min ref_count 3))
        (if ref_count ≤ 2 then
          (if 2 < old then Function.update ll.ref_count_tree.vals b none
            else ll.ref_count_tree.vals)
         else Function.update ll.ref_count_tree.vals b (some ref_count))
        ll.nr_allocated) := by
  unfold insert_step
  by_cases hr : ref_count ≤ 2
  · simp only [hr, if_true, Nat.min_eq_left (show ref_count ≤ 3 by omega)]
    by_cases ho : 2 < old
    · simp only [gt_iff_lt, ho, if_true]
      cases hv : ll.ref_count_tree.vals b with
      | none => exact absurd hv (hold ho)
      | some v =>
        unfold dm_btree_remove
        simp only [hv]
        rfl
    · simp only [gt_iff_lt, ho, if_false]
      rfl
  · simp only [hr, if_false, Nat.min_eq_right (show 3 ≤ ref_count by omega)]
    rfl

theorem insert_account_eq (ll : ll_disk) (index : Nat) (ie : disk_index_entry)
    (bit ref_count old : Nat) :
    insert_account ll index ie bit ref_count old =
      match save_ie
          { ll with nr_allocated :=
              if ref_count ≠ 0 ∧ old = 0 then (ll.nr_allocated + 1) % 2 ^ 64
              else if old ≠ 0 ∧ ref_count = 0 then (ll.nr_allocated + (2 ^ 64 - 1)) % 2 ^ 64
              else ll.nr_allocated }
          index
          { blocknr := ie.blocknr,
            nr_free :=
              if ref_count ≠ 0 ∧ old = 0 then (ie.nr_free + (2 ^ 32 - 1)) % 2 ^ 32
              else if old ≠ 0 ∧ ref_count = 0 then (ie.nr_free + 1) % 2 ^ 32
              else ie.nr_free,
            none_free_before :=
              if ref_count ≠ 0 ∧ old = 0 then
                (if ie.none_free_before = bit then (bit + 1) % 2 ^ 32 else ie.none_free_before)
              else if old ≠ 0 ∧ ref_count = 0 then min ie.none_free_before bit
              else ie.none_free_before } with
      | Except.error r => Except.error r
      | Except.ok ll3 =>
        Except.ok (ll3, if ref_count ≠ 0 ∧ old = 0 then 1
          else if old ≠ 0 ∧ ref_count = 0 then -1 else 0) := by
  unfold insert_account
  by_cases hA : ref_count ≠ 0 ∧ old = 0
  · simp only [if_pos hA]
    by_cases hn : ie.none_free_before = bit
    · simp only [if_pos hn]
    · simp only [if_neg hn]
  · by_cases hB : old ≠ 0 ∧ ref_count = 0
    · simp only [if_neg hA, if_pos hB]
    · simp only [if_neg hA, if_neg hB]

theorem with_effect_nalloc_set (ll : ll_disk) (L : Nat) (d : Nat → Nat)
    (v : Nat → Option Nat) (a a' : Nat) :
    ({ with_effect ll L d v a with nr_allocated := a' } : ll_disk) = with_effect ll L d v a' :=
  rfl

theorem count_free_set (D : Nat → Nat) (bit val n : Nat) (hw : words_ok D) (hbit : bit < n)
    (hval : val < 4) :
    count_free (sm_set_bitmap D bit val) n + (if sm_lookup_bitmap D bit = 0 then 1 else 0)
      = count_free D n + (if val = 0 then 1 else 0) := by
  have h := count_range_update (fun j => sm_lookup_bitmap D j == 0)
    (fun j => sm_lookup_bitmap (sm_set_bitmap D bit val) j == 0) n 0 bit (Nat.zero_le _)
    (by omega) (fun y hy => by
      simp only []
      rw [sm_lookup_set_other D bit y val hw hy])
  simp only [sm_lookup_set_same D bit val hw, Nat.mod_eq_of_lt hval, beq_iff_eq] at h
  exact h

theorem mod_ne_of_div_eq (epb x b : Nat) (h : x / epb = b / epb) (hne : x ≠ b) :
    x % epb ≠ b % epb := by
  intro hm
  have h1 := Nat.div_add_mod x epb
  have h2 := Nat.div_add_mod b epb
  rw [h, hm] at h1
  omega

/-- The function `sm_ll_insert` on a block whose bitmap index has an entry and
whose overflow entry, if its bitmap value is 3, is present and at least 3. -/
theorem sm_ll_insert_spec (S : Nat → Prop) (ll : ll_disk) (b ref_count : Nat)
    (hinv : index_inv ll S) (hS : S (b / ll.entries_per_block))
    (hk : cell ll b = 3 → ∃ v, ll.ref_count_tree.vals b = some v ∧ 3 ≤ v) :
    ∃ ll' na, sm_ll_insert ll b ref_count = .ok (ll', na) ∧
      insert_post S ll b ref_count ll' na := by
  obtain ⟨ie, ll0, hview, hok, hload, hcore0, hview0, hcache0⟩ := block_setup S ll b hinv hS
  obtain ⟨s1, s2, s3, s4, s5, s6, s7⟩ := shadow_block_spec ll.tm ie.blocknr hok.1
  have hd1 : (dm_tm_shadow_block ll0.tm ie.blocknr).1.data
      (dm_tm_shadow_block ll0.tm ie.blocknr).2 = ll.tm.data ie.blocknr := by
    rw [hcore0.1]; exact s1
  have hc : sm_lookup_bitmap (ll.tm.data ie.blocknr) (b % ll.entries_per_block) = cell ll b :=
    (cell_of_view ll b ie hview).symm
  have hc4 : cell ll b < 4 := by rw [← hc]; exact sm_lookup_bitmap_lt _ _
  have hbit : b % ll.entries_per_block < ll.entries_per_block := Nat.mod_lt _ hinv.epb_pos
  obtain ⟨ll1, hll1⟩ : ∃ ll1 : ll_disk,
      ll1 = { ll0 with tm := (dm_tm_shadow_block ll0.tm ie.blocknr).1 } := ⟨_, rfl⟩
  have hv1 : ll1.ref_count_tree.vals = ll.ref_count_tree.vals := by
    rw [hll1, ← hcore0.2.2.2.2.2]
  have ha1 : ll1.nr_allocated = ll.nr_allocated := by
    rw [hll1]; exact hcore0.2.2.2.2.1
  have hdd : ll1.tm.data (dm_tm_shadow_block ll0.tm ie.blocknr).2 = ll.tm.data ie.blocknr := by
    rw [hll1]; exact hd1
  have hold : ∃ old, (if sm_lookup_bitmap ((dm_tm_shadow_block ll0.tm ie.blocknr).1.data
                (dm_tm_shadow_block ll0.tm ie.blocknr).2) (b % ll.entries_per_block) > 2 then
              sm_ll_lookup_big_ref_count ll1 b
            else Except.ok (sm_lookup_bitmap ((dm_tm_shadow_block ll0.tm ie.blocknr).1.data
                (dm_tm_shadow_block ll0.tm ie.blocknr).2) (b % ll.entries_per_block)))
          = Except.ok old ∧ (2 < old ↔ cell ll b = 3) ∧ (old = 0 ↔ cell ll b = 0) := by
    rw [hd1, hc]
    by_cases h3 : cell ll b = 3
    · obtain ⟨v, hv, hv3⟩ := hk h3
      refine ⟨v, ?_, by omega, by omega⟩
      rw [if_pos (by omega)]
      unfold sm_ll_lookup_big_ref_count dm_btree_lookup
      rw [hv1]
      simp only [hv]
    · exact ⟨cell ll b, by rw [if_neg (by omega)], by omega, Iff.rfl⟩
  obtain ⟨old, ho, ho2, ho0⟩ := hold
  rw [sm_ll_insert_eq ll b ref_count ll0 ie hload, ← hll1]
  simp only [ho]
  rw [insert_step_spec _ _ _ _ _ _ (by
    intro h2
    rw [hv1]
    obtain ⟨v, hv, _⟩ := hk (ho2.1 h2)
    rw [hv]
    simp)]
  simp only []
  rw [insert_account_eq, with_effect_nalloc_set, with_effect_nalloc, hdd, hv1, ha1]
  subst hll1
  have hmin : min ref_count 3 < 4 := by omega
  have hD' := sm_set_bitmap_words_ok (ll.tm.data ie.blocknr) (b % ll.entries_per_block)
    (min ref_count 3) hok.2.1
  have hcnt := count_free_set (ll.tm.data ie.blocknr) (b % ll.entries_per_block)
    (min ref_count 3) ll.entries_per_block hok.2.1 hbit hmin
  rw [hc] at hcnt
  have hcnt_le : count_free (sm_set_bitmap (ll.tm.data ie.blocknr) (b % ll.entries_per_block)
      (min ref_count 3)) ll.entries_per_block ≤ ll.entries_per_block := count_range_le _ _ _
  have hepb := hinv.epb_lt
  obtain ⟨o1, o2, o3, o4, o5⟩ := hok
  have hsame := sm_lookup_set_same (ll.tm.data ie.blocknr) (b % ll.entries_per_block)
    (min ref_count 3) o2
  rw [Nat.mod_eq_of_lt hmin] at hsame
  have hother := fun j hj => sm_lookup_set_other (ll.tm.data ie.blocknr)
    (b % ll.entries_per_block) j (min ref_count 3) o2 hj
  obtain ⟨ll3, hsave, hinv3, hfl3, hepb3, hnb3, hal3, hrc3, hco, hci, hci0⟩ :=
    block_finish S ll ll0
      (with_effect { ll0 with tm := (dm_tm_shadow_block ll0.tm ie.blocknr).1 }
        (dm_tm_shadow_block ll0.tm ie.blocknr).2
        (sm_set_bitmap (ll.tm.data ie.blocknr) (b % ll.entries_per_block) (min ref_count 3))
        (if ref_count ≤ 2 then
          (if 2 < old then Function.update ll.ref_count_tree.vals b none
            else ll.ref_count_tree.vals)
         else Function.update ll.ref_count_tree.vals b (some ref_count))
        (if ref_count ≠ 0 ∧ old = 0 then (ll.nr_allocated + 1) % 2 ^ 64
          else if old ≠ 0 ∧ ref_count = 0 then (ll.nr_allocated + (2 ^ 64 - 1)) % 2 ^ 64
          else ll.nr_allocated))
      (b / ll.entries_per_block) ie
      { blocknr := (dm_tm_shadow_block ll0.tm ie.blocknr).2,
        nr_free :=
          if ref_count ≠ 0 ∧ old = 0 then (ie.nr_free + (2 ^ 32 - 1)) % 2 ^ 32
          else if old ≠ 0 ∧ ref_count = 0 then (ie.nr_free + 1) % 2 ^ 32
          else ie.nr_free,
        none_free_before :=
          if ref_count ≠ 0 ∧ old = 0 then
            (if ie.none_free_before = b % ll.entries_per_block then
              (b % ll.entries_per_block + 1) % 2 ^ 32 else ie.none_free_before)
          else if old ≠ 0 ∧ ref_count = 0 then
            min ie.none_free_before (b % ll.entries_per_block)
          else ie.none_free_before }
      hinv hS hview
      ⟨o1, o2, o3, o4, o5⟩ hcore0 hview0 hcache0 (with_effect_frame _ _ _ _ _) rfl
      (by rw [with_effect_data]; exact hD')
      (by
        rw [with_effect_data]
        simp only []
        by_cases hA : ref_count ≠ 0 ∧ old = 0
        · rw [if_pos hA]
          rw [if_pos (ho0.1 hA.2), if_neg (by omega)] at hcnt
          omega
        · rw [if_neg hA]
          by_cases hB : old ≠ 0 ∧ ref_count = 0
          · rw [if_pos hB]
            rw [if_neg (fun h => hB.1 (ho0.2 h)), if_pos (by omega)] at hcnt
            omega
          · rw [if_neg hB]
            by_cases h0 : old = 0
            · rw [if_pos (ho0.1 h0), if_pos (by omega)] at hcnt
              omega
            · rw [if_neg (fun h => h0 (ho0.2 h)), if_neg (by omega)] at hcnt
              omega)
      (by
        simp only []
        by_cases hA : ref_count ≠ 0 ∧ old = 0
        · rw [if_pos hA]
          by_cases hn : ie.none_free_before = b % ll.entries_per_block
          · rw [if_pos hn, Nat.mod_eq_of_lt (by omega)]; omega
          · rw [if_neg hn]; exact o4
        · rw [if_neg hA]
          by_cases hB : old ≠ 0 ∧ ref_count = 0
          · rw [if_pos hB]; exact le_trans (min_le_left _ _) o4
          · rw [if_neg hB]; exact o4)
      (by
        rw [with_effect_data]
        simp only []
        intro j hj
        by_cases hjb : j = b % ll.entries_per_block
        · subst hjb
          rw [hsame]
          by_cases hA : ref_count ≠ 0 ∧ old = 0
          · omega
          · rw [if_neg hA] at hj
            by_cases hB : old ≠ 0 ∧ ref_count = 0
            · rw [if_pos hB] at hj
              have := min_le_right ie.none_free_before (b % ll.entries_per_block)
              omega
            · rw [if_neg hB] at hj
              have := o5 _ hj
              rw [hc] at this
              have h0 : old ≠ 0 := fun h => this (ho0.1 h)
              have : ref_count ≠ 0 := fun h => hB ⟨h0, h⟩
              omega
        · rw [hother j hjb]
          apply o5
          by_cases hA : ref_count ≠ 0 ∧ old = 0
          · rw [if_pos hA] at hj
            by_cases hn : ie.none_free_before = b % ll.entries_per_block
            · rw [if_pos hn, Nat.mod_eq_of_lt (by omega)] at hj; omega
            · rw [if_neg hn] at hj; exact hj
          · rw [if_neg hA] at hj
            by_cases hB : old ≠ 0 ∧ ref_count = 0
            · rw [if_pos hB] at hj
              exact lt_of_lt_of_le hj (min_le_left _ _)
            · rw [if_neg hB] at hj; exact hj)
  rw [with_effect_data] at hci
  rw [with_effect_nalloc] at hal3
  refine ⟨ll3, _, by rw [hsave], hinv3, hfl3, hepb3, hnb3, ?_, ?_, ?_, ?_⟩
  · intro x hSx
    by_cases hxi : x / ll.entries_per_block = b / ll.entries_per_block
    · rw [hci x hxi]
      by_cases hxb : x = b
      · rw [if_pos hxb, hxb, hsame]
      · rw [if_neg hxb, hother _ (mod_ne_of_div_eq _ _ _ hxi hxb), hci0 x hxi]
    · rw [hco x hSx hxi, if_neg (fun h => hxi (by rw [h]))]
  · rw [hrc3, with_effect_vals]
    by_cases h3 : cell ll b = 3
    · rw [if_pos (ho2.2 h3), if_pos h3]
    · rw [if_neg (fun h => h3 (ho2.1 h)), if_neg h3]
  · rw [hal3]
    simp only [ne_eq, ho0]
  · simp only [ne_eq, ho0]

/-! ## Creation and extension -/

theorem sm_lookup_bitmap_zero (j : Nat) : sm_lookup_bitmap (fun _ => 0) j = 0 := by
  unfold sm_lookup_bitmap test_bit_le
  simp

theorem count_free_fresh (n : Nat) : count_free (fun _ => 0) n = n :=
  count_range_eq_len _ n 0 (fun x _ _ => by simp [sm_lookup_bitmap_zero])

theorem index_inv_congr (S S' : Nat → Prop) (ll : ll_disk) (h : ∀ j, S j ↔ S' j)
    (hinv : index_inv ll S) : index_inv ll S' :=
  ⟨hinv.epb_pos, hinv.epb_lt, hinv.cache, fun i hi => hinv.saved i ((h i).2 hi),
    fun i j ie je hi hj => hinv.inj i j ie je ((h i).2 hi) ((h j).2 hj),
    fun hd i ie hv => (h i).1 (hinv.disk_saved hd i ie hv)⟩

/-- A state change that gives bitmap `k` an entry pointing at a block that was
not in use keeps the index invariant, with `k` among the saved indexes. -/
theorem block_add_inv (S : Nat → Prop) (ll ll3 : ll_disk) (k : Nat)
    (ie' : disk_index_entry) (hinv : index_inv ll S)
    (hfl : ll3.flavor = ll.flavor) (hepb : ll3.entries_per_block = ll.entries_per_block)
    (hview3 : ie_view ll3 = Function.update (ie_view ll) k (some ie'))
    (hcache : cache_ok ll3)
    (hL : ll.tm.next ≤ ie'.blocknr)
    (hnext : ll.tm.next ≤ ll3.tm.next)
    (hdata : ∀ loc, loc ≠ ie'.blocknr → ll3.tm.data loc = ll.tm.data loc)
    (hok : entry_ok ll3 ie') :
    index_inv ll3 (fun j => S j ∨ j = k) ∧
    (∀ x, S (x / ll.entries_per_block) → x / ll.entries_per_block ≠ k → cell ll3 x = cell ll x) ∧
    (∀ x, x / ll.entries_per_block = k →
      cell ll3 x = sm_lookup_bitmap (ll3.tm.data ie'.blocknr) (x % ll.entries_per_block)) := by
  have hother : ∀ j je, S j → ie_view ll j = some je → je.blocknr ≠ ie'.blocknr := by
    intro j je hSj hj heq
    obtain ⟨je', hje', hjok⟩ := hinv.saved j hSj
    rw [hj] at hje'
    simp only [Option.some.injEq] at hje'
    subst hje'
    have := hjok.1
    omega
  have hS' : ∀ j, (S j ∨ j = k) → j ≠ k → S j := by
    intro j h hne
    rcases h with h | h
    · exact h
    · exact absurd h hne
  refine ⟨⟨by rw [hepb]; exact hinv.epb_pos, by rw [hepb]; exact hinv.epb_lt, hcache, ?_, ?_, ?_⟩,
    ?_, ?_⟩
  · intro j hSj
    by_cases hji : j = k
    · subst hji
      exact ⟨ie', by rw [hview3, Function.update_same], hok⟩
    · obtain ⟨je, hje, hjok⟩ := hinv.saved j (hS' j hSj hji)
      refine ⟨je, by rw [hview3, Function.update_noteq hji]; exact hje, ?_⟩
      have hne := hother j je (hS' j hSj hji) hje
      obtain ⟨o1, o2, o3, o4, o5⟩ := hjok
      unfold entry_ok
      rw [hdata _ hne, hepb]
      exact ⟨by omega, o2, o3, o4, o5⟩
  · intro j l je ke hSj hSl hj hl heq
    rw [hview3] at hj hl
    by_cases hji : j = k <;> by_cases hli : l = k
    · rw [hji, hli]
    · subst hji
      rw [Function.update_same] at hj
      rw [Function.update_noteq hli] at hl
      simp only [Option.some.injEq] at hj
      subst hj
      exact absurd heq.symm (hother l ke (hS' l hSl hli) hl)
    · subst hli
      rw [Function.update_same] at hl
      rw [Function.update_noteq hji] at hj
      simp only [Option.some.injEq] at hl
      subst hl
      exact absurd heq (hother j je (hS' j hSj hji) hj)
    · rw [Function.update_noteq hji] at hj
      rw [Function.update_noteq hli] at hl
      exact hinv.inj j l je ke (hS' j hSj hji) (hS' l hSl hli) hj hl heq
  · intro hd j je hj
    rw [hview3] at hj
    by_cases hji : j = k
    · exact Or.inr hji
    · rw [Function.update_noteq hji] at hj
      exact Or.inl (hinv.disk_saved (hfl ▸ hd) j je hj)
  · intro x hSx hxi
    obtain ⟨je, hje, hjok⟩ := hinv.saved _ hSx
    have hne := hother _ je hSx hje
    have h3 : ie_view ll3 (x / ll3.entries_per_block) = some je := by
      rw [hepb, hview3, Function.update_noteq hxi]; exact hje
    rw [cell_of_view ll3 x je h3, cell_of_view ll x je hje, hdata _ hne, hepb]
  · intro x hxi
    have h3 : ie_view ll3 (x / ll3.entries_per_block) = some ie' := by
      rw [hepb, hview3, hxi, Function.update_same]
    rw [cell_of_view ll3 x ie' h3, hepb]

/-- One round of the loop of `sm_ll_extend`: a new zero-filled block becomes
bitmap `i`. -/
theorem extend_step (S : Nat → Prop) (ll : ll_disk) (i : Nat) (hinv : index_inv ll S) :
    ∃ ll2, save_ie { ll with tm := (dm_tm_new_block ll.tm).1 } i
        { blocknr := (dm_tm_new_block ll.tm).2, nr_free := ll.entries_per_block,
          none_free_before := 0 } = .ok ll2 ∧
      index_inv ll2 (fun j => S j ∨ j = i) ∧
      ll2.flavor = ll.flavor ∧ ll2.entries_per_block = ll.entries_per_block ∧
      ll2.nr_blocks = ll.nr_blocks ∧ ll2.nr_allocated = ll.nr_allocated ∧
      ll2.ref_count_tree = ll.ref_count_tree ∧
      (∀ x, S (x / ll.entries_per_block) → x / ll.entries_per_block ≠ i →
        cell ll2 x = cell ll x) ∧
      (∀ x, x / ll.entries_per_block = i → cell ll2 x = 0) := by
  have hsi := same_index_tm ll (dm_tm_new_block ll.tm).1
  have hc1 := cache_ok_same_index ll _ hsi hinv.cache
  have hv1 := ie_view_same_index ll _ hsi
  obtain ⟨ll2, hsave, hcore, hview, hcache⟩ := save_ie_ok
    { ll with tm := (dm_tm_new_block ll.tm).1 } i
    { blocknr := (dm_tm_new_block ll.tm).2, nr_free := ll.entries_per_block,
      none_free_before := 0 } hc1
  obtain ⟨c1, c2, c3, c4, c5, c6⟩ := hcore
  have htm : ll2.tm = (dm_tm_new_block ll.tm).1 := c1
  have hnext : ll2.tm.next = ll.tm.next + 1 := by rw [htm]; rfl
  have hdata_new : ll2.tm.data ll.tm.next = fun _ => 0 := by
    rw [htm]
    simp [dm_tm_new_block]
  have hdata : ∀ loc, loc ≠ ll.tm.next → ll2.tm.data loc = ll.tm.data loc := by
    intro loc hne
    rw [htm]
    simp [dm_tm_new_block, Function.update_noteq hne]
  have hblk : (dm_tm_new_block ll.tm).2 = ll.tm.next := rfl
  obtain ⟨h1, h2, h3⟩ := block_add_inv S ll ll2 i
    { blocknr := (dm_tm_new_block ll.tm).2, nr_free := ll.entries_per_block,
      none_free_before := 0 } hinv c2 c3 (by rw [hview, hv1]) hcache (le_refl _)
    (by omega) hdata
    ⟨by show ll.tm.next < ll2.tm.next; omega,
     by show words_ok (ll2.tm.data ll.tm.next); rw [hdata_new]; intro _; norm_num,
     by
      show ll.entries_per_block = count_free (ll2.tm.data ll.tm.next) ll2.entries_per_block
      rw [hdata_new, count_free_fresh]; exact c3.symm,
     Nat.zero_le _, fun j hj => absurd hj (Nat.not_lt_zero _)⟩
  refine ⟨ll2, hsave, h1, c2, c3, c4, c5, c6, h2, ?_⟩
  intro x hx
  rw [h3 x hx]
  show sm_lookup_bitmap (ll2.tm.data ll.tm.next) _ = 0
  rw [hdata_new, sm_lookup_bitmap_zero]

theorem sm_ll_extend_loop_succ (n : Nat) (ll : ll_disk) (i : Nat) :
    sm_ll_extend_loop (n + 1) ll i =
      match save_ie { ll with tm := (dm_tm_new_block ll.tm).1 } i
          { blocknr := (dm_tm_new_block ll.tm).2, nr_free := ll.entries_per_block,
            none_free_before := 0 } with
      | Except.error r => Except.error r
      | Except.ok ll2 => sm_ll_extend_loop n ll2 (i + 1) := rfl

/-- The loop of `sm_ll_extend` gives the bitmaps `i, ..., i + n - 1` fresh
entries and leaves the others alone. -/
theorem sm_ll_extend_loop_spec : ∀ (n : Nat) (S : Nat → Prop) (ll : ll_disk) (i : Nat),
    index_inv ll S →
    ∃ ll', sm_ll_extend_loop n ll i = .ok ll' ∧
      index_inv ll' (fun j => S j ∨ (i ≤ j ∧ j < i + n)) ∧
      ll'.flavor = ll.flavor ∧ ll'.entries_per_block = ll.entries_per_block ∧
      ll'.nr_blocks = ll.nr_blocks ∧ ll'.nr_allocated = ll.nr_allocated ∧
      ll'.ref_count_tree = ll.ref_count_tree ∧
      (∀ x, S (x / ll.entries_per_block) →
        ¬ (i ≤ x / ll.entries_per_block ∧ x / ll.entries_per_block < i + n) →
        cell ll' x = cell ll x) ∧
      (∀ x, i ≤ x / ll.entries_per_block → x / ll.entries_per_block < i + n →
        cell ll' x = 0) := by
  intro n
  induction n with
  | zero =>
    intro S ll i hinv
    refine ⟨ll, rfl, index_inv_congr S _ ll (fun j => ⟨Or.inl, fun h => ?_⟩) hinv,
      rfl, rfl, rfl, rfl, rfl, fun _ _ _ => rfl, fun x h1 h2 => by omega⟩
    rcases h with h | h
    · exact h
    · omega
  | succ n ih =>
    intro S ll i hinv
    obtain ⟨ll2, hsave, hinv2, e1, e2, e3, e4, e5, e6, e7⟩ := extend_step S ll i hinv
    obtain ⟨ll', hloop, hinv', f1, f2, f3, f4, f5, f6, f7⟩ := ih _ ll2 (i + 1) hinv2
    rw [sm_ll_extend_loop_succ]
    simp only [hsave]
    refine ⟨ll', hloop, index_inv_congr _ _ ll' (fun j => ?_) hinv', f1.trans e1, f2.trans e2,
      f3.trans e3, f4.trans e4, f5.trans e5, ?_, ?_⟩
    · constructor
      · rintro ((h | h) | h)
        · exact Or.inl h
        · exact Or.inr (by omega)
        · exact Or.inr (by omega)
      · rintro (h | h)
        · exact Or.inl (Or.inl h)
        · by_cases hj : j = i
          · exact Or.inl (Or.inr hj)
          · exact Or.inr (by omega)
    · intro x hSx hx
      rw [e2] at f6
      rw [f6 x (Or.inl hSx) (by omega), e6 x hSx (by omega)]
    · intro x h1 h2
      rw [e2] at f6 f7
      by_cases hxi : x / ll.entries_per_block = i
      · rw [f6 x (Or.inr hxi) (by omega), e7 x hxi]
      · exact f7 x (by omega) (by omega)

theorem index_inv_nr_blocks (S : Nat → Prop) (ll : ll_disk) (n : Nat) (hinv : index_inv ll S) :
    index_inv { ll with nr_blocks := n } S ∧
    ∀ x, cell { ll with nr_blocks := n } x = cell ll x := by
  have hview : ie_view { ll with nr_blocks := n } = ie_view ll := rfl
  refine ⟨⟨hinv.epb_pos, hinv.epb_lt, hinv.cache, ?_, ?_, ?_⟩, fun x => rfl⟩
  · intro i hi
    obtain ⟨ie, h1, h2⟩ := hinv.saved i hi
    exact ⟨ie, h1, h2⟩
  · intro i j ie je hi hj h1 h2 h3
    exact hinv.inj i j ie je hi hj h1 h2 h3
  · intro hd i ie h
    exact hinv.disk_saved hd i ie h

theorem sm_ll_extend_spec (S : Nat → Prop) (ll : ll_disk) (extra_blocks : Nat)
    (hinv : index_inv ll S) :
    (dm_sector_div_up ((ll.nr_blocks + extra_blocks) % 2 ^ 64) ll.entries_per_block
        ≤ max_entries ll →
      ∃ ll', sm_ll_extend ll extra_blocks = .ok ll' ∧ extend_post S ll extra_blocks ll') ∧
    (max_entries ll <
        dm_sector_div_up ((ll.nr_blocks + extra_blocks) % 2 ^ 64) ll.entries_per_block →
      sm_ll_extend ll extra_blocks = .error (-EINVAL)) := by
  constructor
  · intro hmax
    unfold sm_ll_extend
    simp only []
    rw [if_neg (by omega)]
    obtain ⟨hinv1, hcell1⟩ := index_inv_nr_blocks S ll
      ((ll.nr_blocks + extra_blocks) % 2 ^ 64) hinv
    obtain ⟨ll', hloop, hinv', f1, f2, f3, f4, f5, f6, f7⟩ :=
      sm_ll_extend_loop_spec
        (dm_sector_div_up ((ll.nr_blocks + extra_blocks) % 2 ^ 64) ll.entries_per_block % 2 ^ 32
          - dm_sector_div_up ll.nr_blocks ll.entries_per_block % 2 ^ 32) S
        { ll with nr_blocks := (ll.nr_blocks + extra_blocks) % 2 ^ 64 }
        (dm_sector_div_up ll.nr_blocks ll.entries_per_block % 2 ^ 32) hinv1
    refine ⟨ll', hloop, index_inv_congr _ _ ll' (fun j => ?_) hinv', f1, f2, f3, f4, f5, ?_, ?_⟩
    · constructor
      · rintro (h | h)
        · exact Or.inl h
        · exact Or.inr (by omega)
      · rintro (h | h)
        · exact Or.inl h
        · exact Or.inr (by omega)
    · intro x hSx hx
      rw [← hcell1 x]
      exact f6 x hSx (by
        show ¬ (_ ≤ x / ll.entries_per_block ∧ x / ll.entries_per_block < _)
        omega)
    · intro x h1 h2
      exact f7 x h1 (by
        show x / ll.entries_per_block < _
        omega)
  · intro hmax
    unfold sm_ll_extend
    simp only []
    rw [if_pos (by omega)]

theorem sm_ll_init_ok (tm : dm_transaction_manager) (flavor : ll_flavor) (ll : ll_disk)
    (h : sm_ll_init tm flavor = .ok ll) :
    ll.tm = tm ∧ ll.flavor = flavor ∧ ll.entries_per_block < 2 ^ 32 ∧ ll.nr_blocks = 0 ∧
    ll.nr_allocated = 0 ∧ (∀ k, ll.ref_count_tree.vals k = none) ∧
    (∀ k, ll.bitmap_tree.vals k = none) ∧ (∀ h, (ll.ie_cache h).valid = false) := by
  unfold sm_ll_init at h
  by_cases hb : tm.block_size > 2 ^ 30
  · rw [if_pos hb] at h
    exact absurd h (by simp)
  · rw [if_neg hb] at h
    simp only [Except.ok.injEq] at h
    subst h
    exact ⟨rfl, rfl, Nat.mod_lt _ (by norm_num), rfl, rfl, fun _ => rfl, fun _ => rfl,
      fun _ => rfl⟩

theorem sm_ll_new_metadata_ok (tm : dm_transaction_manager) (ll : ll_disk)
    (h : sm_ll_new_metadata tm = .ok ll) (hepb : 0 < ll.entries_per_block) :
    index_inv ll (fun _ => False) ∧ ll.flavor = .metadata ∧ ll.nr_blocks = 0 ∧
    ll.nr_allocated = 0 ∧ (∀ k, ll.ref_count_tree.vals k = none) := by
  unfold sm_ll_new_metadata at h
  cases hi : sm_ll_init tm .metadata with
  | error r =>
    rw [hi] at h
    exact absurd h (by simp)
  | ok l0 =>
    rw [hi] at h
    obtain ⟨i1, i2, i3, i4, i5, i6, i7, i8⟩ := sm_ll_init_ok tm .metadata l0 hi
    simp only [metadata_ll_init_index, Except.ok.injEq] at h
    subst h
    refine ⟨⟨hepb, i3, ?_, fun i hi => absurd hi not_false, fun i j _ _ hi => absurd hi not_false,
      ?_⟩, i2, rfl, rfl, fun _ => rfl⟩
    · intro hd
      have : l0.flavor = .disk := hd
      rw [i2] at this
      exact absurd this (by decide)
    · intro hd
      have : l0.flavor = .disk := hd
      rw [i2] at this
      exact absurd this (by decide)

theorem sm_ll_new_disk_ok (tm : dm_transaction_manager) (ll : ll_disk)
    (h : sm_ll_new_disk tm = .ok ll) (hepb : 0 < ll.entries_per_block) :
    index_inv ll (fun _ => False) ∧ ll.flavor = .disk ∧ ll.nr_blocks = 0 ∧
    ll.nr_allocated = 0 ∧ (∀ k, ll.ref_count_tree.vals k = none) := by
  unfold sm_ll_new_disk at h
  cases hi : sm_ll_init tm .disk with
  | error r =>
    rw [hi] at h
    exact absurd h (by simp)
  | ok l0 =>
    rw [hi] at h
    obtain ⟨i1, i2, i3, i4, i5, i6, i7, i8⟩ := sm_ll_init_ok tm .disk l0 hi
    simp only [disk_ll_init_index, Except.ok.injEq] at h
    subst h
    have hview : ∀ i, ie_view
        { l0 with
          nr_blocks := 0, nr_allocated := 0,
          ie_cache := fun i => { l0.ie_cache i with valid := false, dirty := false },
          bitmap_tree := dm_btree_empty disk_index_entry,
          ref_count_tree := dm_btree_empty Nat } i = none := by
      intro i
      unfold ie_view
      simp only [i2]
      rw [if_neg (by simp)]
      rfl
    refine ⟨⟨hepb, i3, ?_, fun i hi => absurd hi not_false, fun i j _ _ hi => absurd hi not_false,
      ?_⟩, i2, rfl, rfl, fun _ => rfl⟩
    · intro _ hh hv
      exact absurd hv (by simp)
    · intro _ i ie hv
      rw [hview i] at hv
      exact absurd hv (by simp)

/-! ## Preservation of the invariants -/

theorem index_lt (ll : ll_disk) (x : Nat) (hepb : 0 < ll.entries_per_block)
    (hx : x < ll.nr_blocks) : x / ll.entries_per_block < nr_indexes ll :=
  div_lt_div_up _ _ _ hepb hx

theorem cell_lt (ll : ll_disk) (x : Nat) : cell ll x < 4 := by
  unfold cell
  split
  · exact sm_lookup_bitmap_lt _ _
  · norm_num

theorem refcount_of_inv (ll : ll_disk) (hinv : ll_inv ll) (x : Nat) (hx : x < ll.nr_blocks) :
    (cell ll x = 3 → ∃ v, ll.ref_count_tree.vals x = some v ∧ refcount ll x = v ∧ 3 ≤ v ∧
      v < 2 ^ 32) ∧
    (cell ll x ≠ 3 → ll.ref_count_tree.vals x = none ∧ refcount ll x = cell ll x) ∧
    (refcount ll x = 0 ↔ cell ll x = 0) ∧ refcount ll x < 2 ^ 32 := by
  have h4 := cell_lt ll x
  by_cases hc : cell ll x = 3
  · cases hv : ll.ref_count_tree.vals x with
    | none => exact absurd hv (hinv.key x hx hc)
    | some v =>
      obtain ⟨_, _, h3, h32⟩ := hinv.big x v hv
      have hr : refcount ll x = v := by
        unfold refcount
        rw [if_pos hc, hv]
        rfl
      exact ⟨fun _ => ⟨v, rfl, hr, h3, h32⟩, fun h => absurd hc h, by rw [hr]; omega,
        by rw [hr]; exact h32⟩
  · have hr : refcount ll x = cell ll x := by
      unfold refcount
      rw [if_neg hc]
    refine ⟨fun h => absurd h hc, fun _ => ⟨?_, hr⟩, by rw [hr], by rw [hr]; omega⟩
    cases hv : ll.ref_count_tree.vals x with
    | none => rfl
    | some v => exact absurd (hinv.big x v hv).2.1 hc

theorem lookup_val_of_inv (ll : ll_disk) (hinv : ll_inv ll) (x : Nat) (hx : x < ll.nr_blocks) :
    lookup_val ll x = some (refcount ll x) :=
  lookup_val_eq _ ll x hinv.index (index_lt ll x hinv.index.epb_pos hx) hx (hinv.key x hx)

theorem lookup_val_oob (ll : ll_disk) (x : Nat) (hx : ll.nr_blocks ≤ x) :
    lookup_val ll x = none := by
  unfold lookup_val sm_ll_lookup
  rw [sm_ll_lookup_bitmap_oob ll x hx]

theorem count_range_compl (p q : Nat → Bool) : ∀ n b,
    (∀ x, b ≤ x → x < b + n → p x = !q x) → count_range p b n + count_range q b n = n := by
  intro n
  induction n with
  | zero => intro b _; rfl
  | succ n ih =>
    intro b h
    simp only [count_range]
    have h1 := ih (b + 1) (fun x hx1 hx2 => h x (by omega) (by omega))
    have h2 := h b (le_refl _) (by omega)
    rw [h2]
    cases q b <;> simp <;> omega

/-- Three-way split of a count over `[0, m)` around `[b, e)`. -/
theorem count_range_three (p : Nat → Bool) (b e m : Nat) (hbe : b ≤ e) (hem : e ≤ m) :
    count_range p 0 m = count_range p 0 b + count_range p b (e - b) +
      count_range p e (m - e) := by
  have := count_range_split p b (e - b) m (by omega)
  rw [show b + (e - b) = e by omega] at this
  exact this

/-- Counts of two predicates that differ only inside `[b, e)`. -/
theorem count_range_diff (p p' : Nat → Bool) (b e m : Nat) (hbe : b ≤ e) (hem : e ≤ m)
    (hout : ∀ x, x < m → ¬ (b ≤ x ∧ x < e) → p' x = p x) :
    count_range p' 0 m + count_range p b (e - b) =
      count_range p 0 m + count_range p' b (e - b) := by
  rw [count_range_three p b e m hbe hem, count_range_three p' b e m hbe hem,
    count_range_congr p' p b 0 (fun x h1 h2 => hout x (by omega) (by omega)),
    count_range_congr p' p (m - e) e (fun x h1 h2 => hout x (by omega) (by omega))]
  omega

theorem inc_cell_cases (c : Nat) (h : c < 4) :
    (min (c + 1) 3 = 3 ↔ 2 ≤ c) ∧ (c ≤ 1 → min (c + 1) 3 = c + 1) ∧ min (c + 1) 3 ≠ 0 := by
  omega

/-- A successful `inc` of `[b, e)` on a state that satisfies the invariants, no
count of the range being `2 ^ 32 - 1`: the invariants still hold and every count
of the range went up by one. -/
theorem inc_effect (ll ll' : ll_disk) (b e : Nat) (na na' : Int) (hinv : ll_inv ll)
    (hbe : b ≤ e) (he : e ≤ ll.nr_blocks)
    (hrc : ∀ x, b ≤ x → x < e → refcount ll x < 2 ^ 32 - 1)
    (R : range_inc (fun i => i < nr_indexes ll) ll b (e - b) na ll' na') :
    ll_inv ll' ∧ nr_indexes ll' = nr_indexes ll ∧
    (∀ x, x < ll.nr_blocks →
      refcount ll' x = if b ≤ x ∧ x < e then refcount ll x + 1 else refcount ll x) ∧
    (∀ x, x / ll.entries_per_block < nr_indexes ll → ¬ (b ≤ x ∧ x < e) →
      cell ll' x = cell ll x) ∧
    ll'.nr_allocated =
      ll.nr_allocated + count_range (fun x => decide (refcount ll x = 0)) b (e - b) ∧
    count_range (fun x => cell ll x == 0) b (e - b) =
      count_range (fun x => decide (refcount ll x = 0)) b (e - b) := by
  have hni : nr_indexes ll' = nr_indexes ll := by
    unfold nr_indexes; rw [R.nr_blocks, R.epb]
  have hepb := hinv.index.epb_pos
  have hbe' : b + (e - b) = e := by omega
  have hcells : ∀ x, x / ll.entries_per_block < nr_indexes ll →
      cell ll' x = if b ≤ x ∧ x < e then min (cell ll x + 1) 3 else cell ll x := by
    intro x hx
    have := R.cells x hx
    rw [hbe'] at this
    exact this
  have hout : ∀ x, x / ll.entries_per_block < nr_indexes ll → ¬ (b ≤ x ∧ x < e) →
      cell ll' x = cell ll x := by
    intro x hx hr
    rw [hcells x hx, if_neg hr]
  have hvout : ∀ k, ¬ (b ≤ k ∧ k < e) → ll'.ref_count_tree.vals k = ll.ref_count_tree.vals k := by
    intro k hk
    exact R.vals_out k (by omega)
  -- the blocks of the range, by old bitmap value
  have hin : ∀ x, b ≤ x → x < e →
      cell ll' x = min (cell ll x + 1) 3 ∧
      (cell ll x ≤ 1 → ll'.ref_count_tree.vals x = none) ∧
      (cell ll x = 2 → ll'.ref_count_tree.vals x = some 3) ∧
      (cell ll x = 3 → ∃ v, ll.ref_count_tree.vals x = some v ∧ 3 ≤ v ∧ v + 1 < 2 ^ 32 ∧
        ll'.ref_count_tree.vals x = some (v + 1)) := by
    intro x h1 h2
    have hx : x < ll.nr_blocks := by omega
    obtain ⟨r1, r2, r3, r4⟩ := refcount_of_inv ll hinv x hx
    refine ⟨by rw [hcells x (index_lt ll x hepb hx), if_pos ⟨h1, h2⟩], ?_, ?_, ?_⟩
    · intro hc
      rw [R.vals_low x h1 (by omega) hc]
      exact (r2 (by omega)).1
    · intro hc
      exact R.vals_two x h1 (by omega) hc
    · intro hc
      obtain ⟨v, hv, hv'⟩ := R.vals_three x h1 (by omega) hc
      obtain ⟨v0, hv0, hr, h3, h32⟩ := r1 hc
      rw [hv] at hv0
      simp only [Option.some.injEq] at hv0
      subst hv0
      have := hrc x h1 h2
      rw [hr] at this
      rw [Nat.mod_eq_of_lt (by omega)] at hv'
      exact ⟨v, hv, h3, by omega, hv'⟩
  have href : ∀ x, x < ll.nr_blocks →
      refcount ll' x = if b ≤ x ∧ x < e then refcount ll x + 1 else refcount ll x := by
    intro x hx
    obtain ⟨r1, r2, r3, r4⟩ := refcount_of_inv ll hinv x hx
    have h4 := cell_lt ll x
    by_cases hr : b ≤ x ∧ x < e
    · rw [if_pos hr]
      obtain ⟨i1, i2, i3, i4⟩ := hin x hr.1 hr.2
      have e' : refcount ll' x = if cell ll' x = 3 then (ll'.ref_count_tree.vals x).getD 0
          else cell ll' x := rfl
      rw [e', i1]
      by_cases hc3 : cell ll x = 3
      · obtain ⟨v, hv, _, _, hv'⟩ := i4 hc3
        obtain ⟨v0, hv0, hr0, _⟩ := r1 hc3
        rw [hv] at hv0
        simp only [Option.some.injEq] at hv0
        subst hv0
        rw [hc3, hv', hr0]
        rfl
      · obtain ⟨_, hr0⟩ := r2 hc3
        rw [hr0]
        by_cases hc2 : cell ll x = 2
        · rw [hc2, i3 hc2]
          rfl
        · have hc1 : cell ll x ≤ 1 := by omega
          obtain ⟨m1, m2, _⟩ := inc_cell_cases (cell ll x) h4
          rw [if_neg (fun h => hc2 (by have := m1.1 h; omega)), m2 hc1]
    · rw [if_neg hr]
      unfold refcount
      rw [hout x (index_lt ll x hepb hx) hr, hvout x hr]
  have hz : ∀ x, x < ll.nr_blocks → ((cell ll x == 0) = decide (refcount ll x = 0)) := by
    intro x hx
    obtain ⟨_, _, r3, _⟩ := refcount_of_inv ll hinv x hx
    by_cases h0 : cell ll x = 0
    · simp [h0, r3.2 h0]
    · have : refcount ll x ≠ 0 := fun h => h0 (r3.1 h)
      simp [h0, this]
  have hcount : count_range (fun x => cell ll x == 0) b (e - b) =
      count_range (fun x => decide (refcount ll x = 0)) b (e - b) :=
    count_range_congr _ _ _ _ (fun x h1 h2 => hz x (by omega))
  have hdiff := count_range_diff (fun x => decide (cell ll x ≠ 0))
    (fun x => decide (cell ll' x ≠ 0)) b e ll.nr_blocks hbe he
    (fun x hx hr => by
      simp only []
      rw [hout x (index_lt ll x hepb hx) hr])
  have hall : count_range (fun x => decide (cell ll' x ≠ 0)) b (e - b) = e - b :=
    count_range_eq_len _ _ _ (fun x h1 h2 => by
      have := (hin x h1 (by omega)).1
      simp only [decide_eq_true_eq]
      omega)
  have hcompl := count_range_compl (fun x => decide (cell ll x ≠ 0))
    (fun x => cell ll x == 0) (e - b) b (fun x _ _ => by
      by_cases h0 : cell ll x = 0 <;> simp [h0])
  have hle := count_range_sub_le (fun x => decide (cell ll x ≠ 0)) b (e - b) ll.nr_blocks
    (by omega)
  have hle2 := count_range_le (fun x => decide (cell ll' x ≠ 0)) ll.nr_blocks 0
  have hnalloc : ll'.nr_allocated =
      ll.nr_allocated + count_range (fun x => cell ll x == 0) b (e - b) := by
    rw [R.nalloc, hinv.nalloc, Nat.mod_eq_of_lt]
    have := hinv.nr_blocks_lt
    omega
  refine ⟨⟨index_inv_congr _ _ ll' (fun j => by rw [hni]) R.inv,
    by rw [R.nr_blocks]; exact hinv.nr_blocks_lt, ?_, ?_, ?_⟩, hni, href, hout,
    by rw [hnalloc, hcount], hcount⟩
  · intro k v hv
    rw [R.nr_blocks]
    by_cases hr : b ≤ k ∧ k < e
    · obtain ⟨i1, i2, i3, i4⟩ := hin k hr.1 hr.2
      have h4 := cell_lt ll k
      refine ⟨by omega, ?_⟩
      by_cases hc1 : cell ll k ≤ 1
      · rw [i2 hc1] at hv
        exact absurd hv (by simp)
      · by_cases hc2 : cell ll k = 2
        · rw [i3 hc2] at hv
          simp only [Option.some.injEq] at hv
          subst hv
          exact ⟨by rw [i1, hc2]; rfl, le_refl _, by norm_num⟩
        · obtain ⟨v0, _, h3, h32, hv'⟩ := i4 (by omega)
          rw [hv'] at hv
          simp only [Option.some.injEq] at hv
          subst hv
          have hc3 : 2 ≤ cell ll k := by omega
          exact ⟨by rw [i1]; exact (inc_cell_cases _ h4).1.2 hc3, by omega, h32⟩
    · rw [hvout k hr] at hv
      obtain ⟨g1, g2, g3, g4⟩ := hinv.big k v hv
      exact ⟨g1, by rw [hout k (index_lt ll k hepb g1) hr]; exact g2, g3, g4⟩
  · intro k hk hc
    rw [R.nr_blocks] at hk
    by_cases hr : b ≤ k ∧ k < e
    · obtain ⟨i1, i2, i3, i4⟩ := hin k hr.1 hr.2
      have h4 := cell_lt ll k
      by_cases hc2 : cell ll k = 2
      · rw [i3 hc2]; simp
      · obtain ⟨v0, _, _, _, hv'⟩ := i4 (by omega)
        rw [hv']; simp
    · rw [hvout k hr]
      rw [hout k (index_lt ll k hepb hk) hr] at hc
      exact hinv.key k hk hc
  · rw [hnalloc, R.nr_blocks, hinv.nalloc]
    omega

/-- A successful `dec` of `[b, e)` on a state that satisfies the invariants:
the invariants still hold and every count of the range went down by one. -/
theorem dec_effect (ll ll' : ll_disk) (b e : Nat) (na na' : Int) (hinv : ll_inv ll)
    (hbe : b ≤ e) (he : e ≤ ll.nr_blocks)
    (R : range_dec (fun i => i < nr_indexes ll) ll b (e - b) na ll' na') :
    ll_inv ll' ∧ nr_indexes ll' = nr_indexes ll ∧
    (∀ x, x < ll.nr_blocks →
      refcount ll' x = if b ≤ x ∧ x < e then refcount ll x - 1 else refcount ll x) ∧
    (∀ x, b ≤ x → x < e → 1 ≤ refcount ll x) ∧
    (∀ x, x / ll.entries_per_block < nr_indexes ll → ¬ (b ≤ x ∧ x < e) →
      cell ll' x = cell ll x) ∧
    ll'.nr_allocated + count_range (fun x => decide (refcount ll x = 1)) b (e - b) =
      ll.nr_allocated ∧
    count_range (fun x => cell ll x == 1) b (e - b) =
      count_range (fun x => decide (refcount ll x = 1)) b (e - b) ∧
    (∀ x, b ≤ x → x < e → refcount ll x = 3 →
      cell ll' x = 2 ∧ ll'.ref_count_tree.vals x = none) ∧
    (∀ x, b ≤ x → x < e → 3 < refcount ll x →
      cell ll' x = 3 ∧ ll'.ref_count_tree.vals x = some (refcount ll x - 1)) := by
  have hni : nr_indexes ll' = nr_indexes ll := by
    unfold nr_indexes; rw [R.nr_blocks, R.epb]
  have hepb := hinv.index.epb_pos
  have hbe' : b + (e - b) = e := by omega
  have hcells : ∀ x, x / ll.entries_per_block < nr_indexes ll →
      cell ll' x = if b ≤ x ∧ x < e then dec_cell (cell ll x) (ll.ref_count_tree.vals x)
        else cell ll x := by
    intro x hx
    have := R.cells x hx
    rw [hbe'] at this
    exact this
  have hout : ∀ x, x / ll.entries_per_block < nr_indexes ll → ¬ (b ≤ x ∧ x < e) →
      cell ll' x = cell ll x := by
    intro x hx hr
    rw [hcells x hx, if_neg hr]
  have hvout : ∀ k, ¬ (b ≤ k ∧ k < e) → ll'.ref_count_tree.vals k = ll.ref_count_tree.vals k := by
    intro k hk
    exact R.vals_out k (by omega)
  -- the blocks of the range, by old bitmap value
  have hin : ∀ x, b ≤ x → x < e →
      cell ll x ≠ 0 ∧
      (cell ll x = 1 → cell ll' x = 0 ∧ ll'.ref_count_tree.vals x = none ∧ refcount ll x = 1) ∧
      (cell ll x = 2 → cell ll' x = 1 ∧ ll'.ref_count_tree.vals x = none ∧ refcount ll x = 2) ∧
      (cell ll x = 3 → refcount ll x = 3 →
        cell ll' x = 2 ∧ ll'.ref_count_tree.vals x = none) ∧
      (cell ll x = 3 → refcount ll x ≠ 3 → 3 < refcount ll x ∧
        cell ll' x = 3 ∧ ll'.ref_count_tree.vals x = some (refcount ll x - 1)) := by
    intro x h1 h2
    have hx : x < ll.nr_blocks := by omega
    obtain ⟨r1, r2, r3, r4⟩ := refcount_of_inv ll hinv x hx
    have hc := hcells x (index_lt ll x hepb hx)
    rw [if_pos ⟨h1, h2⟩] at hc
    refine ⟨R.nonzero x h1 (by omega), ?_, ?_, ?_, ?_⟩
    · intro h
      obtain ⟨q1, q2⟩ := r2 (by omega)
      rw [h, dec_cell_one] at hc
      exact ⟨hc, by rw [R.vals_low x h1 (by omega) (by omega)]; exact q1, by rw [q2, h]⟩
    · intro h
      obtain ⟨q1, q2⟩ := r2 (by omega)
      rw [h, dec_cell_two] at hc
      exact ⟨hc, by rw [R.vals_low x h1 (by omega) (by omega)]; exact q1, by rw [q2, h]⟩
    · intro h hr3
      obtain ⟨v0, hv0, hr0, _, _⟩ := r1 h
      obtain ⟨v, hv, w1, w2⟩ := R.vals_three x h1 (by omega) h
      rw [hv] at hv0
      simp only [Option.some.injEq] at hv0
      subst hv0
      rw [hr0] at hr3
      subst hr3
      rw [h, hv, dec_cell_three, if_pos rfl] at hc
      exact ⟨hc, w1 rfl⟩
    · intro h hr3
      obtain ⟨v0, hv0, hr0, g3, g32⟩ := r1 h
      obtain ⟨v, hv, w1, w2⟩ := R.vals_three x h1 (by omega) h
      rw [hv] at hv0
      simp only [Option.some.injEq] at hv0
      subst hv0
      rw [hr0] at hr3 ⊢
      have hv3 : 3 < v := by omega
      rw [h, hv, dec_cell_three, if_neg (by simpa using hr3)] at hc
      have hw := w2 hv3
      rw [show (v + (2 ^ 32 - 1)) % 2 ^ 32 = v - 1 by omega] at hw
      exact ⟨hv3, hc, hw⟩
  have href : ∀ x, x < ll.nr_blocks →
      refcount ll' x = if b ≤ x ∧ x < e then refcount ll x - 1 else refcount ll x := by
    intro x hx
    have h4 := cell_lt ll x
    by_cases hr : b ≤ x ∧ x < e
    · rw [if_pos hr]
      obtain ⟨i0, i1, i2, i3, i4⟩ := hin x hr.1 hr.2
      have e' : refcount ll' x = if cell ll' x = 3 then (ll'.ref_count_tree.vals x).getD 0
          else cell ll' x := rfl
      rw [e']
      by_cases hc1 : cell ll x = 1
      · obtain ⟨j1, j2, j3⟩ := i1 hc1
        rw [j1, j3]
        rfl
      · by_cases hc2 : cell ll x = 2
        · obtain ⟨j1, j2, j3⟩ := i2 hc2
          rw [j1, j3]
          rfl
        · have hc3 : cell ll x = 3 := by omega
          by_cases hr3 : refcount ll x = 3
          · obtain ⟨j1, j2⟩ := i3 hc3 hr3
            rw [j1, hr3]
            rfl
          · obtain ⟨j0, j1, j2⟩ := i4 hc3 hr3
            rw [j1, j2]
            rfl
    · rw [if_neg hr]
      unfold refcount
      rw [hout x (index_lt ll x hepb hx) hr, hvout x hr]
  have hz : ∀ x, b ≤ x → x < e → ((cell ll x == 1) = decide (refcount ll x = 1)) := by
    intro x h1 h2
    obtain ⟨i0, i1, i2, i3, i4⟩ := hin x h1 h2
    have h4 := cell_lt ll x
    by_cases hc1 : cell ll x = 1
    · simp [hc1, (i1 hc1).2.2]
    · have : refcount ll x ≠ 1 := by
        by_cases hc2 : cell ll x = 2
        · rw [(i2 hc2).2.2]; norm_num
        · have hc3 : cell ll x = 3 := by omega
          obtain ⟨v, _, hr0, g3, _⟩ := (refcount_of_inv ll hinv x (by omega)).1 hc3
          omega
      simp [hc1, this]
  have hcount : count_range (fun x => cell ll x == 1) b (e - b) =
      count_range (fun x => decide (refcount ll x = 1)) b (e - b) :=
    count_range_congr _ _ _ _ (fun x h1 h2 => hz x h1 (by omega))
  have hdiff := count_range_diff (fun x => decide (cell ll x ≠ 0))
    (fun x => decide (cell ll' x ≠ 0)) b e ll.nr_blocks hbe he
    (fun x hx hr => by
      simp only []
      rw [hout x (index_lt ll x hepb hx) hr])
  have hall : count_range (fun x => decide (cell ll x ≠ 0)) b (e - b) = e - b :=
    count_range_eq_len _ _ _ (fun x h1 h2 => by
      have := (hin x h1 (by omega)).1
      simp only [decide_eq_true_eq]
      exact this)
  have hcompl := count_range_compl (fun x => decide (cell ll' x ≠ 0))
    (fun x => cell ll x == 1) (e - b) b (fun x h1 h2 => by
      obtain ⟨i0, i1, i2, i3, i4⟩ := hin x h1 (by omega)
      have h4 := cell_lt ll x
      by_cases hc1 : cell ll x = 1
      · simp [hc1, (i1 hc1).1]
      · have : cell ll' x ≠ 0 := by
          by_cases hc2 : cell ll x = 2
          · rw [(i2 hc2).1]; norm_num
          · have hc3 : cell ll x = 3 := by omega
            by_cases hr3 : refcount ll x = 3
            · rw [(i3 hc3 hr3).1]; norm_num
            · rw [(i4 hc3 hr3).2.1]; norm_num
        simp [hc1, this])
  have hle := count_range_sub_le (fun x => decide (cell ll x ≠ 0)) b (e - b) ll.nr_blocks
    (by omega)
  have hnalloc : ll'.nr_allocated + count_range (fun x => cell ll x == 1) b (e - b) =
      ll.nr_allocated := by
    have h1 : count_range (fun x => cell ll x == 1) b (e - b) ≤ ll.nr_allocated := by
      rw [hinv.nalloc]
      omega
    rw [R.nalloc h1]
    omega
  refine ⟨⟨index_inv_congr _ _ ll' (fun j => by rw [hni]) R.inv,
    by rw [R.nr_blocks]; exact hinv.nr_blocks_lt, ?_, ?_, ?_⟩, hni, href, ?_, hout,
    by rw [← hcount]; exact hnalloc, hcount, ?_, ?_⟩
  · intro k v hv
    rw [R.nr_blocks]
    by_cases hr : b ≤ k ∧ k < e
    · obtain ⟨i0, i1, i2, i3, i4⟩ := hin k hr.1 hr.2
      have h4 := cell_lt ll k
      refine ⟨by omega, ?_⟩
      by_cases hc1 : cell ll k = 1
      · rw [(i1 hc1).2.1] at hv
        exact absurd hv (by simp)
      · by_cases hc2 : cell ll k = 2
        · rw [(i2 hc2).2.1] at hv
          exact absurd hv (by simp)
        · have hc3 : cell ll k = 3 := by omega
          by_cases hr3 : refcount ll k = 3
          · rw [(i3 hc3 hr3).2] at hv
            exact absurd hv (by simp)
          · obtain ⟨j0, j1, j2⟩ := i4 hc3 hr3
            rw [j2] at hv
            simp only [Option.some.injEq] at hv
            have := (refcount_of_inv ll hinv k (by omega)).2.2.2
            exact ⟨j1, by omega, by omega⟩
    · rw [hvout k hr] at hv
      obtain ⟨g1, g2, g3, g4⟩ := hinv.big k v hv
      exact ⟨g1, by rw [hout k (index_lt ll k hepb g1) hr]; exact g2, g3, g4⟩
  · intro k hk hc
    rw [R.nr_blocks] at hk
    by_cases hr : b ≤ k ∧ k < e
    · obtain ⟨i0, i1, i2, i3, i4⟩ := hin k hr.1 hr.2
      have h4 := cell_lt ll k
      by_cases hc1 : cell ll k = 1
      · rw [(i1 hc1).1] at hc; exact absurd hc (by norm_num)
      · by_cases hc2 : cell ll k = 2
        · rw [(i2 hc2).1] at hc; exact absurd hc (by norm_num)
        · have hc3 : cell ll k = 3 := by omega
          by_cases hr3 : refcount ll k = 3
          · rw [(i3 hc3 hr3).1] at hc; exact absurd hc (by norm_num)
          · rw [(i4 hc3 hr3).2.2]; simp
    · rw [hvout k hr]
      rw [hout k (index_lt ll k hepb hk) hr] at hc
      exact hinv.key k hk hc
  · rw [R.nr_blocks, hinv.nalloc] at *
    omega
  · intro x h1 h2
    obtain ⟨i0, _⟩ := hin x h1 h2
    have := (refcount_of_inv ll hinv x (by omega)).2.2.1
    by_contra hlt
    exact i0 (this.1 (by omega))
  · intro x h1 h2 hr3
    obtain ⟨i0, i1, i2, i3, i4⟩ := hin x h1 h2
    have h4 := cell_lt ll x
    have hc3 : cell ll x = 3 := by
      by_contra hne
      have := ((refcount_of_inv ll hinv x (by omega)).2.1 hne).2
      omega
    exact i3 hc3 hr3
  · intro x h1 h2 hr3
    obtain ⟨i0, i1, i2, i3, i4⟩ := hin x h1 h2
    have h4 := cell_lt ll x
    have hc3 : cell ll x = 3 := by
      by_contra hne
      have := ((refcount_of_inv ll hinv x (by omega)).2.1 hne).2
      omega
    exact (i4 hc3 (by omega)).2

theorem min_three_eq (n : Nat) : min n 3 = 3 ↔ 3 ≤ n := by omega

/-- A successful `insert` of a 32-bit count at a block below `nr_blocks` on a
state that satisfies the invariants: the invariants still hold and the block
has the new count. -/
theorem insert_effect (ll ll' : ll_disk) (b ref_count : Nat) (na : Int) (hinv : ll_inv ll)
    (hb : b < ll.nr_blocks) (hrc : ref_count < 2 ^ 32)
    (P : insert_post (fun i => i < nr_indexes ll) ll b ref_count ll' na) :
    ll_inv ll' ∧ nr_indexes ll' = nr_indexes ll ∧
    (∀ x, x < ll.nr_blocks → refcount ll' x = if x = b then ref_count else refcount ll x) ∧
    (∀ x, x / ll.entries_per_block < nr_indexes ll → x ≠ b → cell ll' x = cell ll x) ∧
    ll'.ref_count_tree.vals b = (if 3 ≤ ref_count then some ref_count else none) ∧
    na = (if refcount ll b = 0 ∧ 1 ≤ ref_count then 1
      else if 1 ≤ refcount ll b ∧ ref_count = 0 then -1 else 0) ∧
    (ll'.nr_allocated : Int) = ll.nr_allocated + na := by
  have hni : nr_indexes ll' = nr_indexes ll := by
    unfold nr_indexes; rw [P.nr_blocks, P.epb]
  have hepb := hinv.index.epb_pos
  obtain ⟨r1, r2, r3, r4⟩ := refcount_of_inv ll hinv b hb
  have h4 := cell_lt ll b
  have hcb : cell ll' b = min ref_count 3 := by
    rw [P.cells b (index_lt ll b hepb hb), if_pos rfl]
  have hout : ∀ x, x / ll.entries_per_block < nr_indexes ll → x ≠ b →
      cell ll' x = cell ll x := by
    intro x hx hne
    rw [P.cells x hx, if_neg hne]
  have hvb : ll'.ref_count_tree.vals b = (if 3 ≤ ref_count then some ref_count else none) := by
    rw [P.vals]
    by_cases h3 : ref_count ≤ 2
    · rw [if_pos h3, if_neg (show ¬ 3 ≤ ref_count by omega)]
      by_cases hc : cell ll b = 3
      · rw [if_pos hc, Function.update_same]
      · rw [if_neg hc]
        exact (r2 hc).1
    · rw [if_neg h3, if_pos (show 3 ≤ ref_count by omega), Function.update_same]
  have hvout : ∀ k, k ≠ b → ll'.ref_count_tree.vals k = ll.ref_count_tree.vals k := by
    intro k hk
    rw [P.vals]
    by_cases h3 : ref_count ≤ 2
    · rw [if_pos h3]
      by_cases hc : cell ll b = 3
      · rw [if_pos hc, Function.update_noteq hk]
      · rw [if_neg hc]
    · rw [if_neg h3, Function.update_noteq hk]
  have href : ∀ x, x < ll.nr_blocks →
      refcount ll' x = if x = b then ref_count else refcount ll x := by
    intro x hx
    have e' : refcount ll' x = if cell ll' x = 3 then (ll'.ref_count_tree.vals x).getD 0
        else cell ll' x := rfl
    by_cases hxb : x = b
    · subst hxb
      rw [if_pos rfl, e', hcb, hvb]
      by_cases h3 : 3 ≤ ref_count
      · rw [if_pos (show min ref_count 3 = 3 by omega), if_pos h3]
        rfl
      · rw [if_neg (show ¬ min ref_count 3 = 3 by omega)]
        omega
    · rw [if_neg hxb]
      unfold refcount
      rw [hout x (index_lt ll x hepb hx) hxb, hvout x hxb]
  have hdiff := count_range_diff (fun x => decide (cell ll x ≠ 0))
    (fun x => decide (cell ll' x ≠ 0)) b (b + 1) ll.nr_blocks (by omega) (by omega)
    (fun x hx hr => by
      simp only []
      rw [hout x (index_lt ll x hepb hx) (by omega)])
  rw [Nat.add_sub_cancel_left] at hdiff
  simp only [count_range, Nat.add_zero, hcb] at hdiff
  have hA0 : cell ll b = 0 → (if decide (cell ll b ≠ 0) = true then 1 else 0) = 0 :=
    fun h => by simp [h]
  have hA1 : cell ll b ≠ 0 → (if decide (cell ll b ≠ 0) = true then 1 else 0) = 1 :=
    fun h => by simp [h]
  have hB0 : min ref_count 3 = 0 →
      (if decide (min ref_count 3 ≠ 0) = true then 1 else 0) = 0 := fun h => by simp [h]
  have hB1 : min ref_count 3 ≠ 0 →
      (if decide (min ref_count 3 ≠ 0) = true then 1 else 0) = 1 := fun h => by simp [h]
  have hle := count_range_le (fun x => decide (cell ll' x ≠ 0)) ll.nr_blocks 0
  have hN := hinv.nr_blocks_lt
  have hna := hinv.nalloc
  have hA : (ref_count ≠ 0 ∧ cell ll b = 0) ↔ (refcount ll b = 0 ∧ 1 ≤ ref_count) := by
    rw [r3]
    constructor
    · rintro ⟨h1, h2⟩; exact ⟨h2, by omega⟩
    · rintro ⟨h1, h2⟩; exact ⟨by omega, h1⟩
  have hB : (cell ll b ≠ 0 ∧ ref_count = 0) ↔ (1 ≤ refcount ll b ∧ ref_count = 0) := by
    constructor
    · rintro ⟨h1, h2⟩
      exact ⟨Nat.one_le_iff_ne_zero.2 (fun h => h1 (r3.1 h)), h2⟩
    · rintro ⟨h1, h2⟩
      exact ⟨fun h => by have := r3.2 h; omega, h2⟩
  have hnr := P.nr_alloc
  have hal := P.nalloc
  simp only [hA, hB] at hnr hal
  have key : ll'.nr_allocated = count_range (fun x => decide (cell ll' x ≠ 0)) 0 ll.nr_blocks ∧
      (ll'.nr_allocated : Int) = ll.nr_allocated + na := by
    by_cases h1 : refcount ll b = 0 ∧ 1 ≤ ref_count
    · rw [if_pos h1] at hnr hal
      have hc0 : cell ll b = 0 := r3.1 h1.1
      have hq : min ref_count 3 ≠ 0 := by omega
      rw [hA0 hc0, hB1 hq] at hdiff
      rw [hal, hnr, Nat.mod_eq_of_lt (by omega)]
      exact ⟨by omega, by push_cast; ring⟩
    · rw [if_neg h1] at hnr hal
      by_cases h2 : 1 ≤ refcount ll b ∧ ref_count = 0
      · rw [if_pos h2] at hnr hal
        have hc0 : cell ll b ≠ 0 := fun h => by have := r3.2 h; omega
        have hq : min ref_count 3 = 0 := by omega
        rw [hA1 hc0, hB0 hq] at hdiff
        rw [hal, hnr, show (ll.nr_allocated + (2 ^ 64 - 1)) % 2 ^ 64 = ll.nr_allocated - 1
          by omega]
        exact ⟨by omega, by omega⟩
      · rw [if_neg h2] at hnr hal
        rw [hal, hnr]
        refine ⟨?_, by omega⟩
        by_cases hc0 : cell ll b = 0
        · have hq : min ref_count 3 = 0 := by
            have : ¬ 1 ≤ ref_count := fun h => h1 ⟨r3.2 hc0, h⟩
            omega
          rw [hA0 hc0, hB0 hq] at hdiff
          omega
        · have hq : min ref_count 3 ≠ 0 := by
            have : 1 ≤ refcount ll b := Nat.one_le_iff_ne_zero.2 (fun h => hc0 (r3.1 h))
            have : ref_count ≠ 0 := fun h => h2 ⟨this, h⟩
            omega
          rw [hA1 hc0, hB1 hq] at hdiff
          omega
  refine ⟨⟨index_inv_congr _ _ ll' (fun j => by rw [hni]) P.inv,
    by rw [P.nr_blocks]; exact hinv.nr_blocks_lt, ?_, ?_, ?_⟩, hni, href, hout, hvb, hnr, key.2⟩
  · intro k v hv
    rw [P.nr_blocks]
    by_cases hkb : k = b
    · subst hkb
      rw [hvb] at hv
      by_cases h3 : 3 ≤ ref_count
      · rw [if_pos h3] at hv
        simp only [Option.some.injEq] at hv
        subst hv
        exact ⟨hb, by rw [hcb]; exact (min_three_eq _).2 h3, h3, hrc⟩
      · rw [if_neg h3] at hv
        exact absurd hv (by simp)
    · rw [hvout k hkb] at hv
      obtain ⟨g1, g2, g3, g4⟩ := hinv.big k v hv
      exact ⟨g1, by rw [hout k (index_lt ll k hepb g1) hkb]; exact g2, g3, g4⟩
  · intro k hk hc
    rw [P.nr_blocks] at hk
    by_cases hkb : k = b
    · rw [hkb, hcb] at hc
      rw [hkb, hvb, if_pos ((min_three_eq _).1 hc)]
      simp
    · rw [hvout k hkb]
      rw [hout k (index_lt ll k hepb hk) hkb] at hc
      exact hinv.key k hk hc
  · rw [P.nr_blocks]
    exact key.1

theorem wrap_s32_zero : wrap_s32 0 = 0 := by decide

/-- The effect of a successful `sm_ll_inc` on a state whose bitmaps `S` have
entries. -/
theorem sm_ll_inc_ok (S : Nat → Prop) (ll ll' : ll_disk) (b e : Nat) (na : Int)
    (hinv : index_inv ll S) (hbe : b ≤ e) (he : e < 2 ^ 64)
    (hS : ∀ x, b ≤ x → x < e → S (x / ll.entries_per_block))
    (hal : ll.nr_allocated < 2 ^ 64)
    (h : sm_ll_inc ll b e = some (.ok (ll', na))) : range_inc S ll b (e - b) 0 ll' na :=
  (sm_ll_inc_loop_spec S e he (e - b) ll b 0 hinv hbe (le_refl _) hS wrap_s32_zero hal).2.2
    ll' na h

theorem sm_ll_dec_ok (S : Nat → Prop) (ll ll' : ll_disk) (b e : Nat) (na : Int)
    (hinv : index_inv ll S) (hbe : b ≤ e) (he : e < 2 ^ 64)
    (hS : ∀ x, b ≤ x → x < e → S (x / ll.entries_per_block))
    (hal : ll.nr_allocated < 2 ^ 64)
    (h : sm_ll_dec ll b e = some (.ok (ll', na))) : range_dec S ll b (e - b) 0 ll' na :=
  (sm_ll_dec_loop_spec S e he (e - b) ll b 0 hinv hbe (le_refl _) hS wrap_s32_zero hal).2.2
    ll' na h

theorem nr_allocated_lt (ll : ll_disk) (hinv : ll_inv ll) : ll.nr_allocated < 2 ^ 64 := by
  rw [hinv.nalloc]
  have := count_range_le (fun b => decide (cell ll b ≠ 0)) ll.nr_blocks 0
  have := hinv.nr_blocks_lt
  omega

/-- A successful extension that does not overflow keeps the invariants. -/
theorem extend_effect (ll ll' : ll_disk) (ref : Nat → Nat) (extra_blocks : Nat)
    (h : reach_inv ll ref) (hno : ll.nr_blocks + extra_blocks < 2 ^ 64)
    (hidx : dm_sector_div_up (ll.nr_blocks + extra_blocks) ll.entries_per_block < 2 ^ 32)
    (P : extend_post (fun i => i < nr_indexes ll) ll extra_blocks ll') :
    reach_inv ll' ref := by
  have hepb := h.inv.index.epb_pos
  have hnr : ll'.nr_blocks = ll.nr_blocks + extra_blocks := by
    rw [P.nr_blocks, Nat.mod_eq_of_lt hno]
  have hni' : nr_indexes ll' =
      dm_sector_div_up (ll.nr_blocks + extra_blocks) ll.entries_per_block := by
    unfold nr_indexes; rw [hnr, P.epb]
  have hmono : nr_indexes ll ≤ nr_indexes ll' := by
    rw [hni']
    exact div_up_mono _ _ _ (by omega)
  have hold_eq : dm_sector_div_up ll.nr_blocks ll.entries_per_block % 2 ^ 32 = nr_indexes ll :=
    Nat.mod_eq_of_lt h.nr_indexes_lt
  have hnew_eq : dm_sector_div_up ((ll.nr_blocks + extra_blocks) % 2 ^ 64) ll.entries_per_block
      % 2 ^ 32 = nr_indexes ll' := by
    rw [Nat.mod_eq_of_lt hno, Nat.mod_eq_of_lt hidx, hni']
  have hinv' : index_inv ll' (fun i => i < nr_indexes ll') := by
    refine index_inv_congr _ _ ll' (fun j => ?_) P.inv
    rw [hold_eq, hnew_eq]
    constructor
    · rintro (h1 | h1) <;> omega
    · intro h1
      by_cases h2 : j < nr_indexes ll
      · exact Or.inl h2
      · exact Or.inr (by omega)
  have hold : ∀ x, x / ll.entries_per_block < nr_indexes ll → cell ll' x = cell ll x := by
    intro x hx
    exact P.cells_old x hx (by rw [hold_eq]; omega)
  have hnew : ∀ x, nr_indexes ll ≤ x / ll.entries_per_block →
      x / ll.entries_per_block < nr_indexes ll' → cell ll' x = 0 := by
    intro x h1 h2
    exact P.cells_new x (by rw [hold_eq]; exact h1) (by rw [hnew_eq]; exact h2)
  have hzero : ∀ x, ll.nr_blocks ≤ x → x / ll.entries_per_block < nr_indexes ll' →
      cell ll' x = 0 := by
    intro x h1 h2
    by_cases hx : x / ll.entries_per_block < nr_indexes ll
    · rw [hold x hx]
      exact h.tail x h1 hx
    · exact hnew x (by omega) h2
  have hidx' : ∀ x, x < ll'.nr_blocks → x / ll.entries_per_block < nr_indexes ll' := by
    intro x hx
    have := index_lt ll' x (by rw [P.epb]; exact hepb) hx
    rw [P.epb] at this
    exact this
  refine ⟨⟨hinv', by rw [hnr]; exact hno, ?_, ?_, ?_⟩, by rw [hni']; exact hidx, ?_, ?_, ?_⟩
  · intro k v hv
    rw [P.ref_count_tree] at hv
    obtain ⟨g1, g2, g3, g4⟩ := h.inv.big k v hv
    exact ⟨by omega, by rw [hold k (index_lt ll k hepb g1)]; exact g2, g3, g4⟩
  · intro k hk hc
    rw [P.ref_count_tree]
    by_cases hk0 : k < ll.nr_blocks
    · rw [hold k (index_lt ll k hepb hk0)] at hc
      exact h.inv.key k hk0 hc
    · rw [hzero k (by omega) (hidx' k hk)] at hc
      exact absurd hc (by norm_num)
  · have e1 : count_range (fun b => decide (cell ll' b ≠ 0)) 0 ll.nr_blocks =
        count_range (fun b => decide (cell ll b ≠ 0)) 0 ll.nr_blocks :=
      count_range_congr _ _ ll.nr_blocks 0 (fun x _ h2 => by
        rw [hold x (index_lt ll x hepb (by omega))])
    have e2 : count_range (fun b => decide (cell ll' b ≠ 0)) ll.nr_blocks extra_blocks = 0 :=
      count_range_eq_zero _ extra_blocks ll.nr_blocks (fun x h1 h2 => by
        simp only [decide_eq_false_iff_not, ne_eq, not_not]
        exact hzero x h1 (hidx' x (by omega)))
    rw [P.nr_allocated, h.inv.nalloc, hnr, count_range_add, Nat.zero_add, e1, e2]
    rfl
  · intro x h1 h2
    rw [P.epb] at h2
    exact hzero x (by omega) h2
  · intro x hx
    by_cases hx0 : x < ll.nr_blocks
    · rw [← h.ref_eq x hx0]
      unfold refcount
      rw [hold x (index_lt ll x hepb hx0), P.ref_count_tree]
    · rw [h.ref_out x (by omega)]
      unfold refcount
      rw [hzero x (by omega) (hidx' x hx), if_neg (by norm_num)]
  · intro x hx
    exact h.ref_out x (by omega)

theorem new_reach_inv (ll : ll_disk) (hidx : index_inv ll (fun _ => False))
    (hnb : ll.nr_blocks = 0) (hna : ll.nr_allocated = 0)
    (hv : ∀ k, ll.ref_count_tree.vals k = none) : reach_inv ll (fun _ => 0) := by
  have hni : nr_indexes ll = 0 := by
    unfold nr_indexes
    exact (div_up_facts ll.entries_per_block ll.nr_blocks hidx.epb_pos).2.2.2 hnb
  refine ⟨⟨index_inv_congr _ _ ll (fun j => by rw [hni]; simp) hidx, by rw [hnb]; norm_num,
    ?_, ?_, ?_⟩, by rw [hni]; norm_num, ?_, ?_, fun _ _ => rfl⟩
  · intro k v h
    rw [hv k] at h
    exact absurd h (by simp)
  · intro k hk
    rw [hnb] at hk
    exact absurd hk (Nat.not_lt_zero _)
  · rw [hna, hnb]
    rfl
  · intro x _ h
    rw [hni] at h
    exact absurd h (Nat.not_lt_zero _)
  · intro x hx
    rw [hnb] at hx
    exact absurd hx (Nat.not_lt_zero _)

theorem insert_reach_inv (ll ll' : ll_disk) (ref : Nat → Nat) (b ref_count : Nat) (na : Int)
    (h : reach_inv ll ref) (hb : b < ll.nr_blocks) (hrc : ref_count < 2 ^ 32)
    (hins : sm_ll_insert ll b ref_count = .ok (ll', na)) :
    reach_inv ll' (Function.update ref b ref_count) := by
  have hepb := h.inv.index.epb_pos
  obtain ⟨ll2, na2, h2, P⟩ := sm_ll_insert_spec _ ll b ref_count h.inv.index
    (index_lt ll b hepb hb) (fun hc => by
      obtain ⟨v, hv, _, h3, _⟩ := (refcount_of_inv ll h.inv b hb).1 hc
      exact ⟨v, hv, h3⟩)
  rw [hins] at h2
  simp only [Except.ok.injEq, Prod.mk.injEq] at h2
  obtain ⟨e1, e2⟩ := h2
  subst e1 e2
  obtain ⟨i1, i2, i3, i4, i5, i6, i7⟩ := insert_effect ll ll' b ref_count na h.inv hb hrc P
  refine ⟨i1, by rw [i2]; exact h.nr_indexes_lt, ?_, ?_, ?_⟩
  · intro x hx hxi
    rw [P.nr_blocks] at hx
    rw [P.epb, i2] at hxi
    rw [i4 x hxi (by omega)]
    exact h.tail x hx hxi
  · intro x hx
    rw [P.nr_blocks] at hx
    rw [i3 x hx, Function.update_apply]
    by_cases hxb : x = b
    · rw [if_pos hxb, if_pos hxb]
    · rw [if_neg hxb, if_neg hxb]
      exact h.ref_eq x hx
  · intro x hx
    rw [P.nr_blocks] at hx
    rw [Function.update_noteq (by omega)]
    exact h.ref_out x hx

theorem inc_reach_inv (ll ll' : ll_disk) (ref : Nat → Nat) (b e : Nat) (na : Int)
    (h : reach_inv ll ref) (hbe : b ≤ e) (he : e ≤ ll.nr_blocks)
    (hrc : ∀ x, b ≤ x → x < e → ref x < 2 ^ 32 - 1)
    (hinc : sm_ll_inc ll b e = some (.ok (ll', na))) :
    reach_inv ll' (fun x => if b ≤ x ∧ x < e then ref x + 1 else ref x) := by
  have hepb := h.inv.index.epb_pos
  have hN := h.inv.nr_blocks_lt
  have R := sm_ll_inc_ok _ ll ll' b e na h.inv.index hbe (by omega)
    (fun x _ hx => index_lt ll x hepb (by omega)) (nr_allocated_lt ll h.inv) hinc
  obtain ⟨i1, i2, i3, i4, i5, i6⟩ := inc_effect ll ll' b e 0 na h.inv hbe he
    (fun x h1 h2 => by rw [h.ref_eq x (by omega)]; exact hrc x h1 h2) R
  refine ⟨i1, by rw [i2]; exact h.nr_indexes_lt, ?_, ?_, ?_⟩
  · intro x hx hxi
    rw [R.nr_blocks] at hx
    rw [R.epb, i2] at hxi
    rw [i4 x hxi (by omega)]
    exact h.tail x hx hxi
  · intro x hx
    rw [R.nr_blocks] at hx
    rw [i3 x hx, h.ref_eq x hx]
  · intro x hx
    rw [R.nr_blocks] at hx
    show (if b ≤ x ∧ x < e then _ else ref x) = 0
    rw [if_neg (by omega)]
    exact h.ref_out x hx

theorem dec_reach_inv (ll ll' : ll_disk) (ref : Nat → Nat) (b e : Nat) (na : Int)
    (h : reach_inv ll ref) (hbe : b ≤ e) (he : e ≤ ll.nr_blocks)
    (hdec : sm_ll_dec ll b e = some (.ok (ll', na))) :
    reach_inv ll' (fun x => if b ≤ x ∧ x < e then ref x - 1 else ref x) := by
  have hepb := h.inv.index.epb_pos
  have hN := h.inv.nr_blocks_lt
  have R := sm_ll_dec_ok _ ll ll' b e na h.inv.index hbe (by omega)
    (fun x _ hx => index_lt ll x hepb (by omega)) (nr_allocated_lt ll h.inv) hdec
  obtain ⟨i1, i2, i3, _, i4, _⟩ := dec_effect ll ll' b e 0 na h.inv hbe he R
  refine ⟨i1, by rw [i2]; exact h.nr_indexes_lt, ?_, ?_, ?_⟩
  · intro x hx hxi
    rw [R.nr_blocks] at hx
    rw [R.epb, i2] at hxi
    rw [i4 x hxi (by omega)]
    exact h.tail x hx hxi
  · intro x hx
    rw [R.nr_blocks] at hx
    rw [i3 x hx, h.ref_eq x hx]
  · intro x hx
    rw [R.nr_blocks] at hx
    show (if b ≤ x ∧ x < e then _ else ref x) = 0
    rw [if_neg (by omega)]
    exact h.ref_out x hx

theorem extend_reach_inv (ll ll' : ll_disk) (ref : Nat → Nat) (extra_blocks : Nat)
    (h : reach_inv ll ref) (hno : ll.nr_blocks + extra_blocks < 2 ^ 64)
    (hidx : dm_sector_div_up (ll.nr_blocks + extra_blocks) ll.entries_per_block < 2 ^ 32)
    (hext : sm_ll_extend ll extra_blocks = .ok ll') : reach_inv ll' ref := by
  obtain ⟨s1, s2⟩ := sm_ll_extend_spec (fun i => i < nr_indexes ll) ll extra_blocks
    h.inv.index
  by_cases hmax : dm_sector_div_up ((ll.nr_blocks + extra_blocks) % 2 ^ 64)
      ll.entries_per_block ≤ max_entries ll
  · obtain ⟨ll2, h2, P⟩ := s1 hmax
    rw [hext] at h2
    simp only [Except.ok.injEq] at h2
    subst h2
    exact extend_effect ll ll' ref extra_blocks h hno hidx P
  · rw [s2 (by omega)] at hext
    exact absurd hext (by simp)

/-- Every state reached without overflow satisfies the invariants and agrees
with the reference model. -/
theorem reach_ok (ll : ll_disk) (ref : Nat → Nat) (h : reach true true ll ref) :
    reach_inv ll ref := by
  induction h with
  | new_metadata tm ll hnew hepb =>
    obtain ⟨n1, _, n3, n4, n5⟩ := sm_ll_new_metadata_ok tm ll hnew hepb
    exact new_reach_inv ll n1 n3 n4 n5
  | new_disk tm ll hnew hepb =>
    obtain ⟨n1, _, n3, n4, n5⟩ := sm_ll_new_disk_ok tm ll hnew hepb
    exact new_reach_inv ll n1 n3 n4 n5
  | extend ll ref extra_blocks ll' _ hcond hext ih =>
    exact extend_reach_inv ll ll' ref extra_blocks ih (hcond rfl).1 (hcond rfl).2 hext
  | insert ll ref b ref_count ll' na _ hb hrc hins ih =>
    exact insert_reach_inv ll ll' ref b ref_count na ih hb hrc hins
  | inc ll ref b e ll' na _ hbe he hcond hinc ih =>
    exact inc_reach_inv ll ll' ref b e na ih hbe he (hcond rfl) hinc
  | dec ll ref b e ll' na _ hbe he hdec ih =>
    exact dec_reach_inv ll ll' ref b e na ih hbe he hdec

/-! ## The claims C1 to C6 and C8 to C10 -/

theorem load_ie_ref_count_tree (ll ll0 : ll_disk) (i : Nat) (ie : disk_index_entry)
    (h : load_ie ll i = .ok (ll0, ie)) : ll0.ref_count_tree = ll.ref_count_tree := by
  unfold load_ie at h
  cases hf : ll.flavor with
  | metadata =>
    rw [hf] at h
    simp only [metadata_ll_load_ie, Except.ok.injEq, Prod.mk.injEq] at h
    rw [← h.1]
  | disk =>
    rw [hf] at h
    simp only [] at h
    rw [disk_ll_load_ie_eq] at h
    by_cases hhit : (ll.ie_cache (hash_index i)).valid = true ∧
        (ll.ie_cache (hash_index i)).index = i
    · rw [if_pos hhit] at h
      simp only [Except.ok.injEq, Prod.mk.injEq] at h
      rw [← h.1]
    · rw [if_neg hhit] at h
      unfold load_miss at h
      have he : (after_evict ll (hash_index i)).ref_count_tree = ll.ref_count_tree := by
        unfold after_evict
        split
        · rfl
        · rfl
      cases hl : dm_btree_lookup (after_evict ll (hash_index i)).bitmap_tree i with
      | error r =>
        rw [hl] at h
        exact absurd h (by simp)
      | ok v =>
        rw [hl] at h
        simp only [Except.ok.injEq, Prod.mk.injEq] at h
        rw [← h.1]
        exact he

/-- Claim C4: given that `load_ie` succeeds for the bitmap index of `b`,
`sm_ll_lookup_bitmap` fails with `-EINVAL` exactly when `b ≥ nr_blocks`, and
otherwise returns the two-bit entry at position `b mod entries_per_block` of the
bitmap block that the index entry of `b / entries_per_block` points at;
`sm_ll_lookup` returns that bitmap value when it is not 3, and when it is 3
returns what the lookup of key `b` in the overflow tree gives. -/
theorem sm_ll_lookup_contract (ll ll0 : ll_disk) (b : Nat) (ie : disk_index_entry)
    (hload : load_ie ll (b / ll.entries_per_block) = .ok (ll0, ie)) :
    (sm_ll_lookup_bitmap ll b = .error (-EINVAL) ↔ ll.nr_blocks ≤ b) ∧
    (b < ll.nr_blocks →
      sm_ll_lookup_bitmap ll b =
        .ok (ll0, sm_lookup_bitmap (dm_tm_read_lock ll0.tm ie.blocknr)
          (b % ll.entries_per_block)) ∧
      (sm_lookup_bitmap (dm_tm_read_lock ll0.tm ie.blocknr) (b % ll.entries_per_block) ≠ 3 →
        sm_ll_lookup ll b =
          .ok (ll0, sm_lookup_bitmap (dm_tm_read_lock ll0.tm ie.blocknr)
            (b % ll.entries_per_block))) ∧
      (sm_lookup_bitmap (dm_tm_read_lock ll0.tm ie.blocknr) (b % ll.entries_per_block) = 3 →
        sm_ll_lookup ll b =
          match dm_btree_lookup ll.ref_count_tree b with
          | .ok v => .ok (ll0, v)
          | .error r => .error r)) := by
  have hb := sm_ll_lookup_bitmap_load ll ll0 b ie
  constructor
  · constructor
    · intro h
      by_contra hlt
      rw [hb (by omega) hload] at h
      exact absurd h (by simp)
    · exact sm_ll_lookup_bitmap_oob ll b
  · intro hlt
    obtain ⟨h1, h2, h3⟩ := sm_ll_lookup_of_bitmap ll ll0 b _ (hb hlt hload)
    refine ⟨hb hlt hload, h1, ?_⟩
    intro h3c
    rw [← load_ie_ref_count_tree ll ll0 _ ie hload]
    cases hv : ll0.ref_count_tree.vals b with
    | none =>
      rw [h3 h3c hv]
      unfold dm_btree_lookup
      simp only [hv]
    | some v =>
      rw [h2 h3c v hv]
      unfold dm_btree_lookup
      simp only [hv]

theorem wrap_s32_natCast (k : Nat) (h : k < 2 ^ 31) : wrap_s32 (k : Int) = k :=
  wrap_s32_of_range _ (by omega) (by omega)

theorem wrap_s32_neg_natCast (k : Nat) (h : k ≤ 2 ^ 31) : wrap_s32 (-(k : Int)) = -(k : Int) :=
  wrap_s32_of_range _ (by omega) (by omega)

/-- Success of `sm_ll_inc` on a state that satisfies the invariants. -/
theorem sm_ll_inc_succeeds (ll : ll_disk) (b e : Nat) (hinv : ll_inv ll) (hbe : b ≤ e)
    (he : e ≤ ll.nr_blocks) :
    ∃ ll' na, sm_ll_inc ll b e = some (.ok (ll', na)) ∧
      range_inc (fun i => i < nr_indexes ll) ll b (e - b) 0 ll' na := by
  have hN := hinv.nr_blocks_lt
  have hepb := hinv.index.epb_pos
  obtain ⟨A, _, B⟩ := sm_ll_inc_loop_spec (fun i => i < nr_indexes ll) e (by omega) (e - b) ll b 0
    hinv.index hbe (le_refl _) (fun x _ hx => index_lt ll x hepb (by omega)) wrap_s32_zero
    (nr_allocated_lt ll hinv)
  obtain ⟨ll', na, h⟩ := A (fun x _ hx hc => hinv.key x (by omega) hc)
  exact ⟨ll', na, h, B ll' na h⟩

/-- Success of `sm_ll_dec` on a state that satisfies the invariants, when no
count of the range is 0. -/
theorem sm_ll_dec_succeeds (ll : ll_disk) (b e : Nat) (hinv : ll_inv ll) (hbe : b ≤ e)
    (he : e ≤ ll.nr_blocks) (hrc : ∀ x, b ≤ x → x < e → 1 ≤ refcount ll x) :
    ∃ ll' na, sm_ll_dec ll b e = some (.ok (ll', na)) ∧
      range_dec (fun i => i < nr_indexes ll) ll b (e - b) 0 ll' na := by
  have hN := hinv.nr_blocks_lt
  have hepb := hinv.index.epb_pos
  obtain ⟨A, _, B⟩ := sm_ll_dec_loop_spec (fun i => i < nr_indexes ll) e (by omega) (e - b) ll b 0
    hinv.index hbe (le_refl _) (fun x _ hx => index_lt ll x hepb (by omega)) wrap_s32_zero
    (nr_allocated_lt ll hinv)
  obtain ⟨ll', na, h⟩ := A (fun x hx1 hx2 => ⟨fun hc => by
      have := (refcount_of_inv ll hinv x (by omega)).2.2.1.2 hc
      have := hrc x hx1 hx2
      omega, fun hc => hinv.key x (by omega) hc⟩)
  exact ⟨ll', na, h, B ll' na h⟩

/-- Claim C1, amended: on a state that satisfies the invariants, for
`b ≤ e ≤ nr_blocks` with every count of the range below `2 ^ 32 - 1`,
`sm_ll_inc` succeeds, every count of the range goes up by one, every other
count below `nr_blocks` is unchanged, and `*nr_allocations` is the number of
blocks of the range whose count was 0, wrapped to a signed 32-bit value; it is
that number itself when the number is below `2 ^ 31`. -/
theorem sm_ll_inc_contract (ll : ll_disk) (b e : Nat) (hinv : ll_inv ll) (hbe : b ≤ e)
    (he : e ≤ ll.nr_blocks) (hrc : ∀ x, b ≤ x → x < e → refcount ll x < 2 ^ 32 - 1) :
    ∃ ll' na, sm_ll_inc ll b e = some (.ok (ll', na)) ∧
      (∀ x, b ≤ x → x < e →
        lookup_val ll x = some (refcount ll x) ∧ lookup_val ll' x = some (refcount ll x + 1)) ∧
      (∀ x, x < ll.nr_blocks → ¬ (b ≤ x ∧ x < e) → lookup_val ll' x = lookup_val ll x) ∧
      na = wrap_s32 (count_range (fun x => decide (refcount ll x = 0)) b (e - b)) ∧
      (count_range (fun x => decide (refcount ll x = 0)) b (e - b) < 2 ^ 31 →
        na = count_range (fun x => decide (refcount ll x = 0)) b (e - b)) := by
  obtain ⟨ll', na, h, R⟩ := sm_ll_inc_succeeds ll b e hinv hbe he
  obtain ⟨i1, i2, i3, i4, i5, i6⟩ := inc_effect ll ll' b e 0 na hinv hbe he hrc R
  have hna : na = wrap_s32 (count_range (fun x => decide (refcount ll x = 0)) b (e - b)) := by
    rw [R.nr_alloc, i6, zero_add]
  refine ⟨ll', na, h, ?_, ?_, hna, fun hlt => by rw [hna, wrap_s32_natCast _ hlt]⟩
  · intro x h1 h2
    refine ⟨lookup_val_of_inv ll hinv x (by omega), ?_⟩
    rw [lookup_val_of_inv ll' i1 x (by rw [R.nr_blocks]; omega), i3 x (by omega),
      if_pos ⟨h1, h2⟩]
  · intro x hx hr
    rw [lookup_val_of_inv ll' i1 x (by rw [R.nr_blocks]; omega), i3 x hx, if_neg hr,
      lookup_val_of_inv ll hinv x hx]

/-- Claim C2, amended: on a state that satisfies the invariants, for
`b ≤ e ≤ nr_blocks` with every count of the range at least 1, `sm_ll_dec`
succeeds, every count of the range goes down by one, every other count below
`nr_blocks` is unchanged, and `*nr_allocations` is minus the number of blocks of
the range whose count was 1, wrapped to a signed 32-bit value; it is minus that
number itself when the number is at most `2 ^ 31`. A block whose count was 3
ends with bitmap value 2 and no overflow entry; a block whose count was above 3
keeps bitmap value 3 and its overflow entry holds one less. -/
theorem sm_ll_dec_contract (ll : ll_disk) (b e : Nat) (hinv : ll_inv ll) (hbe : b ≤ e)
    (he : e ≤ ll.nr_blocks) (hrc : ∀ x, b ≤ x → x < e → 1 ≤ refcount ll x) :
    ∃ ll' na, sm_ll_dec ll b e = some (.ok (ll', na)) ∧
      (∀ x, b ≤ x → x < e →
        lookup_val ll x = some (refcount ll x) ∧ lookup_val ll' x = some (refcount ll x - 1)) ∧
      (∀ x, x < ll.nr_blocks → ¬ (b ≤ x ∧ x < e) → lookup_val ll' x = lookup_val ll x) ∧
      na = wrap_s32 (-(count_range (fun x => decide (refcount ll x = 1)) b (e - b) : Int)) ∧
      (count_range (fun x => decide (refcount ll x = 1)) b (e - b) ≤ 2 ^ 31 →
        na = -(count_range (fun x => decide (refcount ll x = 1)) b (e - b) : Int)) ∧
      (∀ x, b ≤ x → x < e → refcount ll x = 3 →
        (∃ l, sm_ll_lookup_bitmap ll' x = .ok (l, 2)) ∧
        dm_btree_lookup ll'.ref_count_tree x = .error (-ENODATA)) ∧
      (∀ x, b ≤ x → x < e → 3 < refcount ll x →
        (∃ l, sm_ll_lookup_bitmap ll' x = .ok (l, 3)) ∧
        dm_btree_lookup ll'.ref_count_tree x = .ok (refcount ll x - 1)) := by
  obtain ⟨ll', na, h, R⟩ := sm_ll_dec_succeeds ll b e hinv hbe he hrc
  obtain ⟨i1, i2, i3, _, i4, i5, i6, i7, i8⟩ := dec_effect ll ll' b e 0 na hinv hbe he R
  have hna : na = wrap_s32
      (-(count_range (fun x => decide (refcount ll x = 1)) b (e - b) : Int)) := by
    rw [R.nr_alloc, i6, zero_sub]
  have hbm : ∀ x, x < ll.nr_blocks → ∃ l, sm_ll_lookup_bitmap ll' x = .ok (l, cell ll' x) := by
    intro x hx
    obtain ⟨l, hl, _⟩ := sm_ll_lookup_bitmap_spec _ ll' x i1.index
      (index_lt ll' x i1.index.epb_pos (by rw [R.nr_blocks]; exact hx))
      (by rw [R.nr_blocks]; exact hx)
    exact ⟨l, hl⟩
  refine ⟨ll', na, h, ?_, ?_, hna, fun hle => by rw [hna, wrap_s32_neg_natCast _ hle], ?_, ?_⟩
  · intro x h1 h2
    refine ⟨lookup_val_of_inv ll hinv x (by omega), ?_⟩
    rw [lookup_val_of_inv ll' i1 x (by rw [R.nr_blocks]; omega), i3 x (by omega),
      if_pos ⟨h1, h2⟩]
  · intro x hx hr
    rw [lookup_val_of_inv ll' i1 x (by rw [R.nr_blocks]; omega), i3 x hx, if_neg hr,
      lookup_val_of_inv ll hinv x hx]
  · intro x h1 h2 h3
    obtain ⟨j1, j2⟩ := i7 x h1 h2 h3
    obtain ⟨l, hl⟩ := hbm x (by omega)
    rw [j1] at hl
    refine ⟨⟨l, hl⟩, ?_⟩
    unfold dm_btree_lookup
    simp only [j2]
  · intro x h1 h2 h3
    obtain ⟨j1, j2⟩ := i8 x h1 h2 h3
    obtain ⟨l, hl⟩ := hbm x (by omega)
    rw [j1] at hl
    refine ⟨⟨l, hl⟩, ?_⟩
    unfold dm_btree_lookup
    simp only [j2]

/-- Claim C3: on a state that satisfies the invariants, for `b < nr_blocks` and
a 32-bit `ref_count`, `sm_ll_insert` succeeds; afterwards the count of `b` is
`ref_count`, every other count below `nr_blocks` is unchanged, the overflow tree
holds key `b`, with value `ref_count`, exactly when `ref_count ≥ 3`, and
`*nr_allocations` is `+1` when the old count was 0 and `ref_count ≥ 1`, `-1`
when the old count was at least 1 and `ref_count = 0`, and 0 otherwise. -/
theorem sm_ll_insert_contract (ll : ll_disk) (b ref_count : Nat) (hinv : ll_inv ll)
    (hb : b < ll.nr_blocks) (hrc : ref_count < 2 ^ 32) :
    ∃ ll' na, sm_ll_insert ll b ref_count = .ok (ll', na) ∧
      lookup_val ll' b = some ref_count ∧
      (∀ x, x < ll.nr_blocks → x ≠ b → lookup_val ll' x = lookup_val ll x) ∧
      dm_btree_lookup ll'.ref_count_tree b =
        (if 3 ≤ ref_count then .ok ref_count else .error (-ENODATA)) ∧
      lookup_val ll b = some (refcount ll b) ∧
      na = (if refcount ll b = 0 ∧ 1 ≤ ref_count then 1
        else if 1 ≤ refcount ll b ∧ ref_count = 0 then -1 else 0) := by
  have hepb := hinv.index.epb_pos
  obtain ⟨ll', na, h, P⟩ := sm_ll_insert_spec _ ll b ref_count hinv.index
    (index_lt ll b hepb hb) (fun hc => by
      obtain ⟨v, hv, _, h3, _⟩ := (refcount_of_inv ll hinv b hb).1 hc
      exact ⟨v, hv, h3⟩)
  obtain ⟨i1, i2, i3, i4, i5, i6, i7⟩ := insert_effect ll ll' b ref_count na hinv hb hrc P
  refine ⟨ll', na, h, ?_, ?_, ?_, lookup_val_of_inv ll hinv b hb, i6⟩
  · rw [lookup_val_of_inv ll' i1 b (by rw [P.nr_blocks]; exact hb), i3 b hb, if_pos rfl]
  · intro x hx hne
    rw [lookup_val_of_inv ll' i1 x (by rw [P.nr_blocks]; exact hx), i3 x hx, if_neg hne,
      lookup_val_of_inv ll hinv x hx]
  · unfold dm_btree_lookup
    rw [i5]
    by_cases h3 : 3 ≤ ref_count
    · simp only [if_pos h3]
    · simp only [if_neg h3]

/-- Claim C8, amended: on a state that satisfies the invariants, for
`b ≤ e ≤ nr_blocks` with every count of the range below `2 ^ 32 - 1`,
`sm_ll_inc` followed by `sm_ll_dec` of the same range both succeed and leave
every count below `nr_blocks` and `nr_allocated` as they were; with `k` the
number of blocks of the range whose count was 0, the two reported deltas are
`k` and `-k` wrapped to signed 32-bit values, which are `k` and `-k`
themselves when `k < 2 ^ 31`. -/
theorem inc_dec_round_trip (ll : ll_disk) (b e : Nat) (hinv : ll_inv ll) (hbe : b ≤ e)
    (he : e ≤ ll.nr_blocks) (hrc : ∀ x, b ≤ x → x < e → refcount ll x < 2 ^ 32 - 1) :
    ∃ ll1 na1 ll2 na2, sm_ll_inc ll b e = some (.ok (ll1, na1)) ∧
      sm_ll_dec ll1 b e = some (.ok (ll2, na2)) ∧
      (∀ x, x < ll.nr_blocks → lookup_val ll2 x = lookup_val ll x) ∧
      ll2.nr_allocated = ll.nr_allocated ∧
      na1 = wrap_s32 (count_range (fun x => decide (refcount ll x = 0)) b (e - b)) ∧
      na2 = wrap_s32 (-(count_range (fun x => decide (refcount ll x = 0)) b (e - b) : Int)) ∧
      (count_range (fun x => decide (refcount ll x = 0)) b (e - b) < 2 ^ 31 →
        na1 = count_range (fun x => decide (refcount ll x = 0)) b (e - b) ∧
        na2 = -(count_range (fun x => decide (refcount ll x = 0)) b (e - b) : Int)) := by
  obtain ⟨ll1, na1, h1, R1⟩ := sm_ll_inc_succeeds ll b e hinv hbe he
  obtain ⟨i1, i2, i3, i4, i5, i6⟩ := inc_effect ll ll1 b e 0 na1 hinv hbe he hrc R1
  have he1 : e ≤ ll1.nr_blocks := by rw [R1.nr_blocks]; exact he
  have hrc1 : ∀ x, b ≤ x → x < e → 1 ≤ refcount ll1 x := by
    intro x hx1 hx2
    rw [i3 x (by omega), if_pos ⟨hx1, hx2⟩]
    omega
  obtain ⟨ll2, na2, h2, R2⟩ := sm_ll_dec_succeeds ll1 b e i1 hbe he1 hrc1
  obtain ⟨j1, j2, j3, _, j4, j5, j6, _, _⟩ := dec_effect ll1 ll2 b e 0 na2 i1 hbe he1 R2
  have hk : count_range (fun x => decide (refcount ll1 x = 1)) b (e - b) =
      count_range (fun x => decide (refcount ll x = 0)) b (e - b) :=
    count_range_congr _ _ _ _ (fun x hx1 hx2 => by
      rw [i3 x (by omega), if_pos ⟨hx1, by omega⟩]
      by_cases h0 : refcount ll x = 0
      · simp [h0]
      · simp [h0])
  have hna1 : na1 = wrap_s32 (count_range (fun x => decide (refcount ll x = 0)) b (e - b)) := by
    rw [R1.nr_alloc, i6, zero_add]
  have hna2 : na2 = wrap_s32
      (-(count_range (fun x => decide (refcount ll x = 0)) b (e - b) : Int)) := by
    rw [R2.nr_alloc, j6, hk, zero_sub]
  refine ⟨ll1, na1, ll2, na2, h1, h2, ?_, ?_, hna1, hna2, fun hlt => ⟨by
    rw [hna1, wrap_s32_natCast _ hlt], by rw [hna2, wrap_s32_neg_natCast _ (by omega)]⟩⟩
  · intro x hx
    rw [lookup_val_of_inv ll2 j1 x (by rw [R2.nr_blocks, R1.nr_blocks]; exact hx),
      lookup_val_of_inv ll hinv x hx, j3 x (by rw [R1.nr_blocks]; exact hx), i3 x hx]
    by_cases hr : b ≤ x ∧ x < e
    · rw [if_pos hr, if_pos hr, Nat.add_sub_cancel]
    · rw [if_neg hr, if_neg hr]
  · rw [hk] at j5
    omega

/-- Claim C9, amended: on a state whose index entries satisfy the `nr_free` and
`none_free_before` invariants, for `end ≤ nr_blocks`, `sm_ll_find_free_block`
returns the least block of `[begin, end)` whose bitmap value is 0, and returns
`-ENOSPC` exactly when no block of `[begin, end)` has bitmap value 0; this is
the same as no block of the range having reference count 0 provided no
overflow entry of the range holds the count 0. -/
theorem sm_ll_find_free_block_contract (ll : ll_disk) (begin end_ : Nat)
    (hidx : index_inv ll (fun i => i < nr_indexes ll)) (hN : ll.nr_blocks < 2 ^ 64)
    (he : end_ ≤ ll.nr_blocks) :
    (∀ q, q < ll.nr_blocks → ∃ l, sm_ll_lookup_bitmap ll q = .ok (l, cell ll q)) ∧
    (∀ p, begin ≤ p → p < end_ → cell ll p = 0 → (∀ q, begin ≤ q → q < p → cell ll q ≠ 0) →
      ∃ ll', sm_ll_find_free_block ll begin end_ = .ok (ll', p)) ∧
    (∀ ll' p, sm_ll_find_free_block ll begin end_ = .ok (ll', p) →
      begin ≤ p ∧ p < end_ ∧ cell ll p = 0 ∧ ∀ q, begin ≤ q → q < p → cell ll q ≠ 0) ∧
    (sm_ll_find_free_block ll begin end_ = .error (-ENOSPC) ↔
      ∀ q, begin ≤ q → q < end_ → cell ll q ≠ 0) ∧
    ((∀ q, begin ≤ q → q < end_ → cell ll q = 3 → refcount ll q ≠ 0) →
      (sm_ll_find_free_block ll begin end_ = .error (-ENOSPC) ↔
        ∀ q, begin ≤ q → q < end_ → refcount ll q ≠ 0)) := by
  have hepb := hidx.epb_pos
  have hspec := sm_ll_find_free_block_spec (fun i => i < nr_indexes ll) ll begin end_ hidx
    (by omega) (fun j _ h2 => lt_of_lt_of_le h2 (div_up_mono _ _ _ he))
  have hiff : sm_ll_find_free_block ll begin end_ = .error (-ENOSPC) ↔
      ∀ q, begin ≤ q → q < end_ → cell ll q ≠ 0 := by
    constructor
    · intro herr
      rcases hspec with ⟨ll', p, h1, _⟩ | ⟨_, h2⟩
      · rw [herr] at h1
        exact absurd h1 (by simp)
      · exact h2
    · intro hall
      rcases hspec with ⟨ll', p, h1, h2, h3, h4, _⟩ | ⟨h1, _⟩
      · exact absurd h4 (hall p h2 h3)
      · exact h1
  refine ⟨?_, ?_, ?_, hiff, ?_⟩
  · intro q hq
    obtain ⟨l, hl, _⟩ := sm_ll_lookup_bitmap_spec _ ll q hidx (index_lt ll q hepb hq) hq
    exact ⟨l, hl⟩
  · intro p hp1 hp2 hp0 hleast
    rcases hspec with ⟨ll', p', h1, h2, h3, h4, h5, _⟩ | ⟨_, h2⟩
    · have : p' = p := by
        rcases Nat.lt_trichotomy p' p with h | h | h
        · exact absurd h4 (hleast p' h2 h)
        · exact h
        · exact absurd hp0 (h5 p hp1 h)
      rw [this] at h1
      exact ⟨ll', h1⟩
    · exact absurd hp0 (h2 p hp1 hp2)
  · intro ll' p hok
    rcases hspec with ⟨ll'', p', h1, h2, h3, h4, h5, _⟩ | ⟨h1, _⟩
    · rw [hok] at h1
      simp only [Except.ok.injEq, Prod.mk.injEq] at h1
      rw [h1.2]
      exact ⟨h2, h3, h4, h5⟩
    · rw [hok] at h1
      exact absurd h1 (by simp)
  · intro hbig
    rw [hiff]
    constructor
    · intro hall q hq1 hq2 hr
      have hc := hall q hq1 hq2
      unfold refcount at hr
      by_cases h3 : cell ll q = 3
      · exact hbig q hq1 hq2 h3 (by unfold refcount; exact hr)
      · rw [if_neg h3] at hr
        exact hc hr
    · intro hall q hq1 hq2 hc
      apply hall q hq1 hq2
      unfold refcount
      rw [if_neg (by rw [hc]; norm_num)]
      exact hc

/-- Claim C10: for two states that satisfy the invariants,
`sm_ll_find_common_free_block` ends (within `new_ll->nr_blocks + 1` rounds of
its loop); when it succeeds, the block it returns has reference count 0 in
`new_ll` and is at or past `old_ll->nr_blocks` or has reference count 0 in
`old_ll`; and it returns `-ENOSPC` when every block at or after `begin` that is
free in `new_ll` has a non-zero reference count in `old_ll`. -/
theorem sm_ll_find_common_free_block_contract (old_ll new_ll : ll_disk) (begin end_ : Nat)
    (ho : ll_inv old_ll) (hn : ll_inv new_ll) :
    (∃ r, sm_ll_find_common_free_block old_ll new_ll begin end_ = some r) ∧
    (∀ o n b, sm_ll_find_common_free_block old_ll new_ll begin end_ = some (.ok (o, n, b)) →
      lookup_val new_ll b = some 0 ∧
      (old_ll.nr_blocks ≤ b ∨ lookup_val old_ll b = some 0)) ∧
    ((∀ x, begin ≤ x → lookup_val new_ll x = some 0 →
        ∃ v, lookup_val old_ll x = some v ∧ v ≠ 0) →
      sm_ll_find_common_free_block old_ll new_ll begin end_ = some (.error (-ENOSPC))) := by
  have hspec := find_common_free_block_loop_spec (fun i => i < nr_indexes old_ll)
    (fun i => i < nr_indexes new_ll) end_ (new_ll.nr_blocks + 1) old_ll new_ll begin
    ho.index (fun _ h => h) ho.key hn.index (fun _ h => h) hn.nr_blocks_lt
    (by omega) (by omega)
  have hfree : ∀ b, b < new_ll.nr_blocks → cell new_ll b = 0 → lookup_val new_ll b = some 0 := by
    intro b hb hc
    rw [lookup_val_of_inv new_ll hn b hb, (refcount_of_inv new_ll hn b hb).2.2.1.2 hc]
  have hold : ∀ b, old_ll.nr_blocks ≤ b ∨ refcount old_ll b = 0 →
      old_ll.nr_blocks ≤ b ∨ lookup_val old_ll b = some 0 := by
    intro b h
    by_cases hb : b < old_ll.nr_blocks
    · rcases h with h | h
      · omega
      · right
        rw [lookup_val_of_inv old_ll ho b hb, h]
    · left
      omega
  unfold sm_ll_find_common_free_block
  rcases hspec with ⟨o', n', b, h1, h2, h3, h4, h5, _⟩ | ⟨h1, h2⟩
  · refine ⟨⟨_, h1⟩, ?_, ?_⟩
    · intro o n b' hok
      rw [hok] at h1
      simp only [Option.some.injEq, Except.ok.injEq, Prod.mk.injEq] at h1
      rw [h1.2.2]
      exact ⟨hfree b h3 h4, hold b h5⟩
    · intro hall
      obtain ⟨v, hv, hv0⟩ := hall b h2 (hfree b h3 h4)
      rcases hold b h5 with h | h
      · rw [lookup_val_oob old_ll b h] at hv
        exact absurd hv (by simp)
      · rw [h] at hv
        simp only [Option.some.injEq] at hv
        exact absurd hv.symm hv0
  · refine ⟨⟨_, h1⟩, ?_, fun _ => h1⟩
    intro o n b hok
    rw [hok] at h1
    exact absurd h1 (by simp)

/-- Claim C5, amended: in every state reachable from a new map with
`entries_per_block > 0` by successful
`sm_ll_extend`, `sm_ll_insert`, `sm_ll_inc` and `sm_ll_dec` calls on blocks
below `nr_blocks`, no extension overflowing the 64-bit block count or the
32-bit bitmap count and no reference count being taken past `2 ^ 32 - 1`, for
every `b < nr_blocks` the bitmap value of `b` is 3 exactly when the overflow
tree holds key `b`, the value stored is then at least 3 and is the reference
count of the reference model, and the bitmap value is at most 2 exactly when
the overflow tree has no entry for `b`. -/
theorem coupling_invariant (ll : ll_disk) (ref : Nat → Nat) (h : reach true true ll ref)
    (b : Nat) (hb : b < ll.nr_blocks) :
    ∃ l c, sm_ll_lookup_bitmap ll b = .ok (l, c) ∧
      (c = 3 ↔ ∃ v, dm_btree_lookup ll.ref_count_tree b = .ok v) ∧
      (∀ v, dm_btree_lookup ll.ref_count_tree b = .ok v → 3 ≤ v ∧ v = ref b) ∧
      (c ≤ 2 ↔ dm_btree_lookup ll.ref_count_tree b = .error (-ENODATA)) ∧
      lookup_val ll b = some (ref b) := by
  have hr := reach_ok ll ref h
  have hinv := hr.inv
  obtain ⟨l, hl, _⟩ := sm_ll_lookup_bitmap_spec _ ll b hinv.index
    (index_lt ll b hinv.index.epb_pos hb) hb
  obtain ⟨r1, r2, r3, r4⟩ := refcount_of_inv ll hinv b hb
  have h4 := cell_lt ll b
  refine ⟨l, cell ll b, hl, ?_, ?_, ?_, by rw [lookup_val_of_inv ll hinv b hb, hr.ref_eq b hb]⟩
  · constructor
    · intro hc
      obtain ⟨v, hv, _⟩ := r1 hc
      refine ⟨v, ?_⟩
      unfold dm_btree_lookup
      simp only [hv]
    · rintro ⟨v, hv⟩
      by_contra hc
      unfold dm_btree_lookup at hv
      rw [(r2 hc).1] at hv
      exact absurd hv (by simp)
  · intro v hv
    unfold dm_btree_lookup at hv
    cases hv' : ll.ref_count_tree.vals b with
    | none =>
      rw [hv'] at hv
      exact absurd hv (by simp)
    | some w =>
      rw [hv'] at hv
      simp only [Except.ok.injEq] at hv
      subst hv
      obtain ⟨_, g2, g3, _⟩ := hinv.big b w hv'
      obtain ⟨v0, hv0, hr0, _⟩ := r1 g2
      rw [hv'] at hv0
      simp only [Option.some.injEq] at hv0
      subst hv0
      exact ⟨g3, by rw [← hr.ref_eq b hb, hr0]⟩
  · constructor
    · intro hc
      unfold dm_btree_lookup
      rw [(r2 (by omega)).1]
    · intro hv
      by_contra hc
      obtain ⟨v, hv', _⟩ := r1 (by omega)
      unfold dm_btree_lookup at hv
      rw [hv'] at hv
      exact absurd hv (by simp)

theorem map_new_eq : sm_ll_new_metadata tm_small = .ok map_new := rfl

theorem map_100_eq : sm_ll_extend map_new 100 = .ok map_100 := rfl

theorem map_used_eq : sm_ll_inc map_100 0 10 = some (.ok (map_used, 10)) := rfl

theorem map_100_reach (e r : Bool) : reach e r map_100 (fun _ => 0) :=
  reach.extend map_new _ 100 map_100
    (reach.new_metadata tm_small map_new map_new_eq (by decide))
    (fun _ => ⟨by decide, by decide⟩) map_100_eq

theorem map_100_inv : ll_inv map_100 := (reach_ok _ _ (map_100_reach true true)).inv

theorem map_100_refcount (x : Nat) (hx : x < 100) : refcount map_100 x = 0 :=
  (reach_ok _ _ (map_100_reach true true)).ref_eq x hx

theorem map_used_reach :
    reach true true map_used (fun x => if 0 ≤ x ∧ x < 10 then 0 + 1 else 0) :=
  reach.inc map_100 (fun _ => 0) 0 10 map_used 10 (map_100_reach true true) (by decide)
    (by decide) (fun _ _ _ _ => by norm_num) map_used_eq

theorem map_used_inv : ll_inv map_used := (reach_ok _ _ map_used_reach).inv

theorem map_used_refcount (x : Nat) (hx : x < 100) :
    refcount map_used x = if 0 ≤ x ∧ x < 10 then 0 + 1 else 0 :=
  (reach_ok _ _ map_used_reach).ref_eq x hx

/-- Witness of C1 at the spec's example: on the map of 100 free blocks with 64
entries per bitmap, `inc(63, 69)` spans two bitmap blocks. -/
theorem sm_ll_inc_contract_witness :
    ∃ ll' na, sm_ll_inc map_100 63 69 = some (.ok (ll', na)) ∧
      (∀ x, 63 ≤ x → x < 69 →
        lookup_val map_100 x = some (refcount map_100 x) ∧
        lookup_val ll' x = some (refcount map_100 x + 1)) ∧
      (∀ x, x < map_100.nr_blocks → ¬ (63 ≤ x ∧ x < 69) →
        lookup_val ll' x = lookup_val map_100 x) ∧
      na = wrap_s32 (count_range (fun x => decide (refcount map_100 x = 0)) 63 (69 - 63)) ∧
      (count_range (fun x => decide (refcount map_100 x = 0)) 63 (69 - 63) < 2 ^ 31 →
        na = count_range (fun x => decide (refcount map_100 x = 0)) 63 (69 - 63)) :=
  sm_ll_inc_contract map_100 63 69 map_100_inv (by decide) (by decide)
    (fun x _ hx => by rw [map_100_refcount x (by omega)]; norm_num)

/-- Witness of C2: `dec(2, 8)` on the map whose blocks 0 to 9 have count 1. -/
theorem sm_ll_dec_contract_witness :
    ∃ ll' na, sm_ll_dec map_used 2 8 = some (.ok (ll', na)) ∧
      (∀ x, 2 ≤ x → x < 8 →
        lookup_val map_used x = some (refcount map_used x) ∧
        lookup_val ll' x = some (refcount map_used x - 1)) ∧
      (∀ x, x < map_used.nr_blocks → ¬ (2 ≤ x ∧ x < 8) →
        lookup_val ll' x = lookup_val map_used x) ∧
      na = wrap_s32
        (-(count_range (fun x => decide (refcount map_used x = 1)) 2 (8 - 2) : Int)) ∧
      (count_range (fun x => decide (refcount map_used x = 1)) 2 (8 - 2) ≤ 2 ^ 31 →
        na = -(count_range (fun x => decide (refcount map_used x = 1)) 2 (8 - 2) : Int)) ∧
      (∀ x, 2 ≤ x → x < 8 → refcount map_used x = 3 →
        (∃ l, sm_ll_lookup_bitmap ll' x = .ok (l, 2)) ∧
        dm_btree_lookup ll'.ref_count_tree x = .error (-ENODATA)) ∧
      (∀ x, 2 ≤ x → x < 8 → 3 < refcount map_used x →
        (∃ l, sm_ll_lookup_bitmap ll' x = .ok (l, 3)) ∧
        dm_btree_lookup ll'.ref_count_tree x = .ok (refcount map_used x - 1)) :=
  sm_ll_dec_contract map_used 2 8 map_used_inv (by decide) (by decide)
    (fun x _ hx => by
      rw [map_used_refcount x (by omega), if_pos ⟨Nat.zero_le _, by omega⟩])

/-- Witness of C3 at the spec's example: `insert(4, 7)` on the map of 100 free
blocks. -/
theorem sm_ll_insert_contract_witness :
    ∃ ll' na, sm_ll_insert map_100 4 7 = .ok (ll', na) ∧
      lookup_val ll' 4 = some 7 ∧
      (∀ x, x < map_100.nr_blocks → x ≠ 4 → lookup_val ll' x = lookup_val map_100 x) ∧
      dm_btree_lookup ll'.ref_count_tree 4 =
        (if 3 ≤ 7 then .ok 7 else .error (-ENODATA)) ∧
      lookup_val map_100 4 = some (refcount map_100 4) ∧
      na = (if refcount map_100 4 = 0 ∧ 1 ≤ 7 then 1
        else if 1 ≤ refcount map_100 4 ∧ 7 = 0 then -1 else 0) :=
  sm_ll_insert_contract map_100 4 7 map_100_inv (by decide) (by decide)

/-- Witness of C4: block 70 of the map of 100 free blocks, whose index entry
is entry 1 of the metadata index. -/
theorem sm_ll_lookup_contract_witness :
    (sm_ll_lookup_bitmap map_100 70 = .error (-EINVAL) ↔ map_100.nr_blocks ≤ 70) ∧
    (70 < map_100.nr_blocks →
      sm_ll_lookup_bitmap map_100 70 =
        .ok (map_100, sm_lookup_bitmap (dm_tm_read_lock map_100.tm (map_100.mi_le 1).blocknr)
          (70 % map_100.entries_per_block)) ∧
      (sm_lookup_bitmap (dm_tm_read_lock map_100.tm (map_100.mi_le 1).blocknr)
          (70 % map_100.entries_per_block) ≠ 3 →
        sm_ll_lookup map_100 70 =
          .ok (map_100, sm_lookup_bitmap (dm_tm_read_lock map_100.tm (map_100.mi_le 1).blocknr)
            (70 % map_100.entries_per_block))) ∧
      (sm_lookup_bitmap (dm_tm_read_lock map_100.tm (map_100.mi_le 1).blocknr)
          (70 % map_100.entries_per_block) = 3 →
        sm_ll_lookup map_100 70 =
          match dm_btree_lookup map_100.ref_count_tree 70 with
          | .ok v => .ok (map_100, v)
          | .error r => .error r)) :=
  sm_ll_lookup_contract map_100 map_100 70 (map_100.mi_le 1) rfl

theorem map_big_count_eq : sm_ll_insert map_100 70 7 = .ok (map_big_count, 1) := rfl

theorem map_big_count_reach (e r : Bool) :
    reach e r map_big_count (Function.update (fun _ => 0) 70 7) :=
  reach.insert map_100 _ 70 7 map_big_count 1 (map_100_reach e r) (by decide) (by decide)
    map_big_count_eq

/-- Witness of C5: block 70 of the map of 100 blocks after `insert(70, 7)`. -/
theorem coupling_invariant_witness :
    ∃ l c, sm_ll_lookup_bitmap map_big_count 70 = .ok (l, c) ∧
      (c = 3 ↔ ∃ v, dm_btree_lookup map_big_count.ref_count_tree 70 = .ok v) ∧
      (∀ v, dm_btree_lookup map_big_count.ref_count_tree 70 = .ok v →
        3 ≤ v ∧ v = Function.update (fun _ => 0) 70 7 70) ∧
      (c ≤ 2 ↔ dm_btree_lookup map_big_count.ref_count_tree 70 = .error (-ENODATA)) ∧
      lookup_val map_big_count 70 = some (Function.update (fun _ => 0) 70 7 70) :=
  coupling_invariant map_big_count _ (map_big_count_reach true true) 70 (by decide)

/-- Witness of C8: `inc(63, 69)` then `dec(63, 69)` on the map of 100 free
blocks. -/
theorem inc_dec_round_trip_witness :
    ∃ ll1 na1 ll2 na2, sm_ll_inc map_100 63 69 = some (.ok (ll1, na1)) ∧
      sm_ll_dec ll1 63 69 = some (.ok (ll2, na2)) ∧
      (∀ x, x < map_100.nr_blocks → lookup_val ll2 x = lookup_val map_100 x) ∧
      ll2.nr_allocated = map_100.nr_allocated ∧
      na1 = wrap_s32 (count_range (fun x => decide (refcount map_100 x = 0)) 63 (69 - 63)) ∧
      na2 = wrap_s32
        (-(count_range (fun x => decide (refcount map_100 x = 0)) 63 (69 - 63) : Int)) ∧
      (count_range (fun x => decide (refcount map_100 x = 0)) 63 (69 - 63) < 2 ^ 31 →
        na1 = count_range (fun x => decide (refcount map_100 x = 0)) 63 (69 - 63) ∧
        na2 = -(count_range (fun x => decide (refcount map_100 x = 0)) 63 (69 - 63) : Int)) :=
  inc_dec_round_trip map_100 63 69 map_100_inv (by decide) (by decide)
    (fun x _ hx => by rw [map_100_refcount x (by omega)]; norm_num)

/-- Witness of C9 at the spec's example: `find_free_block(0, 100)` on the map
of 100 blocks after `inc(0, 10)`. -/
theorem sm_ll_find_free_block_contract_witness :
    (∀ q, q < map_used.nr_blocks → ∃ l, sm_ll_lookup_bitmap map_used q = .ok (l, cell map_used q)) ∧
    (∀ p, 0 ≤ p → p < 100 → cell map_used p = 0 →
      (∀ q, 0 ≤ q → q < p → cell map_used q ≠ 0) →
      ∃ ll', sm_ll_find_free_block map_used 0 100 = .ok (ll', p)) ∧
    (∀ ll' p, sm_ll_find_free_block map_used 0 100 = .ok (ll', p) →
      0 ≤ p ∧ p < 100 ∧ cell map_used p = 0 ∧ ∀ q, 0 ≤ q → q < p → cell map_used q ≠ 0) ∧
    (sm_ll_find_free_block map_used 0 100 = .error (-ENOSPC) ↔
      ∀ q, 0 ≤ q → q < 100 → cell map_used q ≠ 0) ∧
    ((∀ q, 0 ≤ q → q < 100 → cell map_used q = 3 → refcount map_used q ≠ 0) →
      (sm_ll_find_free_block map_used 0 100 = .error (-ENOSPC) ↔
        ∀ q, 0 ≤ q → q < 100 → refcount map_used q ≠ 0)) :=
  sm_ll_find_free_block_contract map_used 0 100 map_used_inv.index (by decide) (by decide)

/-- Witness of C10: the old map has the blocks 0 to 9 in use, the new map is
all free. -/
theorem sm_ll_find_common_free_block_contract_witness :
    (∃ r, sm_ll_find_common_free_block map_used map_100 0 100 = some r) ∧
    (∀ o n b, sm_ll_find_common_free_block map_used map_100 0 100 = some (.ok (o, n, b)) →
      lookup_val map_100 b = some 0 ∧
      (map_used.nr_blocks ≤ b ∨ lookup_val map_used b = some 0)) ∧
    ((∀ x, 0 ≤ x → lookup_val map_100 x = some 0 →
        ∃ v, lookup_val map_used x = some v ∧ v ≠ 0) →
      sm_ll_find_common_free_block map_used map_100 0 100 = some (.error (-ENOSPC))) :=
  sm_ll_find_common_free_block_contract map_used map_100 0 100 map_used_inv map_100_inv

theorem map_max_count_eq :
    sm_ll_insert map_100 4 (2 ^ 32 - 1) = .ok (map_max_count, 1) := rfl

theorem map_wrapped_eq : sm_ll_inc map_max_count 4 5 = some (.ok (map_wrapped, 0)) := rfl

theorem map_max_count_reach (e r : Bool) :
    reach e r map_max_count (Function.update (fun _ => 0) 4 (2 ^ 32 - 1)) :=
  reach.insert map_100 _ 4 (2 ^ 32 - 1) map_max_count 1 (map_100_reach e r) (by decide)
    (by decide) map_max_count_eq

theorem map_wrapped_reach (e : Bool) :
    reach e false map_wrapped
      (fun x => if 4 ≤ x ∧ x < 5 then Function.update (fun _ => 0) 4 (2 ^ 32 - 1) x + 1
        else Function.update (fun _ => 0) 4 (2 ^ 32 - 1) x) :=
  reach.inc map_max_count _ 4 5 map_wrapped 0 (map_max_count_reach e false) (by decide)
    (by decide) (fun h => absurd h (by decide)) map_wrapped_eq

theorem map_wrapped_index : index_inv map_wrapped (fun i => i < nr_indexes map_wrapped) := by
  have h := reach_ok _ _ (map_max_count_reach true true)
  have R := sm_ll_inc_ok _ map_max_count map_wrapped 4 5 0 h.inv.index (by decide) (by decide)
    (fun x _ hx => index_lt map_max_count x h.inv.index.epb_pos
      (lt_of_lt_of_le hx (by decide))) (nr_allocated_lt _ h.inv) map_wrapped_eq
  exact index_inv_congr _ _ _ (fun j => by
    rw [show nr_indexes map_wrapped = nr_indexes map_max_count by decide]) R.inv

theorem map_shrunk_eq : sm_ll_extend map_big_count (2 ^ 64 - 50) = .ok map_shrunk := by
  unfold map_shrunk
  rfl

theorem map_regrown_eq : sm_ll_extend map_shrunk 50 = .ok map_regrown := by
  unfold map_regrown
  rfl

theorem map_reinserted_eq : sm_ll_insert map_wrapped 4 5 = .ok (map_reinserted, 1) := by
  unfold map_reinserted
  rfl

/-- Counterexample to C5 as stated: `insert(70, 7)` on a map of 100 blocks,
then an extension by `2 ^ 64 - 50` blocks, which succeeds and leaves
`nr_blocks = 50`, then an extension by 50 blocks, which gives bitmap 1 a fresh
block. Block 70 is below `nr_blocks`, its bitmap value is 0 and its count reads
0, and the overflow tree still holds key 70 with the value 7 of the reference
model. -/
theorem coupling_invariant_counterexample :
    reach false true map_regrown (Function.update (fun _ => 0) 70 7) ∧
    sm_ll_extend map_big_count (2 ^ 64 - 50) = .ok map_shrunk ∧
    map_shrunk.nr_blocks = 50 ∧
    sm_ll_extend map_shrunk 50 = .ok map_regrown ∧
    70 < map_regrown.nr_blocks ∧
    sm_ll_lookup_bitmap map_regrown 70 = .ok (map_regrown, 0) ∧
    sm_ll_lookup map_regrown 70 = .ok (map_regrown, 0) ∧
    dm_btree_lookup map_regrown.ref_count_tree 70 = .ok 7 :=
  ⟨reach.extend map_shrunk _ 50 map_regrown
      (reach.extend map_big_count _ (2 ^ 64 - 50) map_shrunk (map_big_count_reach false true)
        (fun h => absurd h (by decide)) map_shrunk_eq)
      (fun h => absurd h (by decide)) map_regrown_eq,
    map_shrunk_eq, by decide, map_regrown_eq, by decide, by rfl, by rfl, by rfl⟩

/-- Counterexample to C9 as stated: on the map of 100 blocks after
`insert(4, 2 ^ 32 - 1)` and `inc(4, 5)` the index entries satisfy their
invariants, block 4 has reference count 0 (bitmap value 3, overflow value 0),
and `find_free_block(4, 5)` returns `-ENOSPC`. -/
theorem sm_ll_find_free_block_contract_counterexample :
    index_inv map_wrapped (fun i => i < nr_indexes map_wrapped) ∧
    4 ≤ 5 ∧ 5 ≤ map_wrapped.nr_blocks ∧
    sm_ll_lookup map_wrapped 4 = .ok (map_wrapped, 0) ∧
    sm_ll_find_free_block map_wrapped 4 5 = .error (-ENOSPC) :=
  ⟨map_wrapped_index, by decide, by decide, by rfl, by rfl⟩

theorem disk_new_eq : sm_ll_new_disk tm_4k = .ok disk_new := rfl

theorem disk_new_reach : reach true true disk_new (fun _ => 0) :=
  reach.new_disk tm_4k disk_new disk_new_eq (by decide)

theorem disk_map_eq (n : Nat) (hn : n ≤ 2 ^ 40) :
    sm_ll_extend disk_new n = .ok (disk_map n) := by
  have hmax : dm_sector_div_up ((disk_new.nr_blocks + n) % 2 ^ 64) disk_new.entries_per_block
      ≤ max_entries disk_new := by
    show ((0 + n) % 2 ^ 64 + 16320 - 1) / 16320 ≤ 2 ^ 64 - 1
    have := Nat.div_le_self ((0 + n) % 2 ^ 64 + 16320 - 1) 16320
    omega
  obtain ⟨ll', h, _⟩ := (sm_ll_extend_spec _ disk_new n
    (reach_ok _ _ disk_new_reach).inv.index).1 hmax
  unfold disk_map
  rw [h]
  rfl

theorem disk_map_reach (n : Nat) (hn : n ≤ 2 ^ 40) :
    reach true true (disk_map n) (fun _ => 0) :=
  reach.extend disk_new _ n (disk_map n) disk_new_reach
    (fun _ => ⟨by show 0 + n < 2 ^ 64; omega, by
      show (0 + n + 16320 - 1) / 16320 < 2 ^ 32
      rw [Nat.div_lt_iff_lt_mul (by norm_num)]
      omega⟩)
    (disk_map_eq n hn)

theorem disk_map_nr_blocks (n : Nat) (hn : n ≤ 2 ^ 40) : (disk_map n).nr_blocks = n := by
  have hmax : dm_sector_div_up ((disk_new.nr_blocks + n) % 2 ^ 64) disk_new.entries_per_block
      ≤ max_entries disk_new := by
    show ((0 + n) % 2 ^ 64 + 16320 - 1) / 16320 ≤ 2 ^ 64 - 1
    have := Nat.div_le_self ((0 + n) % 2 ^ 64 + 16320 - 1) 16320
    omega
  obtain ⟨ll', h, P⟩ := (sm_ll_extend_spec _ disk_new n
    (reach_ok _ _ disk_new_reach).inv.index).1 hmax
  rw [disk_map_eq n hn] at h
  simp only [Except.ok.injEq] at h
  rw [h, P.nr_blocks]
  show (0 + n) % 2 ^ 64 = n
  omega

theorem disk_map_refcount (n : Nat) (hn : n ≤ 2 ^ 40) (x : Nat) (hx : x < n) :
    refcount (disk_map n) x = 0 :=
  (reach_ok _ _ (disk_map_reach n hn)).ref_eq x (by rw [disk_map_nr_blocks n hn]; exact hx)

/-- On the all-free map of `n` blocks `inc(0, n)` succeeds and reports `n`
wrapped to a signed 32-bit value. -/
theorem disk_inc (n : Nat) (hn : n ≤ 2 ^ 40) :
    sm_ll_inc (disk_map n) 0 n = some (.ok (disk_ones n, wrap_s32 n)) := by
  have hr := reach_ok _ _ (disk_map_reach n hn)
  have hnb := disk_map_nr_blocks n hn
  obtain ⟨ll', na, h, R⟩ := sm_ll_inc_succeeds (disk_map n) 0 n hr.inv (Nat.zero_le _)
    (by rw [hnb])
  have hcount : count_range (fun x => cell (disk_map n) x == 0) 0 (n - 0) = n := by
    rw [Nat.sub_zero]
    apply count_range_eq_len
    intro x _ hx
    have h0 := disk_map_refcount n hn x (by omega)
    have := (refcount_of_inv _ hr.inv x (by rw [hnb]; omega)).2.2.1.1 h0
    simp [this]
  have hna : na = wrap_s32 n := by
    rw [R.nr_alloc, hcount, zero_add]
  have : disk_ones n = ll' := by
    unfold disk_ones
    rw [h]
    rfl
  rw [this, ← hna]
  exact h

theorem disk_ones_reach (n : Nat) (hn : n ≤ 2 ^ 40) :
    reach true true (disk_ones n) (fun x => if 0 ≤ x ∧ x < n then 0 + 1 else 0) :=
  reach.inc (disk_map n) _ 0 n (disk_ones n) (wrap_s32 n) (disk_map_reach n hn)
    (Nat.zero_le _) (by rw [disk_map_nr_blocks n hn]) (fun _ _ _ _ => by norm_num)
    (disk_inc n hn)

theorem disk_ones_nr_blocks (n : Nat) (hn : n ≤ 2 ^ 40) : (disk_ones n).nr_blocks = n := by
  have hr := reach_ok _ _ (disk_map_reach n hn)
  have R := sm_ll_inc_ok _ (disk_map n) (disk_ones n) 0 n (wrap_s32 n) hr.inv.index
    (Nat.zero_le _) (by omega)
    (fun x _ hx => index_lt _ x hr.inv.index.epb_pos (by rw [disk_map_nr_blocks n hn]; exact hx))
    (nr_allocated_lt _ hr.inv) (disk_inc n hn)
  rw [R.nr_blocks, disk_map_nr_blocks n hn]

theorem disk_ones_refcount (n : Nat) (hn : n ≤ 2 ^ 40) (x : Nat) (hx : x < n) :
    refcount (disk_ones n) x = 1 := by
  rw [(reach_ok _ _ (disk_ones_reach n hn)).ref_eq x (by rw [disk_ones_nr_blocks n hn]; exact hx),
    if_pos ⟨Nat.zero_le _, hx⟩]

/-- On the map of `n` blocks of count 1 `dec(0, n)` succeeds and reports `-n`
wrapped to a signed 32-bit value. -/
theorem disk_dec (n : Nat) (hn : n ≤ 2 ^ 40) :
    ∃ l, sm_ll_dec (disk_ones n) 0 n = some (.ok (l, wrap_s32 (-(n : Int)))) := by
  have hr := reach_ok _ _ (disk_ones_reach n hn)
  have hnb := disk_ones_nr_blocks n hn
  obtain ⟨ll', na, h, R⟩ := sm_ll_dec_succeeds (disk_ones n) 0 n hr.inv (Nat.zero_le _)
    (by rw [hnb]) (fun x _ hx => by rw [disk_ones_refcount n hn x hx])
  obtain ⟨_, _, _, _, _, _, j6, _, _⟩ := dec_effect (disk_ones n) ll' 0 n 0 na hr.inv
    (Nat.zero_le _) (by rw [hnb]) R
  have hcount : count_range (fun x => decide (refcount (disk_ones n) x = 1)) 0 (n - 0) = n := by
    rw [Nat.sub_zero]
    apply count_range_eq_len
    intro x _ hx
    simp [disk_ones_refcount n hn x (by omega)]
  have hna : na = wrap_s32 (-(n : Int)) := by
    rw [R.nr_alloc, j6, hcount, zero_sub]
  rw [hna] at h
  exact ⟨ll', h⟩

theorem wrap_s32_two_pow : wrap_s32 ((2 ^ 31 : Nat) : Int) = -(2 ^ 31) := by decide

theorem wrap_s32_neg_two_pow : wrap_s32 (-((2 ^ 31 : Nat) : Int)) = -(2 ^ 31) := by decide

theorem wrap_s32_neg_two_pow_succ : wrap_s32 (-((2 ^ 31 + 1 : Nat) : Int)) = 2 ^ 31 - 1 := by
  decide

/-- Counterexample to C1 as stated: on the disk-flavor map of `2 ^ 31` free
blocks, with 4096-byte metadata blocks, `inc(0, 2 ^ 31)` succeeds; all `2 ^ 31`
blocks of the range had count 0, and `*nr_allocations` is `-2 ^ 31`. -/
theorem sm_ll_inc_contract_counterexample :
    sm_ll_new_disk tm_4k = .ok disk_new ∧
    sm_ll_extend disk_new (2 ^ 31) = .ok (disk_map (2 ^ 31)) ∧
    ll_inv (disk_map (2 ^ 31)) ∧ (disk_map (2 ^ 31)).nr_blocks = 2 ^ 31 ∧
    (∀ x, x < 2 ^ 31 → lookup_val (disk_map (2 ^ 31)) x = some 0) ∧
    sm_ll_inc (disk_map (2 ^ 31)) 0 (2 ^ 31) = some (.ok (disk_ones (2 ^ 31), -(2 ^ 31))) := by
  have hn : 2 ^ 31 ≤ 2 ^ 40 := by norm_num
  have hr := reach_ok _ _ (disk_map_reach (2 ^ 31) hn)
  refine ⟨disk_new_eq, disk_map_eq _ hn, hr.inv, disk_map_nr_blocks _ hn, ?_, ?_⟩
  · intro x hx
    rw [lookup_val_of_inv _ hr.inv x (by rw [disk_map_nr_blocks _ hn]; exact hx),
      disk_map_refcount _ hn x hx]
  · rw [disk_inc _ hn, wrap_s32_two_pow]

/-- Counterexample to C2 as stated: on the disk-flavor map of `2 ^ 31 + 1`
blocks of count 1, `dec(0, 2 ^ 31 + 1)` succeeds; all `2 ^ 31 + 1` blocks of
the range had count 1, and `*nr_allocations` is `2 ^ 31 - 1`. -/
theorem sm_ll_dec_contract_counterexample :
    sm_ll_new_disk tm_4k = .ok disk_new ∧
    sm_ll_extend disk_new (2 ^ 31 + 1) = .ok (disk_map (2 ^ 31 + 1)) ∧
    sm_ll_inc (disk_map (2 ^ 31 + 1)) 0 (2 ^ 31 + 1) =
      some (.ok (disk_ones (2 ^ 31 + 1), wrap_s32 ((2 ^ 31 + 1 : Nat) : Int))) ∧
    ll_inv (disk_ones (2 ^ 31 + 1)) ∧ (disk_ones (2 ^ 31 + 1)).nr_blocks = 2 ^ 31 + 1 ∧
    (∀ x, x < 2 ^ 31 + 1 → lookup_val (disk_ones (2 ^ 31 + 1)) x = some 1) ∧
    ∃ l, sm_ll_dec (disk_ones (2 ^ 31 + 1)) 0 (2 ^ 31 + 1) = some (.ok (l, 2 ^ 31 - 1)) := by
  have hn : 2 ^ 31 + 1 ≤ 2 ^ 40 := by norm_num
  have hr := reach_ok _ _ (disk_ones_reach (2 ^ 31 + 1) hn)
  refine ⟨disk_new_eq, disk_map_eq _ hn, disk_inc _ hn, hr.inv, disk_ones_nr_blocks _ hn, ?_, ?_⟩
  · intro x hx
    rw [lookup_val_of_inv _ hr.inv x (by rw [disk_ones_nr_blocks _ hn]; exact hx),
      disk_ones_refcount _ hn x hx]
  · obtain ⟨l, h⟩ := disk_dec _ hn
    rw [wrap_s32_neg_two_pow_succ] at h
    exact ⟨l, h⟩

/-- Counterexample to C8 as stated: on the disk-flavor map of `2 ^ 31` free
blocks `inc(0, 2 ^ 31)` and then `dec(0, 2 ^ 31)` succeed, and both report the
delta `-2 ^ 31`. -/
theorem inc_dec_round_trip_counterexample :
    ll_inv (disk_map (2 ^ 31)) ∧ (disk_map (2 ^ 31)).nr_blocks = 2 ^ 31 ∧
    (∀ x, x < 2 ^ 31 → refcount (disk_map (2 ^ 31)) x = 0) ∧
    sm_ll_inc (disk_map (2 ^ 31)) 0 (2 ^ 31) = some (.ok (disk_ones (2 ^ 31), -(2 ^ 31))) ∧
    ∃ l, sm_ll_dec (disk_ones (2 ^ 31)) 0 (2 ^ 31) = some (.ok (l, -(2 ^ 31))) := by
  have hn : 2 ^ 31 ≤ 2 ^ 40 := by norm_num
  have hr := reach_ok _ _ (disk_map_reach (2 ^ 31) hn)
  refine ⟨hr.inv, disk_map_nr_blocks _ hn, fun x hx => disk_map_refcount _ hn x hx, ?_, ?_⟩
  · rw [disk_inc _ hn, wrap_s32_two_pow]
  · obtain ⟨l, h⟩ := disk_dec _ hn
    rw [wrap_s32_neg_two_pow] at h
    exact ⟨l, h⟩

/-! ## The scenarios of the specification -/

/-- The spec's scenario S2 on the map of 100 free blocks with 64 entries per
bitmap: `inc(63, 69)` spans two bitmap blocks and reports `+6`; the saved
`nr_free` of bitmap 0 goes down by 1 and that of bitmap 1 by 5. -/
theorem scenario_inc_two_bitmaps :
    ∃ ll', sm_ll_inc map_100 63 69 = some (.ok (ll', 6)) ∧
      (map_100.mi_le 0).nr_free = 64 ∧ (ll'.mi_le 0).nr_free = 63 ∧
      (map_100.mi_le 1).nr_free = 64 ∧ (ll'.mi_le 1).nr_free = 59 :=
  ⟨_, rfl, by decide, by decide, by decide, by decide⟩

/-- The spec's scenario S3: `insert(4, 7)` reports `+1` and the count reads 7;
a following `insert(4, 1)` reports 0, the count reads 1 and the overflow tree
has no key 4. -/
theorem scenario_insert :
    ∃ ll1 ll2, sm_ll_insert map_100 4 7 = .ok (ll1, 1) ∧
      lookup_val ll1 4 = some 7 ∧
      sm_ll_insert ll1 4 1 = .ok (ll2, 0) ∧
      lookup_val ll2 4 = some 1 ∧
      dm_btree_lookup ll2.ref_count_tree 4 = .error (-ENODATA) :=
  ⟨_, _, rfl, by decide, rfl, by decide, by rfl⟩

set_option maxRecDepth 8000 in
/-- The spec's scenario S4: after `inc(0, 10)` on the map of 100 free blocks
`find_free_block(0, 100)` returns 10, and after `inc(10, 100)` as well it
returns `-ENOSPC`. -/
theorem scenario_find_free :
    sm_ll_inc map_100 0 10 = some (.ok (map_used, 10)) ∧
    sm_ll_find_free_block map_used 0 100 = .ok (map_used, 10) ∧
    ∃ ll', sm_ll_inc map_used 10 100 = some (.ok (ll', 90)) ∧
      sm_ll_find_free_block ll' 0 100 = .error (-ENOSPC) :=
  ⟨rfl, by rfl, _, rfl, by rfl⟩

/-! ## The bitmap codec: claims C18 to C20 -/

/-- Claim C18: on an array of 64-bit words, for every position `j` and every
`v` in `{0, 1, 2, 3}`, `sm_lookup_bitmap` returns `v` at `j` after
`sm_set_bitmap(addr, j, v)`; every bit of the array other than the two bits of
entry `j` (bits `2 (j mod 32)` and `2 (j mod 32) + 1` of word `j / 32`) is
unchanged, and so is `sm_lookup_bitmap` at every other position. -/
theorem sm_set_bitmap_contract (addr : Nat → Nat) (j v : Nat) (hw : words_ok addr)
    (hv : v < 4) :
    sm_lookup_bitmap (sm_set_bitmap addr j v) j = v ∧
    (∀ i k, ¬ (i = j / 32 ∧ (k = 2 * (j % 32) ∨ k = 2 * (j % 32) + 1)) →
      (sm_set_bitmap addr j v i).testBit k = (addr i).testBit k) ∧
    (∀ j', j' ≠ j → sm_lookup_bitmap (sm_set_bitmap addr j v) j' = sm_lookup_bitmap addr j') := by
  refine ⟨?_, ?_, fun j' hne => sm_lookup_set_other addr j j' v hw hne⟩
  · rw [sm_lookup_set_same addr j v hw, Nat.mod_eq_of_lt hv]
  · intro i k hik
    rw [sm_set_bitmap_eq]
    by_cases hi : i = j / 32
    · subst hi
      rw [Function.update_same, testBit_set_word _ _ _ _ (hw _) (Nat.mod_lt _ (by norm_num))]
      have h1 : ¬ k = 2 * (j % 32) + 1 := fun h => hik ⟨rfl, Or.inr h⟩
      have h2 : ¬ k = 2 * (j % 32) := fun h => hik ⟨rfl, Or.inl h⟩
      rw [if_neg h1, if_neg h2]
    · rw [Function.update_noteq hi]

/-- Witness of C18: entry 37 of the all-zero array is set to 2. -/
theorem sm_set_bitmap_contract_witness :
    sm_lookup_bitmap (sm_set_bitmap (fun _ => 0) 37 2) 37 = 2 ∧
    (∀ i k, ¬ (i = 37 / 32 ∧ (k = 2 * (37 % 32) ∨ k = 2 * (37 % 32) + 1)) →
      (sm_set_bitmap (fun _ => 0) 37 2 i).testBit k = ((fun _ => 0) i : Nat).testBit k) ∧
    (∀ j', j' ≠ 37 →
      sm_lookup_bitmap (sm_set_bitmap (fun _ => 0) 37 2) j' = sm_lookup_bitmap (fun _ => 0) j') :=
  sm_set_bitmap_contract (fun _ => 0) 37 2 (fun _ => by norm_num) (by norm_num)

theorem entry_of_word_ne_zero (w k : Nat) :
    entry_of_word w k ≠ 0 ↔ (w.testBit (2 * k) = true ∨ w.testBit (2 * k + 1) = true) := by
  unfold entry_of_word
  cases h1 : w.testBit (2 * k) <;> cases h2 : w.testBit (2 * k + 1) <;> simp

/-- Claim C19: `dm_bitmap_word_used` returns true exactly when every one of the
32 two-bit entries of the word is non-zero, that is when no aligned two-bit
group of the word is `00`; what it computes is, with
`mask = 0xAAAAAAAAAAAAAAAA` and the sum taken modulo `2 ^ 64`, the test
`(~w & ((w + mask + 1) & mask)) == 0`. -/
theorem dm_bitmap_word_used_contract (addr : Nat → Nat) (b : Nat) :
    (dm_bitmap_word_used addr b = true ↔
      ((2 ^ 64 - 1) ^^^ addr (b / 32)) &&&
        (((addr (b / 32) + 0xAAAAAAAAAAAAAAAA + 1) % 2 ^ 64) &&& 0xAAAAAAAAAAAAAAAA) = 0) ∧
    (dm_bitmap_word_used addr b = true ↔
      ∀ k, k < 32 → sm_lookup_bitmap addr (32 * (b / 32) + k) ≠ 0) ∧
    (dm_bitmap_word_used addr b = true ↔
      ∀ k, k < 32 → ((addr (b / 32)).testBit (2 * k) = true ∨
        (addr (b / 32)).testBit (2 * k + 1) = true)) := by
  have h2 := dm_bitmap_word_used_iff addr b
  refine ⟨?_, h2, ?_⟩
  · unfold dm_bitmap_word_used
    rw [shift_entries]
    simp [WORD_MASK_HIGH]
  · rw [h2]
    constructor
    · intro h k hk
      have := h k hk
      rw [sm_lookup_bitmap_eq] at this
      have e1 : (32 * (b / 32) + k) / 32 = b / 32 := by omega
      have e2 : (32 * (b / 32) + k) % 32 = k := by omega
      rw [e1, e2] at this
      exact (entry_of_word_ne_zero _ _).1 this
    · intro h k hk
      rw [sm_lookup_bitmap_eq]
      have e1 : (32 * (b / 32) + k) / 32 = b / 32 := by omega
      have e2 : (32 * (b / 32) + k) % 32 = k := by omega
      rw [e1, e2]
      exact (entry_of_word_ne_zero _ _).2 (h k hk)

/-- The result of the loop of `sm_find_free` does not depend on the number of
iterations allowed, once that number is at least `end - begin`. -/
theorem sm_find_free_loop_fuel (addr : Nat → Nat) (begin end_ n : Nat) (hn : end_ - begin ≤ n) :
    sm_find_free_loop addr end_ n begin = sm_find_free addr begin end_ := by
  rcases sm_find_free_loop_spec addr end_ n begin hn with ⟨p, h1, h2, h3, h4, h5⟩ | ⟨h1, h2⟩
  · rcases sm_find_free_spec addr begin end_ with ⟨p', g1, g2, g3, g4, g5⟩ | ⟨g1, g2⟩
    · have : p = p' := by
        rcases Nat.lt_trichotomy p p' with h | h | h
        · exact absurd h4 (g5 p h2 h)
        · exact h
        · exact absurd g4 (h5 p' g2 h)
      rw [h1, g1, this]
    · exact absurd h4 (g2 p h2 h3)
  · rcases sm_find_free_spec addr begin end_ with ⟨p', g1, g2, g3, g4, g5⟩ | ⟨g1, g2⟩
    · exact absurd g4 (h2 p' g2 g3)
    · rw [h1, g1]

/-- Claim C20: for `begin ≤ end` with `end` not past the entries of a bitmap
(so that `begin + 32` does not wrap in 32 bits), `sm_find_free` ends: every
number of iterations from `end - begin` on gives the same result. It succeeds
with `*result = p` exactly when `p` is the least position of `[begin, end)`
whose entry is 0, and returns `-ENOSPC` exactly when no position of
`[begin, end)` has entry 0, and it returns nothing else. A word that
`dm_bitmap_word_used` reports as used holds no zero entry, so the skip of 32
entries passes over none. -/
theorem sm_find_free_contract (addr : Nat → Nat) (begin end_ : Nat) (hbe : begin ≤ end_)
    (hend : end_ + 32 ≤ 2 ^ 32) :
    (∀ n, end_ - begin ≤ n → sm_find_free_loop addr end_ n begin = sm_find_free addr begin end_) ∧
    (∀ p, sm_find_free addr begin end_ = .ok p ↔
      (begin ≤ p ∧ p < end_ ∧ sm_lookup_bitmap addr p = 0 ∧
        ∀ q, begin ≤ q → q < p → sm_lookup_bitmap addr q ≠ 0)) ∧
    (sm_find_free addr begin end_ = .error (-ENOSPC) ↔
      ∀ q, begin ≤ q → q < end_ → sm_lookup_bitmap addr q ≠ 0) ∧
    ((∃ p, sm_find_free addr begin end_ = .ok p) ∨
      sm_find_free addr begin end_ = .error (-ENOSPC)) ∧
    (∀ x, x % 32 = 0 → dm_bitmap_word_used addr x = true →
      ∀ q, x ≤ q → q < x + 32 → sm_lookup_bitmap addr q ≠ 0) := by
  refine ⟨fun n hn => sm_find_free_loop_fuel addr begin end_ n hn, ?_, ?_, ?_, ?_⟩
  · intro p
    rcases sm_find_free_spec addr begin end_ with ⟨p', g1, g2, g3, g4, g5⟩ | ⟨g1, g2⟩
    · constructor
      · intro h
        rw [g1] at h
        simp only [Except.ok.injEq] at h
        subst h
        exact ⟨g2, g3, g4, g5⟩
      · rintro ⟨h2, h3, h4, h5⟩
        have : p' = p := by
          rcases Nat.lt_trichotomy p' p with h | h | h
          · exact absurd g4 (h5 p' g2 h)
          · exact h
          · exact absurd h4 (g5 p h2 h)
        rw [g1, this]
    · constructor
      · intro h
        rw [g1] at h
        exact absurd h (by simp)
      · rintro ⟨h2, h3, h4, _⟩
        exact absurd h4 (g2 p h2 h3)
  · rcases sm_find_free_spec addr begin end_ with ⟨p', g1, g2, g3, g4, g5⟩ | ⟨g1, g2⟩
    · constructor
      · intro h
        rw [g1] at h
        exact absurd h (by simp)
      · intro h
        exact absurd g4 (h p' g2 g3)
    · exact ⟨fun _ => g2, fun _ => g1⟩
  · rcases sm_find_free_spec addr begin end_ with ⟨p', g1, _⟩ | ⟨g1, _⟩
    · exact Or.inl ⟨p', g1⟩
    · exact Or.inr g1
  · intro x hx hu q h1 h2
    have h := (dm_bitmap_word_used_iff addr x).1 hu (q - x) (by omega)
    have e : 32 * (x / 32) + (q - x) = q := by omega
    rw [e] at h
    exact h

/-- Witness of C20: the search of `[3, 40)` in the all-zero array. -/
theorem sm_find_free_contract_witness :
    (∀ n, 40 - 3 ≤ n →
      sm_find_free_loop (fun _ => 0) 40 n 3 = sm_find_free (fun _ => 0) 3 40) ∧
    (∀ p, sm_find_free (fun _ => 0) 3 40 = .ok p ↔
      (3 ≤ p ∧ p < 40 ∧ sm_lookup_bitmap (fun _ => 0) p = 0 ∧
        ∀ q, 3 ≤ q → q < p → sm_lookup_bitmap (fun _ => 0) q ≠ 0)) ∧
    (sm_find_free (fun _ => 0) 3 40 = .error (-ENOSPC) ↔
      ∀ q, 3 ≤ q → q < 40 → sm_lookup_bitmap (fun _ => 0) q ≠ 0) ∧
    ((∃ p, sm_find_free (fun _ => 0) 3 40 = .ok p) ∨
      sm_find_free (fun _ => 0) 3 40 = .error (-ENOSPC)) ∧
    (∀ x, x % 32 = 0 → dm_bitmap_word_used (fun _ => 0) x = true →
      ∀ q, x ≤ q → q < x + 32 → sm_lookup_bitmap (fun _ => 0) q ≠ 0) :=
  sm_find_free_contract (fun _ => 0) 3 40 (by norm_num) (by norm_num)

/-! ## Extension: claims C12 and C13 -/

theorem cache_ok_tm (ll : ll_disk) (tm : dm_transaction_manager) (hc : cache_ok ll) :
    cache_ok { ll with tm := tm } := hc

theorem cache_ok_nr_blocks (ll : ll_disk) (n : Nat) (hc : cache_ok ll) :
    cache_ok { ll with nr_blocks := n } := hc

/-- The loop of `sm_ll_extend` saves, for each of the bitmaps `i, ..., i + n - 1`,
an entry that points at a block of its own, handed out by `dm_tm_new_block` and
zero-filled, and touches no other entry. -/
theorem sm_ll_extend_loop_view : ∀ (n : Nat) (ll : ll_disk) (i : Nat), cache_ok ll →
    ∃ ll', sm_ll_extend_loop n ll i = .ok ll' ∧ cache_ok ll' ∧
      ll'.flavor = ll.flavor ∧ ll'.entries_per_block = ll.entries_per_block ∧
      ll'.nr_blocks = ll.nr_blocks ∧ ll'.nr_allocated = ll.nr_allocated ∧
      ll'.ref_count_tree = ll.ref_count_tree ∧
      ll'.tm.next = ll.tm.next + n ∧
      (∀ loc, loc < ll.tm.next → ll'.tm.data loc = ll.tm.data loc) ∧
      (∀ k, k < n → ll'.tm.data (ll.tm.next + k) = fun _ => 0) ∧
      (∀ j, ie_view ll' j =
        if i ≤ j ∧ j < i + n then
          some { blocknr := ll.tm.next + (j - i), nr_free := ll.entries_per_block,
                 none_free_before := 0 }
        else ie_view ll j) := by
  intro n
  induction n with
  | zero =>
    intro ll i hc
    refine ⟨ll, rfl, hc, rfl, rfl, rfl, rfl, rfl, rfl, fun _ _ => rfl, fun k hk => by omega, ?_⟩
    intro j
    rw [if_neg (by omega)]
  | succ n ih =>
    intro ll i hc
    rw [sm_ll_extend_loop_succ]
    obtain ⟨ll2, hs, hcore, hview, hc2⟩ := save_ie_ok { ll with tm := (dm_tm_new_block ll.tm).1 } i
      { blocknr := (dm_tm_new_block ll.tm).2, nr_free := ll.entries_per_block,
        none_free_before := 0 } (cache_ok_tm ll _ hc)
    rw [hs]
    obtain ⟨htm, hfl, hepb, hnb, hna, hrt⟩ := hcore
    have htm2 : ll2.tm = (dm_tm_new_block ll.tm).1 := htm
    have hnext : ll2.tm.next = ll.tm.next + 1 := by rw [htm2]; rfl
    have hdata : ll2.tm.data = Function.update ll.tm.data ll.tm.next (fun _ => 0) := by
      rw [htm2]; rfl
    obtain ⟨ll', h, c', f', e', b', a', r', x', d', z', v'⟩ := ih ll2 (i + 1) hc2
    refine ⟨ll', h, c', by rw [f']; exact hfl, by rw [e']; exact hepb, by rw [b']; exact hnb,
      by rw [a']; exact hna, by rw [r']; exact hrt, by rw [x', hnext]; omega, ?_, ?_, ?_⟩
    · intro loc hloc
      rw [d' loc (by omega), hdata, Function.update_noteq (by omega)]
    · intro k hk
      rcases k with _ | k
      · rw [Nat.add_zero, d' _ (by omega), hdata, Function.update_same]
      · have := z' k (by omega)
        rw [hnext] at this
        rw [show ll.tm.next + (k + 1) = ll.tm.next + 1 + k by omega]
        exact this
    · intro j
      rw [v' j, hview]
      have hepb' : ll2.entries_per_block = ll.entries_per_block := hepb
      by_cases hj : j = i
      · subst hj
        rw [if_neg (by omega), Function.update_same, if_pos ⟨le_refl _, by omega⟩]
        have : (dm_tm_new_block ll.tm).2 = ll.tm.next + (j - j) := by
          rw [Nat.sub_self, Nat.add_zero]; rfl
        rw [this]
      · by_cases hr : i + 1 ≤ j ∧ j < i + 1 + n
        · rw [if_pos hr, if_pos ⟨by omega, by omega⟩, hnext, hepb']
          have : ll.tm.next + 1 + (j - (i + 1)) = ll.tm.next + (j - i) := by omega
          rw [this]
        · rw [if_neg hr, if_neg (by omega), Function.update_noteq hj]
          rfl

theorem load_ie_iff_view (ll : ll_disk) (i : Nat) (ie : disk_index_entry) (hc : cache_ok ll) :
    (∃ l, load_ie ll i = .ok (l, ie)) ↔ ie_view ll i = some ie := by
  constructor
  · rintro ⟨l, h⟩
    exact (load_ie_ok ll l i ie hc h).1
  · exact load_ie_some ll i ie hc

/-- Claim C12: on a state with a coherent index cache, when `nr_blocks + extra`
stays below `2 ^ 64` and the number of bitmaps it needs is at most
`max_entries` and fits in 32 bits, `sm_ll_extend` succeeds and sets `nr_blocks`
to `nr_blocks + extra`. For each index `i` from the old number of bitmaps up to
the new one it saves an entry with `nr_free = entries_per_block` and
`none_free_before = 0` that points at a block handed out by `dm_tm_new_block`
during the call, zero-filled; as many blocks are handed out as there are new
bitmaps. Every other index entry, every block that existed, `nr_allocated` and
the overflow tree are unchanged, and `extend(0)` changes nothing at all. -/
theorem sm_ll_extend_contract (ll : ll_disk) (extra_blocks : Nat) (hc : cache_ok ll)
    (hno : ll.nr_blocks + extra_blocks < 2 ^ 64)
    (hmax : dm_sector_div_up (ll.nr_blocks + extra_blocks) ll.entries_per_block ≤ max_entries ll)
    (h32 : dm_sector_div_up (ll.nr_blocks + extra_blocks) ll.entries_per_block < 2 ^ 32) :
    ∃ ll', sm_ll_extend ll extra_blocks = .ok ll' ∧
      ll'.nr_blocks = ll.nr_blocks + extra_blocks ∧
      ll'.entries_per_block = ll.entries_per_block ∧
      ll'.nr_allocated = ll.nr_allocated ∧
      ll'.ref_count_tree = ll.ref_count_tree ∧
      (∀ i, nr_indexes ll ≤ i → i < nr_indexes ll' →
        (∃ l, load_ie ll' i = .ok (l,
          { blocknr := ll.tm.next + (i - nr_indexes ll), nr_free := ll.entries_per_block,
            none_free_before := 0 })) ∧
        ll'.tm.data (ll.tm.next + (i - nr_indexes ll)) = fun _ => 0) ∧
      ll'.tm.next = ll.tm.next + (nr_indexes ll' - nr_indexes ll) ∧
      (∀ i ie, ¬ (nr_indexes ll ≤ i ∧ i < nr_indexes ll') →
        ((∃ l, load_ie ll' i = .ok (l, ie)) ↔ ∃ l, load_ie ll i = .ok (l, ie))) ∧
      (∀ loc, loc < ll.tm.next → ll'.tm.data loc = ll.tm.data loc) ∧
      (extra_blocks = 0 → ll' = ll) := by
  have e1 : (ll.nr_blocks + extra_blocks) % 2 ^ 64 = ll.nr_blocks + extra_blocks :=
    Nat.mod_eq_of_lt hno
  have hold : dm_sector_div_up ll.nr_blocks ll.entries_per_block ≤
      dm_sector_div_up (ll.nr_blocks + extra_blocks) ll.entries_per_block :=
    div_up_mono _ _ _ (by omega)
  have e2 : dm_sector_div_up (ll.nr_blocks + extra_blocks) ll.entries_per_block % 2 ^ 32 =
      dm_sector_div_up (ll.nr_blocks + extra_blocks) ll.entries_per_block :=
    Nat.mod_eq_of_lt h32
  have e3 : dm_sector_div_up ll.nr_blocks ll.entries_per_block % 2 ^ 32 =
      dm_sector_div_up ll.nr_blocks ll.entries_per_block :=
    Nat.mod_eq_of_lt (by omega)
  have heq : sm_ll_extend ll extra_blocks =
      sm_ll_extend_loop (dm_sector_div_up (ll.nr_blocks + extra_blocks) ll.entries_per_block -
          dm_sector_div_up ll.nr_blocks ll.entries_per_block)
        { ll with nr_blocks := ll.nr_blocks + extra_blocks }
        (dm_sector_div_up ll.nr_blocks ll.entries_per_block) := by
    unfold sm_ll_extend
    simp only [e1, e2, e3]
    rw [if_neg (by omega)]
  obtain ⟨ll', h, c', f', e', b', a', r', x', d', z', v'⟩ :=
    sm_ll_extend_loop_view
      (dm_sector_div_up (ll.nr_blocks + extra_blocks) ll.entries_per_block -
          dm_sector_div_up ll.nr_blocks ll.entries_per_block)
      { ll with nr_blocks := ll.nr_blocks + extra_blocks }
      (dm_sector_div_up ll.nr_blocks ll.entries_per_block) (cache_ok_nr_blocks ll _ hc)
  have hb' : ll'.nr_blocks = ll.nr_blocks + extra_blocks := b'
  have he' : ll'.entries_per_block = ll.entries_per_block := e'
  have hni : nr_indexes ll' =
      dm_sector_div_up (ll.nr_blocks + extra_blocks) ll.entries_per_block := by
    unfold nr_indexes
    rw [hb', he']
  have hni0 : nr_indexes ll = dm_sector_div_up ll.nr_blocks ll.entries_per_block := rfl
  have hview : ∀ j, ie_view ll' j =
      if nr_indexes ll ≤ j ∧ j < nr_indexes ll' then
        some { blocknr := ll.tm.next + (j - nr_indexes ll), nr_free := ll.entries_per_block,
               none_free_before := 0 }
      else ie_view ll j := by
    intro j
    rw [v' j, hni, hni0]
    by_cases hj : dm_sector_div_up ll.nr_blocks ll.entries_per_block ≤ j ∧
        j < dm_sector_div_up (ll.nr_blocks + extra_blocks) ll.entries_per_block
    · rw [if_pos hj, if_pos ⟨hj.1, by omega⟩]
    · rw [if_neg hj, if_neg (by omega)]
      rfl
  refine ⟨ll', by rw [heq]; exact h, hb', he', a', r', ?_, ?_, ?_, d', ?_⟩
  · intro i h1 h2
    refine ⟨(load_ie_iff_view ll' i _ c').2 (by rw [hview i, if_pos ⟨h1, h2⟩]), ?_⟩
    exact z' (i - nr_indexes ll) (by rw [hni] at h2; rw [hni0] at h1 ⊢; omega)
  · rw [x', hni, hni0]
  · intro i ie hi
    rw [load_ie_iff_view ll' i ie c', load_ie_iff_view ll i ie hc, hview i, if_neg hi]
  · intro h0
    subst h0
    have hz : dm_sector_div_up (ll.nr_blocks + 0) ll.entries_per_block -
        dm_sector_div_up ll.nr_blocks ll.entries_per_block = 0 := by simp
    rw [hz] at h
    simp only [sm_ll_extend_loop, Except.ok.injEq] at h
    rw [← h]
    rfl

/-- Witness of C12: a new metadata map with 64 entries per bitmap is extended
by 100 blocks. -/
theorem sm_ll_extend_contract_witness :
    ∃ ll', sm_ll_extend map_new 100 = .ok ll' ∧
      ll'.nr_blocks = map_new.nr_blocks + 100 ∧
      ll'.entries_per_block = map_new.entries_per_block ∧
      ll'.nr_allocated = map_new.nr_allocated ∧
      ll'.ref_count_tree = map_new.ref_count_tree ∧
      (∀ i, nr_indexes map_new ≤ i → i < nr_indexes ll' →
        (∃ l, load_ie ll' i = .ok (l,
          { blocknr := map_new.tm.next + (i - nr_indexes map_new),
            nr_free := map_new.entries_per_block, none_free_before := 0 })) ∧
        ll'.tm.data (map_new.tm.next + (i - nr_indexes map_new)) = fun _ => 0) ∧
      ll'.tm.next = map_new.tm.next + (nr_indexes ll' - nr_indexes map_new) ∧
      (∀ i ie, ¬ (nr_indexes map_new ≤ i ∧ i < nr_indexes ll') →
        ((∃ l, load_ie ll' i = .ok (l, ie)) ↔ ∃ l, load_ie map_new i = .ok (l, ie))) ∧
      (∀ loc, loc < map_new.tm.next → ll'.tm.data loc = map_new.tm.data loc) ∧
      ((100 : Nat) = 0 → ll' = map_new) :=
  sm_ll_extend_contract map_new 100 (fun h => absurd h (by decide)) (by decide) (by decide)
    (by decide)

/-- Claim C15, amended: in every state reachable from a new map with
`entries_per_block > 0` by successful `sm_ll_extend`, `sm_ll_insert`,
`sm_ll_inc` and `sm_ll_dec` calls on blocks below `nr_blocks`, no extension
overflowing the 64-bit block count or the 32-bit bitmap count and no reference
count being taken past `2 ^ 32 - 1`, for every bitmap index `i` below the number
of bitmaps, with `m = min(nr_blocks - i * entries_per_block, entries_per_block)`,
the saved entry's `nr_free` is the number of zero entries of bitmap block `i`
at positions below `m` plus the `entries_per_block - m` positions from `m` on,
which are all zero; it counts the whole block. In particular, while every
reference count is 0, as after `extend(n)` on a new map, every index entry,
the last one too, has `nr_free = entries_per_block`. -/
theorem index_entry_nr_free (ll : ll_disk) (ref : Nat → Nat) (h : reach true true ll ref)
    (i : Nat) (hi : i < nr_indexes ll) :
    ∃ l ie, load_ie ll i = .ok (l, ie) ∧
      ie.nr_free =
        count_free (dm_tm_read_lock ll.tm ie.blocknr)
            (min (ll.nr_blocks - i * ll.entries_per_block) ll.entries_per_block) +
          (ll.entries_per_block -
            min (ll.nr_blocks - i * ll.entries_per_block) ll.entries_per_block) ∧
      (∀ j, min (ll.nr_blocks - i * ll.entries_per_block) ll.entries_per_block ≤ j →
        j < ll.entries_per_block → sm_lookup_bitmap (dm_tm_read_lock ll.tm ie.blocknr) j = 0) ∧
      ie.nr_free = count_free (dm_tm_read_lock ll.tm ie.blocknr) ll.entries_per_block ∧
      ((∀ x, x < ll.nr_blocks → ref x = 0) → ie.nr_free = ll.entries_per_block) := by
  have hr := reach_ok ll ref h
  have hinv := hr.inv
  have hepb := hinv.index.epb_pos
  obtain ⟨ie, hview, hok⟩ := hinv.index.saved i hi
  obtain ⟨l, hload⟩ := load_ie_some ll i ie hinv.index.cache hview
  have hcell : ∀ j, j < ll.entries_per_block →
      cell ll (i * ll.entries_per_block + j) = sm_lookup_bitmap (ll.tm.data ie.blocknr) j := by
    intro j hj
    rw [cell_in_block ll i _ ie hview (by omega) (by omega), Nat.add_sub_cancel_left]
  have hdiv : ∀ j, j < ll.entries_per_block →
      (i * ll.entries_per_block + j) / ll.entries_per_block = i := by
    intro j hj
    exact (div_mod_of_block ll.entries_per_block i _ (by omega) (by omega)).1
  have htail : ∀ j, min (ll.nr_blocks - i * ll.entries_per_block) ll.entries_per_block ≤ j →
      j < ll.entries_per_block → sm_lookup_bitmap (ll.tm.data ie.blocknr) j = 0 := by
    intro j h1 h2
    rw [← hcell j h2]
    apply hr.tail
    · have : ll.nr_blocks - i * ll.entries_per_block ≤ j := by
        rcases Nat.le_total (ll.nr_blocks - i * ll.entries_per_block) ll.entries_per_block
          with hm | hm
        · rw [Nat.min_eq_left hm] at h1
          exact h1
        · rw [Nat.min_eq_right hm] at h1
          omega
      omega
    · rw [hdiv j h2]
      exact hi
  have hsplit : count_free (ll.tm.data ie.blocknr) ll.entries_per_block =
      count_free (ll.tm.data ie.blocknr)
          (min (ll.nr_blocks - i * ll.entries_per_block) ll.entries_per_block) +
        (ll.entries_per_block -
          min (ll.nr_blocks - i * ll.entries_per_block) ll.entries_per_block) := by
    have hm : min (ll.nr_blocks - i * ll.entries_per_block) ll.entries_per_block
        ≤ ll.entries_per_block := Nat.min_le_right _ _
    unfold count_free
    have e : ll.entries_per_block =
        min (ll.nr_blocks - i * ll.entries_per_block) ll.entries_per_block +
          (ll.entries_per_block -
            min (ll.nr_blocks - i * ll.entries_per_block) ll.entries_per_block) := by omega
    conv_lhs => rw [e]
    rw [count_range_add, Nat.zero_add]
    congr 1
    apply count_range_eq_len
    intro x h1 h2
    have := htail x h1 (by omega)
    simp [this]
  refine ⟨l, ie, hload, ?_, htail, hok.2.2.1, ?_⟩
  · rw [hok.2.2.1]
    exact hsplit
  · intro hz
    rw [hok.2.2.1]
    unfold count_free
    apply count_range_eq_len
    intro j _ hj
    have hj' : j < ll.entries_per_block := by omega
    by_cases hx : i * ll.entries_per_block + j < ll.nr_blocks
    · have h0 : refcount ll (i * ll.entries_per_block + j) = 0 := by
        rw [hr.ref_eq _ hx, hz _ hx]
      have hc := (refcount_of_inv ll hinv _ hx).2.2.1.1 h0
      rw [hcell j hj'] at hc
      simp [hc]
    · have := htail j (by
        have : ll.nr_blocks - i * ll.entries_per_block ≤ j := by omega
        exact le_trans (Nat.min_le_left _ _) this) hj'
      simp [this]

/-- Witness of C15: bitmap 1 of the map of 100 free blocks. -/
theorem index_entry_nr_free_witness :
    ∃ l ie, load_ie map_100 1 = .ok (l, ie) ∧
      ie.nr_free =
        count_free (dm_tm_read_lock map_100.tm ie.blocknr)
            (min (map_100.nr_blocks - 1 * map_100.entries_per_block)
              map_100.entries_per_block) +
          (map_100.entries_per_block -
            min (map_100.nr_blocks - 1 * map_100.entries_per_block)
              map_100.entries_per_block) ∧
      (∀ j, min (map_100.nr_blocks - 1 * map_100.entries_per_block)
          map_100.entries_per_block ≤ j →
        j < map_100.entries_per_block →
        sm_lookup_bitmap (dm_tm_read_lock map_100.tm ie.blocknr) j = 0) ∧
      ie.nr_free = count_free (dm_tm_read_lock map_100.tm ie.blocknr)
        map_100.entries_per_block ∧
      ((∀ x, x < map_100.nr_blocks → (fun _ => 0 : Nat → Nat) x = 0) →
        ie.nr_free = map_100.entries_per_block) :=
  index_entry_nr_free map_100 _ (map_100_reach true true) 1 (by decide)

/-- Counterexample to C15 as stated: after `extend(100)` on a new map with 64
entries per bitmap, the saved entry of the last bitmap has `nr_free = 64`,
while bitmap block 1 has 36 zero entries at the positions below
`min(100 - 64, 64) = 36`, and `100 mod 64 = 36`. -/
theorem index_entry_nr_free_counterexample :
    sm_ll_new_metadata tm_small = .ok map_new ∧
    sm_ll_extend map_new 100 = .ok map_100 ∧
    nr_indexes map_100 = 2 ∧
    load_ie map_100 1 = .ok (map_100, map_100.mi_le 1) ∧
    (map_100.mi_le 1).nr_free = 64 ∧
    min (map_100.nr_blocks - 1 * map_100.entries_per_block) map_100.entries_per_block = 36 ∧
    count_free (dm_tm_read_lock map_100.tm (map_100.mi_le 1).blocknr) 36 = 36 ∧
    100 % map_100.entries_per_block = 36 :=
  ⟨rfl, rfl, by decide, rfl, by decide, by decide, by decide, by decide⟩

/-! ## Commit and the index cache: claims C16 and C17 -/

/-- Divergence of the code from C16: the cache holds two valid dirty slots, the
write-back of slot 0 fails with `-ENOSPC` and the write-back of slot 59
succeeds. `disk_ll_commit` keeps only the result of the last write-back, so
`sm_ll_commit` returns 0 and clears `bitmap_index_changed`; the entry of index
0 is not in the tree and its slot is no longer dirty. -/
theorem sm_ll_commit_lost_error :
    disk_two_dirty.bitmap_index_changed = true ∧
    ((disk_two_dirty.ie_cache 0).valid = true ∧ (disk_two_dirty.ie_cache 0).dirty = true ∧
      (disk_two_dirty.ie_cache 0).index = 0) ∧
    ((disk_two_dirty.ie_cache 59).valid = true ∧ (disk_two_dirty.ie_cache 59).dirty = true ∧
      (disk_two_dirty.ie_cache 59).index = 1) ∧
    (ie_cache_writeback_r insert_failing_at_zero disk_two_dirty 0).2 = -ENOSPC ∧
    (disk_ll_commit insert_failing_at_zero disk_two_dirty).2 = 0 ∧
    (sm_ll_commit (disk_ll_commit insert_failing_at_zero) disk_two_dirty).2 = 0 ∧
    (sm_ll_commit (disk_ll_commit insert_failing_at_zero) disk_two_dirty).1.bitmap_index_changed
      = false ∧
    (sm_ll_commit (disk_ll_commit insert_failing_at_zero) disk_two_dirty).1.bitmap_tree.vals 0
      = none ∧
    ((sm_ll_commit (disk_ll_commit insert_failing_at_zero) disk_two_dirty).1.ie_cache 0).dirty
      = false := by
  refine ⟨by decide, ⟨by decide, by decide, by decide⟩, ⟨by decide, by decide, by decide⟩,
    by decide, by decide, by decide, by decide, by decide, by decide⟩

theorem hash_index_lt (i : Nat) : hash_index i < 64 := by
  unfold hash_index dm_hash_block IE_CACHE_MASK IE_CACHE_SIZE
  exact Nat.lt_succ_of_le Nat.and_le_right

theorem load_ie_disk (ll : ll_disk) (i : Nat) (hf : ll.flavor = .disk) :
    load_ie ll i = disk_ll_load_ie ll i := by
  unfold load_ie; rw [hf]

theorem save_ie_disk (ll : ll_disk) (i : Nat) (ie : disk_index_entry) (hf : ll.flavor = .disk) :
    save_ie ll i ie = disk_ll_save_ie ll i ie := by
  unfold save_ie; rw [hf]

theorem ie_cache_writeback_r_ok (ll : ll_disk) (h : Nat) :
    ie_cache_writeback_r insert_ok ll h = (ie_cache_writeback ll h, 0) := rfl

theorem after_evict_dirty_valid (ll : ll_disk) (h : Nat) (hd : ll.flavor = .disk)
    (hc : cache_ok ll) (hdv : dirty_valid ll) : dirty_valid (after_evict ll h) := by
  obtain ⟨_, _, _, e4, _, _, e7, e8⟩ := after_evict_spec ll h hd hc
  intro h' hdirty
  by_cases hh : h' = h
  · subst hh
    cases hv : ((after_evict ll h').ie_cache h').valid
    · rw [e4] at hv
      have : after_evict ll h' = ll := by
        unfold after_evict
        rw [if_neg (by rw [hv]; simp)]
      rw [this] at hdirty
      rw [hdv h' hdirty] at hv
      exact absurd hv (by simp)
    · rfl
  · rw [e8 h' hh] at hdirty ⊢
    exact hdv h' hdirty

/-- What holds along `cache_reach`. -/
theorem cache_reach_inv (ll : ll_disk) (m : Nat → Option disk_index_entry)
    (h : cache_reach ll m) :
    ll.flavor = .disk ∧ cache_ok ll ∧ ie_view ll = m ∧ dirty_valid ll := by
  induction h with
  | init ll0 ll hf hi =>
    simp only [disk_ll_init_index, Except.ok.injEq] at hi
    subst hi
    refine ⟨hf, ?_, ?_, ?_⟩
    · intro _ h hv
      exact absurd hv (by simp)
    · funext i
      rw [ie_view_disk _ _ (show ({ ll0 with
          ie_cache := fun i => { ll0.ie_cache i with valid := false, dirty := false }
          bitmap_tree := dm_btree_empty disk_index_entry } : ll_disk).flavor = .disk from hf)]
      simp [dm_btree_empty]
    · intro h hd
      exact absurd hd (by simp)
  | save ll m i ie ll' _ hs ih =>
    obtain ⟨hf, hc, hv, hdv⟩ := ih
    obtain ⟨ll2, hs2, hcore, hview, hc2⟩ := save_ie_ok ll i ie hc
    rw [save_ie_disk ll i ie hf, hs] at hs2
    simp only [Except.ok.injEq] at hs2
    subst hs2
    refine ⟨hcore.2.1.trans hf, hc2, by rw [hview, hv], ?_⟩
    rw [disk_ll_save_ie_eq] at hs
    by_cases hit : (ll.ie_cache (hash_index i)).valid = true ∧
        (ll.ie_cache (hash_index i)).index = i
    · rw [if_pos hit] at hs
      simp only [Except.ok.injEq] at hs
      subst hs
      intro h hd
      by_cases hh : h = hash_index i
      · subst hh
        simp only [Function.update_same]
        exact hit.1
      · simp only [Function.update_noteq hh] at hd ⊢
        exact hdv h hd
    · rw [if_neg hit] at hs
      simp only [Except.ok.injEq] at hs
      subst hs
      have hae := after_evict_dirty_valid { ll with bitmap_index_changed := true }
        (hash_index i) hf hc hdv
      intro h hd
      by_cases hh : h = hash_index i
      · subst hh
        simp only [Function.update_same]
      · simp only [Function.update_noteq hh] at hd ⊢
        exact hae h hd
  | load ll m i ie ll' _ hl ih =>
    obtain ⟨hf, hc, hv, hdv⟩ := ih
    obtain ⟨_, hcore, hview, hc2⟩ := load_ie_ok ll ll' i ie hc (by rw [load_ie_disk ll i hf]; exact hl)
    refine ⟨hcore.2.1.trans hf, hc2, by rw [hview, hv], ?_⟩
    rw [disk_ll_load_ie_eq] at hl
    by_cases hit : (ll.ie_cache (hash_index i)).valid = true ∧
        (ll.ie_cache (hash_index i)).index = i
    · rw [if_pos hit] at hl
      simp only [Except.ok.injEq, Prod.mk.injEq] at hl
      rw [← hl.1]
      exact hdv
    · rw [if_neg hit] at hl
      have hae := after_evict_dirty_valid ll (hash_index i) hf hc hdv
      unfold load_miss at hl
      cases hlk : dm_btree_lookup (after_evict ll (hash_index i)).bitmap_tree i with
      | error r =>
        rw [hlk] at hl
        exact absurd hl (by simp)
      | ok e =>
        rw [hlk] at hl
        simp only [Except.ok.injEq, Prod.mk.injEq] at hl
        rw [← hl.1]
        intro h hd
        by_cases hh : h = hash_index i
        · subst hh
          simp only [Function.update_same]
        · simp only [Function.update_noteq hh] at hd ⊢
          exact hae h hd
  | load_failed ll m i r _ _ ih =>
    obtain ⟨hf, hc, hv, hdv⟩ := ih
    obtain ⟨e1, e2, e3, _⟩ := after_evict_spec ll (hash_index i) hf hc
    exact ⟨e1.2.1.trans hf, e3, by rw [e2, hv], after_evict_dirty_valid ll _ hf hc hdv⟩

/-- The loop of `disk_ll_commit`, when every insert succeeds: it returns 0,
keeps the current entry of every index, and leaves the slots it has passed
clean. -/
theorem disk_ll_commit_loop_ok : ∀ (n : Nat) (ll : ll_disk) (i : Nat),
    ll.flavor = .disk → cache_ok ll →
    (disk_ll_commit_loop insert_ok n ll i 0).2 = 0 ∧
    (disk_ll_commit_loop insert_ok n ll i 0).1.flavor = .disk ∧
    ie_view (disk_ll_commit_loop insert_ok n ll i 0).1 = ie_view ll ∧
    cache_ok (disk_ll_commit_loop insert_ok n ll i 0).1 ∧
    (∀ h, ((disk_ll_commit_loop insert_ok n ll i 0).1.ie_cache h).valid = (ll.ie_cache h).valid) ∧
    (∀ h, (ll.ie_cache h).dirty = false →
      ((disk_ll_commit_loop insert_ok n ll i 0).1.ie_cache h).dirty = false) ∧
    (∀ h, i ≤ h → h < i + n → (ll.ie_cache h).valid = true →
      ((disk_ll_commit_loop insert_ok n ll i 0).1.ie_cache h).dirty = false) ∧
    (disk_ll_commit_loop insert_ok n ll i 0).1.bitmap_index_changed = ll.bitmap_index_changed := by
  intro n
  induction n with
  | zero =>
    intro ll i hf hc
    exact ⟨rfl, hf, rfl, hc, fun _ => rfl, fun _ h => h, fun h h1 h2 => by omega, rfl⟩
  | succ n ih =>
    intro ll i hf hc
    by_cases hvd : (ll.ie_cache i).valid = true ∧ (ll.ie_cache i).dirty = true
    · have e : disk_ll_commit_loop insert_ok (n + 1) ll i 0 =
          disk_ll_commit_loop insert_ok n (ie_cache_writeback ll i) (i + 1) 0 := by
        show (if (ll.ie_cache i).valid = true ∧ (ll.ie_cache i).dirty = true then
            disk_ll_commit_loop insert_ok n (ie_cache_writeback_r insert_ok ll i).1 (i + 1)
              (ie_cache_writeback_r insert_ok ll i).2
          else disk_ll_commit_loop insert_ok n ll (i + 1) 0) = _
        rw [if_pos hvd, ie_cache_writeback_r_ok]
      rw [e]
      obtain ⟨w1, w2, w3, w4, w5, w6⟩ := writeback_spec ll i hf hc hvd.1
      obtain ⟨a1, a2, a3, a4, a5, a6, a7, a8⟩ :=
        ih (ie_cache_writeback ll i) (i + 1) (w1.2.1.trans hf) w3
      have hval : ∀ h, ((ie_cache_writeback ll i).ie_cache h).valid = (ll.ie_cache h).valid := by
        intro h
        by_cases hh : h = i
        · subst hh; rw [w4]
        · rw [w5 h hh]
      have hdir : ∀ h, (ll.ie_cache h).dirty = false →
          ((ie_cache_writeback ll i).ie_cache h).dirty = false := by
        intro h hd
        by_cases hh : h = i
        · subst hh; rw [w4]
        · rw [w5 h hh]; exact hd
      refine ⟨a1, a2, by rw [a3, w2], a4, fun h => by rw [a5 h, hval h],
        fun h hd => a6 h (hdir h hd), ?_, by rw [a8, w6]⟩
      intro h h1 h2 hv
      by_cases hh : h = i
      · subst hh
        exact a6 h (by rw [w4])
      · exact a7 h (by omega) (by omega) (by rw [hval h]; exact hv)
    · have e : disk_ll_commit_loop insert_ok (n + 1) ll i 0 =
          disk_ll_commit_loop insert_ok n ll (i + 1) 0 := by
        show (if (ll.ie_cache i).valid = true ∧ (ll.ie_cache i).dirty = true then
            disk_ll_commit_loop insert_ok n (ie_cache_writeback_r insert_ok ll i).1 (i + 1)
              (ie_cache_writeback_r insert_ok ll i).2
          else disk_ll_commit_loop insert_ok n ll (i + 1) 0) = _
        rw [if_neg hvd]
      rw [e]
      obtain ⟨a1, a2, a3, a4, a5, a6, a7, a8⟩ := ih ll (i + 1) hf hc
      refine ⟨a1, a2, a3, a4, a5, a6, ?_, a8⟩
      intro h h1 h2 hv
      by_cases hh : h = i
      · subst hh
        apply a6
        cases hd : (ll.ie_cache h).dirty
        · rfl
        · exact absurd ⟨hv, hd⟩ hvd
      · exact a7 h (by omega) (by omega) hv

/-- Claim C17: for the disk flavor, with the index tree a finite map whose
insert and lookup succeed, in every state reached from `disk_ll_init_index` by
calls of `disk_ll_save_ie` and `disk_ll_load_ie`, `disk_ll_load_ie(i)` returns
the entry passed to the most recent `disk_ll_save_ie(i, .)`, whatever other
indexes used the same slot in between, and fails, with `-ENODATA`, exactly when
`i` was never saved; `disk_ll_commit` then returns 0 and leaves a tree that maps
every saved index to its most recently saved entry and holds nothing else, no
slot dirty, and the same answers of `disk_ll_load_ie`. -/
theorem ie_cache_transparent (ll : ll_disk) (m : Nat → Option disk_index_entry)
    (h : cache_reach ll m) :
    (∀ i ie, m i = some ie → ∃ ll', disk_ll_load_ie ll i = .ok (ll', ie)) ∧
    (∀ i, m i = none → disk_ll_load_ie ll i = .error (-ENODATA)) ∧
    (∀ i r, disk_ll_load_ie ll i = .error r → m i = none ∧ r = -ENODATA) ∧
    (disk_ll_commit insert_ok ll).2 = 0 ∧
    (∀ i, (disk_ll_commit insert_ok ll).1.bitmap_tree.vals i = m i) ∧
    (∀ h, ((disk_ll_commit insert_ok ll).1.ie_cache h).dirty = false) ∧
    (∀ i ie, m i = some ie →
      ∃ ll', disk_ll_load_ie (disk_ll_commit insert_ok ll).1 i = .ok (ll', ie)) := by
  obtain ⟨hf, hc, hv, hdv⟩ := cache_reach_inv ll m h
  rw [show disk_ll_commit insert_ok ll = disk_ll_commit_loop insert_ok IE_CACHE_SIZE ll 0 0
    from rfl]
  have hsome : ∀ i ie, m i = some ie → ∃ ll', disk_ll_load_ie ll i = .ok (ll', ie) := by
    intro i ie hm
    rw [← load_ie_disk ll i hf]
    exact load_ie_some ll i ie hc (by rw [hv]; exact hm)
  have hnone : ∀ i, m i = none → disk_ll_load_ie ll i = .error (-ENODATA) := by
    intro i hm
    rw [← load_ie_disk ll i hf]
    exact load_ie_none ll i hc (by rw [hv]; exact hm)
  obtain ⟨a1, a2, a3, a4, a5, a6, a7, _⟩ := disk_ll_commit_loop_ok IE_CACHE_SIZE ll 0 hf hc
  have hclean : ∀ h, ((disk_ll_commit_loop insert_ok IE_CACHE_SIZE ll 0 0).1.ie_cache h).dirty = false := by
    intro h
    cases hval : (ll.ie_cache h).valid
    · apply a6
      cases hd : (ll.ie_cache h).dirty
      · rfl
      · rw [hdv h hd] at hval
        exact absurd hval (by simp)
    · have hlt : h < 64 := by
        rw [← (hc hf h hval).1]
        exact hash_index_lt _
      exact a7 h (Nat.zero_le _) (by simp only [IE_CACHE_SIZE]; omega) hval
  refine ⟨hsome, hnone, ?_, a1, ?_, hclean, ?_⟩
  · intro i r herr
    cases hm : m i with
    | none =>
      rw [hnone i hm] at herr
      simp only [Except.error.injEq] at herr
      exact ⟨rfl, herr.symm⟩
    | some ie =>
      obtain ⟨ll', h'⟩ := hsome i ie hm
      rw [h'] at herr
      exact absurd herr (by simp)
  · intro i
    have hview : ie_view (disk_ll_commit_loop insert_ok IE_CACHE_SIZE ll 0 0).1 i = m i := by
      show ie_view (disk_ll_commit_loop insert_ok IE_CACHE_SIZE ll 0 0).1 i = m i
      rw [a3, hv]
    rw [ie_view_disk _ _ a2] at hview
    by_cases hit :
        ((disk_ll_commit_loop insert_ok IE_CACHE_SIZE ll 0 0).1.ie_cache (hash_index i)).valid = true ∧
        ((disk_ll_commit_loop insert_ok IE_CACHE_SIZE ll 0 0).1.ie_cache (hash_index i)).index = i
    · have hit' : ((disk_ll_commit_loop insert_ok IE_CACHE_SIZE ll 0 0).1.ie_cache
            (hash_index i)).valid = true ∧
          ((disk_ll_commit_loop insert_ok IE_CACHE_SIZE ll 0 0).1.ie_cache
            (hash_index i)).index = i := hit
      rw [if_pos hit'] at hview
      have := (a4 a2 (hash_index i) hit'.1).2 (hclean (hash_index i))
      rw [hit'.2] at this
      rw [← hview]
      exact this
    · have hit' : ¬ (((disk_ll_commit_loop insert_ok IE_CACHE_SIZE ll 0 0).1.ie_cache
            (hash_index i)).valid = true ∧
          ((disk_ll_commit_loop insert_ok IE_CACHE_SIZE ll 0 0).1.ie_cache
            (hash_index i)).index = i) := hit
      rw [if_neg hit'] at hview
      exact hview
  · intro i ie hm
    rw [← load_ie_disk _ i a2]
    exact load_ie_some _ i ie a4 (by
      show ie_view (disk_ll_commit_loop insert_ok IE_CACHE_SIZE ll 0 0).1 i = some ie
      rw [a3, hv]; exact hm)

theorem disk_collided_reach :
    cache_reach disk_collided
      (Function.update
        (Function.update
          (Function.update (fun _ => none) 1
            (some { blocknr := 7, nr_free := 5, none_free_before := 0 }))
          65 (some { blocknr := 8, nr_free := 6, none_free_before := 0 }))
        1 (some { blocknr := 9, nr_free := 4, none_free_before := 1 })) :=
  cache_reach.save _ _ 1 _ _
    (cache_reach.save _ _ 65 _ _
      (cache_reach.save disk_init _ 1 _ _ (cache_reach.init disk_new disk_init rfl rfl) rfl)
      rfl)
    rfl

/-- Witness of C17: after `save_ie(1, .)`, `save_ie(65, .)`, which takes the
slot of index 1, and `save_ie(1, .)` again. -/
theorem ie_cache_transparent_witness :
    hash_index 1 = hash_index 65 ∧
    (∃ ll', disk_ll_load_ie disk_collided 1 =
      .ok (ll', { blocknr := 9, nr_free := 4, none_free_before := 1 })) ∧
    (∃ ll', disk_ll_load_ie disk_collided 65 =
      .ok (ll', { blocknr := 8, nr_free := 6, none_free_before := 0 })) ∧
    disk_ll_load_ie disk_collided 2 = .error (-ENODATA) ∧
    (disk_ll_commit insert_ok disk_collided).2 = 0 ∧
    (∀ h, ((disk_ll_commit insert_ok disk_collided).1.ie_cache h).dirty = false) :=
  ⟨by decide,
    (ie_cache_transparent disk_collided _ disk_collided_reach).1 1 _ (by decide),
    (ie_cache_transparent disk_collided _ disk_collided_reach).1 65 _ (by decide),
    (ie_cache_transparent disk_collided _ disk_collided_reach).2.1 2 (by decide),
    (ie_cache_transparent disk_collided _ disk_collided_reach).2.2.2.1,
    (ie_cache_transparent disk_collided _ disk_collided_reach).2.2.2.2.2.1⟩

/-! ## A decrement that meets a free block: claim C11 -/

theorem with_effect_self (ll : ll_disk) (L : Nat) :
    with_effect ll L (ll.tm.data L) ll.ref_count_tree.vals ll.nr_allocated = ll := by
  rw [with_effect_same_data]

theorem ie_cache_writeback_r_other (ins : index_insert) (ll : ll_disk) (h h' : Nat)
    (hne : h' ≠ h) : (ie_cache_writeback_r ins ll h).1.ie_cache h' = ll.ie_cache h' := by
  unfold ie_cache_writeback_r
  simp only []
  cases ins ll.bitmap_tree (ll.ie_cache h).index (ll.ie_cache h).ie with
  | error r => simp only [Function.update_noteq hne]
  | ok t => simp only [Function.update_noteq hne]

theorem ie_cache_writeback_r_changed (ins : index_insert) (ll : ll_disk) (h : Nat) :
    (ie_cache_writeback_r ins ll h).1.bitmap_index_changed = ll.bitmap_index_changed := by
  unfold ie_cache_writeback_r
  simp only []
  cases ins ll.bitmap_tree (ll.ie_cache h).index (ll.ie_cache h).ie with
  | error r => rfl
  | ok t => rfl

theorem disk_ll_commit_loop_succ (ins : index_insert) (n : Nat) (ll : ll_disk) (i : Nat)
    (r : Int) :
    disk_ll_commit_loop ins (n + 1) ll i r =
      if (ll.ie_cache i).valid = true ∧ (ll.ie_cache i).dirty = true then
        disk_ll_commit_loop ins n (ie_cache_writeback_r ins ll i).1 (i + 1)
          (ie_cache_writeback_r ins ll i).2
      else disk_ll_commit_loop ins n ll (i + 1) r := rfl

/-- The loop of `disk_ll_commit` over slots that are not both valid and dirty
returns the value it was entered with. -/
theorem disk_ll_commit_loop_idle (ins : index_insert) : ∀ (n : Nat) (ll : ll_disk) (i : Nat)
    (r : Int),
    (∀ h, i ≤ h → h < i + n → ¬ ((ll.ie_cache h).valid = true ∧ (ll.ie_cache h).dirty = true)) →
    disk_ll_commit_loop ins n ll i r = (ll, r) := by
  intro n
  induction n with
  | zero => intro ll i r _; rfl
  | succ n ih =>
    intro ll i r h
    rw [disk_ll_commit_loop_succ, if_neg (h i (le_refl _) (by omega))]
    exact ih ll (i + 1) r (fun h' h1 h2 => h h' (by omega) (by omega))

/-- The loop of `disk_ll_commit` returns 0 when the write-back of the last
valid dirty slot succeeds, whatever the write-backs before it returned. -/
theorem disk_ll_commit_loop_last (ins : index_insert) (h : Nat) : ∀ (n : Nat) (ll : ll_disk)
    (i : Nat) (r : Int), i ≤ h → h < i + n →
    (ll.ie_cache h).valid = true → (ll.ie_cache h).dirty = true →
    (∀ t, ∃ t', ins t (ll.ie_cache h).index (ll.ie_cache h).ie = .ok t') →
    (∀ h', h < h' → h' < i + n →
      ¬ ((ll.ie_cache h').valid = true ∧ (ll.ie_cache h').dirty = true)) →
    (disk_ll_commit_loop ins n ll i r).2 = 0 ∧
    (disk_ll_commit_loop ins n ll i r).1.bitmap_index_changed = ll.bitmap_index_changed := by
  intro n
  induction n with
  | zero => intro ll i r h1 h2; omega
  | succ n ih =>
    intro ll i r h1 h2 hv hd hok hlast
    rw [disk_ll_commit_loop_succ]
    by_cases hi : i = h
    · subst hi
      rw [if_pos ⟨hv, hd⟩]
      have hr : (ie_cache_writeback_r ins ll i).2 = 0 := by
        unfold ie_cache_writeback_r
        simp only []
        obtain ⟨t', ht⟩ := hok ll.bitmap_tree
        rw [ht]
      rw [disk_ll_commit_loop_idle ins n _ (i + 1) _ (fun h' g1 g2 => by
        rw [ie_cache_writeback_r_other ins ll i h' (by omega)]
        exact hlast h' (by omega) (by omega))]
      exact ⟨hr, ie_cache_writeback_r_changed ins ll i⟩
    · by_cases hvd : (ll.ie_cache i).valid = true ∧ (ll.ie_cache i).dirty = true
      · rw [if_pos hvd]
        have hsame := ie_cache_writeback_r_other ins ll i h (Ne.symm hi)
        obtain ⟨a1, a2⟩ := ih (ie_cache_writeback_r ins ll i).1 (i + 1)
          (ie_cache_writeback_r ins ll i).2 (by omega) (by omega)
          (by rw [hsame]; exact hv) (by rw [hsame]; exact hd) (by rw [hsame]; exact hok)
          (fun h' g1 g2 => by
            rw [ie_cache_writeback_r_other ins ll i h' (by omega)]
            exact hlast h' g1 (by omega))
        exact ⟨a1, by rw [a2, ie_cache_writeback_r_changed]⟩
      · rw [if_neg hvd]
        exact ih ll (i + 1) r (by omega) (by omega) hv hd hok
          (fun h' g1 g2 => hlast h' g1 (by omega))

/-- What `sm_ll_commit` does for the disk flavor: when `bitmap_index_changed`
is set and the write-back of the last valid dirty slot succeeds, it returns 0
and clears `bitmap_index_changed`, whatever the write-backs of the slots before
it returned. -/
theorem sm_ll_commit_last_slot (ins : index_insert) (ll : ll_disk) (h : Nat)
    (hch : ll.bitmap_index_changed = true) (hh : h < IE_CACHE_SIZE)
    (hv : (ll.ie_cache h).valid = true) (hd : (ll.ie_cache h).dirty = true)
    (hok : ∀ t, ∃ t', ins t (ll.ie_cache h).index (ll.ie_cache h).ie = .ok t')
    (hlast : ∀ h', h < h' → h' < IE_CACHE_SIZE →
      ¬ ((ll.ie_cache h').valid = true ∧ (ll.ie_cache h').dirty = true)) :
    (disk_ll_commit ins ll).2 = 0 ∧
    (sm_ll_commit (disk_ll_commit ins) ll).2 = 0 ∧
    (sm_ll_commit (disk_ll_commit ins) ll).1.bitmap_index_changed = false := by
  obtain ⟨a1, _⟩ := disk_ll_commit_loop_last ins h IE_CACHE_SIZE ll 0 0 (Nat.zero_le _)
    (by omega) hv hd hok (fun h' g1 g2 => hlast h' g1 (by omega))
  have a1' : (disk_ll_commit ins ll).2 = 0 := a1
  refine ⟨a1', ?_, ?_⟩
  · unfold sm_ll_commit
    rw [if_pos hch]
    simp only [a1', if_true]
  · unfold sm_ll_commit
    rw [if_pos hch]
    simp only [a1', if_true]

/-- Witness of `sm_ll_commit_last_slot`: the cache with the dirty slots 0 and
59 and the insert that fails for key 0. -/
theorem sm_ll_commit_last_slot_witness :
    (disk_ll_commit insert_failing_at_zero disk_two_dirty).2 = 0 ∧
    (sm_ll_commit (disk_ll_commit insert_failing_at_zero) disk_two_dirty).2 = 0 ∧
    (sm_ll_commit (disk_ll_commit insert_failing_at_zero) disk_two_dirty).1.bitmap_index_changed
      = false :=
  sm_ll_commit_last_slot insert_failing_at_zero disk_two_dirty 59 (by decide) (by decide)
    (by decide) (by decide) (fun t => ⟨_, rfl⟩) (fun h' g1 g2 => by
      have : h' = 60 ∨ h' = 61 ∨ h' = 62 ∨ h' = 63 := by
        simp only [IE_CACHE_SIZE] at g2
        omega
      rcases this with h | h | h | h <;> subst h <;> decide)

/-! ## The bit order of an entry: claim C21 -/

theorem entry_low_first_eq (addr : Nat → Nat) (j : Nat) :
    entry_low_first addr j
      = (if (addr (j / 32)).testBit (2 * (j % 32)) then 1 else 0)
        + 2 * (if (addr (j / 32)).testBit (2 * (j % 32) + 1) then 1 else 0) := by
  unfold entry_low_first
  have h3 : (3 : Nat) = 2 ^ 2 - 1 := by decide
  rw [h3, Nat.and_pow_two_sub_one_eq_mod, Nat.shiftRight_eq_div_pow]
  generalize addr (j / 32) = w
  generalize 2 * (j % 32) = s
  have e0 : w.testBit s = decide (w / 2 ^ s % 2 = 1) := by
    exact Nat.testBit_to_div_mod
  have e1 : w.testBit (s + 1) = decide (w / 2 ^ s / 2 % 2 = 1) := by
    rw [Nat.testBit_to_div_mod, pow_succ, Nat.div_div_eq_div_mul]
  rw [e0, e1]
  generalize w / 2 ^ s = q
  have : (2:Nat) ^ 2 = 4 := by decide
  rw [this]
  by_cases h0 : q % 2 = 1 <;> by_cases h1 : q / 2 % 2 = 1 <;> simp [h0, h1] <;> omega

/-- Claim C21, amended: for every bitmap word array and position `j`,
`sm_lookup_bitmap(addr, j)` is `2 * h + l` where `h`, the high half of the
code, is bit `2 * (j mod 32)` of the little-endian word `j / 32` and `l`, the
low half, is bit `2 * (j mod 32) + 1`: the lower-numbered bit carries the high
half. The code is below 4. In terms of `x = (word >> (2 * (j mod 32))) & 3` it
is `2 * (x mod 2) + x / 2`, the two bits of `x` exchanged, so that it equals
`x` exactly when `x` is 0 or 3, is 2 when `x` is 1 and is 1 when `x` is 2. -/
theorem sm_lookup_bitmap_bits (addr : Nat → Nat) (j : Nat) :
    sm_lookup_bitmap addr j
      = 2 * (if test_bit_le (2 * (j % 32)) (addr (j / 32)) then 1 else 0)
        + (if test_bit_le (2 * (j % 32) + 1) (addr (j / 32)) then 1 else 0) ∧
    sm_lookup_bitmap addr j < 4 ∧
    sm_lookup_bitmap addr j = 2 * (entry_low_first addr j % 2) + entry_low_first addr j / 2 ∧
    (sm_lookup_bitmap addr j = entry_low_first addr j ↔
      entry_low_first addr j = 0 ∨ entry_low_first addr j = 3) ∧
    (entry_low_first addr j = 1 → sm_lookup_bitmap addr j = 2) ∧
    (entry_low_first addr j = 2 → sm_lookup_bitmap addr j = 1) := by
  have h1 := sm_lookup_bitmap_eq addr j
  have h2 := entry_low_first_eq addr j
  unfold entry_of_word at h1
  unfold test_bit_le
  rw [h1, h2]
  cases (addr (j / 32)).testBit (2 * (j % 32)) <;>
    cases (addr (j / 32)).testBit (2 * (j % 32) + 1) <;> simp

/-- Claim C21 as stated fails: in a word whose only set bit is bit 0, entry 0
reads as 2, while `(word >> 0) & 3` is 1. -/
theorem sm_lookup_bitmap_bits_counterexample :
    ¬ (∀ (addr : Nat → Nat) (j : Nat),
        sm_lookup_bitmap addr j = (addr (j / 32) >>> (2 * (j % 32))) &&& 3) := by
  intro h
  have := h (fun _ => 1) 0
  revert this
  decide

/-! ## Opening a map: claim C22 -/

theorem le64_to_cpu_eq (v : Nat → Nat) :
    le64_to_cpu v = v 0 % 256 + 2 ^ 8 * (v 1 % 256) + 2 ^ 16 * (v 2 % 256)
      + 2 ^ 24 * (v 3 % 256) + 2 ^ 32 * (v 4 % 256) + 2 ^ 40 * (v 5 % 256)
      + 2 ^ 48 * (v 6 % 256) + 2 ^ 56 * (v 7 % 256) := by
  simp only [le64_to_cpu, List.range, List.range.loop, List.foldr]
  omega

theorem le64_to_cpu_lt (v : Nat → Nat) : le64_to_cpu v < 2 ^ 64 := by
  rw [le64_to_cpu_eq]
  have h : ∀ i, v i % 256 < 256 := fun i => Nat.mod_lt _ (by norm_num)
  have h0 := h 0; have h1 := h 1; have h2 := h 2; have h3 := h 3
  have h4 := h 4; have h5 := h 5; have h6 := h 6; have h7 := h 7
  omega

theorem sm_ll_init_flavor (tm : dm_transaction_manager) (f : ll_flavor) :
    (tm.block_size > 2 ^ 30 → sm_ll_init tm f = .error (-EINVAL)) ∧
    (tm.block_size ≤ 2 ^ 30 → ∃ ll, sm_ll_init tm f = .ok ll) := by
  unfold sm_ll_init
  constructor
  · intro h
    rw [if_pos h]
  · intro h
    rw [if_neg (by omega)]
    exact ⟨_, rfl⟩

theorem sm_ll_open_metadata_decoded (S : block_store) (tm : dm_transaction_manager)
    (root_le : Nat → Nat) (len : Nat) (o : ll_disk_roots)
    (h : sm_ll_open_metadata S tm root_le len = .ok o) : root_decoded root_le o := by
  unfold sm_ll_open_metadata at h
  split at h
  · exact absurd h (by simp)
  · simp only [] at h
    split at h
    · exact absurd h (by simp)
    · unfold metadata_ll_open at h
      simp only [] at h
      split at h
      · exact absurd h (by simp)
      · injection h with h
        subst h
        exact ⟨rfl, rfl, rfl, rfl⟩

theorem sm_ll_open_disk_decoded (S : block_store) (tm : dm_transaction_manager)
    (root_le : Nat → Nat) (len : Nat) (o : ll_disk_roots)
    (h : sm_ll_open_disk S tm root_le len = .ok o) : root_decoded root_le o := by
  unfold sm_ll_open_disk at h
  split at h
  · exact absurd h (by simp)
  · simp only [] at h
    split at h
    · exact absurd h (by simp)
    · unfold disk_ll_open at h
      injection h with h
      subst h
      exact ⟨rfl, rfl, rfl, rfl⟩

/-- Claim C22: `sm_ll_open_metadata` and `sm_ll_open_disk` return `-ENOMEM`
whenever `len` is less than the 32 bytes of the root record, whatever the
buffer holds and whether or not `sm_ll_init` or `open_index` would fail, and
have then written nothing to `*ll`. For `len` of at least 32, a call that
succeeds has set `nr_blocks`, `nr_allocated`, `bitmap_root` and
`ref_count_root` to the little-endian values of the bytes 0 to 7, 8 to 15, 16
to 23 and 24 to 31 of the buffer; the call does succeed when `sm_ll_init`
accepts the block size and, for the metadata flavor, the index block at
`bitmap_root` can be read; and the two flavors give the same four values. -/
theorem sm_ll_open_contract (S : block_store) (tm : dm_transaction_manager)
    (root_le : Nat → Nat) (len : Nat) :
    (len < 32 →
      sm_ll_open_metadata S tm root_le len = .error (-ENOMEM) ∧
      sm_ll_open_disk S tm root_le len = .error (-ENOMEM) ∧
      sm_ll_open_metadata_left S tm root_le len = .nothing ∧
      sm_ll_open_disk_left S tm root_le len = .nothing) ∧
    (32 ≤ len →
      (∀ o, sm_ll_open_metadata S tm root_le len = .ok o → root_decoded root_le o) ∧
      (∀ o, sm_ll_open_disk S tm root_le len = .ok o → root_decoded root_le o) ∧
      (tm.block_size ≤ 2 ^ 30 →
        (∃ index, S.index_block (le64_to_cpu (fun i => root_le (16 + i))) = .ok index) →
        ∃ o, sm_ll_open_metadata S tm root_le len = .ok o ∧
          sm_ll_open_metadata_left S tm root_le len = .assigned o) ∧
      (tm.block_size ≤ 2 ^ 30 →
        ∃ o, sm_ll_open_disk S tm root_le len = .ok o ∧
          sm_ll_open_disk_left S tm root_le len = .assigned o) ∧
      (∀ om od, sm_ll_open_metadata S tm root_le len = .ok om →
        sm_ll_open_disk S tm root_le len = .ok od →
        om.ll.nr_blocks = od.ll.nr_blocks ∧ om.ll.nr_allocated = od.ll.nr_allocated ∧
        om.bitmap_root = od.bitmap_root ∧ om.ref_count_root = od.ref_count_root)) := by
  have hsz : sizeof_disk_sm_root = 32 := rfl
  constructor
  · intro hlen
    unfold sm_ll_open_metadata sm_ll_open_disk sm_ll_open_metadata_left sm_ll_open_disk_left
    simp only [hsz, hlen, if_true, and_self]
  · intro hlen
    have hn : ¬ len < 32 := by omega
    refine ⟨fun o h => sm_ll_open_metadata_decoded S tm root_le len o h,
      fun o h => sm_ll_open_disk_decoded S tm root_le len o h, ?_, ?_, ?_⟩
    · intro hbs hidx
      obtain ⟨index, hidx⟩ := hidx
      obtain ⟨ll, hll⟩ := (sm_ll_init_flavor tm .metadata).2 hbs
      unfold sm_ll_open_metadata sm_ll_open_metadata_left metadata_ll_open
      simp only [hsz, hn, if_false, hll, disk_sm_root_of, hidx]
      exact ⟨_, rfl, rfl⟩
    · intro hbs
      obtain ⟨ll, hll⟩ := (sm_ll_init_flavor tm .disk).2 hbs
      unfold sm_ll_open_disk sm_ll_open_disk_left disk_ll_open
      simp only [hsz, hn, if_false, hll]
      exact ⟨_, rfl, rfl⟩
    · intro om od h1 h2
      obtain ⟨a1, a2, a3, a4⟩ := sm_ll_open_metadata_decoded S tm root_le len om h1
      obtain ⟨b1, b2, b3, b4⟩ := sm_ll_open_disk_decoded S tm root_le len od h2
      exact ⟨a1.trans b1.symm, a2.trans b2.symm, a3.trans b3.symm, a4.trans b4.symm⟩

/-- Witness of C22: a buffer of 31 bytes is refused, and the 32 bytes of
`root_bytes` open as `nr_blocks = 100`, `nr_allocated = 10`,
`bitmap_root = 0x1234` and `ref_count_root = 7`. -/
theorem sm_ll_open_contract_witness :
    sm_ll_open_metadata store_empty tm_small root_bytes 31 = .error (-ENOMEM) ∧
    ∃ o, sm_ll_open_disk store_empty tm_small root_bytes 32 = .ok o ∧
      o.ll.nr_blocks = 100 ∧ o.ll.nr_allocated = 10 ∧
      o.bitmap_root = 0x1234 ∧ o.ref_count_root = 7 :=
  ⟨((sm_ll_open_contract store_empty tm_small root_bytes 31).1 (by decide)).1,
    have h := (sm_ll_open_contract store_empty tm_small root_bytes 32).2 (by decide)
    (h.2.2.2.1 (by decide)).elim fun o ho =>
      have d := h.2.1 o ho.1
      ⟨o, ho.1, d.1.trans (by decide), d.2.1.trans (by decide), d.2.2.1.trans (by decide),
        d.2.2.2.trans (by decide)⟩⟩

/-! ## The range of the common search: claim C23 -/

/-- The loop of `sm_ll_find_common_free_block` does not depend on `end`. -/
theorem find_common_free_block_loop_end (e1 e2 : Nat) :
    ∀ (n : Nat) (old_ll new_ll : ll_disk) (begin : Nat),
      sm_ll_find_common_free_block_loop e1 n old_ll new_ll begin
        = sm_ll_find_common_free_block_loop e2 n old_ll new_ll begin := by
  intro n
  induction n with
  | zero => intro _ _ _; rfl
  | succ n ih =>
    intro old_ll new_ll begin
    unfold sm_ll_find_common_free_block_loop
    generalize sm_ll_find_free_block new_ll begin new_ll.nr_blocks = r
    rcases r with r | ⟨new1, b⟩
    · rfl
    · simp only []
      by_cases hb : b ≥ old_ll.nr_blocks
      · simp only [hb, if_true]
      · simp only [hb, if_false]
        generalize sm_ll_lookup old_ll b = q
        rcases q with q | ⟨old1, count⟩
        · rfl
        · simp only []
          by_cases hcnt : count ≠ 0
          · simp only [hcnt, if_true, ne_eq, not_false_eq_true]
            exact ih old1 new1 _
          · simp only [hcnt, if_false]

/-- Claim C23, what the code does: `sm_ll_find_common_free_block` does not
read its argument `end`; the search always runs up to `new_ll->nr_blocks`. For
two states that satisfy the invariants the call ends, a block it returns lies
in `[begin, new_ll->nr_blocks)`, which is the requested range when `end` is
`new_ll->nr_blocks`, and it returns `-ENOSPC` when no block of
`[begin, new_ll->nr_blocks)` is free in both maps. -/
theorem sm_ll_find_common_free_block_range (old_ll new_ll : ll_disk) (begin end_ : Nat)
    (ho : ll_inv old_ll) (hn : ll_inv new_ll) :
    sm_ll_find_common_free_block old_ll new_ll begin end_
      = sm_ll_find_common_free_block old_ll new_ll begin new_ll.nr_blocks ∧
    (∃ r, sm_ll_find_common_free_block old_ll new_ll begin end_ = some r) ∧
    (∀ o n b, sm_ll_find_common_free_block old_ll new_ll begin end_ = some (.ok (o, n, b)) →
      begin ≤ b ∧ b < new_ll.nr_blocks ∧ (end_ = new_ll.nr_blocks → b < end_)) ∧
    ((∀ x, begin ≤ x → x < new_ll.nr_blocks →
        ¬ (lookup_val new_ll x = some 0 ∧
          (old_ll.nr_blocks ≤ x ∨ lookup_val old_ll x = some 0))) →
      sm_ll_find_common_free_block old_ll new_ll begin end_ = some (.error (-ENOSPC))) := by
  have hspec := find_common_free_block_loop_spec (fun i => i < nr_indexes old_ll)
    (fun i => i < nr_indexes new_ll) end_ (new_ll.nr_blocks + 1) old_ll new_ll begin
    ho.index (fun i hi => hi) (fun x hx hc => ho.key x hx hc)
    hn.index (fun i hi => hi) hn.nr_blocks_lt (by omega) (by omega)
  have hdef : sm_ll_find_common_free_block old_ll new_ll begin end_
      = sm_ll_find_common_free_block_loop end_ (new_ll.nr_blocks + 1) old_ll new_ll begin := rfl
  refine ⟨find_common_free_block_loop_end _ _ _ _ _ _, ?_, ?_, ?_⟩
  · rcases hspec with ⟨o', n', b, h, _⟩ | ⟨h, _⟩
    · exact ⟨_, hdef.trans h⟩
    · exact ⟨_, hdef.trans h⟩
  · intro o n b h
    rw [hdef] at h
    rcases hspec with ⟨o', n', b', h', g1, g2, _⟩ | ⟨h', _⟩
    · rw [h'] at h
      have hb : b' = b := by
        have := Option.some.inj h
        injection this with h1
        exact (Prod.mk.inj (Prod.mk.inj h1).2).2
      subst hb
      exact ⟨g1, g2, fun h => by omega⟩
    · rw [h'] at h
      exact absurd (Option.some.inj h) (by simp)
  · intro hnone
    rw [hdef]
    rcases hspec with ⟨o', n', b, h, g1, g2, g3, g4, _⟩ | ⟨h, _⟩
    · exfalso
      apply hnone b g1 g2
      have hr : refcount new_ll b = 0 := by
        unfold refcount
        rw [g3]
        simp
      refine ⟨by rw [lookup_val_of_inv new_ll hn b g2, hr], ?_⟩
      rcases g4 with g4 | g4
      · exact Or.inl g4
      · by_cases hob : old_ll.nr_blocks ≤ b
        · exact Or.inl hob
        · exact Or.inr (by rw [lookup_val_of_inv old_ll ho b (by omega), g4])
    · exact h

/-- Witness of C23 with `end = new_ll->nr_blocks`: the map of 100 blocks with
blocks 0 to 9 in use as `new_ll`, the map of 100 free blocks as `old_ll`, and
the range `[0, 100)`. -/
theorem sm_ll_find_common_free_block_range_witness :
    ∃ r, sm_ll_find_common_free_block map_100 map_used 0 100 = some r :=
  (sm_ll_find_common_free_block_range map_100 map_used 0 100 map_100_inv map_used_inv).2.1

/-- Claim C23 fails on the code: with blocks 0 to 9 in use in `new_ll` and every
block free in `old_ll`, the call for the range `[0, 5)` returns block 10, which
lies outside the range, although no block of `[0, 5)` is free in both maps. -/
theorem sm_ll_find_common_free_block_range_counterexample :
    (∃ o n, sm_ll_find_common_free_block map_100 map_used 0 5 = some (.ok (o, n, 10))) ∧
    0 < 5 ∧ 5 ≤ map_used.nr_blocks ∧ ¬ (10 < 5) ∧
    (∀ x, x < 5 → lookup_val map_used x = some 1) ∧
    sm_ll_find_common_free_block map_100 map_used 0 5 ≠ some (.error (-ENOSPC)) := by
  have h : sm_ll_find_common_free_block map_100 map_used 0 5
      = some (.ok (map_100, map_used, 10)) := rfl
  refine ⟨⟨_, _, h⟩, by decide, by decide, by decide, ?_, ?_⟩
  · intro x hx
    interval_cases x <;> rfl
  · rw [h]
    simp

/-! ## The two paths of the overflow increment and decrement: claims C24 and C25 -/

theorem contains_key_leaf (t : btree Nat) (b c : Nat) (hc : t.vals b = some c) :
    contains_key t (btree_get_overwrite_leaf t b) b = true := by
  simp [contains_key, btree_get_overwrite_leaf, hc]

theorem value_ptr_get_of (t : btree Nat) (b c : Nat) (hc : t.vals b = some c) :
    value_ptr_get t b = c := by
  simp [value_ptr_get, hc]

/-- The fresh-leaf path of the overflow increment. -/
theorem __sm_ll_inc_overflow_spec (ll : ll_disk) (b c : Nat) (ic : inc_context)
    (hc : ll.ref_count_tree.vals b = some c) :
    __sm_ll_inc_overflow ll b ic = .ok (overflow_raised ll b c,
      { reset_inc_context ll ic with
          overflow_leaf := some (btree_get_overwrite_leaf ll.ref_count_tree b) }) := by
  unfold __sm_ll_inc_overflow overflow_raised
  simp only [contains_key_leaf _ b c hc, value_ptr_get_of _ b c hc, not_true_eq_false,
    if_false]

/-- The cached-leaf path of the overflow increment. -/
theorem sm_ll_inc_overflow_cached (ll : ll_disk) (b c n : Nat) (ic : inc_context)
    (hc : ll.ref_count_tree.vals b = some c) (hl : ic.overflow_leaf = some n)
    (hk : contains_key ll.ref_count_tree n b = true) :
    sm_ll_inc_overflow ll b ic = .ok (overflow_raised ll b c, ic) := by
  unfold sm_ll_inc_overflow overflow_raised
  simp only [hl, hk, if_true, value_ptr_get_of _ b c hc]

theorem sm_ll_inc_overflow_fresh (ll : ll_disk) (b : Nat) (ic : inc_context)
    (h : ∀ n, ic.overflow_leaf = some n → contains_key ll.ref_count_tree n b = false) :
    sm_ll_inc_overflow ll b ic = __sm_ll_inc_overflow ll b ic := by
  unfold sm_ll_inc_overflow
  cases hl : ic.overflow_leaf with
  | none => rfl
  | some n => simp only [h n hl, Bool.false_eq_true, if_false]

theorem overflow_raised_vals (ll : ll_disk) (b c : Nat) :
    (overflow_raised ll b c).ref_count_tree.vals b = some ((c + 1) % 2 ^ 32) := by
  simp [overflow_raised, value_ptr_set]

/-- Claim C24: when `sm_ll_inc` reaches a block `x` whose bitmap value is 3 and
whose overflow entry is `c`, the entry becomes `(c + 1) mod 2 ^ 32`, with no
check for overflow. This is what `sm_ll_inc_overflow` stores on the cached-leaf
path (the leaf in the context holds `x`; the context is kept), and what
`__sm_ll_inc_overflow`, the fresh-leaf path taken otherwise, stores; both
return success. On a state that satisfies the invariants `sm_ll_inc` over a
range `[b, e)` below `nr_blocks` that contains `x` succeeds, the bitmap value
of `x` stays 3, and the entry is `c + 1` for `c < 2 ^ 32 - 1` and 0 for
`c = 2 ^ 32 - 1`. -/
theorem sm_ll_inc_overflow_contract (ll : ll_disk) (b e x c : Nat) (hinv : ll_inv ll)
    (hbe : b ≤ x ∧ x < e) (he : e ≤ ll.nr_blocks) (hcell : cell ll x = 3)
    (hc : ll.ref_count_tree.vals x = some c) :
    (∀ ic n, ic.overflow_leaf = some n → contains_key ll.ref_count_tree n x = true →
      sm_ll_inc_overflow ll x ic = .ok (overflow_raised ll x c, ic)) ∧
    (∀ ic, (∀ n, ic.overflow_leaf = some n → contains_key ll.ref_count_tree n x = false) →
      sm_ll_inc_overflow ll x ic = __sm_ll_inc_overflow ll x ic) ∧
    (∀ ic, ∃ ic', __sm_ll_inc_overflow ll x ic = .ok (overflow_raised ll x c, ic')) ∧
    (overflow_raised ll x c).ref_count_tree.vals x = some ((c + 1) % 2 ^ 32) ∧
    (∃ ll' na, sm_ll_inc ll b e = some (.ok (ll', na)) ∧
      ll'.ref_count_tree.vals x = some ((c + 1) % 2 ^ 32) ∧
      cell ll' x = 3 ∧
      (c < 2 ^ 32 - 1 → ll'.ref_count_tree.vals x = some (c + 1)) ∧
      (c = 2 ^ 32 - 1 → ll'.ref_count_tree.vals x = some 0)) := by
  refine ⟨fun ic n hl hk => sm_ll_inc_overflow_cached ll x c n ic hc hl hk,
    fun ic h => sm_ll_inc_overflow_fresh ll x ic h,
    fun ic => ⟨_, __sm_ll_inc_overflow_spec ll x c ic hc⟩,
    overflow_raised_vals ll x c, ?_⟩
  obtain ⟨ll', na, h, P⟩ := sm_ll_inc_succeeds ll b e hinv (by omega) he
  have hepb := hinv.index.epb_pos
  obtain ⟨v, hv, hv'⟩ := P.vals_three x hbe.1 (by omega) hcell
  rw [hc] at hv
  have hvc : c = v := Option.some.inj hv
  subst hvc
  have hcell' := P.cells x (index_lt ll x hepb (by omega))
  rw [if_pos ⟨hbe.1, by omega⟩, hcell] at hcell'
  refine ⟨ll', na, h, hv', hcell', ?_, ?_⟩
  · intro hlt
    rw [hv', Nat.mod_eq_of_lt (by omega)]
  · intro heq
    rw [hv', heq]
    rfl

/-- Witness of C24: block 4 of the map of 100 blocks after
`insert(4, 2 ^ 32 - 1)`, reached by `inc(4, 5)`. -/
theorem sm_ll_inc_overflow_contract_witness :
    ∃ ll' na, sm_ll_inc map_max_count 4 5 = some (.ok (ll', na)) ∧
      ll'.ref_count_tree.vals 4 = some 0 ∧ cell ll' 4 = 3 :=
  have h := (sm_ll_inc_overflow_contract map_max_count 4 5 4 (2 ^ 32 - 1)
    (reach_ok _ _ (map_max_count_reach true true)).inv (by decide) (by decide) (by decide)
    (by decide)).2.2.2.2
  h.elim fun ll' h1 => h1.elim fun na h2 => ⟨ll', na, h2.1, h2.2.2.2.2 rfl, h2.2.2.1⟩

theorem dec_u32 (c : Nat) (h3 : 3 ≤ c) (h32 : c < 2 ^ 32) :
    (c + (2 ^ 32 - 1)) % 2 ^ 32 = c - 1 := by
  omega

theorem __sm_ll_del_overflow_spec (ll : ll_disk) (b c : Nat) (ic : inc_context)
    (hc : ll.ref_count_tree.vals b = some c) :
    __sm_ll_del_overflow ll b ic = .ok ({ ll with ref_count_tree :=
      { ll.ref_count_tree with vals := Function.update ll.ref_count_tree.vals b none } },
      reset_inc_context ll ic) := by
  unfold __sm_ll_del_overflow dm_btree_remove
  simp only [hc]

/-- The fresh-leaf path of the overflow decrement. -/
theorem __sm_ll_dec_overflow_spec (ll : ll_disk) (b c : Nat) (ic : inc_context)
    (hc : ll.ref_count_tree.vals b = some c) (h3 : 3 ≤ c) (h32 : c < 2 ^ 32) :
    __sm_ll_dec_overflow ll b ic =
      .ok ({ ll with ref_count_tree := overflow_after_dec ll.ref_count_tree b c },
        (if c = 3 then reset_inc_context ll ic
         else { reset_inc_context ll ic with
                  overflow_leaf := some (btree_get_overwrite_leaf ll.ref_count_tree b) }), c) := by
  unfold __sm_ll_dec_overflow overflow_after_dec
  simp only [contains_key_leaf _ b c hc, value_ptr_get_of _ b c hc, not_true_eq_false,
    if_false]
  by_cases h : c = 3
  · simp only [h, if_true]
    rw [h] at hc
    rw [__sm_ll_del_overflow_spec ll b 3 _ hc]
    rfl
  · simp only [h, if_false, dec_u32 c h3 h32, value_ptr_set]

/-- The cached-leaf path of the overflow decrement. -/
theorem sm_ll_dec_overflow_cached (ll : ll_disk) (b c n : Nat) (ic : inc_context)
    (hc : ll.ref_count_tree.vals b = some c) (h3 : 3 ≤ c) (h32 : c < 2 ^ 32)
    (hl : ic.overflow_leaf = some n) (hk : contains_key ll.ref_count_tree n b = true) :
    sm_ll_dec_overflow ll b ic =
      .ok ({ ll with ref_count_tree := overflow_after_dec ll.ref_count_tree b c },
        (if c = 3 then reset_inc_context ll ic else ic), c) := by
  unfold sm_ll_dec_overflow overflow_after_dec
  simp only [hl, hk, if_true, value_ptr_get_of _ b c hc]
  by_cases h : c = 3
  · subst h
    rw [if_neg (by decide), __sm_ll_del_overflow_spec ll b 3 _ hc]
    rfl
  · have h' : c > 3 := by omega
    simp only [h', h, if_true, if_false, dec_u32 c h3 h32, value_ptr_set]

theorem sm_ll_dec_overflow_fresh (ll : ll_disk) (b : Nat) (ic : inc_context)
    (h : ∀ n, ic.overflow_leaf = some n → contains_key ll.ref_count_tree n b = false) :
    sm_ll_dec_overflow ll b ic = __sm_ll_dec_overflow ll b ic := by
  unfold sm_ll_dec_overflow
  cases hl : ic.overflow_leaf with
  | none => rfl
  | some n => simp only [h n hl, Bool.false_eq_true, if_false]

theorem overflow_after_dec_vals (t : btree Nat) (b c : Nat) :
    (c = 3 → (overflow_after_dec t b c).vals b = none) ∧
    (3 < c → (overflow_after_dec t b c).vals b = some (c - 1)) ∧
    (∀ k, k ≠ b → (overflow_after_dec t b c).vals k = t.vals k) := by
  unfold overflow_after_dec
  refine ⟨fun h => ?_, fun h => ?_, fun k hk => ?_⟩
  · simp [h]
  · have : ¬ c = 3 := by omega
    simp [this]
  · by_cases h : c = 3 <;> simp [h, hk]

/-- Claim C25: for an overflow entry of block `b` with stored count `c ≥ 3`,
`sm_ll_dec_overflow` on the in-place path (the leaf held in the `inc_context`
contains `b`) and `__sm_ll_dec_overflow`, the path that fetches the leaf with
`btree_get_overwrite_leaf` and that `sm_ll_dec_overflow` takes when the held
leaf does not contain `b`, both return success with `*old_rc = c` and leave
the same state: `b` is removed from the tree when `c = 3`, its value is
`c - 1` when `c > 3`, and no other entry changes. The `inc_context` is the
only thing in which the paths differ: when `c = 3` both have released every
lock, when `c > 3` the in-place path keeps its context and the other path
holds the fetched leaf and no bitmap block. -/
theorem sm_ll_dec_overflow_paths (ll : ll_disk) (b c n : Nat) (ic ic0 : inc_context)
    (hc : ll.ref_count_tree.vals b = some c) (h3 : 3 ≤ c) (h32 : c < 2 ^ 32)
    (hl : ic.overflow_leaf = some n) (hk : contains_key ll.ref_count_tree n b = true) :
    ∃ ll' ic1 ic2,
      sm_ll_dec_overflow ll b ic = .ok (ll', ic1, c) ∧
      __sm_ll_dec_overflow ll b ic0 = .ok (ll', ic2, c) ∧
      ((∀ m, ic0.overflow_leaf = some m → contains_key ll.ref_count_tree m b = false) →
        sm_ll_dec_overflow ll b ic0 = .ok (ll', ic2, c)) ∧
      ll' = { ll with ref_count_tree := overflow_after_dec ll.ref_count_tree b c } ∧
      (c = 3 → ll'.ref_count_tree.vals b = none) ∧
      (3 < c → ll'.ref_count_tree.vals b = some (c - 1)) ∧
      (∀ k, k ≠ b → ll'.ref_count_tree.vals k = ll.ref_count_tree.vals k) ∧
      ic1 = (if c = 3 then reset_inc_context ll ic else ic) ∧
      ic2 = (if c = 3 then reset_inc_context ll ic0
        else { reset_inc_context ll ic0 with
                 overflow_leaf := some (btree_get_overwrite_leaf ll.ref_count_tree b) }) := by
  have hA := sm_ll_dec_overflow_cached ll b c n ic hc h3 h32 hl hk
  have hB := __sm_ll_dec_overflow_spec ll b c ic0 hc h3 h32
  obtain ⟨v1, v2, v3⟩ := overflow_after_dec_vals ll.ref_count_tree b c
  exact ⟨_, _, _, hA, hB, fun h => by rw [sm_ll_dec_overflow_fresh ll b ic0 h, hB], rfl,
    v1, v2, v3, rfl, rfl⟩

/-- Witness of C25: block 70 of the map of 100 blocks after `insert(70, 7)`;
the context on the in-place path holds the leaf of block 70, the other context
holds no leaf. -/
theorem sm_ll_dec_overflow_paths_witness :
    ∃ ll' ic1 ic2,
      sm_ll_dec_overflow map_big_count 70
        { ie_disk := map_big_count.mi_le 1, bitmap_block := none,
          overflow_leaf := some (btree_get_overwrite_leaf map_big_count.ref_count_tree 70) }
        = .ok (ll', ic1, 7) ∧
      __sm_ll_dec_overflow map_big_count 70
        { ie_disk := map_big_count.mi_le 1, bitmap_block := none, overflow_leaf := none }
        = .ok (ll', ic2, 7) ∧
      ll'.ref_count_tree.vals 70 = some 6 :=
  have h := sm_ll_dec_overflow_paths map_big_count 70 7
    (btree_get_overwrite_leaf map_big_count.ref_count_tree 70)
    { ie_disk := map_big_count.mi_le 1, bitmap_block := none,
      overflow_leaf := some (btree_get_overwrite_leaf map_big_count.ref_count_tree 70) }
    { ie_disk := map_big_count.mi_le 1, bitmap_block := none, overflow_leaf := none }
    (by decide) (by decide) (by decide) rfl (by decide)
  h.elim fun ll' h1 => h1.elim fun ic1 h2 => h2.elim fun ic2 h3 =>
    ⟨ll', ic1, ic2, h3.1, h3.2.1, h3.2.2.2.2.2.1 (by decide)⟩

/-! ## What a call leaves as it was, whatever blocks it names -/

theorem inc_step_raw (ll : ll_disk) (b bit : Nat) (na : Int) (ic : inc_context)
    (hic : ic_ok ic) :
    (∀ n, sm_ll_inc_bitmap_loop (n + 1) ll b bit na ic = .error (-EINVAL)) ∨
    (∃ data1 vals1 a1 na1 ic1,
      (∀ n, sm_ll_inc_bitmap_loop (n + 1) ll b bit na ic =
        sm_ll_inc_bitmap_loop n (with_effect ll ic.ie_disk.blocknr data1 vals1 a1)
          (b + 1) (bit + 1) na1 ic1) ∧
      (∀ k, k ≠ b → vals1 k = ll.ref_count_tree.vals k) ∧
      (ll.nr_allocated < 2 ^ 64 → a1 < 2 ^ 64) ∧
      ic_ok ic1 ∧ ic1.ie_disk.blocknr = ic.ie_disk.blocknr ∧
      (wrap_s32 na = na → wrap_s32 na1 = na1)) := by
  have hlt := sm_lookup_bitmap_lt (ll.tm.data ic.ie_disk.blocknr) bit
  have hc : sm_lookup_bitmap (ll.tm.data ic.ie_disk.blocknr) bit = 0 ∨
      sm_lookup_bitmap (ll.tm.data ic.ie_disk.blocknr) bit = 1 ∨
      sm_lookup_bitmap (ll.tm.data ic.ie_disk.blocknr) bit = 2 ∨
      sm_lookup_bitmap (ll.tm.data ic.ie_disk.blocknr) bit = 3 := by omega
  rcases hc with hc | hc | hc | hc
  · right
    refine ⟨sm_set_bitmap (ll.tm.data ic.ie_disk.blocknr) bit 1, ll.ref_count_tree.vals,
      (ll.nr_allocated + 1) % 2 ^ 64, wrap_s32 (na + 1),
        { ie_disk :=
            if ic.ie_disk.none_free_before = bit then
              { blocknr := ic.ie_disk.blocknr,
                nr_free := (ic.ie_disk.nr_free + (2 ^ 32 - 1)) % 2 ^ 32,
                none_free_before := (bit + 1) % 2 ^ 32 }
            else
              { blocknr := ic.ie_disk.blocknr,
                nr_free := (ic.ie_disk.nr_free + (2 ^ 32 - 1)) % 2 ^ 32,
                none_free_before := ic.ie_disk.none_free_before },
          bitmap_block := some ic.ie_disk.blocknr, overflow_leaf := ic.overflow_leaf },
        ?_, fun _ _ => rfl, fun _ => Nat.mod_lt _ (by norm_num), ?_, ?_,
        fun _ => wrap_s32_idem _⟩
    · intro n
      rw [sm_ll_inc_bitmap_loop, ensure_bitmap_eq _ _ hic]
      simp only [hc, if_true]
      rw [with_effect_mk]
    · by_cases hn : ic.ie_disk.none_free_before = bit
      · simp only [hn, if_true]; exact ic_ok_of_locked _ _
      · simp only [hn, if_false]; exact ic_ok_of_locked _ _
    · by_cases hn : ic.ie_disk.none_free_before = bit
      · simp only [hn, if_true]
      · simp only [hn, if_false]
  · right
    refine ⟨sm_set_bitmap (ll.tm.data ic.ie_disk.blocknr) bit 2, ll.ref_count_tree.vals,
      ll.nr_allocated, na, { ic with bitmap_block := some ic.ie_disk.blocknr },
      ?_, fun _ _ => rfl, fun h => h, Or.inr rfl, rfl, fun h => h⟩
    intro n
    rw [sm_ll_inc_bitmap_loop, ensure_bitmap_eq _ _ hic]
    simp only [hc, one_ne_zero, if_false]
    rw [with_effect_mk2]
  · right
    refine ⟨sm_set_bitmap (ll.tm.data ic.ie_disk.blocknr) bit 3,
      Function.update ll.ref_count_tree.vals b (some 3), ll.nr_allocated, na,
      reset_inc_context ll { ic with bitmap_block := some ic.ie_disk.blocknr },
      ?_, fun k hk => Function.update_noteq hk _ _, fun h => h, Or.inl rfl, rfl, fun h => h⟩
    intro n
    rw [sm_ll_inc_bitmap_loop, ensure_bitmap_eq _ _ hic]
    simp only [hc, OfNat.ofNat_ne_zero, if_false, reset_inc_context]
    rw [with_effect_mk3]
  · rcases inc_overflow_spec ll b { ic with bitmap_block := some ic.ie_disk.blocknr } with
      ⟨_, he⟩ | ⟨v, ic1, _, he, hie, hbb⟩
    · left
      intro n
      rw [sm_ll_inc_bitmap_loop, ensure_bitmap_eq _ _ hic]
      simp only [hc, he]
    · right
      refine ⟨ll.tm.data ic.ie_disk.blocknr,
        Function.update ll.ref_count_tree.vals b (some ((v + 1) % 2 ^ 32)), ll.nr_allocated,
        na, ic1, ?_, fun k hk => Function.update_noteq hk _ _, fun h => h, ?_, ?_, fun h => h⟩
      · intro n
        rw [sm_ll_inc_bitmap_loop, ensure_bitmap_eq _ _ hic]
        simp only [hc, he, OfNat.ofNat_ne_zero, if_false]
        rw [with_effect_same_data]
      · rcases hbb with h | h
        · exact Or.inl h
        · right; rw [h, hie]
      · rw [hie]

theorem raw_frame_step (ll ll' : ll_disk) (L b n : Nat) (d1 : Nat → Nat)
    (v1 : Nat → Option Nat) (a1 : Nat)
    (hv : ∀ k, k ≠ b → v1 k = ll.ref_count_tree.vals k)
    (ha : ll.nr_allocated < 2 ^ 64 → a1 < 2 ^ 64)
    (h : raw_frame (with_effect ll L d1 v1 a1) ll' L (b + 1) n) :
    raw_frame ll ll' L b (n + 1) := by
  refine ⟨?_, ?_, ?_⟩
  · have := h.eq
    rw [with_effect_twice] at this
    exact this
  · intro k hk
    rw [h.vals_out k (by omega), with_effect_vals]
    exact hv k (by omega)
  · intro hl
    exact h.nalloc_lt (by rw [with_effect_nalloc]; exact ha hl)

theorem inc_loop_raw : ∀ (n : Nat) (ll : ll_disk) (b bit : Nat) (na : Int) (ic : inc_context),
    ic_ok ic →
    ∀ ll' na' b' ic', sm_ll_inc_bitmap_loop n ll b bit na ic = .ok (ll', na', b', ic') →
      raw_frame ll ll' ic.ie_disk.blocknr b n ∧ b' = b + n ∧
      ic'.ie_disk.blocknr = ic.ie_disk.blocknr ∧ (wrap_s32 na = na → wrap_s32 na' = na') := by
  intro n
  induction n with
  | zero =>
    intro ll b bit na ic _ ll' na' b' ic' h
    rw [sm_ll_inc_bitmap_loop] at h
    injection h with h
    obtain ⟨h1, h2⟩ := Prod.mk.inj h
    obtain ⟨h6, h3⟩ := Prod.mk.inj h2
    obtain ⟨h4, h5⟩ := Prod.mk.inj h3
    subst h1 h4 h5 h6
    exact ⟨⟨(with_effect_self _ _).symm, fun _ _ => rfl, fun h => h⟩, rfl, rfl, fun h => h⟩
  | succ n ih =>
    intro ll b bit na ic hic ll' na' b' ic' h
    rcases inc_step_raw ll b bit na ic hic with he | ⟨d1, v1, a1, na1, ic1, heq, hv, ha, hic1, hbl, hw1⟩
    · rw [he n] at h
      exact absurd h (by simp)
    · rw [heq n] at h
      obtain ⟨F, hb', hbl', hw'⟩ := ih _ _ _ _ _ hic1 _ _ _ _ h
      rw [hbl] at F
      exact ⟨raw_frame_step ll ll' _ b n d1 v1 a1 hv ha F, by omega, hbl'.trans hbl,
        fun h => hw' (hw1 h)⟩

theorem dec_step_raw (ll : ll_disk) (b bit : Nat) (na : Int) (ic : inc_context)
    (hic : ic_ok ic) :
    (∀ n, sm_ll_dec_bitmap_loop (n + 1) ll b bit ic na = .error (-EINVAL)) ∨
    (∃ data1 vals1 a1 na1 ic1,
      (∀ n, sm_ll_dec_bitmap_loop (n + 1) ll b bit ic na =
        sm_ll_dec_bitmap_loop n (with_effect ll ic.ie_disk.blocknr data1 vals1 a1)
          (b + 1) (bit + 1) ic1 na1) ∧
      (∀ k, k ≠ b → vals1 k = ll.ref_count_tree.vals k) ∧
      (ll.nr_allocated < 2 ^ 64 → a1 < 2 ^ 64) ∧
      ic_ok ic1 ∧ ic1.ie_disk.blocknr = ic.ie_disk.blocknr ∧
      (wrap_s32 na = na → wrap_s32 na1 = na1)) := by
  have hlt := sm_lookup_bitmap_lt (ll.tm.data ic.ie_disk.blocknr) bit
  have hc : sm_lookup_bitmap (ll.tm.data ic.ie_disk.blocknr) bit = 0 ∨
      sm_lookup_bitmap (ll.tm.data ic.ie_disk.blocknr) bit = 1 ∨
      sm_lookup_bitmap (ll.tm.data ic.ie_disk.blocknr) bit = 2 ∨
      sm_lookup_bitmap (ll.tm.data ic.ie_disk.blocknr) bit = 3 := by omega
  rcases hc with hc | hc | hc | hc
  · left
    intro n
    rw [sm_ll_dec_bitmap_loop, ensure_bitmap_eq _ _ hic]
    simp only [hc]
  · right
    refine ⟨sm_set_bitmap (ll.tm.data ic.ie_disk.blocknr) bit 0, ll.ref_count_tree.vals,
      (ll.nr_allocated + (2 ^ 64 - 1)) % 2 ^ 64, wrap_s32 (na - 1),
      { ie_disk :=
          { blocknr := ic.ie_disk.blocknr,
            nr_free := (ic.ie_disk.nr_free + 1) % 2 ^ 32,
            none_free_before := min ic.ie_disk.none_free_before bit },
        bitmap_block := some ic.ie_disk.blocknr, overflow_leaf := ic.overflow_leaf },
      ?_, fun _ _ => rfl, fun _ => Nat.mod_lt _ (by norm_num), ic_ok_of_locked _ _, rfl,
      fun _ => wrap_s32_idem _⟩
    intro n
    rw [sm_ll_dec_bitmap_loop, ensure_bitmap_eq _ _ hic]
    simp only [hc, if_true]
    rw [with_effect_mk]
  · right
    refine ⟨sm_set_bitmap (ll.tm.data ic.ie_disk.blocknr) bit 1, ll.ref_count_tree.vals,
      ll.nr_allocated, na, { ic with bitmap_block := some ic.ie_disk.blocknr },
      ?_, fun _ _ => rfl, fun h => h, Or.inr rfl, rfl, fun h => h⟩
    intro n
    rw [sm_ll_dec_bitmap_loop, ensure_bitmap_eq _ _ hic]
    simp only [hc, OfNat.ofNat_ne_one, if_false]
    rw [with_effect_mk2]
  · rcases dec_overflow_spec ll b { ic with bitmap_block := some ic.ie_disk.blocknr } with
      ⟨_, he⟩ | ⟨v, vals1, ic1, _, he, hvo, _, _, hie, hbb⟩
    · left
      intro n
      rw [sm_ll_dec_bitmap_loop, ensure_bitmap_eq _ _ hic]
      simp only [hc, he]
    · right
      have hic1 : ic_ok ic1 := by
        rcases hbb with h | h
        · exact Or.inl h
        · right; rw [h, hie]
      by_cases h3 : v = 3
      · refine ⟨sm_set_bitmap (ll.tm.data ic.ie_disk.blocknr) bit 2, vals1, ll.nr_allocated,
          na, { ic1 with bitmap_block := some ic1.ie_disk.blocknr },
          ?_, hvo, fun h => h, Or.inr rfl, ?_, fun h => h⟩
        · intro n
          rw [sm_ll_dec_bitmap_loop, ensure_bitmap_eq _ _ hic]
          simp only [hc, he, h3, if_true]
          rw [ensure_bitmap_eq _ _ hic1]
          simp only [hie, OfNat.ofNat_ne_one, if_false]
          rw [with_effect_flat]
        · simp only [hie]
      · refine ⟨ll.tm.data ic.ie_disk.blocknr, vals1, ll.nr_allocated, na, ic1,
          ?_, hvo, fun h => h, hic1, ?_, fun h => h⟩
        · intro n
          rw [sm_ll_dec_bitmap_loop, ensure_bitmap_eq _ _ hic]
          simp only [hc, he, h3, if_false, OfNat.ofNat_ne_one]
          rw [with_effect_same_data]
        · rw [hie]

theorem dec_loop_raw : ∀ (n : Nat) (ll : ll_disk) (b bit : Nat) (na : Int) (ic : inc_context),
    ic_ok ic →
    ∀ ll' na' b' ic', sm_ll_dec_bitmap_loop n ll b bit ic na = .ok (ll', na', b', ic') →
      raw_frame ll ll' ic.ie_disk.blocknr b n ∧ b' = b + n ∧
      ic'.ie_disk.blocknr = ic.ie_disk.blocknr ∧ (wrap_s32 na = na → wrap_s32 na' = na') := by
  intro n
  induction n with
  | zero =>
    intro ll b bit na ic _ ll' na' b' ic' h
    rw [sm_ll_dec_bitmap_loop] at h
    injection h with h
    obtain ⟨h1, h2⟩ := Prod.mk.inj h
    obtain ⟨h6, h3⟩ := Prod.mk.inj h2
    obtain ⟨h4, h5⟩ := Prod.mk.inj h3
    subst h1 h4 h5 h6
    exact ⟨⟨(with_effect_self _ _).symm, fun _ _ => rfl, fun h => h⟩, rfl, rfl, fun h => h⟩
  | succ n ih =>
    intro ll b bit na ic hic ll' na' b' ic' h
    rcases dec_step_raw ll b bit na ic hic with he | ⟨d1, v1, a1, na1, ic1, heq, hv, ha, hic1, hbl, hw1⟩
    · rw [he n] at h
      exact absurd h (by simp)
    · rw [heq n] at h
      obtain ⟨F, hb', hbl', hw'⟩ := ih _ _ _ _ _ hic1 _ _ _ _ h
      rw [hbl] at F
      exact ⟨raw_frame_step ll ll' _ b n d1 v1 a1 hv ha F, by omega, hbl'.trans hbl,
        fun h => hw' (hw1 h)⟩

/-- The hook `load_ie` with no condition on the cache: it leaves the core of
the state and the index array alone, and for the metadata flavor it changes
nothing and returns the array element. -/
theorem load_ie_raw (ll ll0 : ll_disk) (i : Nat) (ie : disk_index_entry)
    (h : load_ie ll i = .ok (ll0, ie)) :
    same_core ll ll0 ∧ ll0.mi_le = ll.mi_le ∧
    (ll.flavor = .metadata → ll0 = ll ∧ ie = ll.mi_le i) := by
  unfold load_ie at h
  cases hf : ll.flavor with
  | metadata =>
    rw [hf] at h
    simp only [metadata_ll_load_ie] at h
    injection h with h
    obtain ⟨h1, h2⟩ := Prod.mk.inj h
    subst h1
    exact ⟨same_core_refl _, rfl, fun _ => ⟨rfl, h2.symm⟩⟩
  | disk =>
    rw [hf] at h
    simp only [] at h
    rw [disk_ll_load_ie_eq] at h
    refine ⟨?_, ?_, fun hm => absurd hm (by simp)⟩
    · split at h
      · injection h with h
        rw [← (Prod.mk.inj h).1]
        exact same_core_refl _
      · unfold load_miss at h
        split at h
        · exact absurd h (by simp)
        · injection h with h
          rw [← (Prod.mk.inj h).1]
          unfold after_evict
          split
          · exact ⟨rfl, rfl, rfl, rfl, rfl, rfl⟩
          · exact ⟨rfl, rfl, rfl, rfl, rfl, rfl⟩
    · split at h
      · injection h with h
        rw [← (Prod.mk.inj h).1]
      · unfold load_miss at h
        split at h
        · exact absurd h (by simp)
        · injection h with h
          rw [← (Prod.mk.inj h).1]
          unfold after_evict
          split <;> rfl

/-- The hook `save_ie` with no condition on the cache. -/
theorem save_ie_raw (ll ll' : ll_disk) (i : Nat) (ie : disk_index_entry)
    (h : save_ie ll i ie = .ok ll') :
    same_core ll ll' ∧
    (ll.flavor = .metadata → ll' = metadata_ll_save_ie_state ll i ie) := by
  unfold save_ie at h
  cases hf : ll.flavor with
  | metadata =>
    rw [hf] at h
    simp only [metadata_ll_save_ie] at h
    injection h with h
    subst h
    exact ⟨⟨rfl, rfl, rfl, rfl, rfl, rfl⟩, fun _ => rfl⟩
  | disk =>
    rw [hf] at h
    simp only [] at h
    rw [disk_ll_save_ie_eq] at h
    refine ⟨?_, fun hm => absurd hm (by simp)⟩
    split at h
    · injection h with h
      subst h
      exact ⟨rfl, rfl, rfl, rfl, rfl, rfl⟩
    · injection h with h
      subst h
      unfold after_evict
      split
      · exact ⟨rfl, rfl, rfl, rfl, rfl, rfl⟩
      · exact ⟨rfl, rfl, rfl, rfl, rfl, rfl⟩

/-- The parts of a successful round of `sm_ll_inc`. -/
theorem __sm_ll_inc_parts (ll : ll_disk) (b e : Nat) (na : Int) (ll3 : ll_disk) (na' : Int)
    (nb : Nat) (h : __sm_ll_inc ll b e na = .ok (ll3, na', nb)) :
    ∃ ll0 ie ll2 ic2, load_ie ll (b / ll.entries_per_block) = .ok (ll0, ie) ∧
      sm_ll_inc_bitmap_loop
          (min (range_bits (b % ll.entries_per_block) e b) ll0.entries_per_block
            - b % ll.entries_per_block)
          { ll0 with tm := (dm_tm_shadow_block ll0.tm ie.blocknr).1 } b
          (b % ll.entries_per_block) na
          { ie_disk := { ie with blocknr := (dm_tm_shadow_block ll0.tm ie.blocknr).2 },
            bitmap_block := some (dm_tm_shadow_block ll0.tm ie.blocknr).2,
            overflow_leaf := none } = .ok (ll2, na', nb, ic2) ∧
      save_ie ll2 (b / ll.entries_per_block) ic2.ie_disk = .ok ll3 := by
  cases hload : load_ie ll (b / ll.entries_per_block) with
  | error r =>
    unfold __sm_ll_inc at h
    simp only [hload] at h
    exact absurd h (by simp)
  | ok p =>
    obtain ⟨ll0, ie⟩ := p
    rw [__sm_ll_inc_eq ll b e na ll0 ie hload _ rfl] at h
    split at h
    · exact absurd h (by simp)
    · rename_i ll2 na2 nb2 ic2 hloop
      split at h
      · exact absurd h (by simp)
      · rename_i ll4 hsave
        injection h with h
        obtain ⟨h1, h2⟩ := Prod.mk.inj h
        obtain ⟨h3, h4⟩ := Prod.mk.inj h2
        subst h1 h3 h4
        exact ⟨ll0, ie, ll2, ic2, rfl, hloop, hsave⟩

/-- The parts of a successful round of `sm_ll_dec`. -/
theorem __sm_ll_dec_parts (ll : ll_disk) (b e : Nat) (na : Int) (ll3 : ll_disk) (na' : Int)
    (nb : Nat) (h : __sm_ll_dec ll b e na = .ok (ll3, na', nb)) :
    ∃ ll0 ie ll2 ic2, load_ie ll (b / ll.entries_per_block) = .ok (ll0, ie) ∧
      sm_ll_dec_bitmap_loop
          (min (range_bits (b % ll.entries_per_block) e b) ll0.entries_per_block
            - b % ll.entries_per_block)
          { ll0 with tm := (dm_tm_shadow_block ll0.tm ie.blocknr).1 } b
          (b % ll.entries_per_block)
          { ie_disk := { ie with blocknr := (dm_tm_shadow_block ll0.tm ie.blocknr).2 },
            bitmap_block := some (dm_tm_shadow_block ll0.tm ie.blocknr).2,
            overflow_leaf := none } na = .ok (ll2, na', nb, ic2) ∧
      save_ie ll2 (b / ll.entries_per_block) ic2.ie_disk = .ok ll3 := by
  cases hload : load_ie ll (b / ll.entries_per_block) with
  | error r =>
    unfold __sm_ll_dec at h
    simp only [hload] at h
    exact absurd h (by simp)
  | ok p =>
    obtain ⟨ll0, ie⟩ := p
    rw [__sm_ll_dec_eq ll b e na ll0 ie hload _ rfl] at h
    split at h
    · exact absurd h (by simp)
    · rename_i ll2 na2 nb2 ic2 hloop
      split at h
      · exact absurd h (by simp)
      · rename_i ll4 hsave
        injection h with h
        obtain ⟨h1, h2⟩ := Prod.mk.inj h
        obtain ⟨h3, h4⟩ := Prod.mk.inj h2
        subst h1 h3 h4
        exact ⟨ll0, ie, ll2, ic2, rfl, hloop, hsave⟩

/-- From the frame of the loop over one bitmap block to the frame of the round
around it. -/
theorem round_frame_of (ll ll0 ll2 ll3 : ll_disk) (i b n : Nat) (ie ie' : disk_index_entry)
    (hload : load_ie ll i = .ok (ll0, ie))
    (F : raw_frame { ll0 with tm := (dm_tm_shadow_block ll0.tm ie.blocknr).1 } ll2
      (dm_tm_shadow_block ll0.tm ie.blocknr).2 b n)
    (hbl : ie'.blocknr = (dm_tm_shadow_block ll0.tm ie.blocknr).2)
    (hsave : save_ie ll2 i ie' = .ok ll3) : round_frame ll ll3 i b n := by
  obtain ⟨hc0, hm0, hmeta0⟩ := load_ie_raw ll ll0 i ie hload
  obtain ⟨hc3, hmeta3⟩ := save_ie_raw ll2 ll3 i ie' hsave
  obtain ⟨c1, c2, c3, c4, c5, c6⟩ := hc0
  obtain ⟨s1, s2, s3, s4, s5, s6⟩ := hc3
  have e2 := F.eq
  have f2 : ll2.flavor = ll0.flavor := by rw [e2]; rfl
  have p2 : ll2.entries_per_block = ll0.entries_per_block := by rw [e2]; rfl
  have n2 : ll2.nr_blocks = ll0.nr_blocks := by rw [e2]; rfl
  have m2 : ll2.mi_le = ll0.mi_le := by rw [e2]; rfl
  have t2 : ll2.tm = tm_write (dm_tm_shadow_block ll0.tm ie.blocknr).1
      (dm_tm_shadow_block ll0.tm ie.blocknr).2
      (ll2.tm.data (dm_tm_shadow_block ll0.tm ie.blocknr).2) := by
    conv => lhs; rw [e2]
    rfl
  refine ⟨by rw [s2, f2, c2], by rw [s3, p2, c3], by rw [s4, n2, c4], ?_, ?_, ?_, ?_, ?_, ?_⟩
  · intro k hk
    rw [s6, F.vals_out k hk]
    show ll0.ref_count_tree.vals k = _
    rw [c6]
  · intro hl
    rw [s5]
    exact F.nalloc_lt (by show ll0.nr_allocated < _; rw [c5]; exact hl)
  · intro hf
    obtain ⟨g1, g2⟩ := hmeta0 hf
    subst g1
    rw [s1, t2, g2]
    rfl
  · intro hf loc hloc
    obtain ⟨g1, g2⟩ := hmeta0 hf
    subst g1
    rw [g2] at t2
    rw [s1, t2]
    simp only [tm_write]
    exact Function.update_noteq hloc _ _
  · intro hf j hj
    obtain ⟨g1, _⟩ := hmeta0 hf
    subst g1
    rw [hmeta3 (f2.trans hf)]
    simp only [metadata_ll_save_ie_state]
    rw [Function.update_noteq hj, m2]
  · intro hf
    obtain ⟨g1, g2⟩ := hmeta0 hf
    subst g1
    rw [hmeta3 (f2.trans hf)]
    simp only [metadata_ll_save_ie_state]
    rw [Function.update_same, hbl, g2]

/-- The frame of a successful round of `sm_ll_inc`. -/
theorem __sm_ll_inc_frame (ll : ll_disk) (b e : Nat) (na : Int) (ll3 : ll_disk) (na' : Int)
    (nb : Nat) (h : __sm_ll_inc ll b e na = .ok (ll3, na', nb)) :
    round_frame ll ll3 (b / ll.entries_per_block) b
      (min (range_bits (b % ll.entries_per_block) e b) ll.entries_per_block
        - b % ll.entries_per_block) ∧
    nb = b + (min (range_bits (b % ll.entries_per_block) e b) ll.entries_per_block
        - b % ll.entries_per_block) ∧
    (wrap_s32 na = na → wrap_s32 na' = na') := by
  obtain ⟨ll0, ie, ll2, ic2, hload, hloop, hsave⟩ := __sm_ll_inc_parts ll b e na ll3 na' nb h
  have hepb : ll0.entries_per_block = ll.entries_per_block :=
    (load_ie_raw ll ll0 _ ie hload).1.2.2.1
  have hn : min (range_bits (b % ll.entries_per_block) e b) ll0.entries_per_block
      - b % ll.entries_per_block
      = min (range_bits (b % ll.entries_per_block) e b) ll.entries_per_block
        - b % ll.entries_per_block := by rw [hepb]
  obtain ⟨F, hnb, hbl, hw⟩ := inc_loop_raw _ _ _ _ _ _ (ic_ok_of_locked _ _) _ _ _ _ hloop
  rw [hn] at F hnb
  exact ⟨round_frame_of ll ll0 ll2 ll3 _ b _ ie ic2.ie_disk hload F hbl hsave, hnb, hw⟩

/-- The frame of a successful round of `sm_ll_dec`. -/
theorem __sm_ll_dec_frame (ll : ll_disk) (b e : Nat) (na : Int) (ll3 : ll_disk) (na' : Int)
    (nb : Nat) (h : __sm_ll_dec ll b e na = .ok (ll3, na', nb)) :
    round_frame ll ll3 (b / ll.entries_per_block) b
      (min (range_bits (b % ll.entries_per_block) e b) ll.entries_per_block
        - b % ll.entries_per_block) ∧
    nb = b + (min (range_bits (b % ll.entries_per_block) e b) ll.entries_per_block
        - b % ll.entries_per_block) ∧
    (wrap_s32 na = na → wrap_s32 na' = na') := by
  obtain ⟨ll0, ie, ll2, ic2, hload, hloop, hsave⟩ := __sm_ll_dec_parts ll b e na ll3 na' nb h
  have hepb : ll0.entries_per_block = ll.entries_per_block :=
    (load_ie_raw ll ll0 _ ie hload).1.2.2.1
  have hn : min (range_bits (b % ll.entries_per_block) e b) ll0.entries_per_block
      - b % ll.entries_per_block
      = min (range_bits (b % ll.entries_per_block) e b) ll.entries_per_block
        - b % ll.entries_per_block := by rw [hepb]
  obtain ⟨F, hnb, hbl, hw⟩ := dec_loop_raw _ _ _ _ _ _ (ic_ok_of_locked _ _) _ _ _ _ hloop
  rw [hn] at F hnb
  exact ⟨round_frame_of ll ll0 ll2 ll3 _ b _ ie ic2.ie_disk hload F hbl hsave, hnb, hw⟩

theorem insert_step_raw (ll ll2 : ll_disk) (nb bit b ref_count old : Nat)
    (h : insert_step ll nb bit b ref_count old = .ok ll2) :
    ∃ d v, ll2 = with_effect ll nb d v ll.nr_allocated ∧
      (∀ k, k ≠ b → v k = ll.ref_count_tree.vals k) := by
  by_cases hold : 2 < old → ll.ref_count_tree.vals b ≠ none
  · rw [insert_step_spec ll nb bit b ref_count old hold] at h
    injection h with h
    refine ⟨_, _, h.symm, ?_⟩
    intro k hk
    by_cases hr : ref_count ≤ 2
    · rw [if_pos hr]
      by_cases ho : 2 < old
      · rw [if_pos ho, Function.update_noteq hk]
      · rw [if_neg ho]
    · rw [if_neg hr, Function.update_noteq hk]
  · have ho : 2 < old := by
      by_contra hc
      exact hold (fun h2 => absurd h2 hc)
    have hv : ll.ref_count_tree.vals b = none := by
      by_contra hc
      exact hold (fun _ => hc)
    unfold insert_step at h
    by_cases hr : ref_count ≤ 2
    · simp only [hr, if_true, gt_iff_lt, ho, dm_btree_remove, hv] at h
      exact absurd h (by simp)
    · simp only [hr, if_false] at h
      injection h with h
      refine ⟨sm_set_bitmap (ll.tm.data nb) bit 3,
        Function.update ll.ref_count_tree.vals b (some ref_count), ?_,
        fun k hk => Function.update_noteq hk _ _⟩
      rw [← h]
      rfl

/-- The frame of a successful `sm_ll_insert`. -/
theorem sm_ll_insert_frame (ll ll' : ll_disk) (b ref_count : Nat) (na : Int)
    (h : sm_ll_insert ll b ref_count = .ok (ll', na)) :
    round_frame ll ll' (b / ll.entries_per_block) b 1 := by
  cases hload : load_ie ll (b / ll.entries_per_block) with
  | error r =>
    unfold sm_ll_insert at h
    simp only [hload] at h
    exact absurd h (by simp)
  | ok p =>
    obtain ⟨ll0, ie⟩ := p
    rw [sm_ll_insert_eq ll b ref_count ll0 ie hload] at h
    split at h
    · exact absurd h (by simp)
    · rename_i old _
      split at h
      · exact absurd h (by simp)
      · rename_i ll2 hstep
        rw [insert_account_eq] at h
        split at h
        · exact absurd h (by simp)
        · rename_i ll3 hsave
          injection h with h
          have h3 : ll3 = ll' := (Prod.mk.inj h).1
          subst h3
          obtain ⟨d, v, e2, hv⟩ := insert_step_raw _ _ _ _ _ _ _ hstep
          refine round_frame_of ll ll0 _ ll3 _ b 1 ie _ hload ?_ rfl hsave
          refine ⟨?_, ?_, ?_⟩
          · rw [e2, with_effect_nalloc_set]
            exact with_effect_frame _ _ _ _ _
          · intro k hk
            show ll2.ref_count_tree.vals k = ll0.ref_count_tree.vals k
            rw [e2, with_effect_vals]
            exact hv k (by omega)
          · intro hl
            show (if ref_count ≠ 0 ∧ old = 0 then (ll2.nr_allocated + 1) % 2 ^ 64
              else if old ≠ 0 ∧ ref_count = 0 then (ll2.nr_allocated + (2 ^ 64 - 1)) % 2 ^ 64
              else ll2.nr_allocated) < 2 ^ 64
            have h2 : ll2.nr_allocated < 2 ^ 64 := by
              rw [e2, with_effect_nalloc]
              exact hl
            split
            · exact Nat.mod_lt _ (by norm_num)
            · split
              · exact Nat.mod_lt _ (by norm_num)
              · exact h2

theorem round_len_le (epb b e : Nat) (hbe : b ≤ e) (he : e < 2 ^ 64) :
    b + (min (range_bits (b % epb) e b) epb - b % epb) ≤ e := by
  rw [range_bits_eq _ _ _ hbe he (Nat.mod_le b epb)]
  have := Nat.mod_le b epb
  omega

theorem range_frame_round (ll ll1 ll' : ll_disk) (i b n e : Nat) (hbn : b + n ≤ e)
    (F : round_frame ll ll1 i b n) (G : range_frame ll1 ll' (b + n) e) :
    range_frame ll ll' b e := by
  refine ⟨G.flavor.trans F.flavor, G.epb.trans F.epb, G.nr_blocks.trans F.nr_blocks, ?_, ?_⟩
  · intro k hk
    rw [G.vals_out k (by omega), F.vals_out k (by omega)]
  · intro hl
    exact G.nalloc_lt (F.nalloc_lt hl)

theorem sm_ll_inc_loop_frame (e : Nat) (he : e < 2 ^ 64) :
    ∀ (fuel : Nat) (ll : ll_disk) (b : Nat) (na : Int) (ll' : ll_disk) (na' : Int), b ≤ e →
      sm_ll_inc_loop fuel ll b e na = some (.ok (ll', na')) → range_frame ll ll' b e := by
  intro fuel
  induction fuel with
  | zero =>
    intro ll b na ll' na' _ h
    unfold sm_ll_inc_loop at h
    split at h
    · have h1 := (Prod.mk.inj (Except.ok.inj (Option.some.inj h))).1
      subst h1
      exact ⟨rfl, rfl, rfl, fun _ _ => rfl, fun h => h⟩
    · exact absurd h (by simp)
  | succ fuel ih =>
    intro ll b na ll' na' hbe h
    unfold sm_ll_inc_loop at h
    split at h
    · have h1 := (Prod.mk.inj (Except.ok.inj (Option.some.inj h))).1
      subst h1
      exact ⟨rfl, rfl, rfl, fun _ _ => rfl, fun h => h⟩
    · split at h
      · exact absurd h (by simp)
      · rename_i ll1 na1 nb hround
        obtain ⟨F, hnb, _⟩ := __sm_ll_inc_frame ll b e na ll1 na1 nb hround
        have hle := round_len_le ll.entries_per_block b e hbe he
        rw [hnb] at h
        exact range_frame_round ll ll1 ll' _ b _ e hle F (ih ll1 _ na1 ll' na' hle h)

theorem sm_ll_dec_loop_frame (e : Nat) (he : e < 2 ^ 64) :
    ∀ (fuel : Nat) (ll : ll_disk) (b : Nat) (na : Int) (ll' : ll_disk) (na' : Int), b ≤ e →
      sm_ll_dec_loop fuel ll b e na = some (.ok (ll', na')) → range_frame ll ll' b e := by
  intro fuel
  induction fuel with
  | zero =>
    intro ll b na ll' na' _ h
    unfold sm_ll_dec_loop at h
    split at h
    · have h1 := (Prod.mk.inj (Except.ok.inj (Option.some.inj h))).1
      subst h1
      exact ⟨rfl, rfl, rfl, fun _ _ => rfl, fun h => h⟩
    · exact absurd h (by simp)
  | succ fuel ih =>
    intro ll b na ll' na' hbe h
    unfold sm_ll_dec_loop at h
    split at h
    · have h1 := (Prod.mk.inj (Except.ok.inj (Option.some.inj h))).1
      subst h1
      exact ⟨rfl, rfl, rfl, fun _ _ => rfl, fun h => h⟩
    · split at h
      · exact absurd h (by simp)
      · rename_i ll1 na1 nb hround
        obtain ⟨F, hnb, _⟩ := __sm_ll_dec_frame ll b e na ll1 na1 nb hround
        have hle := round_len_le ll.entries_per_block b e hbe he
        rw [hnb] at h
        exact range_frame_round ll ll1 ll' _ b _ e hle F (ih ll1 _ na1 ll' na' hle h)

/-- A call of `sm_ll_inc` or `sm_ll_dec` with `b > e` does not return. -/
theorem sm_ll_inc_backwards (ll : ll_disk) (b e : Nat) (h : e < b) : sm_ll_inc ll b e = none := by
  unfold sm_ll_inc
  rw [show e - b = 0 by omega]
  unfold sm_ll_inc_loop
  rw [if_neg (by omega)]

theorem sm_ll_dec_backwards (ll : ll_disk) (b e : Nat) (h : e < b) : sm_ll_dec ll b e = none := by
  unfold sm_ll_dec
  rw [show e - b = 0 by omega]
  unfold sm_ll_dec_loop
  rw [if_neg (by omega)]

theorem sm_ll_inc_frame (ll ll' : ll_disk) (b e : Nat) (na : Int) (he : e < 2 ^ 64)
    (h : sm_ll_inc ll b e = some (.ok (ll', na))) : b ≤ e ∧ range_frame ll ll' b e := by
  have hbe : b ≤ e := by
    by_contra hc
    rw [sm_ll_inc_backwards ll b e (by omega)] at h
    exact absurd h (by simp)
  exact ⟨hbe, sm_ll_inc_loop_frame e he _ ll b 0 ll' na hbe h⟩

theorem sm_ll_dec_frame (ll ll' : ll_disk) (b e : Nat) (na : Int) (he : e < 2 ^ 64)
    (h : sm_ll_dec ll b e = some (.ok (ll', na))) : b ≤ e ∧ range_frame ll ll' b e := by
  have hbe : b ≤ e := by
    by_contra hc
    rw [sm_ll_dec_backwards ll b e (by omega)] at h
    exact absurd h (by simp)
  exact ⟨hbe, sm_ll_dec_loop_frame e he _ ll b 0 ll' na hbe h⟩

/-- The loop of `sm_ll_extend` touches neither the block count nor the overflow
tree, whatever the state was. -/
theorem sm_ll_extend_loop_frame : ∀ (n : Nat) (ll : ll_disk) (i : Nat) (ll' : ll_disk),
    sm_ll_extend_loop n ll i = .ok ll' → same_core { ll with tm := ll'.tm } ll' := by
  intro n
  induction n with
  | zero =>
    intro ll i ll' h
    unfold sm_ll_extend_loop at h
    injection h with h
    subst h
    exact ⟨rfl, rfl, rfl, rfl, rfl, rfl⟩
  | succ n ih =>
    intro ll i ll' h
    rw [sm_ll_extend_loop_succ] at h
    split at h
    · exact absurd h (by simp)
    · rename_i ll2 hsave
      obtain ⟨_, s2, s3, s4, s5, s6⟩ := (save_ie_raw _ ll2 i _ hsave).1
      obtain ⟨_, t2, t3, t4, t5, t6⟩ := ih ll2 (i + 1) ll' h
      exact ⟨rfl, t2.trans s2, t3.trans s3, t4.trans s4, t5.trans s5, t6.trans s6⟩

theorem sm_ll_extend_frame (ll ll' : ll_disk) (extra_blocks : Nat)
    (h : sm_ll_extend ll extra_blocks = .ok ll') :
    ll'.nr_blocks = (ll.nr_blocks + extra_blocks) % 2 ^ 64 ∧
    ll'.ref_count_tree = ll.ref_count_tree ∧ ll'.nr_allocated = ll.nr_allocated ∧
    ll'.entries_per_block = ll.entries_per_block ∧ ll'.flavor = ll.flavor := by
  unfold sm_ll_extend at h
  simp only [] at h
  split at h
  · exact absurd h (by simp)
  · obtain ⟨_, t2, t3, t4, t5, t6⟩ := sm_ll_extend_loop_frame _ _ _ ll' h
    exact ⟨t4, t6, t5, t3, t2⟩

/-! ## Keys of the overflow tree: claim C14 -/

/-- Every state of `reach true true` is a state of `steps`, whatever the
flags. -/
theorem reach_steps (p q r s : Bool) (ll : ll_disk) (ref : Nat → Nat)
    (h : reach true true ll ref) : steps p q r s ll := by
  induction h with
  | new_metadata tm ll hnew hepb => exact steps.new_metadata tm ll hnew hepb
  | new_disk tm ll hnew hepb => exact steps.new_disk tm ll hnew hepb
  | extend ll ref extra_blocks ll' hr hok hext ih =>
    obtain ⟨h1, h2⟩ := hok rfl
    exact steps.extend ll extra_blocks ll' ih (by omega) (fun _ => h1)
      (fun _ => by rw [Nat.mod_eq_of_lt h1]; exact h2) hext
  | insert ll ref b ref_count ll' na hr hb hrc hins ih =>
    have hN := (reach_ok ll ref hr).inv.nr_blocks_lt
    exact steps.insert ll b ref_count ll' na ih (by omega) hrc (fun _ => hb) hins
  | inc ll ref b e ll' na hr hbe he hrc hinc ih =>
    have hR := reach_ok ll ref hr
    have hN := hR.inv.nr_blocks_lt
    exact steps.inc ll b e ll' na ih (by omega) (by omega) (fun _ => he)
      (fun _ x hx1 hx2 => by rw [hR.ref_eq x (by omega)]; exact hrc rfl x hx1 hx2) hinc
  | dec ll ref b e ll' na hr hbe he hdec ih =>
    have hN := (reach_ok ll ref hr).inv.nr_blocks_lt
    exact steps.dec ll b e ll' na ih (by omega) (by omega) (fun _ => he) hdec

/-- Calls on blocks below `nr_blocks` write overflow entries only for such
blocks, and `nr_blocks` does not fall unless an extension wraps. -/
theorem steps_keys (r s : Bool) (ll : ll_disk) (h : steps true true r s ll) :
    ll.nr_blocks < 2 ^ 64 ∧ ∀ k v, ll.ref_count_tree.vals k = some v → k < ll.nr_blocks := by
  induction h with
  | new_metadata tm ll hnew hepb =>
    obtain ⟨_, _, n3, _, n5⟩ := sm_ll_new_metadata_ok tm ll hnew hepb
    refine ⟨by rw [n3]; norm_num, fun k v hv => ?_⟩
    rw [n5 k] at hv
    exact absurd hv (by simp)
  | new_disk tm ll hnew hepb =>
    obtain ⟨_, _, n3, _, n5⟩ := sm_ll_new_disk_ok tm ll hnew hepb
    refine ⟨by rw [n3]; norm_num, fun k v hv => ?_⟩
    rw [n5 k] at hv
    exact absurd hv (by simp)
  | extend ll extra_blocks ll' _ _ hno _ hext ih =>
    obtain ⟨e1, e2, _⟩ := sm_ll_extend_frame ll ll' extra_blocks hext
    have hsum := hno rfl
    rw [Nat.mod_eq_of_lt hsum] at e1
    refine ⟨by rw [e1]; exact hsum, fun k v hv => ?_⟩
    rw [e2] at hv
    have := ih.2 k v hv
    omega
  | insert ll b ref_count ll' na _ _ _ hb hins ih =>
    have F := sm_ll_insert_frame ll ll' b ref_count na hins
    refine ⟨by rw [F.nr_blocks]; exact ih.1, fun k v hv => ?_⟩
    rw [F.nr_blocks]
    by_cases hk : k = b
    · rw [hk]; exact hb rfl
    · rw [F.vals_out k (by omega)] at hv
      exact ih.2 k v hv
  | inc ll b e ll' na _ _ he hle _ hinc ih =>
    obtain ⟨_, F⟩ := sm_ll_inc_frame ll ll' b e na he hinc
    refine ⟨by rw [F.nr_blocks]; exact ih.1, fun k v hv => ?_⟩
    rw [F.nr_blocks]
    by_cases hk : b ≤ k ∧ k < e
    · have := hle rfl
      omega
    · rw [F.vals_out k hk] at hv
      exact ih.2 k v hv
  | dec ll b e ll' na _ _ he hle hdec ih =>
    obtain ⟨_, F⟩ := sm_ll_dec_frame ll ll' b e na he hdec
    refine ⟨by rw [F.nr_blocks]; exact ih.1, fun k v hv => ?_⟩
    rw [F.nr_blocks]
    by_cases hk : b ≤ k ∧ k < e
    · have := hle rfl
      omega
    · rw [F.vals_out k hk] at hv
      exact ih.2 k v hv

theorem map_wrapped_steps (p q r : Bool) : steps p q r false map_wrapped :=
  steps.inc map_max_count 4 5 map_wrapped 0
    (steps.insert map_100 4 (2 ^ 32 - 1) map_max_count 1
      (steps.extend map_new 100 map_100
        (steps.new_metadata tm_small map_new map_new_eq (by decide))
        (by decide) (fun _ => by decide) (fun _ => by decide) map_100_eq)
      (by decide) (by decide) (fun _ => by decide) map_max_count_eq)
    (by decide) (by decide) (fun _ => by decide) (fun h => absurd h (by decide)) map_wrapped_eq

/-- Claim C14, amended: in every state reachable from a new map by successful
`sm_ll_extend`, `sm_ll_insert`, `sm_ll_inc` and `sm_ll_dec` calls on blocks
below `nr_blocks`, no extension taking `nr_blocks + extra_blocks` to `2 ^ 64`,
the overflow tree holds no key at or past `nr_blocks`. Reference counts may
wrap and the number of bitmap blocks may reach `2 ^ 32`. -/
theorem overflow_keys_below_nr_blocks (ll : ll_disk) (h : steps true true false false ll)
    (k : Nat) (hk : ll.nr_blocks ≤ k) :
    dm_btree_lookup ll.ref_count_tree k = .error (-ENODATA) := by
  have hinv := (steps_keys false false ll h).2
  unfold dm_btree_lookup
  cases hv : ll.ref_count_tree.vals k with
  | none => rfl
  | some v =>
    have := hinv k v hv
    omega

/-- Witness of C14: key 120 in the map of 100 blocks after `insert(4, 2 ^ 32 - 1)`
and `inc(4, 5)`, where the count of block 4 has wrapped to 0. -/
theorem overflow_keys_below_nr_blocks_witness :
    100 ≤ 120 ∧ dm_btree_lookup map_wrapped.ref_count_tree 120 = .error (-ENODATA) :=
  ⟨by decide,
    overflow_keys_below_nr_blocks map_wrapped (map_wrapped_steps true true false) 120
      (by decide)⟩

/-- Counterexample to C14 as stated: on the new metadata map extended to 100
blocks, with 64 entries per bitmap, `insert(110, 7)` succeeds, and the overflow
tree then holds key 110 although `nr_blocks` is 100. And after `insert(70, 7)`
on the same map the extension by `2 ^ 64 - 50` blocks succeeds and leaves
`nr_blocks = 50`, with key 70 still in the overflow tree. -/
theorem overflow_keys_below_nr_blocks_counterexample :
    sm_ll_new_metadata tm_small = .ok map_new ∧
    sm_ll_extend map_new 100 = .ok map_100 ∧
    sm_ll_insert map_100 110 7 = .ok (map_beyond, 1) ∧
    map_beyond.nr_blocks = 100 ∧
    dm_btree_lookup map_beyond.ref_count_tree 110 = .ok 7 ∧
    sm_ll_insert map_100 70 7 = .ok (map_big_count, 1) ∧
    sm_ll_extend map_big_count (2 ^ 64 - 50) = .ok map_shrunk ∧
    map_shrunk.nr_blocks = 50 ∧
    dm_btree_lookup map_shrunk.ref_count_tree 70 = .ok 7 :=
  ⟨rfl, rfl, rfl, by decide, by rfl, rfl, map_shrunk_eq, by decide, by rfl⟩

/-! ## The index entries when the calls name any block: claim C7 -/

theorem saved_metadata (S : Nat → Prop) (ll : ll_disk) (hinv : index_inv ll S)
    (hf : ll.flavor = .metadata) (j : Nat) (hj : S j) : entry_ok ll (ll.mi_le j) := by
  obtain ⟨ie, hv, hok⟩ := hinv.saved j hj
  rw [ie_view_metadata ll j hf] at hv
  rw [Option.some.inj hv]
  exact hok

/-- A round through an element of the index array outside `S` leaves the
bitmaps of `S` and their entries as they were. -/
theorem index_inv_foreign (S : Nat → Prop) (ll ll' : ll_disk) (i0 b n : Nat)
    (hinv : index_inv ll S) (hf : ll.flavor = .metadata) (hS : ¬ S i0)
    (hlt : (ll.mi_le i0).blocknr < ll.tm.next)
    (hne : ∀ j, S j → (ll.mi_le j).blocknr ≠ (ll.mi_le i0).blocknr)
    (F : round_frame ll ll' i0 b n) :
    index_inv ll' S ∧ (∀ x, S (x / ll.entries_per_block) → cell ll' x = cell ll x) := by
  have hf' : ll'.flavor = .metadata := F.flavor.trans hf
  obtain ⟨_, sh2, _, sh4, _, sh6, _⟩ := shadow_block_spec ll.tm (ll.mi_le i0).blocknr hlt
  have hmi : ∀ j, S j → ll'.mi_le j = ll.mi_le j := fun j hj =>
    F.mi_out hf j (fun e => hS (e ▸ hj))
  have hdata : ∀ j, S j → ll'.tm.data (ll.mi_le j).blocknr = ll.tm.data (ll.mi_le j).blocknr := by
    intro j hj
    have hb := (saved_metadata S ll hinv hf j hj).1
    rw [F.data hf _ ?_, sh2 _ hb]
    rcases sh6 with h | h
    · rw [h]; exact hne j hj
    · rw [h]; exact Nat.ne_of_lt hb
  have hok : ∀ j, S j → entry_ok ll' (ll.mi_le j) := by
    intro j hj
    obtain ⟨o1, o2, o3, o4, o5⟩ := saved_metadata S ll hinv hf j hj
    refine ⟨?_, ?_, ?_, ?_, ?_⟩
    · rw [F.next hf]; omega
    · rw [hdata j hj]; exact o2
    · rw [hdata j hj, F.epb]; exact o3
    · rw [F.epb]; exact o4
    · rw [hdata j hj]; exact o5
  refine ⟨⟨by rw [F.epb]; exact hinv.epb_pos, by rw [F.epb]; exact hinv.epb_lt,
    fun hd => absurd (hf'.symm.trans hd) (by simp), ?_, ?_,
    fun hd => absurd (hf'.symm.trans hd) (by simp)⟩, ?_⟩
  · intro j hj
    exact ⟨ll.mi_le j, by rw [ie_view_metadata ll' j hf', hmi j hj], hok j hj⟩
  · intro i j ie je hi hj hvi hvj hb
    rw [ie_view_metadata ll' _ hf', hmi i hi] at hvi
    rw [ie_view_metadata ll' _ hf', hmi j hj] at hvj
    exact hinv.inj i j ie je hi hj (by rw [ie_view_metadata ll _ hf]; exact hvi)
      (by rw [ie_view_metadata ll _ hf]; exact hvj) hb
  · intro x hx
    unfold cell
    rw [F.epb, ie_view_metadata ll' _ hf', ie_view_metadata ll _ hf, hmi _ hx]
    simp only []
    rw [hdata _ hx]

/-- The elements of the index array outside `S` still point at blocks of their
own after a round through element `i0`, in `S` or not. -/
theorem apart_step (S : Nat → Prop) (ll ll' : ll_disk) (i0 b n : Nat)
    (hf : ll.flavor = .metadata)
    (hlt : ∀ j, (ll.mi_le j).blocknr < ll.tm.next)
    (hap : ∀ i, ¬ S i → ∀ j, S j → (ll.mi_le j).blocknr ≠ (ll.mi_le i).blocknr)
    (F : round_frame ll ll' i0 b n) :
    ∀ i, ¬ S i → (ll'.mi_le i).blocknr < ll'.tm.next ∧
      ∀ j, S j → (ll'.mi_le j).blocknr ≠ (ll'.mi_le i).blocknr := by
  obtain ⟨_, _, _, sh4, sh5, sh6, _⟩ := shadow_block_spec ll.tm (ll.mi_le i0).blocknr (hlt i0)
  have hB : ∀ t, (ll'.mi_le t).blocknr =
      if t = i0 then (dm_tm_shadow_block ll.tm (ll.mi_le i0).blocknr).2
      else (ll.mi_le t).blocknr := by
    intro t
    by_cases ht : t = i0
    · rw [if_pos ht, ht]; exact F.mi_at hf
    · rw [if_neg ht, F.mi_out hf t ht]
  intro i hi
  refine ⟨?_, ?_⟩
  · rw [hB i, F.next hf]
    by_cases h : i = i0
    · rw [if_pos h]; exact sh5
    · rw [if_neg h]; have := hlt i; omega
  · intro j hj
    rw [hB i, hB j]
    have hij : j ≠ i := fun e => hi (e ▸ hj)
    by_cases h1 : i = i0
    · have h2 : j ≠ i0 := fun e => hij (e.trans h1.symm)
      rw [if_pos h1, if_neg h2]
      rcases sh6 with h | h
      · rw [h, ← h1]; exact hap i hi j hj
      · rw [h]; exact Nat.ne_of_lt (hlt j)
    · rw [if_neg h1]
      by_cases h2 : j = i0
      · rw [if_pos h2]
        rcases sh6 with h | h
        · rw [h, ← h2]; exact hap i hi j hj
        · rw [h]; exact Nat.ne_of_gt (hlt i)
      · rw [if_neg h2]; exact hap i hi j hj

theorem wide_lt (S : Nat → Prop) (ll : ll_disk) (h : wide_inv ll S)
    (hf : ll.flavor = .metadata) (j : Nat) : (ll.mi_le j).blocknr < ll.tm.next := by
  by_cases hj : S j
  · exact (saved_metadata S ll h.index hf j hj).1
  · exact (h.apart hf j hj).1

/-- A new metadata map has an index array whose elements are all below the
first free location. -/
theorem sm_ll_new_metadata_apart (tm : dm_transaction_manager) (ll : ll_disk)
    (h : sm_ll_new_metadata tm = .ok ll) (i : Nat) : (ll.mi_le i).blocknr < ll.tm.next := by
  unfold sm_ll_new_metadata sm_ll_init at h
  split at h
  · exact absurd h (by simp)
  · rename_i ll0 h0
    split at h0
    · exact absurd h0 (by simp)
    · injection h0 with h0
      subst h0
      simp only [metadata_ll_init_index] at h
      injection h with h
      subst h
      show 0 < tm.next + 1
      omega

theorem same_block (epb b m x : Nat) (hm : b % epb + m ≤ epb) (h1 : b ≤ x) (h2 : x < b + m) :
    x / epb = b / epb := by
  have hb := Nat.div_add_mod b epb
  have hmul : b / epb * epb = epb * (b / epb) := Nat.mul_comm _ _
  exact (div_mod_of_block epb (b / epb) x (by omega) (by omega)).1

/-- One round through bitmap index `i0` over the blocks `[b, b + m)` keeps
`wide_inv`, given what the round does when `i0` is one of the bitmaps `S`. -/
theorem wide_of_round (S : Nat → Prop) (ll ll1 : ll_disk) (i0 b m : Nat)
    (W : wide_inv ll S) (F : round_frame ll ll1 i0 b m)
    (hblk : ∀ x, b ≤ x → x < b + m → x / ll.entries_per_block = i0)
    (hin : S i0 → index_inv ll1 S ∧
      (∀ x, S (x / ll.entries_per_block) → ¬ (b ≤ x ∧ x < b + m) → cell ll1 x = cell ll x) ∧
      (∀ x v, b ≤ x → x < b + m → cell ll1 x = 3 → ll1.ref_count_tree.vals x = some v →
        3 ≤ v ∧ v < 2 ^ 32))
    (hdisk : ll.flavor = .disk → S i0) :
    wide_inv ll1 S ∧
    (∀ x, S (x / ll.entries_per_block) → ¬ (b ≤ x ∧ x < b + m) → cell ll1 x = cell ll x) := by
  have hni : nr_indexes ll1 = nr_indexes ll := by
    unfold nr_indexes
    rw [F.nr_blocks, F.epb]
  have hap : ll1.flavor = .metadata → ∀ i, ¬ S i →
      (ll1.mi_le i).blocknr < ll1.tm.next ∧
      ∀ j, S j → (ll1.mi_le j).blocknr ≠ (ll1.mi_le i).blocknr := by
    intro hf1
    have hf : ll.flavor = .metadata := F.flavor.symm.trans hf1
    exact apart_step S ll ll1 i0 b m hf (wide_lt S ll W hf)
      (fun i hi j hj => (W.apart hf i hi).2 j hj) F
  by_cases hS : S i0
  · obtain ⟨I, C, B⟩ := hin hS
    refine ⟨⟨I, fun i hi => W.covers i (hni ▸ hi), hni ▸ W.few, ?_, F.nalloc_lt W.nalloc, hap⟩, C⟩
    intro x v hx hc hv
    rw [F.epb] at hx
    by_cases hr : b ≤ x ∧ x < b + m
    · exact B x v hr.1 hr.2 hc hv
    · rw [C x hx hr] at hc
      rw [F.vals_out x hr] at hv
      exact W.big x v hx hc hv
  · have hf : ll.flavor = .metadata := by
      cases hfl : ll.flavor with
      | metadata => rfl
      | disk => exact absurd (hdisk hfl) hS
    obtain ⟨I, C⟩ := index_inv_foreign S ll ll1 i0 b m W.index hf hS (W.apart hf i0 hS).1
      (fun j hj => (W.apart hf i0 hS).2 j hj) F
    refine ⟨⟨I, fun i hi => W.covers i (hni ▸ hi), hni ▸ W.few, ?_, F.nalloc_lt W.nalloc, hap⟩,
      fun x hx _ => C x hx⟩
    intro x v hx hc hv
    rw [F.epb] at hx
    have hr : ¬ (b ≤ x ∧ x < b + m) := fun hr => hS (hblk x hr.1 hr.2 ▸ hx)
    rw [C x hx] at hc
    rw [F.vals_out x hr] at hv
    exact W.big x v hx hc hv

theorem load_ie_disk_saved (S : Nat → Prop) (ll ll0 : ll_disk) (i : Nat) (ie : disk_index_entry)
    (hinv : index_inv ll S) (hload : load_ie ll i = .ok (ll0, ie)) (hd : ll.flavor = .disk) :
    S i :=
  hinv.disk_saved hd i ie (load_ie_ok ll ll0 i ie hinv.cache hload).1

/-- One successful round of `sm_ll_inc` keeps `wide_inv`, when no overflow
entry of a block of the round holds `2 ^ 32 - 1` under a bitmap value of 3. -/
theorem wide_inc_round (S : Nat → Prop) (ll ll1 : ll_disk) (b e : Nat) (na na1 : Int) (nb : Nat)
    (W : wide_inv ll S) (hbe : b < e) (he : e < 2 ^ 64) (hna : wrap_s32 na = na)
    (hrc : ∀ x, b ≤ x → x < e → S (x / ll.entries_per_block) → cell ll x = 3 →
      ∀ v, ll.ref_count_tree.vals x = some v → v < 2 ^ 32 - 1)
    (h : __sm_ll_inc ll b e na = .ok (ll1, na1, nb)) :
    wide_inv ll1 S ∧ b < nb ∧ nb ≤ e ∧ wrap_s32 na1 = na1 ∧
    ll1.entries_per_block = ll.entries_per_block ∧
    (∀ x, S (x / ll.entries_per_block) → ¬ (b ≤ x ∧ x < nb) → cell ll1 x = cell ll x) ∧
    (∀ x, ¬ (b ≤ x ∧ x < nb) → ll1.ref_count_tree.vals x = ll.ref_count_tree.vals x) := by
  have hepb := W.index.epb_pos
  obtain ⟨l1, l2, l3, l4⟩ := block_len ll.entries_per_block b e hepb hbe he
  obtain ⟨F, hnb, hw⟩ := __sm_ll_inc_frame ll b e na ll1 na1 nb h
  rw [l1] at F hnb
  obtain ⟨ll0, ie, _, _, hload, _, _⟩ := __sm_ll_inc_parts ll b e na ll1 na1 nb h
  have hW := wide_of_round S ll ll1 _ b _ W F
    (fun x h1 h2 => same_block ll.entries_per_block b _ x l3 h1 h2) ?_
    (load_ie_disk_saved S ll ll0 _ ie W.index hload)
  · rw [hnb]
    exact ⟨hW.1, by omega, l4, hw hna, F.epb, hW.2, F.vals_out⟩
  · intro hS
    obtain ⟨_, R⟩ := (sm_ll_inc_block_spec S ll b e na W.index hS hbe he hna W.nalloc).2.2
      ll1 na1 nb h
    refine ⟨R.inv, fun x hx hr => by rw [R.cells x hx, if_neg hr], ?_⟩
    intro x v h1 h2 hc hv
    have hx : S (x / ll.entries_per_block) := by
      rw [same_block ll.entries_per_block b _ x l3 h1 h2]; exact hS
    rw [R.cells x hx, if_pos ⟨h1, h2⟩] at hc
    have hlt := cell_lt ll x
    have h23 : cell ll x = 2 ∨ cell ll x = 3 := by omega
    rcases h23 with h2c | h3c
    · rw [R.vals_two x h1 h2 h2c] at hv
      have := Option.some.inj hv
      omega
    · obtain ⟨v0, hv0, hv1⟩ := R.vals_three x h1 h2 h3c
      rw [hv1] at hv
      have hb0 := W.big x v0 hx h3c hv0
      have hlt0 := hrc x h1 (by omega) hx h3c v0 hv0
      have := Option.some.inj hv
      rw [Nat.mod_eq_of_lt (by omega)] at this
      omega

/-- One successful round of `sm_ll_dec` keeps `wide_inv`. -/
theorem wide_dec_round (S : Nat → Prop) (ll ll1 : ll_disk) (b e : Nat) (na na1 : Int) (nb : Nat)
    (W : wide_inv ll S) (hbe : b < e) (he : e < 2 ^ 64) (hna : wrap_s32 na = na)
    (h : __sm_ll_dec ll b e na = .ok (ll1, na1, nb)) :
    wide_inv ll1 S ∧ b < nb ∧ nb ≤ e ∧ wrap_s32 na1 = na1 := by
  have hepb := W.index.epb_pos
  obtain ⟨l1, l2, l3, l4⟩ := block_len ll.entries_per_block b e hepb hbe he
  obtain ⟨F, hnb, hw⟩ := __sm_ll_dec_frame ll b e na ll1 na1 nb h
  rw [l1] at F hnb
  obtain ⟨ll0, ie, _, _, hload, _, _⟩ := __sm_ll_dec_parts ll b e na ll1 na1 nb h
  have hW := wide_of_round S ll ll1 _ b _ W F
    (fun x h1 h2 => same_block ll.entries_per_block b _ x l3 h1 h2) ?_
    (load_ie_disk_saved S ll ll0 _ ie W.index hload)
  · rw [hnb]
    exact ⟨hW.1, by omega, l4, hw hna⟩
  · intro hS
    obtain ⟨_, R⟩ := (sm_ll_dec_block_spec S ll b e na W.index hS hbe he hna W.nalloc).2.2
      ll1 na1 nb h
    refine ⟨R.inv, fun x hx hr => by rw [R.cells x hx, if_neg hr], ?_⟩
    intro x v h1 h2 hc hv
    have hx : S (x / ll.entries_per_block) := by
      rw [same_block ll.entries_per_block b _ x l3 h1 h2]; exact hS
    rw [R.cells x hx, if_pos ⟨h1, h2⟩] at hc
    have hlt := cell_lt ll x
    have h3c : cell ll x = 3 := by
      by_contra hne
      unfold dec_cell at hc
      rw [if_neg hne] at hc
      omega
    obtain ⟨v0, hv0, hz, hg⟩ := R.vals_three x h1 h2 h3c
    have hb0 := W.big x v0 hx h3c hv0
    have hne3 : v0 ≠ 3 := by
      intro h3
      rw [hz h3] at hv
      exact absurd hv (by simp)
    rw [hg (by omega)] at hv
    have := Option.some.inj hv
    omega

/-- The function `sm_ll_insert` fails on a block whose bitmap value is 3 and
whose overflow entry is missing. -/
theorem sm_ll_insert_missing (S : Nat → Prop) (ll : ll_disk) (b ref_count : Nat)
    (hinv : index_inv ll S) (hS : S (b / ll.entries_per_block)) (h3 : cell ll b = 3)
    (hv : ll.ref_count_tree.vals b = none) :
    sm_ll_insert ll b ref_count = .error (-ENODATA) := by
  obtain ⟨ie, ll0, hview, hok, hload, hcore0, hview0, hcache0⟩ := block_setup S ll b hinv hS
  obtain ⟨s1, _⟩ := shadow_block_spec ll.tm ie.blocknr hok.1
  have hd1 : (dm_tm_shadow_block ll0.tm ie.blocknr).1.data
      (dm_tm_shadow_block ll0.tm ie.blocknr).2 = ll.tm.data ie.blocknr := by
    rw [hcore0.1]; exact s1
  have hc : sm_lookup_bitmap (ll.tm.data ie.blocknr) (b % ll.entries_per_block) = cell ll b :=
    (cell_of_view ll b ie hview).symm
  have hv0 : ll0.ref_count_tree.vals b = none := by
    rw [hcore0.2.2.2.2.2]; exact hv
  rw [sm_ll_insert_eq ll b ref_count ll0 ie hload, hd1, hc, h3, if_pos (by norm_num)]
  unfold sm_ll_lookup_big_ref_count dm_btree_lookup
  simp only [hv0]

theorem sm_ll_insert_load (ll ll' : ll_disk) (b ref_count : Nat) (na : Int)
    (h : sm_ll_insert ll b ref_count = .ok (ll', na)) :
    ∃ ll0 ie, load_ie ll (b / ll.entries_per_block) = .ok (ll0, ie) := by
  cases hload : load_ie ll (b / ll.entries_per_block) with
  | error r =>
    unfold sm_ll_insert at h
    simp only [hload] at h
    exact absurd h (by simp)
  | ok p => exact ⟨p.1, p.2, rfl⟩

/-- A successful `sm_ll_insert` of a 32-bit count keeps `wide_inv`, whatever
block it names. -/
theorem wide_insert (S : Nat → Prop) (ll ll' : ll_disk) (b ref_count : Nat) (na : Int)
    (W : wide_inv ll S) (hrc : ref_count < 2 ^ 32)
    (h : sm_ll_insert ll b ref_count = .ok (ll', na)) : wide_inv ll' S := by
  have F := sm_ll_insert_frame ll ll' b ref_count na h
  obtain ⟨ll0, ie, hload⟩ := sm_ll_insert_load ll ll' b ref_count na h
  refine (wide_of_round S ll ll' _ b 1 W F (fun x h1 h2 => by
    have : x = b := by omega
    rw [this]) ?_ (load_ie_disk_saved S ll ll0 _ ie W.index hload)).1
  intro hS
  have hk : cell ll b = 3 → ∃ v, ll.ref_count_tree.vals b = some v ∧ 3 ≤ v := by
    intro h3
    cases hv : ll.ref_count_tree.vals b with
    | none =>
      rw [sm_ll_insert_missing S ll b ref_count W.index hS h3 hv] at h
      exact absurd h (by simp)
    | some v => exact ⟨v, rfl, (W.big b v hS h3 hv).1⟩
  obtain ⟨ll'', na'', h', P⟩ := sm_ll_insert_spec S ll b ref_count W.index hS hk
  rw [h] at h'
  have e1 : ll' = ll'' := (Prod.mk.inj (Except.ok.inj h')).1
  subst e1
  refine ⟨P.inv, fun x hx hr => ?_, ?_⟩
  · rw [P.cells x hx, if_neg (by omega)]
  · intro x v h1 h2 hc hv
    have hxb : x = b := by omega
    subst hxb
    rw [P.cells x hS, if_pos rfl] at hc
    have h3 : ¬ ref_count ≤ 2 := by omega
    rw [P.vals, if_neg h3, Function.update_same] at hv
    have := Option.some.inj hv
    omega

theorem wide_inc_loop (S : Nat → Prop) (e : Nat) (he : e < 2 ^ 64) :
    ∀ (fuel : Nat) (ll : ll_disk) (b : Nat) (na : Int) (ll' : ll_disk) (na' : Int),
      wide_inv ll S → b ≤ e → wrap_s32 na = na →
      (∀ x, b ≤ x → x < e → S (x / ll.entries_per_block) → cell ll x = 3 →
        ∀ v, ll.ref_count_tree.vals x = some v → v < 2 ^ 32 - 1) →
      sm_ll_inc_loop fuel ll b e na = some (.ok (ll', na')) → wide_inv ll' S := by
  intro fuel
  induction fuel with
  | zero =>
    intro ll b na ll' na' W _ _ _ h
    unfold sm_ll_inc_loop at h
    split at h
    · rw [← (Prod.mk.inj (Except.ok.inj (Option.some.inj h))).1]
      exact W
    · exact absurd h (by simp)
  | succ fuel ih =>
    intro ll b na ll' na' W hbe hna hrc h
    unfold sm_ll_inc_loop at h
    split at h
    · rw [← (Prod.mk.inj (Except.ok.inj (Option.some.inj h))).1]
      exact W
    · rename_i hne
      split at h
      · exact absurd h (by simp)
      · rename_i ll1 na1 nb hround
        obtain ⟨W1, h1, h2, h3, h4, h5, h6⟩ := wide_inc_round S ll ll1 b e na na1 nb W
          (by omega) he hna hrc hround
        refine ih ll1 nb na1 ll' na' W1 h2 h3 ?_ h
        intro x hx1 hx2 hS hc v hv
        rw [h4] at hS
        rw [h5 x hS (by omega)] at hc
        rw [h6 x (by omega)] at hv
        exact hrc x (by omega) hx2 hS hc v hv

theorem wide_dec_loop (S : Nat → Prop) (e : Nat) (he : e < 2 ^ 64) :
    ∀ (fuel : Nat) (ll : ll_disk) (b : Nat) (na : Int) (ll' : ll_disk) (na' : Int),
      wide_inv ll S → b ≤ e → wrap_s32 na = na →
      sm_ll_dec_loop fuel ll b e na = some (.ok (ll', na')) → wide_inv ll' S := by
  intro fuel
  induction fuel with
  | zero =>
    intro ll b na ll' na' W _ _ h
    unfold sm_ll_dec_loop at h
    split at h
    · rw [← (Prod.mk.inj (Except.ok.inj (Option.some.inj h))).1]
      exact W
    · exact absurd h (by simp)
  | succ fuel ih =>
    intro ll b na ll' na' W hbe hna h
    unfold sm_ll_dec_loop at h
    split at h
    · rw [← (Prod.mk.inj (Except.ok.inj (Option.some.inj h))).1]
      exact W
    · rename_i hne
      split at h
      · exact absurd h (by simp)
      · rename_i ll1 na1 nb hround
        obtain ⟨W1, h1, h2, h3⟩ := wide_dec_round S ll ll1 b e na na1 nb W
          (by omega) he hna hround
        exact ih ll1 nb na1 ll' na' W1 h2 h3 h

/-- A successful `sm_ll_inc` keeps `wide_inv` when it reaches no block whose
reference count is `2 ^ 32 - 1`. -/
theorem wide_inc (S : Nat → Prop) (ll ll' : ll_disk) (b e : Nat) (na : Int)
    (W : wide_inv ll S) (he : e < 2 ^ 64)
    (hrc : ∀ x, b ≤ x → x < e → refcount ll x < 2 ^ 32 - 1)
    (h : sm_ll_inc ll b e = some (.ok (ll', na))) : wide_inv ll' S := by
  have hbe := (sm_ll_inc_frame ll ll' b e na he h).1
  refine wide_inc_loop S e he _ ll b 0 ll' na W hbe wrap_s32_zero ?_ h
  intro x h1 h2 _ hc v hv
  have := hrc x h1 h2
  unfold refcount at this
  rw [if_pos hc, hv] at this
  exact this

theorem wide_dec (S : Nat → Prop) (ll ll' : ll_disk) (b e : Nat) (na : Int)
    (W : wide_inv ll S) (he : e < 2 ^ 64)
    (h : sm_ll_dec ll b e = some (.ok (ll', na))) : wide_inv ll' S := by
  have hbe := (sm_ll_dec_frame ll ll' b e na he h).1
  exact wide_dec_loop S e he _ ll b 0 ll' na W hbe wrap_s32_zero h

theorem nr_indexes_zero (ll : ll_disk) (h0 : ll.nr_blocks = 0)
    (hepb : 0 < ll.entries_per_block) : nr_indexes ll = 0 := by
  unfold nr_indexes dm_sector_div_up
  rw [h0]
  exact Nat.div_eq_of_lt (by omega)

/-- A new metadata map satisfies `wide_inv` with no bitmap created. -/
theorem wide_new_metadata (tm : dm_transaction_manager) (ll : ll_disk)
    (h : sm_ll_new_metadata tm = .ok ll) (hepb : 0 < ll.entries_per_block) :
    wide_inv ll (fun _ => False) := by
  obtain ⟨n1, _, n3, n4, _⟩ := sm_ll_new_metadata_ok tm ll h hepb
  have hz := nr_indexes_zero ll n3 hepb
  refine ⟨n1, fun i hi => ?_, ?_, fun x v hS => absurd hS not_false, ?_,
    fun _ i _ => ⟨sm_ll_new_metadata_apart tm ll h i, fun j hj => absurd hj not_false⟩⟩
  · rw [hz] at hi; omega
  · rw [hz]; norm_num
  · rw [n4]; norm_num

/-- A new disk map satisfies `wide_inv` with no bitmap created. -/
theorem wide_new_disk (tm : dm_transaction_manager) (ll : ll_disk)
    (h : sm_ll_new_disk tm = .ok ll) (hepb : 0 < ll.entries_per_block) :
    wide_inv ll (fun _ => False) := by
  obtain ⟨n1, n2, n3, n4, _⟩ := sm_ll_new_disk_ok tm ll h hepb
  have hz := nr_indexes_zero ll n3 hepb
  refine ⟨n1, fun i hi => ?_, ?_, fun x v hS => absurd hS not_false, ?_,
    fun hm => absurd (n2.symm.trans hm) (by simp)⟩
  · rw [hz] at hi; omega
  · rw [hz]; norm_num
  · rw [n4]; norm_num

/-- A successful `sm_ll_extend` that leaves fewer than `2 ^ 32` bitmaps keeps
`wide_inv`, with the bitmaps it creates added to the set: also when the sum
`nr_blocks + extra_blocks` wraps. -/
theorem wide_extend (S : Nat → Prop) (ll ll' : ll_disk) (extra_blocks : Nat)
    (W : wide_inv ll S)
    (hfew : dm_sector_div_up ((ll.nr_blocks + extra_blocks) % 2 ^ 64) ll.entries_per_block
      < 2 ^ 32)
    (h : sm_ll_extend ll extra_blocks = .ok ll') :
    wide_inv ll' (fun j => S j ∨
      (dm_sector_div_up ll.nr_blocks ll.entries_per_block % 2 ^ 32 ≤ j ∧
        j < dm_sector_div_up ((ll.nr_blocks + extra_blocks) % 2 ^ 64) ll.entries_per_block
          % 2 ^ 32)) := by
  obtain ⟨A, B⟩ := sm_ll_extend_spec S ll extra_blocks W.index
  by_cases hmax : dm_sector_div_up ((ll.nr_blocks + extra_blocks) % 2 ^ 64)
      ll.entries_per_block ≤ max_entries ll
  swap
  · rw [B (by omega)] at h
    exact absurd h (by simp)
  obtain ⟨ll'', h'', P⟩ := A hmax
  rw [h] at h''
  have hll : ll'' = ll' := (Except.ok.inj h'').symm
  subst hll
  have hold : dm_sector_div_up ll.nr_blocks ll.entries_per_block % 2 ^ 32 = nr_indexes ll :=
    Nat.mod_eq_of_lt W.few
  have hnew : dm_sector_div_up ((ll.nr_blocks + extra_blocks) % 2 ^ 64) ll.entries_per_block
      % 2 ^ 32 = nr_indexes ll'' := by
    rw [Nat.mod_eq_of_lt hfew]
    unfold nr_indexes
    rw [P.nr_blocks, P.epb]
  have hfew' : nr_indexes ll'' < 2 ^ 32 := by
    unfold nr_indexes
    rw [P.nr_blocks, P.epb]
    exact hfew
  refine ⟨P.inv, ?_, hfew', ?_, by rw [P.nr_allocated]; exact W.nalloc, ?_⟩
  · intro i hi
    by_cases hlt : i < nr_indexes ll
    · exact Or.inl (W.covers i hlt)
    · exact Or.inr ⟨by rw [hold]; omega, by rw [hnew]; exact hi⟩
  · intro x v hS hc hv
    rw [P.epb] at hS
    rw [P.ref_count_tree] at hv
    by_cases hin : dm_sector_div_up ll.nr_blocks ll.entries_per_block % 2 ^ 32
          ≤ x / ll.entries_per_block ∧
        x / ll.entries_per_block <
          dm_sector_div_up ((ll.nr_blocks + extra_blocks) % 2 ^ 64) ll.entries_per_block
            % 2 ^ 32
    · rw [P.cells_new x hin.1 hin.2] at hc
      exact absurd hc (by decide)
    · have hS0 : S (x / ll.entries_per_block) := by
        rcases hS with hS | hS
        · exact hS
        · exact absurd hS hin
      rw [P.cells_old x hS0 hin] at hc
      exact W.big x v hS0 hc hv
  · intro hm i hi
    have hm0 : ll.flavor = .metadata := P.flavor.symm.trans hm
    have hloop : sm_ll_extend_loop
        (dm_sector_div_up ((ll.nr_blocks + extra_blocks) % 2 ^ 64) ll.entries_per_block
            % 2 ^ 32 - dm_sector_div_up ll.nr_blocks ll.entries_per_block % 2 ^ 32)
        { ll with nr_blocks := (ll.nr_blocks + extra_blocks) % 2 ^ 64 }
        (dm_sector_div_up ll.nr_blocks ll.entries_per_block % 2 ^ 32) = .ok ll'' := by
      unfold sm_ll_extend at h
      simp only [] at h
      rw [if_neg (by omega)] at h
      exact h
    obtain ⟨l2, hl, _, _, _, _, _, _, hnext, _, _, hview⟩ :=
      sm_ll_extend_loop_view
        (dm_sector_div_up ((ll.nr_blocks + extra_blocks) % 2 ^ 64) ll.entries_per_block
            % 2 ^ 32 - dm_sector_div_up ll.nr_blocks ll.entries_per_block % 2 ^ 32)
        { ll with nr_blocks := (ll.nr_blocks + extra_blocks) % 2 ^ 64 }
        (dm_sector_div_up ll.nr_blocks ll.entries_per_block % 2 ^ 32)
        (cache_ok_nr_blocks ll _ W.index.cache)
    rw [hloop] at hl
    have hl2 : l2 = ll'' := (Except.ok.inj hl).symm
    subst hl2
    have hnext' : l2.tm.next = ll.tm.next +
        (dm_sector_div_up ((ll.nr_blocks + extra_blocks) % 2 ^ 64) ll.entries_per_block
            % 2 ^ 32 - dm_sector_div_up ll.nr_blocks ll.entries_per_block % 2 ^ 32) := hnext
    have hmi : ∀ j, l2.mi_le j =
        if dm_sector_div_up ll.nr_blocks ll.entries_per_block % 2 ^ 32 ≤ j ∧
          j < dm_sector_div_up ll.nr_blocks ll.entries_per_block % 2 ^ 32 +
            (dm_sector_div_up ((ll.nr_blocks + extra_blocks) % 2 ^ 64) ll.entries_per_block
              % 2 ^ 32 - dm_sector_div_up ll.nr_blocks ll.entries_per_block % 2 ^ 32) then
          { blocknr := ll.tm.next +
              (j - dm_sector_div_up ll.nr_blocks ll.entries_per_block % 2 ^ 32),
            nr_free := ll.entries_per_block, none_free_before := 0 }
        else ll.mi_le j := by
      intro j
      have hv := hview j
      rw [ie_view_metadata l2 j hm,
        ie_view_metadata { ll with nr_blocks := (ll.nr_blocks + extra_blocks) % 2 ^ 64 } j hm0]
        at hv
      split at hv
      · rename_i hc
        rw [if_pos hc]
        exact Option.some.inj hv
      · rename_i hc
        rw [if_neg hc]
        exact Option.some.inj hv
    have hi1 : ¬ S i := fun hs => hi (Or.inl hs)
    have hi2 : ¬ (dm_sector_div_up ll.nr_blocks ll.entries_per_block % 2 ^ 32 ≤ i ∧
        i < dm_sector_div_up ll.nr_blocks ll.entries_per_block % 2 ^ 32 +
          (dm_sector_div_up ((ll.nr_blocks + extra_blocks) % 2 ^ 64) ll.entries_per_block
            % 2 ^ 32 - dm_sector_div_up ll.nr_blocks ll.entries_per_block % 2 ^ 32)) :=
      fun hc => hi (Or.inr ⟨hc.1, by omega⟩)
    have hlt := (W.apart hm0 i hi1).1
    rw [hmi i, if_neg hi2]
    refine ⟨by rw [hnext']; omega, ?_⟩
    intro j hj
    rw [hmi j]
    split
    · show ll.tm.next + _ ≠ _
      omega
    · rename_i hc
      have hj1 : S j := by
        rcases hj with hj | hj
        · exact hj
        · exact absurd ⟨hj.1, by omega⟩ hc
      exact (W.apart hm0 i hi1).2 j hj1

/-- Every state reached with few bitmaps and without a reference count taken
past `2 ^ 32 - 1` satisfies `wide_inv` for the set of the bitmaps created so
far, whatever blocks the calls name and also when an extension wraps the block
count. -/
theorem steps_wide (p q : Bool) (ll : ll_disk) (h : steps p q true true ll) :
    ∃ S, wide_inv ll S := by
  induction h with
  | new_metadata tm ll hnew hepb => exact ⟨_, wide_new_metadata tm ll hnew hepb⟩
  | new_disk tm ll hnew hepb => exact ⟨_, wide_new_disk tm ll hnew hepb⟩
  | extend ll extra_blocks ll' _ _ _ hfew hext ih =>
    obtain ⟨S, W⟩ := ih
    exact ⟨_, wide_extend S ll ll' extra_blocks W (hfew rfl) hext⟩
  | insert ll b ref_count ll' na _ _ hrc _ hins ih =>
    obtain ⟨S, W⟩ := ih
    exact ⟨S, wide_insert S ll ll' b ref_count na W hrc hins⟩
  | inc ll b e ll' na _ _ he _ hrc hinc ih =>
    obtain ⟨S, W⟩ := ih
    exact ⟨S, wide_inc S ll ll' b e na W he (hrc rfl) hinc⟩
  | dec ll b e ll' na _ _ he _ hdec ih =>
    obtain ⟨S, W⟩ := ih
    exact ⟨S, wide_dec S ll ll' b e na W he hdec⟩

theorem disk_many_eq : sm_ll_extend disk_new (2 ^ 32 * 16320) = .ok disk_many := by
  unfold disk_many
  rfl

theorem map_regrown_steps (p : Bool) : steps p false true true map_regrown :=
  steps.extend map_shrunk 50 map_regrown
    (steps.extend map_big_count (2 ^ 64 - 50) map_shrunk
      (reach_steps p false true true map_big_count _ (map_big_count_reach true true))
      (by decide) (fun h => absurd h (by decide)) (fun _ => by decide) map_shrunk_eq)
    (by decide) (fun h => absurd h (by decide)) (fun _ => by decide) map_regrown_eq

/-- Claim C7, amended: in every state reachable from a new map by successful
`sm_ll_extend`, `sm_ll_insert`, `sm_ll_inc` and `sm_ll_dec` calls, where no
extension takes the number of bitmap blocks to `2 ^ 32` and no `sm_ll_inc`
reaches a block whose reference count is `2 ^ 32 - 1`, every bitmap index `i`
below the number of bitmaps has a saved entry whose `nr_free` is the number of
zero entries of bitmap block `i`, whose `none_free_before` is at most
`entries_per_block`, and below whose `none_free_before` every entry is
non-zero. The calls may name any block, and `nr_blocks + extra_blocks` may
wrap. -/
theorem index_entry_invariant (ll : ll_disk) (h : steps false false true true ll)
    (i : Nat) (hi : i < nr_indexes ll) :
    ∃ l ie, load_ie ll i = .ok (l, ie) ∧
      ie.nr_free = count_free (dm_tm_read_lock ll.tm ie.blocknr) ll.entries_per_block ∧
      ie.none_free_before ≤ ll.entries_per_block ∧
      ∀ j, j < ie.none_free_before → sm_lookup_bitmap (dm_tm_read_lock ll.tm ie.blocknr) j ≠ 0 := by
  obtain ⟨S, W⟩ := steps_wide false false ll h
  obtain ⟨ie, hview, hok⟩ := W.index.saved i (W.covers i hi)
  obtain ⟨l, hload⟩ := load_ie_some ll i ie W.index.cache hview
  exact ⟨l, ie, hload, hok.2.2.1, hok.2.2.2.1, hok.2.2.2.2⟩

/-- Witness of C7: bitmap 1 of the map of 100 blocks after `insert(70, 7)`, an
extension by `2 ^ 64 - 50` blocks, which takes `nr_blocks` to 50, and an
extension by 50 blocks. -/
theorem index_entry_invariant_witness :
    1 < nr_indexes map_regrown ∧
    ∃ l ie, load_ie map_regrown 1 = .ok (l, ie) ∧
      ie.nr_free = count_free (dm_tm_read_lock map_regrown.tm ie.blocknr)
        map_regrown.entries_per_block ∧
      ie.none_free_before ≤ map_regrown.entries_per_block ∧
      ∀ j, j < ie.none_free_before →
        sm_lookup_bitmap (dm_tm_read_lock map_regrown.tm ie.blocknr) j ≠ 0 :=
  ⟨by decide, index_entry_invariant map_regrown (map_regrown_steps false) 1 (by decide)⟩

/-- Counterexample to C7 as stated: `insert(4, 2 ^ 32 - 1)`, `inc(4, 5)` and
`insert(4, 5)` on a map of 100 free blocks. All three calls succeed; the last
one reads the old count 0 for a block whose bitmap value is 3 and takes one
off `nr_free`. The saved entry of bitmap 0 then has `nr_free = 62`, and the
bitmap block has 63 zero entries. And on a new disk map with 16320 entries per
bitmap the extension by `2 ^ 32 * 16320` blocks succeeds and creates no
bitmap: bitmap index 0 is below the number of bitmaps and has no saved
entry. -/
theorem index_entry_invariant_counterexample :
    (∃ ref, reach false false map_reinserted ref) ∧
    steps true true true false map_reinserted ∧
    sm_ll_insert map_wrapped 4 5 = .ok (map_reinserted, 1) ∧
    load_ie map_reinserted 0 = .ok (map_reinserted, map_reinserted.mi_le 0) ∧
    (map_reinserted.mi_le 0).nr_free = 62 ∧
    count_free (dm_tm_read_lock map_reinserted.tm (map_reinserted.mi_le 0).blocknr)
      map_reinserted.entries_per_block = 63 ∧
    sm_ll_new_disk tm_4k = .ok disk_new ∧
    sm_ll_extend disk_new (2 ^ 32 * 16320) = .ok disk_many ∧
    steps true true false true disk_many ∧
    0 < nr_indexes disk_many ∧
    load_ie disk_many 0 = .error (-ENODATA) :=
  ⟨⟨_, reach.insert map_wrapped _ 4 5 map_reinserted 1 (map_wrapped_reach false) (by decide)
      (by decide) map_reinserted_eq⟩,
    steps.insert map_wrapped 4 5 map_reinserted 1 (map_wrapped_steps true true true)
      (by decide) (by decide) (fun _ => by decide) map_reinserted_eq,
    map_reinserted_eq, rfl, by decide, by decide,
    disk_new_eq, disk_many_eq,
    steps.extend disk_new (2 ^ 32 * 16320) disk_many
      (steps.new_disk tm_4k disk_new disk_new_eq (by decide))
      (by decide) (fun _ => by decide) (fun h => absurd h (by decide)) disk_many_eq,
    by decide, by rfl⟩

end SpaceMap
